import Mathlib

/-!
# The integer machine of `23/doit.cc`

A shallow embedding of `struct CPU` of `23/doit.cc` (memory with its growth
policy, `fetch`, `arg`, `store`, the queues, `execute` and `run`) and theorems
about it; the earlier machines of `07/doit.cc` and `09/doit.cc`, the feedback
pipeline `amplify` of `07/doit.cc` and `struct network` of `23/doit.cc` are
embedded after it.

Conventions of the embedding.

* `num` is the C++ `long`.  It is embedded as `Int`: signed overflow is
  undefined behaviour in C++, so the embedding describes the executions in which
  every arithmetic result is representable, where `long` arithmetic and `Int`
  arithmetic coincide.  A theorem that gives the value of a sum or of a product
  takes the hypothesis that this value is a `long` (`Long`).  C++ `/` and `%`
  truncate towards zero: they are `Int.tdiv` and `Int.tmod`.
* The program is compiled with assertions enabled (`g++ -std=c++17 -Wall -g`),
  so a failed `assert` aborts the process.  A function that can abort returns
  an `Option`; `none` is the abort.
* `vector<num> memory` is a `List Int`; `list<num>` queues are `List Int` with
  the front of the queue at the head of the list.  The embedding takes every
  `resize` of the vector to succeed.  In the program a `resize` beyond
  `max_size()`, or beyond the storage there is, throws; a theorem that says that
  the memory grows takes the hypothesis that the new size is one that the
  vector can be given (`CanGrow`).
* `run` loops without a bound; it is embedded with a fuel argument that counts
  calls of `execute`, and running out of fuel is a result of its own
  (`RunResult.unfinished`), different from returning and from aborting.
-/

namespace Day23

/-- The state of `struct CPU`: its seven data members, with their default
member initialisers. -/
structure CPU where
  /-- Storage, `vector<num> memory`. -/
  memory : List Int
  /-- Instruction pointer. -/
  ip : Int := 0
  /-- Relative base. -/
  rel_base : Int := 0
  /-- Was a halt instruction executed? -/
  halted : Bool := false
  /-- Do input instructions block? -/
  blocking : Bool := true
  /-- Things read by input instructions (front of the queue first). -/
  input_values : List Int := []
  /-- Things written by output instructions (front of the queue first). -/
  output_values : List Int := []
deriving DecidableEq, Repr

namespace CPU

/-- The resize inside `CPU::mem`: when `addr` is at or beyond the size, the
vector is resized to `max(addr + 100, 2 * size)` with new cells `0`.  The
argument is the address already known to be non-negative.  The resize is taken
to succeed: the embedding describes the program where the vector can be given
the size asked for (`CanGrow` further down); where it cannot, the `resize` of
the program throws and the process ends. -/
def grow (memory : List Int) (addr : Nat) : List Int :=
  if memory.length ≤ addr then
    memory ++ List.replicate (max (addr + 100) (2 * memory.length) - memory.length) 0
  else memory

/-- `CPU::mem(addr)` used as a value: `assert(addr >= 0)`, grow the memory when
needed (which is taken to succeed, see `grow`), and give the content of the
cell. -/
def mem (c : CPU) (addr : Int) : Option (Int × CPU) :=
  if addr < 0 then none
  else
    let m := grow c.memory addr.toNat
    some (m.getD addr.toNat 0, { c with memory := m })

/-- `CPU::mem(addr) = v`: the same `mem` call, used as the target of an
assignment. -/
def mem_assign (c : CPU) (addr : Int) (v : Int) : Option CPU :=
  if addr < 0 then none
  else some { c with memory := (grow c.memory addr.toNat).set addr.toNat v }

/-- `CPU::fetch`: `return mem(ip++)`. -/
def fetch (c : CPU) : Option (Int × CPU) :=
  mem { c with ip := c.ip + 1 } c.ip

/-- `CPU::arg(num &mode)`: the value of the next operand, together with the
machine afterwards and the updated `mode`. -/
def arg (c : CPU) (mode : Int) : Option (Int × CPU × Int) :=
  match c.fetch with
  | none => none
  | some (v, c1) =>
    let m := mode.tmod 10
    if m = 0 then
      match c1.mem v with
      | none => none
      | some (v2, c2) => some (v2, c2, mode.tdiv 10)
    else if m = 2 then
      match c1.mem (v + c1.rel_base) with
      | none => none
      | some (v2, c2) => some (v2, c2, mode.tdiv 10)
    else some (v, c1, mode.tdiv 10)

/-- `CPU::store(num mode, num v)`: `assert(mode == 0 || mode == 2)`, fetch the
address, add the relative base in mode 2, and assign. -/
def store (c : CPU) (mode : Int) (v : Int) : Option CPU :=
  if mode = 0 ∨ mode = 2 then
    match c.fetch with
    | none => none
    | some (addr, c1) =>
      c1.mem_assign (if mode = 2 then addr + c1.rel_base else addr) v
  else none

/-- `CPU::give_input`: `input_values.push_back(v)`. -/
def give_input (c : CPU) (v : Int) : CPU :=
  { c with input_values := c.input_values ++ [v] }

/-- `CPU::get_input`: `-1` in non-blocking mode with an empty queue, otherwise
`assert(!input_values.empty())` and pop the front. -/
def get_input (c : CPU) : Option (Int × CPU) :=
  if c.blocking = false ∧ c.input_values = [] then some (-1, c)
  else
    match c.input_values with
    | [] => none
    | v :: rest => some (v, { c with input_values := rest })

/-- `CPU::save_output`: `output_values.push_back(v)`. -/
def save_output (c : CPU) (v : Int) : CPU :=
  { c with output_values := c.output_values ++ [v] }

/-- The C++ conversion of a `bool` to `num`. -/
def ofBool (b : Bool) : Int := if b then 1 else 0

/-- `CPU::execute`: one instruction.  The Boolean is the returned value
(`true` if OK, `false` on halt or on a starved blocking input); `none` is a
failed assertion.  The sum `arg1 + arg2`, the product `arg1 * arg2` and the
sum `rel_base + v` are formed in `Int`: they are what the program computes
when they are values of `long` (`Long` further down), and otherwise the `long`
arithmetic of the program overflows, which is undefined in C++ and is not
described here. -/
def execute (c : CPU) : Option (Bool × CPU) :=
  match c.fetch with
  | none => none
  | some (op_and_modes, c0) =>
    let op := op_and_modes.tmod 100
    let mode := op_and_modes.tdiv 100
    if op = 1 then
      match c0.arg mode with
      | none => none
      | some (arg1, c1, mode1) =>
        match c1.arg mode1 with
        | none => none
        | some (arg2, c2, mode2) => (c2.store mode2 (arg1 + arg2)).map (fun c3 => (true, c3))
    else if op = 2 then
      match c0.arg mode with
      | none => none
      | some (arg1, c1, mode1) =>
        match c1.arg mode1 with
        | none => none
        | some (arg2, c2, mode2) => (c2.store mode2 (arg1 * arg2)).map (fun c3 => (true, c3))
    else if op = 3 then
      if c0.blocking = true ∧ c0.input_values = [] then
        some (false, { c0 with ip := c0.ip - 1 })
      else
        match c0.get_input with
        | none => none
        | some (v, c1) => (c1.store mode v).map (fun c2 => (true, c2))
    else if op = 4 then
      match c0.arg mode with
      | none => none
      | some (v, c1, _) => some (true, c1.save_output v)
    else if op = 5 then
      match c0.arg mode with
      | none => none
      | some (test, c1, mode1) =>
        match c1.arg mode1 with
        | none => none
        | some (dest, c2, _) =>
          some (true, if test ≠ 0 then { c2 with ip := dest } else c2)
    else if op = 6 then
      match c0.arg mode with
      | none => none
      | some (test, c1, mode1) =>
        match c1.arg mode1 with
        | none => none
        | some (dest, c2, _) =>
          some (true, if test = 0 then { c2 with ip := dest } else c2)
    else if op = 7 then
      match c0.arg mode with
      | none => none
      | some (arg1, c1, mode1) =>
        match c1.arg mode1 with
        | none => none
        | some (arg2, c2, mode2) =>
          (c2.store mode2 (ofBool (decide (arg1 < arg2)))).map (fun c3 => (true, c3))
    else if op = 8 then
      match c0.arg mode with
      | none => none
      | some (arg1, c1, mode1) =>
        match c1.arg mode1 with
        | none => none
        | some (arg2, c2, mode2) =>
          (c2.store mode2 (ofBool (decide (arg1 = arg2)))).map (fun c3 => (true, c3))
    else if op = 9 then
      match c0.arg mode with
      | none => none
      | some (v, c1, _) => some (true, { c1 with rel_base := c1.rel_base + v })
    else if op = 99 then
      some (false, { c0 with halted := true })
    else none

end CPU

/-- What a call of `CPU::run` comes to: it returns a value and leaves a
machine, or an assertion fails, or the fuel given to the embedding is used up
before either happens. -/
inductive RunResult where
  | returned (r : Bool) (c : CPU)
  | aborted
  | unfinished
deriving DecidableEq, Repr

namespace CPU

/-- `CPU::run`: `while (execute()) ; return halted;`.  The first argument
bounds the number of `execute` calls. -/
def run : Nat → CPU → RunResult
  | 0, _ => RunResult.unfinished
  | n + 1, c =>
    match c.execute with
    | none => RunResult.aborted
    | some (true, c1) => run n c1
    | some (false, c1) => RunResult.returned c1.halted c1

/-- The machine that the constructor builds from a program: the program is the
initial memory and every other member has its default initialiser. -/
def ofProgram (prog : List Int) : CPU := { memory := prog }

/-- Several `give_input` calls in a row. -/
def give_inputs (c : CPU) (vs : List Int) : CPU :=
  vs.foldl give_input c

/-- The instruction word at `ip`, when `ip` is inside the memory. -/
def current_word (c : CPU) : Option Int :=
  if c.ip < 0 then none else c.memory[c.ip.toNat]?

/-- The first three statements of `CPU::store`: the assertion on the mode, the
fetch of the operand word and the addition of the relative base in mode 2.
The result is the address that `store` assigns to, and the machine after the
fetch. -/
def store_target (c : CPU) (mode : Int) : Option (Int × CPU) :=
  if mode = 0 ∨ mode = 2 then
    match c.fetch with
    | none => none
    | some (addr, c1) => some (if mode = 2 then addr + c1.rel_base else addr, c1)
  else none

/-- The `i`-th decimal digit of `n`, counted from the least significant one
(digit 0), with the truncating division of C++. -/
def digit (n : Int) (i : Nat) : Int :=
  (n.tdiv (10 ^ i)).tmod 10

/-- The value of an operand word under a mode digit, as the specification
words it: position (digit 0) is the memory at the word, relative (digit 2) the
memory at word + relative base, and otherwise the word itself (immediate). -/
def resolve (c : CPU) (m : Int) (word : Int) : Option (Int × CPU) :=
  if m = 0 then c.mem word
  else if m = 2 then c.mem (word + c.rel_base)
  else some (word, c)

/-- Fetch the next operand word and resolve it under the mode digit `m`. -/
def operand (c : CPU) (m : Int) : Option (Int × CPU) :=
  match c.fetch with
  | none => none
  | some (word, c1) => c1.resolve m word

/-- `k` calls of `execute` in a row that all return `true`; `none` when one of
them returns `false` or aborts. -/
def steps : Nat → CPU → Option CPU
  | 0, c => some c
  | k + 1, c =>
    match c.execute with
    | some (true, c1) => steps k c1
    | _ => none

/-- The members that the memory functions (`mem`, `fetch`, `arg`, `store`)
neither read nor write agree in two machines, and so does the relative base
(which they read only). -/
def SameRegs (c c1 : CPU) : Prop :=
  c1.rel_base = c.rel_base ∧ c1.halted = c.halted ∧ c1.blocking = c.blocking ∧
    c1.input_values = c.input_values ∧ c1.output_values = c.output_values

/-- The memory `m1` is the memory `m` followed by zero cells: what growth
does to a memory. -/
def ZeroExt (m m1 : List Int) : Prop :=
  ∃ k, m1 = m ++ List.replicate k 0

/-- A change of the halted flag and of the input queue, the two members that
the memory functions (`mem`, `fetch`, `arg`, `store`) neither read nor
write. -/
def remap (fh : Bool → Bool) (fi : List Int → List Int) (c : CPU) : CPU :=
  { c with halted := fh c.halted, input_values := fi c.input_values }

/-- Append `b` at the back of the input queue. -/
def ext (c : CPU) (b : List Int) : CPU :=
  { c with input_values := c.input_values ++ b }

/-- Overwrite the halted flag. -/
def with_halted (c : CPU) (h : Bool) : CPU :=
  { c with halted := h }

/-- `CPU::last_output() const`: `assert(!output_values.empty())` and the back of
the queue.  The function is `const`: there is no machine afterwards to give. -/
def last_output (c : CPU) : Option Int :=
  c.output_values.getLast?

/-- `CPU::get_output`: `assert(!output_values.empty())`, then the front of the
queue, which is popped. -/
def get_output (c : CPU) : Option (Int × CPU) :=
  match c.output_values with
  | [] => none
  | out :: rest => some (out, { c with output_values := rest })

/-- `a.transmit(b)` for two different machines: `q.splice(q.end(),
output_values)` with `q` the input queue of `b`.  The pair is `a` and `b`
afterwards. -/
def transmit (a b : CPU) : CPU × CPU :=
  ({ a with output_values := [] }, { b with input_values := b.input_values ++ a.output_values })

/-- `n` calls of `get_output` in a row: the values returned, in the order of
the calls, and the machine afterwards. -/
def get_outputs : Nat → CPU → Option (List Int × CPU)
  | 0, c => some ([], c)
  | n + 1, c =>
    match c.get_output with
    | none => none
    | some (v, c1) =>
      match get_outputs n c1 with
      | none => none
      | some (vs, c2) => some (v :: vs, c2)

end CPU

end Day23

/-! # The machine of `07/doit.cc`

The earlier machine: `int` words, an `unsigned` instruction pointer, no
relative base, no non-blocking mode, and a memory that does not grow.  The
`unsigned` members and conversions are 32-bit and wrap: they are natural
numbers taken `% 4294967296`.  The `int` words are embedded as `Int`, under
the convention stated for `num` above. -/

namespace Day07

/-- The conversion of an `int` to `unsigned`. -/
def toUnsigned (v : Int) : Nat := (v % 4294967296).toNat

/-- The state of `struct CPU` of `07/doit.cc`. -/
structure CPU where
  /-- Storage, `vector<int> memory`. -/
  memory : List Int
  /-- Instruction pointer, `unsigned ip`. -/
  ip : Nat := 0
  /-- Was a halt instruction executed? -/
  halted : Bool := false
  /-- Things read by input instructions (front of the queue first). -/
  input_values : List Int := []
  /-- Things written by output instructions (front of the queue first). -/
  output_values : List Int := []
deriving DecidableEq, Repr

namespace CPU

/-- `CPU::mem(unsigned addr) const`: `assert(addr < memory.size())` and the
content of the cell. -/
def mem (c : CPU) (addr : Nat) : Option Int :=
  if addr < c.memory.length then some (c.memory.getD addr 0) else none

/-- `CPU::fetch`: `return mem(ip++)`, the increment wrapping at 32 bits. -/
def fetch (c : CPU) : Option (Int × CPU) :=
  match c.mem c.ip with
  | none => none
  | some v => some (v, { c with ip := (c.ip + 1) % 4294967296 })

/-- `CPU::arg(int &mode)`: position mode when the lowest digit of the mode is
0, immediate otherwise. -/
def arg (c : CPU) (mode : Int) : Option (Int × CPU × Int) :=
  match c.fetch with
  | none => none
  | some (v, c1) =>
    if mode.tmod 10 = 0 then
      match c1.mem (toUnsigned v) with
      | none => none
      | some v2 => some (v2, c1, mode.tdiv 10)
    else some (v, c1, mode.tdiv 10)

/-- `CPU::store(int v)`: `unsigned addr = fetch(); assert(addr < memory.size());
memory[addr] = v;`. -/
def store (c : CPU) (v : Int) : Option CPU :=
  match c.fetch with
  | none => none
  | some (a, c1) =>
    if toUnsigned a < c1.memory.length then
      some { c1 with memory := c1.memory.set (toUnsigned a) v }
    else none

/-- `CPU::give_input`. -/
def give_input (c : CPU) (v : Int) : CPU :=
  { c with input_values := c.input_values ++ [v] }

/-- `CPU::get_input`: `assert(!input_values.empty())` and pop the front. -/
def get_input (c : CPU) : Option (Int × CPU) :=
  match c.input_values with
  | [] => none
  | v :: rest => some (v, { c with input_values := rest })

/-- `CPU::save_output`. -/
def save_output (c : CPU) (v : Int) : CPU :=
  { c with output_values := c.output_values ++ [v] }

/-- `CPU::execute` of `07/doit.cc`.  Its `switch` has no `default`: a word with
another opcode is skipped and `true` is returned. -/
def execute (c : CPU) : Option (Bool × CPU) :=
  match c.fetch with
  | none => none
  | some (op_and_modes, c0) =>
    let op := op_and_modes.tmod 100
    let mode := op_and_modes.tdiv 100
    if op = 1 then
      match c0.arg mode with
      | none => none
      | some (arg1, c1, mode1) =>
        match c1.arg mode1 with
        | none => none
        | some (arg2, c2, _) => (c2.store (arg1 + arg2)).map (fun c3 => (true, c3))
    else if op = 2 then
      match c0.arg mode with
      | none => none
      | some (arg1, c1, mode1) =>
        match c1.arg mode1 with
        | none => none
        | some (arg2, c2, _) => (c2.store (arg1 * arg2)).map (fun c3 => (true, c3))
    else if op = 3 then
      if c0.input_values = [] then
        some (false, { c0 with ip := (c0.ip + 4294967295) % 4294967296 })
      else
        match c0.get_input with
        | none => none
        | some (v, c1) => (c1.store v).map (fun c2 => (true, c2))
    else if op = 4 then
      match c0.arg mode with
      | none => none
      | some (v, c1, _) => some (true, c1.save_output v)
    else if op = 5 then
      match c0.arg mode with
      | none => none
      | some (test, c1, mode1) =>
        match c1.arg mode1 with
        | none => none
        | some (dest, c2, _) =>
          some (true, if test ≠ 0 then { c2 with ip := toUnsigned dest } else c2)
    else if op = 6 then
      match c0.arg mode with
      | none => none
      | some (test, c1, mode1) =>
        match c1.arg mode1 with
        | none => none
        | some (dest, c2, _) =>
          some (true, if test = 0 then { c2 with ip := toUnsigned dest } else c2)
    else if op = 7 then
      match c0.arg mode with
      | none => none
      | some (arg1, c1, mode1) =>
        match c1.arg mode1 with
        | none => none
        | some (arg2, c2, _) =>
          (c2.store (if arg1 < arg2 then 1 else 0)).map (fun c3 => (true, c3))
    else if op = 8 then
      match c0.arg mode with
      | none => none
      | some (arg1, c1, mode1) =>
        match c1.arg mode1 with
        | none => none
        | some (arg2, c2, _) =>
          (c2.store (if arg1 = arg2 then 1 else 0)).map (fun c3 => (true, c3))
    else if op = 99 then
      some (false, { c0 with halted := true })
    else some (true, c0)

/-- `a.transmit(b)` of `07/doit.cc` for two different machines, the same
`splice` as in `23/doit.cc`. -/
def transmit (a b : CPU) : CPU × CPU :=
  ({ a with output_values := [] }, { b with input_values := b.input_values ++ a.output_values })

/-- `CPU::last_output() const` of `07/doit.cc`: `assert(!output_values.empty())`
and the back of the queue. -/
def last_output (c : CPU) : Option Int :=
  c.output_values.getLast?

end CPU

/-- What a computation of `07/doit.cc` that loops comes to: a result, a failed
assertion, undefined behaviour (an empty vector is indexed), or the fuel
given to the embedding is used up. -/
inductive Outcome (α : Type) where
  | ok (a : α)
  | aborted
  | undefined
  | unfinished
deriving DecidableEq, Repr

namespace CPU

/-- `CPU::run` of `07/doit.cc`: `while (execute()) ; return halted;`.  The
first argument bounds the number of `execute` calls; the result is the value
returned and the machine afterwards. -/
def run : Nat → CPU → Outcome (Bool × CPU)
  | 0, _ => Outcome.unfinished
  | n + 1, c =>
    match c.execute with
    | none => Outcome.aborted
    | some (true, c1) => run n c1
    | some (false, c1) => Outcome.ok (c1.halted, c1)

end CPU

/-- `stages[i].transmit(stages[j])` inside the vector `stages`.  For `i = j`
the `splice` moves the output queue of the machine to the end of its own
input queue. -/
def transmit_at (stages : List CPU) (i j : Nat) : List CPU :=
  match stages[i]?, stages[j]? with
  | some a, some b =>
    if i = j then
      stages.set i { a with input_values := a.input_values ++ a.output_values,
                            output_values := [] }
    else (stages.set i (a.transmit b).1).set j (a.transmit b).2
  | _, _ => stages

/-- The body of the `for` loop of `amplify` at index `i`: run stage `i`, then
transmit to the next stage, or (last stage, not done) to stage 0, or (last
stage, done) set `last_halted`.  The Boolean is `last_halted` afterwards. -/
def stage_step (fuel : Nat) (stages : List CPU) (last_halted : Bool) (i : Nat) :
    Outcome (List CPU × Bool) :=
  match stages[i]? with
  | none => Outcome.undefined
  | some c =>
    match c.run fuel with
    | Outcome.ok (done, c1) =>
      let st := stages.set i c1
      if i + 1 < st.length then Outcome.ok (transmit_at st i (i + 1), last_halted)
      else if done = false then Outcome.ok (transmit_at st i 0, last_halted)
      else Outcome.ok (st, true)
    | Outcome.aborted => Outcome.aborted
    | Outcome.undefined => Outcome.undefined
    | Outcome.unfinished => Outcome.unfinished

/-- The `for` loop of `amplify` over the indices given (in `amplify`: `0`, ...,
`stages.size() - 1`). -/
def stages_loop (fuel : Nat) : List Nat → List CPU → Bool → Outcome (List CPU × Bool)
  | [], stages, last_halted => Outcome.ok (stages, last_halted)
  | i :: rest, stages, last_halted =>
    match stage_step fuel stages last_halted i with
    | Outcome.ok (st, lh) => stages_loop fuel rest st lh
    | Outcome.aborted => Outcome.aborted
    | Outcome.undefined => Outcome.undefined
    | Outcome.unfinished => Outcome.unfinished

/-- The `while (!last_halted)` loop of `amplify` and its `return
stages.back().last_output()`.  The first argument bounds the `execute` calls of
each `run`, the second the number of rounds.  The result is the value returned
and the stages at that moment. -/
def amplify_loop (fuel : Nat) : Nat → List CPU → Outcome (Int × List CPU)
  | 0, _ => Outcome.unfinished
  | k + 1, stages =>
    match stages_loop fuel (List.range stages.length) stages false with
    | Outcome.ok (st, true) =>
      match st.getLast? with
      | none => Outcome.undefined
      | some c =>
        match c.last_output with
        | none => Outcome.aborted
        | some v => Outcome.ok (v, st)
    | Outcome.ok (st, false) => amplify_loop fuel k st
    | Outcome.aborted => Outcome.aborted
    | Outcome.undefined => Outcome.undefined
    | Outcome.unfinished => Outcome.unfinished

/-- The stages that `amplify` builds: one copy of `cpu` per phase, given the
phase as input, and the first one given 0 after that.  With no phase,
`stages.front()` is undefined (`none`). -/
def initial_stages (cpu : CPU) (phases : List Int) : Option (List CPU) :=
  match phases.map (fun phase => cpu.give_input phase) with
  | [] => none
  | first :: rest => some (first.give_input 0 :: rest)

/-- `amplify(cpu, phases)`; `fuel` bounds the `execute` calls of each `run` and
the number of rounds of the `while` loop. -/
def amplify (fuel : Nat) (cpu : CPU) (phases : List Int) : Outcome (Int × List CPU) :=
  match initial_stages cpu phases with
  | none => Outcome.undefined
  | some stages => amplify_loop fuel fuel stages

/-- The value returned and the halted flags of the stages, of a result of
`amplify`. -/
def halted_flags (r : Outcome (Int × List CPU)) : Option (Int × List Bool) :=
  match r with
  | Outcome.ok (v, st) => some (v, st.map (fun c => c.halted))
  | _ => none

end Day07

/-! # The machine of `09/doit.cc`, `11/doit.cc` and `15/doit.cc`

The first machine with `long` words, a relative base and a growing memory.
Its `mem` tests `size_t(addr) > memory.size()` where `23/doit.cc` tests `>=`:
at an address equal to the size the vector is not resized and `memory[addr]`
indexes it out of bounds, which C++ leaves undefined.  A function of this
machine therefore has three kinds of result (`Res`): a value, an abort (failed
`assert`), or undefined behaviour, to which the embedding gives no value.

`struct CPU` and the member functions `mem`, `fetch`, `arg`, `store`,
`get_input`, `save_output` and `execute` have the same text in `09/doit.cc`
and `11/doit.cc`.  In `15/doit.cc`, `mem` has that text too. -/

namespace Day09

/-- The result of a function that can abort or run into undefined
behaviour. -/
inductive Res (α : Type) where
  | ok (a : α)
  | abort
  | undefined
deriving DecidableEq, Repr

/-- Sequencing: an abort or undefined behaviour ends the computation. -/
def Res.bind {α β : Type} (x : Res α) (f : α → Res β) : Res β :=
  match x with
  | Res.ok a => f a
  | Res.abort => Res.abort
  | Res.undefined => Res.undefined

/-- The state of `struct CPU` of `09/doit.cc`. -/
structure CPU where
  /-- Storage, `vector<num> memory`. -/
  memory : List Int
  /-- Instruction pointer. -/
  ip : Int := 0
  /-- Relative base. -/
  rel_base : Int := 0
  /-- Was a halt instruction executed? -/
  halted : Bool := false
  /-- Things read by input instructions (front of the queue first). -/
  input_values : List Int := []
  /-- Things written by output instructions (front of the queue first). -/
  output_values : List Int := []
deriving DecidableEq, Repr

namespace CPU

/-- The resize inside `CPU::mem` of `09/doit.cc`: only when `addr` is strictly
beyond the size. -/
def grow (memory : List Int) (addr : Nat) : List Int :=
  if memory.length < addr then
    memory ++ List.replicate (max (addr + 100) (2 * memory.length) - memory.length) 0
  else memory

/-- `CPU::mem(addr)` used as a value: `assert(addr >= 0)`, the resize, and
`memory[addr]`, which is undefined when `addr` is not below the size. -/
def mem (c : CPU) (addr : Int) : Res (Int × CPU) :=
  if addr < 0 then Res.abort
  else
    let m := grow c.memory addr.toNat
    if addr.toNat < m.length then Res.ok (m.getD addr.toNat 0, { c with memory := m })
    else Res.undefined

/-- `CPU::mem(addr) = v`: the same `mem` call, used as the target of an
assignment. -/
def mem_assign (c : CPU) (addr : Int) (v : Int) : Res CPU :=
  if addr < 0 then Res.abort
  else
    let m := grow c.memory addr.toNat
    if addr.toNat < m.length then Res.ok { c with memory := m.set addr.toNat v }
    else Res.undefined

/-- `CPU::fetch`: `return mem(ip++)`. -/
def fetch (c : CPU) : Res (Int × CPU) :=
  mem { c with ip := c.ip + 1 } c.ip

/-- `CPU::arg(num &mode)`. -/
def arg (c : CPU) (mode : Int) : Res (Int × CPU × Int) :=
  c.fetch.bind fun p =>
    let m := mode.tmod 10
    if m = 0 then
      (p.2.mem p.1).bind fun q => Res.ok (q.1, q.2, mode.tdiv 10)
    else if m = 2 then
      (p.2.mem (p.1 + p.2.rel_base)).bind fun q => Res.ok (q.1, q.2, mode.tdiv 10)
    else Res.ok (p.1, p.2, mode.tdiv 10)

/-- `CPU::store(num mode, num v)`. -/
def store (c : CPU) (mode : Int) (v : Int) : Res CPU :=
  if mode = 0 ∨ mode = 2 then
    c.fetch.bind fun p =>
      p.2.mem_assign (if mode = 2 then p.1 + p.2.rel_base else p.1) v
  else Res.abort

/-- `CPU::get_input`: `assert(!input_values.empty())` and pop the front. -/
def get_input (c : CPU) : Res (Int × CPU) :=
  match c.input_values with
  | [] => Res.abort
  | v :: rest => Res.ok (v, { c with input_values := rest })

/-- `CPU::save_output`. -/
def save_output (c : CPU) (v : Int) : CPU :=
  { c with output_values := c.output_values ++ [v] }

/-- The two `arg` calls that open the instructions with two value operands,
followed by what the instruction does with the values. -/
def args2 {β : Type} (c : CPU) (mode : Int) (f : Int → Int → CPU → Int → Res β) : Res β :=
  (c.arg mode).bind fun p => (p.2.1.arg p.2.2).bind fun q => f p.1 q.1 q.2.1 q.2.2

/-- `CPU::execute` of `09/doit.cc` (and of `11/doit.cc`).  Its `switch` has no
`default`: after a word with another opcode control leaves the `switch` and
`true` is returned. -/
def execute (c : CPU) : Res (Bool × CPU) :=
  c.fetch.bind fun p =>
    let c0 := p.2
    let op := p.1.tmod 100
    let mode := p.1.tdiv 100
    if op = 1 then
      c0.args2 mode fun arg1 arg2 c2 mode2 =>
        (c2.store mode2 (arg1 + arg2)).bind fun c3 => Res.ok (true, c3)
    else if op = 2 then
      c0.args2 mode fun arg1 arg2 c2 mode2 =>
        (c2.store mode2 (arg1 * arg2)).bind fun c3 => Res.ok (true, c3)
    else if op = 3 then
      if c0.input_values = [] then
        Res.ok (false, { c0 with ip := c0.ip - 1 })
      else
        c0.get_input.bind fun q => (q.2.store mode q.1).bind fun c2 => Res.ok (true, c2)
    else if op = 4 then
      (c0.arg mode).bind fun q => Res.ok (true, q.2.1.save_output q.1)
    else if op = 5 then
      c0.args2 mode fun test dest c2 _ =>
        Res.ok (true, if test ≠ 0 then { c2 with ip := dest } else c2)
    else if op = 6 then
      c0.args2 mode fun test dest c2 _ =>
        Res.ok (true, if test = 0 then { c2 with ip := dest } else c2)
    else if op = 7 then
      c0.args2 mode fun arg1 arg2 c2 mode2 =>
        (c2.store mode2 (if arg1 < arg2 then 1 else 0)).bind fun c3 => Res.ok (true, c3)
    else if op = 8 then
      c0.args2 mode fun arg1 arg2 c2 mode2 =>
        (c2.store mode2 (if arg1 = arg2 then 1 else 0)).bind fun c3 => Res.ok (true, c3)
    else if op = 9 then
      (c0.arg mode).bind fun q => Res.ok (true, { q.2.1 with rel_base := q.2.1.rel_base + q.1 })
    else if op = 99 then
      Res.ok (false, { c0 with halted := true })
    else Res.ok (true, c0)

end CPU

end Day09

namespace Day11

/-- `CPU::mem` of `11/doit.cc`: the text of `09/doit.cc`. -/
def mem (c : Day09.CPU) (addr : Int) : Day09.Res (Int × Day09.CPU) := c.mem addr

/-- `CPU::execute` of `11/doit.cc`: the text of `09/doit.cc`. -/
def execute (c : Day09.CPU) : Day09.Res (Bool × Day09.CPU) := c.execute

end Day11

namespace Day15

/-- `CPU::mem` of `15/doit.cc`: the text of `09/doit.cc`, with the same
members of `struct CPU` behind it. -/
def mem (c : Day09.CPU) (addr : Int) : Day09.Res (Int × Day09.CPU) := c.mem addr

end Day15

/-! # The network of `23/doit.cc`

`struct network`: fifty machines, the packet that the NAT received last, the
last `y` that the NAT sent, and the instruction-pointer vectors seen while
idling.  `network::run` is an endless loop of sweeps; a sweep gives every
machine a turn (one `execute`, then the complete packets of its output queue
are routed), and after the sweep the idle test is made.  The embedding bounds
the number of sweeps by a fuel argument.  `set<vector<int>> idling_ips` is a
list without order; the `int` entries of the vectors are the `long`
instruction pointers converted to 32 bits. -/

namespace Day23

namespace CPU

/-- `CPU::has_input`: `!input_values.empty()`. -/
def has_input (c : CPU) : Bool := !c.input_values.isEmpty

/-- `CPU::has_output`: `output_values.size()`. -/
def has_output (c : CPU) : Nat := c.output_values.length

end CPU

/-- The conversion of a `long` to `int` in `ips.push_back(cpu.ip)`. -/
def toInt32 (v : Int) : Int := (v + 2147483648) % 4294967296 - 2147483648

/-- The data members of `struct network`. -/
structure network where
  /-- All the CPUs. -/
  cpus : List CPU
  /-- The packet the NAT received last, if any. -/
  nat_x : Option Int := none
  nat_y : Option Int := none
  /-- The last y that the NAT sent when the network was found to be idle. -/
  last_nat_y : Option Int := none
  /-- CPU instruction pointers, for detecting idling. -/
  idling_ips : List (List Int) := []
deriving DecidableEq, Repr

/-- What a part of `network::run` comes to: the loop goes on (`next`), `run`
returns a value (with the network as it is then), an assertion fails, the
vector of machines is indexed out of bounds (undefined behaviour), or the fuel
of the embedding is used up. -/
inductive Outcome (α : Type) where
  | next (a : α)
  | returned (y : Int) (n : network)
  | aborted
  | undefined
  | unfinished
deriving DecidableEq, Repr

namespace network

/-- `network::network()` for the machine `cpu` read from the input: fifty
copies in non-blocking mode, each given its address as first input. -/
def init (cpu : CPU) : network :=
  { cpus := (List.range 50).map
      (fun addr => ({ cpu with blocking := false } : CPU).give_input (addr : Int)) }

/-- The `else` branch of the packet routing: `assert(addr < num(cpus.size()))`,
then `cpus[addr].give_input(x)` and `cpus[addr].give_input(y)`.  A negative
`addr` passes the assertion and indexes the vector out of bounds. -/
def deliver (n : network) (addr x y : Int) : Outcome network :=
  if addr < (n.cpus.length : Int) then
    if addr < 0 then Outcome.undefined
    else
      match n.cpus[addr.toNat]? with
      | none => Outcome.undefined
      | some c =>
        Outcome.next { n with cpus := n.cpus.set addr.toNat ((c.give_input x).give_input y) }
  else Outcome.aborted

/-- The loop `while (cpu.has_output() >= 3)` for the machine with index `i`.
The first argument bounds the number of tests of the loop condition. -/
def drain (first_nat : Bool) : Nat → network → Nat → Outcome network
  | 0, _, _ => Outcome.unfinished
  | fuel + 1, n, i =>
    match n.cpus[i]? with
    | none => Outcome.undefined
    | some cpu =>
      if 3 ≤ cpu.has_output then
        match cpu.get_output with
        | none => Outcome.aborted
        | some (addr, c1) =>
          match c1.get_output with
          | none => Outcome.aborted
          | some (x, c2) =>
            match c2.get_output with
            | none => Outcome.aborted
            | some (y, c3) =>
              let n1 : network := { n with cpus := n.cpus.set i c3 }
              if addr = 255 then
                if first_nat = true then Outcome.returned y n1
                else drain first_nat fuel { n1 with nat_x := some x, nat_y := some y } i
              else
                match n1.deliver addr x y with
                | Outcome.next n2 => drain first_nat fuel n2 i
                | Outcome.returned v m => Outcome.returned v m
                | Outcome.aborted => Outcome.aborted
                | Outcome.undefined => Outcome.undefined
                | Outcome.unfinished => Outcome.unfinished
      else Outcome.next n

/-- The body of `for (auto &cpu : cpus)` for the machine with index `i`:
`cpu.execute()` (the value returned is not used), `ips.push_back(cpu.ip)`, and
the packet loop.  The result is the network afterwards and the value pushed. -/
def turn (first_nat : Bool) (n : network) (i : Nat) : Outcome (network × Int) :=
  match n.cpus[i]? with
  | none => Outcome.undefined
  | some cpu =>
    match cpu.execute with
    | none => Outcome.aborted
    | some (_, c1) =>
      match drain first_nat (c1.has_output + 1) { n with cpus := n.cpus.set i c1 } i with
      | Outcome.next n2 => Outcome.next (n2, toInt32 c1.ip)
      | Outcome.returned v m => Outcome.returned v m
      | Outcome.aborted => Outcome.aborted
      | Outcome.undefined => Outcome.undefined
      | Outcome.unfinished => Outcome.unfinished

/-- The loop `for (auto &cpu : cpus)` over the indices given (in `run`: `0`,
..., `cpus.size() - 1`), with the vector `ips` built so far. -/
def turns (first_nat : Bool) : List Nat → network → List Int → Outcome (network × List Int)
  | [], n, ips => Outcome.next (n, ips)
  | i :: rest, n, ips =>
    match turn first_nat n i with
    | Outcome.next (n1, ip) => turns first_nat rest n1 (ips ++ [ip])
    | Outcome.returned v m => Outcome.returned v m
    | Outcome.aborted => Outcome.aborted
    | Outcome.undefined => Outcome.undefined
    | Outcome.unfinished => Outcome.unfinished

/-- One sweep: `vector<int> ips;` and the loop over all machines. -/
def sweep (first_nat : Bool) (n : network) : Outcome (network × List Int) :=
  turns first_nat (List.range n.cpus.length) n []

/-- Does some machine have input or output pending (`cpu.has_input() ||
cpu.has_output()`)? -/
def pending (n : network) : Bool :=
  n.cpus.any (fun cpu => cpu.has_input || cpu.has_output != 0)

/-- The idle history after the loop that clears it when something is
pending. -/
def history (n : network) : List (List Int) :=
  if n.pending = true then [] else n.idling_ips

/-- The end of an iteration of `while (true)`: the idle history is cleared when
some machine has input or output pending; when `ips` is in the history the
network is idle: with a packet stored at the NAT, `run` returns its `y` if it
is the `y` sent last, and otherwise the packet is sent to machine 0; the
history is cleared.  When `ips` is not in the history it is inserted. -/
def idle_check (n : network) (ips : List Int) : Outcome network :=
  if ips ∈ n.history then
    match n.nat_x, n.nat_y with
    | some x, some y =>
      if n.last_nat_y = some y then Outcome.returned y { n with idling_ips := n.history }
      else
        match n.cpus with
        | [] => Outcome.undefined
        | c0 :: rest =>
          Outcome.next { n with cpus := (c0.give_input x).give_input y :: rest,
                                last_nat_y := some y, nat_x := none, nat_y := none,
                                idling_ips := [] }
    | _, _ => Outcome.next { n with idling_ips := [] }
  else Outcome.next { n with idling_ips := ips :: n.history }

/-- One iteration of `while (true)`: a sweep and the idle test. -/
def iteration (first_nat : Bool) (n : network) : Outcome network :=
  match sweep first_nat n with
  | Outcome.next (n1, ips) => idle_check n1 ips
  | Outcome.returned v m => Outcome.returned v m
  | Outcome.aborted => Outcome.aborted
  | Outcome.undefined => Outcome.undefined
  | Outcome.unfinished => Outcome.unfinished

/-- `network::run(first_nat)`; the first argument bounds the number of
iterations of `while (true)`.  The loop has no exit but `return`, so the result
is never `next`. -/
def run (first_nat : Bool) : Nat → network → Outcome Unit
  | 0, _ => Outcome.unfinished
  | k + 1, n =>
    match iteration first_nat n with
    | Outcome.next n1 => run first_nat k n1
    | Outcome.returned v m => Outcome.returned v m
    | Outcome.aborted => Outcome.aborted
    | Outcome.undefined => Outcome.undefined
    | Outcome.unfinished => Outcome.unfinished

/-- The network after `k` complete iterations of `while (true)`. -/
def sweeps (first_nat : Bool) : Nat → network → Outcome network
  | 0, n => Outcome.next n
  | k + 1, n =>
    match sweeps first_nat k n with
    | Outcome.next n1 => iteration first_nat n1
    | Outcome.returned v m => Outcome.returned v m
    | Outcome.aborted => Outcome.aborted
    | Outcome.undefined => Outcome.undefined
    | Outcome.unfinished => Outcome.unfinished

/-- The instruction pointers of the machines as `int` values: what a sweep
would push if no machine moved. -/
def cur_ips (n : network) : List Int :=
  n.cpus.map (fun cpu => toInt32 cpu.ip)

/-- The machine `d` is the machine `c` with values appended to its input
queue: what the turn of another machine can do to a machine. -/
def Fed (c d : CPU) : Prop :=
  ∃ l, d = c.ext l

/-- The values of a list of packets `(dest, x, y)` in the order in which an
output queue holds them. -/
def flat : List (Int × Int × Int) → List Int
  | [] => []
  | (d, x, y) :: rest => d :: x :: y :: flat rest

/-- The machine `d` is the machine `c` with values appended to its input queue
and a number of complete packets removed from the front of its output queue:
what the packet loop of its own turn can do to a machine. -/
def Routed (c d : CPU) : Prop :=
  ∃ l ps rest, c.output_values = flat ps ++ rest ∧
    d = { c with input_values := c.input_values ++ l, output_values := rest }

/-- The machines `cs2` are the machines `cs` after packets of machine `i` have
been routed: machine `i` has lost packets and the input queues have grown. -/
def RoutedAt (i : Nat) (cs cs2 : List CPU) : Prop :=
  cs2.length = cs.length ∧
    ∀ j c, cs[j]? = some c → ∃ e, cs2[j]? = some e ∧ (if j = i then Routed c e else Fed c e)

/-- The machine `e` is the machine `c` after its turn in a sweep: values may
have been appended to its input queue first, then it has executed one
instruction, `ip` is the instruction pointer pushed to `ips`, and its packets
have been routed, which leaves fewer than three values in its output queue. -/
def Turned (ip : Int) (c e : CPU) : Prop :=
  ∃ c0 r c1, Fed c c0 ∧ c0.execute = some (r, c1) ∧ Routed c1 e ∧
    e.output_values.length < 3 ∧ ip = toInt32 c1.ip

/-- The state of a network between two iterations of `while (true)`: no output
queue holds a complete packet, and when some machine has input or output
pending the idle history holds at most the present instruction pointers. -/
def Settled (n : network) : Prop :=
  (∀ (j : Nat) (c : CPU), n.cpus[j]? = some c → c.output_values.length < 3) ∧
    (n.pending = true → ∀ v ∈ n.idling_ips, v = n.cur_ips)

/-- The result of a run that has returned: the value and the final network. -/
def returned_state (r : Outcome Unit) : Option (Int × network) :=
  match r with
  | Outcome.returned v m => some (v, m)
  | _ => none

end network

end Day23

/-! # Notions for the comparison of instructions and of machines -/

namespace Day23

namespace CPU

/-- The address that the instruction at `ip` assigns to: for the opcodes 1, 2,
7 and 8 the address that `store` computes after the two value operands, for
opcode 3 the address that `store` computes right after the instruction word;
`none` for the other opcodes and when an assertion fails on the way. -/
def write_target (c : CPU) : Option Int :=
  match c.fetch with
  | none => none
  | some (w, c0) =>
    let op := w.tmod 100
    if op = 1 ∨ op = 2 ∨ op = 7 ∨ op = 8 then
      match c0.arg (w.tdiv 100) with
      | none => none
      | some (_, c1, mode1) =>
        match c1.arg mode1 with
        | none => none
        | some (_, c2, mode2) => (c2.store_target mode2).map (fun p => p.1)
    else if op = 3 then (c0.store_target (w.tdiv 100)).map (fun p => p.1)
    else none

end CPU

end Day23

namespace Day07

namespace CPU

/-- The machine of `23/doit.cc` that has the state of a machine of
`07/doit.cc`: the same memory, instruction pointer, halted flag and queues, in
blocking mode, with the relative base given. -/
def toDay23 (c : CPU) (rel_base : Int) : Day23.CPU :=
  { memory := c.memory, ip := (c.ip : Int), rel_base := rel_base, halted := c.halted,
    blocking := true, input_values := c.input_values, output_values := c.output_values }

/-- Every word of the memory is an `int`. -/
def Words32 (c : CPU) : Prop :=
  ∀ v ∈ c.memory, -2147483648 ≤ v ∧ v < 2147483648

end CPU

end Day07

/-! # The shuffles of `22/doit.cc`

A shuffle in standard form: deal with an increment, then cut, then an optional
reverse.  A deck size is any `long`, and sums of two numbers below the deck
size leave the range of `long` for deck sizes above `2 ^ 62`.  So here the
values of type `long` are the integers of `-2 ^ 63`, ..., `2 ^ 63 - 1`, and
every addition, subtraction and negation of `long` values is followed by
`toLong`, the reduction to 64 bits in two's complement, which is what the
compiled program computes (in C++ the overflow is undefined).  No product is
formed outside `x_mod`, which works in 128 bits and converts its result to
`long`.  The `%` of C++ truncates: it is `Int.tmod`.  A division by zero is
undefined in C++; the theorems take a deck size above 0. -/

namespace Day22

/-- The reduction of an integer to the range of the C++ type `long`: 64 bits,
two's complement. -/
def toLong (v : Int) : Int :=
  (v + 9223372036854775808) % 18446744073709551616 - 9223372036854775808

/-- `x_mod(a, b, m)`: `long(__int128_t(a) * __int128_t(b) % __int128_t(m))`. -/
def x_mod (a b m : Int) : Int := toLong ((a * b).tmod m)

/-- The data members of `struct shuffl`, with their default initialisers. -/
structure shuffl where
  /-- Size of the deck. -/
  sz : Int
  /-- First the piles to deal into. -/
  deal : Int := 1
  /-- Then the amount to cut (rotate by). -/
  cut : Int := 0
  /-- Finally an optional reverse. -/
  rev : Bool := false
deriving DecidableEq, Repr

/-- What a function of `22/doit.cc` with a loop and an assertion comes to: a
result, a failed assertion, or the fuel of the embedding is used up. -/
inductive Res (α : Type) where
  | ok (a : α)
  | aborted
  | unfinished
deriving DecidableEq, Repr

/-- The loop `while (new_cut < 0) new_cut += sz;`.  The first argument after
`sz` bounds the number of tests of the loop condition. -/
def raise_cut (sz : Int) : Nat → Int → Option Int
  | 0, _ => none
  | fuel + 1, new_cut =>
    if new_cut < 0 then raise_cut sz fuel (toLong (new_cut + sz)) else some new_cut

/-- The loop of `mult_inv`: `while (pm2 > 0) { if (pm2 & 1) result =
x_mod(result, aa, p); aa = x_mod(aa, aa, p); pm2 >>= 1; }`.  In the loop `pm2`
is positive, so `pm2 & 1` is `pm2 % 2` and `pm2 >> 1` is `pm2 / 2`.  The first
argument after `p` bounds the number of tests of the loop condition. -/
def mult_inv_loop (p : Int) : Nat → Int → Int → Int → Option Int
  | 0, _, _, _ => none
  | fuel + 1, pm2, result, aa =>
    if pm2 > 0 then
      mult_inv_loop p fuel (pm2.tdiv 2) (if pm2.tmod 2 = 1 then x_mod result aa p else result)
        (x_mod aa aa p)
    else some result

/-- `mult_inv(a, p)`: `a ^ (p - 2)` modulo `p` by repeated squaring, and
`assert(x_mod(a, result, p) == 1)`. -/
def mult_inv (fuel : Nat) (a p : Int) : Res Int :=
  match mult_inv_loop p fuel (toLong (p - 2)) 1 a with
  | none => Res.unfinished
  | some result => if x_mod a result p = 1 then Res.ok result else Res.aborted

namespace shuffl

/-- The constructor `shuffl(long sz_)`: the identity. -/
def identity (sz : Int) : shuffl := { sz := sz }

/-- `shuffl::operator*=`: the product with another shuffle, `*this` first.  The
first argument bounds the tests of the loop on `new_cut`. -/
def mul_assign (fuel : Nat) (s shfl : shuffl) : Res shuffl :=
  let cut4p : Int :=
    if s.rev = true then toLong (-(toLong (toLong (shfl.deal - 1) + shfl.cut))) else shfl.cut
  let new_rev : Bool := (s.rev && !shfl.rev) || (!s.rev && shfl.rev)
  let cut1 : Int := x_mod shfl.deal s.cut s.sz
  match raise_cut s.sz fuel (toLong (cut1 + cut4p)) with
  | none => Res.unfinished
  | some raised =>
    let new_cut : Int := raised.tmod s.sz
    let new_deal : Int := x_mod s.deal shfl.deal s.sz
    if new_deal < 0 then Res.aborted
    else if new_cut < 0 then Res.aborted
    else Res.ok { s with deal := new_deal, cut := new_cut, rev := new_rev }

/-- `shuffl::forward`: where does `pos` wind up? -/
def forward (s : shuffl) (pos : Int) : Int :=
  let pos1 : Int := x_mod pos s.deal s.sz
  let pos2 : Int := (toLong (pos1 + toLong (s.sz - s.cut))).tmod s.sz
  if s.rev = true then toLong (toLong (s.sz - 1) - pos2) else pos2

/-- `shuffl::backward`: what lands at spot `pos`?  The first argument is the
fuel of `mult_inv`. -/
def backward (fuel : Nat) (s : shuffl) (pos : Int) : Res Int :=
  let pos1 : Int := if s.rev = true then toLong (toLong (s.sz - 1) - pos) else pos
  let pos2 : Int := (toLong (pos1 + s.cut)).tmod s.sz
  match mult_inv fuel s.deal s.sz with
  | Res.ok inv => Res.ok (x_mod pos2 inv s.sz)
  | Res.aborted => Res.aborted
  | Res.unfinished => Res.unfinished

/-- Standard form: `0 <= deal < sz` and `0 <= cut < sz`. -/
def Standard (s : shuffl) : Prop :=
  0 ≤ s.deal ∧ s.deal < s.sz ∧ 0 ≤ s.cut ∧ s.cut < s.sz

end shuffl

end Day22

/-! # The phases of `16/doit.cc`

`slow_phase` is the explicit version that the source keeps in a comment,
`fast_phase` the function that the program runs.  `int` is embedded as `Int`
(exact arithmetic); the vectors are lists.  Each pass of the outer `for` loop
writes `output[i]` only, from `input` and `sums`, so the vector returned is
given entry by entry; `output[0]` keeps the 0 it was constructed with. -/

namespace Day16

/-- `static vector<int> base_pattern{ 0, 1, 0, -1 }`. -/
def base_pattern : List Int := [0, 1, 0, -1]

/-- The inner loop of `slow_phase` for the index `i` (`repeats = i`): for `j`
from 0 to `n - 1`, `output[i] += input[j] * base_pattern[(j / repeats) % 4]`,
starting from 0. -/
def slow_sum (input : List Int) (i : Nat) : Int :=
  (List.range input.length).foldl
    (fun acc j => acc + input.getD j 0 * base_pattern.getD ((j / i) % 4) 0) 0

/-- `slow_phase`: `output[0]` is 0 and, for `1 <= i < n`, `output[i]` is
`abs(output[i] % 10)` of the sum of the inner loop. -/
def slow_phase (input : List Int) : List Int :=
  (List.range input.length).map
    (fun i => if i = 0 then 0 else (((slow_sum input i).tmod 10).natAbs : Int))

/-- `std::partial_sum` from the running sum `acc`. -/
def partial_sum_from (acc : Int) : List Int → List Int
  | [] => []
  | x :: xs => (acc + x) :: partial_sum_from (acc + x) xs

/-- `partial_sum(sums.begin(), sums.end(), sums.begin())` on a copy of the
input. -/
def partial_sum (l : List Int) : List Int := partial_sum_from 0 l

/-- The loop `while (j < n)` of `fast_phase` for the index `i`, from the state
`j`, `bpi`, `output[i]`.  `++bpi; bpi &= 3;` is `(bpi + 1) % 4`.  The first
argument after `i` bounds the number of tests of the loop condition. -/
def fast_loop (sums : List Int) (n i : Nat) : Nat → Nat → Nat → Int → Option Int
  | 0, _, _, _ => none
  | fuel + 1, j, bpi, out =>
    if j < n then
      fast_loop sums n i fuel (min (j + i) n) ((bpi + 1) % 4)
        (if base_pattern.getD bpi 0 ≠ 0 then
          out + (sums.getD (min (j + i) n - 1) 0 - (if j > 0 then sums.getD (j - 1) 0 else 0)) *
            base_pattern.getD bpi 0
        else out)
    else some out

/-- A list of results of which none is missing. -/
def collect : List (Option Int) → Option (List Int)
  | [] => some []
  | none :: _ => none
  | some x :: rest => (collect rest).map (fun l => x :: l)

/-- `fast_phase`: `output[0]` is 0 and, for `1 <= i < n`, `output[i]` is
`abs(output[i] % 10)` of what the `while` loop leaves.  The first argument
bounds the tests of each `while` loop; `none` when it does not suffice. -/
def fast_phase (fuel : Nat) (input : List Int) : Option (List Int) :=
  collect ((List.range input.length).map
    (fun i =>
      if i = 0 then some 0
      else (fast_loop (partial_sum input) input.length i fuel 0 0 0).map
        (fun out => ((out.tmod 10).natAbs : Int))))

end Day16

namespace Day23

/-! ## The truncating division and the memory -/

namespace CPU

theorem tdiv_tdiv_nat (a : Int) (m n : Nat) :
    (a.tdiv (m : Int)).tdiv (n : Int) = a.tdiv ((m * n : Nat) : Int) := by
  obtain ⟨k, rfl | rfl⟩ := Int.eq_nat_or_neg a
  · rw [← Int.ofNat_tdiv, ← Int.ofNat_tdiv, ← Int.ofNat_tdiv, Nat.div_div_eq_div_mul]
  · rw [Int.neg_tdiv, Int.neg_tdiv, Int.neg_tdiv, ← Int.ofNat_tdiv, ← Int.ofNat_tdiv,
      ← Int.ofNat_tdiv, Nat.div_div_eq_div_mul]

theorem digit_tdiv_ten (md : Int) (i : Nat) : digit (md.tdiv 10) i = digit md (i + 1) := by
  unfold digit
  have h := tdiv_tdiv_nat md 10 (10 ^ i)
  have e1 : ((10 ^ i : Nat) : Int) = (10 : Int) ^ i := by push_cast; rfl
  have e2 : ((10 * 10 ^ i : Nat) : Int) = (10 : Int) ^ (i + 1) := by
    push_cast
    ring
  rw [e1, e2] at h
  have e3 : ((10 : Nat) : Int) = 10 := rfl
  rw [e3] at h
  rw [h]

theorem digit_zero (md : Int) : digit md 0 = md.tmod 10 := by
  unfold digit
  simp

theorem getD_grow (m : List Int) (a i : Nat) : (grow m a).getD i 0 = m.getD i 0 := by
  unfold grow
  split
  · by_cases h : i < m.length
    · simp [List.getD_eq_getElem?_getD, List.getElem?_append_left h]
    · have h1 : m.length ≤ i := Nat.le_of_not_lt h
      simp only [List.getD_eq_getElem?_getD]
      rw [List.getElem?_append_right h1, List.getElem?_eq_none h1]
      by_cases h2 : i - m.length < max (a + 100) (2 * m.length) - m.length
      · simp [List.getElem?_replicate, h2]
      · simp [List.getElem?_replicate, h2]
  · rfl

theorem grow_of_lt (m : List Int) (a : Nat) (h : a < m.length) : grow m a = m := by
  unfold grow
  simp [Nat.not_le.mpr h]

theorem lt_length_grow (m : List Int) (a : Nat) : a < (grow m a).length := by
  unfold grow
  split
  · simp only [List.length_append, List.length_replicate]
    omega
  · omega

theorem grow_eq_append (m : List Int) (a : Nat) :
    grow m a = m ++ List.replicate ((grow m a).length - m.length) 0 := by
  unfold grow
  split
  · simp
  · simp

theorem fetch_of_current_word (c : CPU) (w : Int) (h : c.current_word = some w) :
    c.fetch = some (w, { c with ip := c.ip + 1 }) := by
  unfold current_word at h
  split at h
  · exact absurd h (by simp)
  · rename_i hip
    have hlt : c.ip.toNat < c.memory.length := by
      rcases Nat.lt_or_ge c.ip.toNat c.memory.length with h1 | h1
      · exact h1
      · rw [List.getElem?_eq_none h1] at h
        exact absurd h (by simp)
    unfold fetch mem
    simp only [hip, if_false, grow_of_lt _ _ hlt]
    rw [List.getD_eq_getElem?_getD, h]
    rfl

theorem mem_eq_some (c c1 : CPU) (a v : Int) (h : c.mem a = some (v, c1)) :
    0 ≤ a ∧ v = c.memory.getD a.toNat 0 ∧
      c1 = { c with memory := grow c.memory a.toNat } := by
  unfold mem at h
  split at h
  · exact absurd h (by simp)
  · rename_i ha
    simp only [Option.some.injEq, Prod.mk.injEq] at h
    refine ⟨by omega, ?_, h.2.symm⟩
    rw [← h.1, getD_grow]

theorem zeroExt_refl (m : List Int) : ZeroExt m m := ⟨0, by simp⟩

theorem zeroExt_trans {m1 m2 m3 : List Int} (h1 : ZeroExt m1 m2) (h2 : ZeroExt m2 m3) :
    ZeroExt m1 m3 := by
  obtain ⟨k1, rfl⟩ := h1
  obtain ⟨k2, rfl⟩ := h2
  exact ⟨k1 + k2, by simp [List.append_assoc, List.append_replicate_replicate]⟩

theorem zeroExt_grow (m : List Int) (a : Nat) : ZeroExt m (grow m a) :=
  ⟨_, grow_eq_append m a⟩

theorem zeroExt_getD {m m1 : List Int} (h : ZeroExt m m1) (i : Nat) :
    m1.getD i 0 = m.getD i 0 := by
  obtain ⟨k, rfl⟩ := h
  simp only [List.getD_eq_getElem?_getD]
  by_cases hi : i < m.length
  · simp [List.getElem?_append_left hi]
  · have h1 : m.length ≤ i := Nat.le_of_not_lt hi
    rw [List.getElem?_append_right h1, List.getElem?_eq_none h1]
    by_cases h2 : i - m.length < k
    · simp [List.getElem?_replicate, h2]
    · simp [List.getElem?_replicate, h2]

theorem zeroExt_length {m m1 : List Int} (h : ZeroExt m m1) : m.length ≤ m1.length := by
  obtain ⟨k, rfl⟩ := h
  simp

theorem zeroExt_getElem? {m m1 : List Int} (h : ZeroExt m m1) (i : Nat) (hi : i < m.length) :
    m1[i]? = m[i]? := by
  obtain ⟨k, rfl⟩ := h
  exact List.getElem?_append_left hi

theorem sameRegs_refl (c : CPU) : SameRegs c c := ⟨rfl, rfl, rfl, rfl, rfl⟩

theorem sameRegs_trans {c1 c2 c3 : CPU} (h1 : SameRegs c1 c2) (h2 : SameRegs c2 c3) :
    SameRegs c1 c3 := by
  obtain ⟨a1, a2, a3, a4, a5⟩ := h1
  obtain ⟨b1, b2, b3, b4, b5⟩ := h2
  exact ⟨b1.trans a1, b2.trans a2, b3.trans a3, b4.trans a4, b5.trans a5⟩

/-- What a successful `mem` does to the machine. -/
theorem mem_spec (c c1 : CPU) (a v : Int) (h : c.mem a = some (v, c1)) :
    0 ≤ a ∧ v = c.memory.getD a.toNat 0 ∧ c1.ip = c.ip ∧ SameRegs c c1 ∧
      ZeroExt c.memory c1.memory := by
  obtain ⟨h1, h2, rfl⟩ := mem_eq_some c c1 a v h
  exact ⟨h1, h2, rfl, sameRegs_refl _, zeroExt_grow _ _⟩

/-- What a successful `fetch` does to the machine. -/
theorem fetch_spec (c c1 : CPU) (w : Int) (h : c.fetch = some (w, c1)) :
    0 ≤ c.ip ∧ w = c.memory.getD c.ip.toNat 0 ∧ c1.ip = c.ip + 1 ∧ SameRegs c c1 ∧
      ZeroExt c.memory c1.memory := by
  unfold fetch at h
  obtain ⟨h1, h2, h3, h4, h5⟩ := mem_spec _ _ _ _ h
  exact ⟨h1, h2, h3, h4, h5⟩

/-- What a successful `arg` does to the machine. -/
theorem arg_spec (c c1 : CPU) (md v md1 : Int) (h : c.arg md = some (v, c1, md1)) :
    c1.ip = c.ip + 1 ∧ SameRegs c c1 ∧ ZeroExt c.memory c1.memory ∧ md1 = md.tdiv 10 := by
  unfold arg at h
  split at h
  · exact absurd h (by simp)
  · rename_i w c0 hf
    obtain ⟨_, _, f3, f4, f5⟩ := fetch_spec _ _ _ hf
    simp only at h
    split at h
    · split at h
      · exact absurd h (by simp)
      · rename_i v2 c2 hm
        simp only [Option.some.injEq, Prod.mk.injEq] at h
        obtain ⟨_, rfl, rfl⟩ := h
        obtain ⟨_, _, m3, m4, m5⟩ := mem_spec _ _ _ _ hm
        exact ⟨m3.trans f3, sameRegs_trans f4 m4, zeroExt_trans f5 m5, rfl⟩
    · split at h
      · split at h
        · exact absurd h (by simp)
        · rename_i v2 c2 hm
          simp only [Option.some.injEq, Prod.mk.injEq] at h
          obtain ⟨_, rfl, rfl⟩ := h
          obtain ⟨_, _, m3, m4, m5⟩ := mem_spec _ _ _ _ hm
          exact ⟨m3.trans f3, sameRegs_trans f4 m4, zeroExt_trans f5 m5, rfl⟩
      · simp only [Option.some.injEq, Prod.mk.injEq] at h
        obtain ⟨_, rfl, rfl⟩ := h
        exact ⟨f3, f4, f5, rfl⟩

/-- The function `store` is `store_target` followed by the assignment. -/
theorem store_eq (c : CPU) (md v : Int) :
    c.store md v =
      match c.store_target md with
      | none => none
      | some (d, c1) => c1.mem_assign d v := by
  unfold store store_target
  by_cases hm : md = 0 ∨ md = 2
  · simp only [if_pos hm]
    cases c.fetch with
    | none => rfl
    | some p => rfl
  · simp only [if_neg hm]

/-- What a successful `store_target` does to the machine. -/
theorem store_target_spec (c c1 : CPU) (md d : Int) (h : c.store_target md = some (d, c1)) :
    (md = 0 ∨ md = 2) ∧ c1.ip = c.ip + 1 ∧ SameRegs c c1 ∧ ZeroExt c.memory c1.memory ∧
      c.fetch = some (if md = 2 then d - c.rel_base else d, c1) := by
  unfold store_target at h
  by_cases hm : md = 0 ∨ md = 2
  · simp only [if_pos hm] at h
    cases hf : c.fetch with
    | none =>
      rw [hf] at h
      exact absurd h (by simp)
    | some p =>
      obtain ⟨x, c0⟩ := p
      rw [hf] at h
      simp only [Option.some.injEq, Prod.mk.injEq] at h
      obtain ⟨hd, rfl⟩ := h
      obtain ⟨_, _, f3, f4, f5⟩ := fetch_spec c c0 x hf
      refine ⟨hm, f3, f4, f5, ?_⟩
      rw [← hd, f4.1]
      by_cases h2 : md = 2
      · simp [h2]
      · simp [h2]
  · simp only [if_neg hm] at h
    exact absurd h (by simp)

/-- What a successful assignment through `mem` does to the machine. -/
theorem mem_assign_spec (c c1 : CPU) (d v : Int) (h : c.mem_assign d v = some c1) :
    0 ≤ d ∧ c1.ip = c.ip ∧ SameRegs c c1 ∧
      c1.memory = (grow c.memory d.toNat).set d.toNat v := by
  unfold mem_assign at h
  by_cases hd : d < 0
  · simp only [if_pos hd] at h
    exact absurd h (by simp)
  · simp only [if_neg hd, Option.some.injEq] at h
    subst h
    exact ⟨by omega, rfl, sameRegs_refl _, rfl⟩

/-- What a successful `store` does to the registers. -/
theorem store_spec (c c1 : CPU) (md v : Int) (h : c.store md v = some c1) :
    c1.ip = c.ip + 1 ∧ SameRegs c c1 := by
  rw [store_eq] at h
  cases ht : c.store_target md with
  | none =>
    rw [ht] at h
    exact absurd h (by simp)
  | some p =>
    obtain ⟨d, c0⟩ := p
    rw [ht] at h
    obtain ⟨_, t2, t3, _, _⟩ := store_target_spec c c0 md d ht
    obtain ⟨_, a2, a3, _⟩ := mem_assign_spec c0 c1 d v h
    exact ⟨a2.trans t2, sameRegs_trans t3 a3⟩

/-- A fetched word that is not `0` was read inside the memory, which is then
unchanged. -/
theorem fetch_nonzero (c c0 : CPU) (w : Int) (hf : c.fetch = some (w, c0)) (hw : w ≠ 0) :
    c.current_word = some w ∧ c0 = { c with ip := c.ip + 1 } := by
  unfold fetch at hf
  obtain ⟨h1, h2, h3⟩ := mem_eq_some _ _ _ _ hf
  have hlt : c.ip.toNat < c.memory.length := by
    rcases Nat.lt_or_ge c.ip.toNat c.memory.length with h | h
    · exact h
    · exfalso
      apply hw
      rw [h2]
      simp only [List.getD_eq_getElem?_getD]
      rw [List.getElem?_eq_none h]
      rfl
  have hcw : c.current_word = some w := by
    unfold current_word
    rw [if_neg (by omega)]
    rw [h2]
    simp only [List.getD_eq_getElem?_getD]
    rw [List.getElem?_eq_getElem hlt]
    rfl
  refine ⟨hcw, ?_⟩
  rw [h3]
  simp only [grow_of_lt _ _ hlt]

/-! ## Changes of the machine that the memory functions do not see -/

theorem mem_remap (fh : Bool → Bool) (fi : List Int → List Int) (c : CPU) (a : Int) :
    (remap fh fi c).mem a = (c.mem a).map (fun p => (p.1, remap fh fi p.2)) := by
  unfold mem
  by_cases h : a < 0
  · simp only [h, if_true, Option.map_none']
  · simp only [h, if_false, Option.map_some']
    rfl

theorem mem_assign_remap (fh : Bool → Bool) (fi : List Int → List Int) (c : CPU)
    (a v : Int) :
    (remap fh fi c).mem_assign a v = (c.mem_assign a v).map (remap fh fi) := by
  unfold mem_assign
  by_cases h : a < 0
  · simp only [h, if_true, Option.map_none']
  · simp only [h, if_false, Option.map_some']
    rfl

theorem fetch_remap (fh : Bool → Bool) (fi : List Int → List Int) (c : CPU) :
    (remap fh fi c).fetch = c.fetch.map (fun p => (p.1, remap fh fi p.2)) :=
  mem_remap fh fi { c with ip := c.ip + 1 } c.ip

theorem arg_remap (fh : Bool → Bool) (fi : List Int → List Int) (c : CPU) (md : Int) :
    (remap fh fi c).arg md = (c.arg md).map (fun p => (p.1, remap fh fi p.2.1, p.2.2)) := by
  unfold arg
  rw [fetch_remap]
  cases c.fetch with
  | none => rfl
  | some p =>
    obtain ⟨v, c1⟩ := p
    simp only [Option.map_some', mem_remap]
    have hr : (remap fh fi c1).rel_base = c1.rel_base := rfl
    rw [hr]
    split_ifs
    · cases c1.mem v <;> rfl
    · cases c1.mem (v + c1.rel_base) <;> rfl
    · rfl

theorem store_remap (fh : Bool → Bool) (fi : List Int → List Int) (c : CPU) (md v : Int) :
    (remap fh fi c).store md v = (c.store md v).map (remap fh fi) := by
  unfold store
  rw [fetch_remap]
  by_cases hm : md = 0 ∨ md = 2
  · simp only [hm, if_true]
    cases c.fetch with
    | none => rfl
    | some p =>
      obtain ⟨a, c1⟩ := p
      simp only [Option.map_some', mem_assign_remap]
      rfl
  · simp only [hm, if_false, Option.map_none']

/-- Outside the input instruction, `execute` commutes with a change of the
input queue and with setting the halted flag. -/
theorem execute_remap (fh : Bool → Bool) (fi : List Int → List Int) (hfh : fh true = true)
    (c c0 : CPU) (w : Int) (hf : c.fetch = some (w, c0)) (h3 : w.tmod 100 ≠ 3) :
    (remap fh fi c).execute = c.execute.map (fun p => (p.1, remap fh fi p.2)) := by
  unfold execute
  rw [fetch_remap, hf]
  rw [Option.map_some']
  dsimp only
  by_cases h1 : w.tmod 100 = 1
  · simp only [h1, if_true, arg_remap]
    rcases c0.arg (w.tdiv 100) with _ | ⟨a1, c1, m1⟩
    · rfl
    simp only [Option.map_some', arg_remap]
    rcases c1.arg m1 with _ | ⟨a2, c2, m2⟩
    · rfl
    simp only [Option.map_some', store_remap]
    cases c2.store m2 (a1 + a2) <;> rfl
  simp only [h1, if_false]
  by_cases h2 : w.tmod 100 = 2
  · simp only [h2, if_true, arg_remap]
    rcases c0.arg (w.tdiv 100) with _ | ⟨a1, c1, m1⟩
    · rfl
    simp only [Option.map_some', arg_remap]
    rcases c1.arg m1 with _ | ⟨a2, c2, m2⟩
    · rfl
    simp only [Option.map_some', store_remap]
    cases c2.store m2 (a1 * a2) <;> rfl
  simp only [h2, if_false]
  simp only [h3, if_false]
  by_cases h4 : w.tmod 100 = 4
  · simp only [h4, if_true, arg_remap]
    rcases c0.arg (w.tdiv 100) with _ | ⟨a1, c1, m1⟩
    · rfl
    rfl
  simp only [h4, if_false]
  by_cases h5 : w.tmod 100 = 5
  · simp only [h5, if_true, arg_remap]
    rcases c0.arg (w.tdiv 100) with _ | ⟨a1, c1, m1⟩
    · rfl
    simp only [Option.map_some', arg_remap]
    rcases c1.arg m1 with _ | ⟨a2, c2, m2⟩
    · rfl
    simp only [Option.map_some']
    split_ifs <;> rfl
  simp only [h5, if_false]
  by_cases h6 : w.tmod 100 = 6
  · simp only [h6, if_true, arg_remap]
    rcases c0.arg (w.tdiv 100) with _ | ⟨a1, c1, m1⟩
    · rfl
    simp only [Option.map_some', arg_remap]
    rcases c1.arg m1 with _ | ⟨a2, c2, m2⟩
    · rfl
    simp only [Option.map_some']
    split_ifs <;> rfl
  simp only [h6, if_false]
  by_cases h7 : w.tmod 100 = 7
  · simp only [h7, if_true, arg_remap]
    rcases c0.arg (w.tdiv 100) with _ | ⟨a1, c1, m1⟩
    · rfl
    simp only [Option.map_some', arg_remap]
    rcases c1.arg m1 with _ | ⟨a2, c2, m2⟩
    · rfl
    simp only [Option.map_some', store_remap]
    cases c2.store m2 (ofBool (decide (a1 < a2))) <;> rfl
  simp only [h7, if_false]
  by_cases h8 : w.tmod 100 = 8
  · simp only [h8, if_true, arg_remap]
    rcases c0.arg (w.tdiv 100) with _ | ⟨a1, c1, m1⟩
    · rfl
    simp only [Option.map_some', arg_remap]
    rcases c1.arg m1 with _ | ⟨a2, c2, m2⟩
    · rfl
    simp only [Option.map_some', store_remap]
    cases c2.store m2 (ofBool (decide (a1 = a2))) <;> rfl
  simp only [h8, if_false]
  by_cases h9 : w.tmod 100 = 9
  · simp only [h9, if_true, arg_remap]
    rcases c0.arg (w.tdiv 100) with _ | ⟨a1, c1, m1⟩
    · rfl
    rfl
  simp only [h9, if_false]
  by_cases h99 : w.tmod 100 = 99
  · simp only [h99, if_true, Option.map_some', remap, hfh]
  · simp only [h99, if_false, Option.map_none']

theorem get_input_remap (fh : Bool → Bool) (fi : List Int → List Int) (c : CPU)
    (hne : fi c.input_values = [] ↔ c.input_values = [])
    (hcons : ∀ v rest, c.input_values = v :: rest → fi (v :: rest) = v :: fi rest) :
    (remap fh fi c).get_input = c.get_input.map (fun p => (p.1, remap fh fi p.2)) := by
  unfold get_input
  have hb : (remap fh fi c).blocking = c.blocking := rfl
  have hi : (remap fh fi c).input_values = fi c.input_values := rfl
  rw [hb, hi]
  cases hq : c.input_values with
  | nil =>
    have hnil : fi [] = [] := by
      rw [hq] at hne
      exact hne.mpr rfl
    rw [hnil]
    cases c.blocking <;> simp
  | cons v rest =>
    rw [hcons v rest hq]
    have e1 : ¬ (c.blocking = false ∧ v :: fi rest = []) := by simp
    have e2 : ¬ (c.blocking = false ∧ v :: rest = []) := by simp
    simp only [e1, e2, if_false, Option.map_some']
    rfl

/-- The input instruction too commutes with a change of the input queue that
keeps the queue empty when it is, and keeps its front otherwise. -/
theorem execute_remap_input (fh : Bool → Bool) (fi : List Int → List Int)
    (c : CPU) (hne : fi c.input_values = [] ↔ c.input_values = [])
    (hcons : ∀ v rest, c.input_values = v :: rest → fi (v :: rest) = v :: fi rest)
    (c0 : CPU) (w : Int) (hf : c.fetch = some (w, c0)) (h3 : w.tmod 100 = 3) :
    (remap fh fi c).execute = c.execute.map (fun p => (p.1, remap fh fi p.2)) := by
  obtain ⟨_, _, _, ⟨_, _, _, hin, _⟩, _⟩ := fetch_spec c c0 w hf
  rw [← hin] at hne hcons
  have h1 : w.tmod 100 ≠ 1 := by omega
  have h2 : w.tmod 100 ≠ 2 := by omega
  unfold execute
  rw [fetch_remap, hf, Option.map_some']
  dsimp only
  simp only [if_neg h1, if_neg h2, if_pos h3]
  have hb : (remap fh fi c0).blocking = c0.blocking := rfl
  have hi : (remap fh fi c0).input_values = fi c0.input_values := rfl
  rw [hb, hi, get_input_remap fh fi c0 hne hcons]
  by_cases hp : c0.blocking = true ∧ c0.input_values = []
  · have hp2 : c0.blocking = true ∧ fi c0.input_values = [] := ⟨hp.1, hne.mpr hp.2⟩
    simp only [if_pos hp, if_pos hp2, Option.map_some']
    rfl
  · have hp2 : ¬ (c0.blocking = true ∧ fi c0.input_values = []) :=
      fun h => hp ⟨h.1, hne.mp h.2⟩
    simp only [if_neg hp, if_neg hp2]
    rcases c0.get_input with _ | ⟨v, c1⟩
    · rfl
    simp only [Option.map_some', store_remap]
    cases c1.store (w.tdiv 100) v <;> rfl

/-- The function `execute` commutes with a change of the halted flag that keeps
a set flag set, and of the input queue that keeps the queue empty when it is
and keeps its front otherwise. -/
theorem execute_remap_all (fh : Bool → Bool) (fi : List Int → List Int)
    (hfh : fh true = true) (c : CPU) (hne : fi c.input_values = [] ↔ c.input_values = [])
    (hcons : ∀ v rest, c.input_values = v :: rest → fi (v :: rest) = v :: fi rest) :
    (remap fh fi c).execute = c.execute.map (fun p => (p.1, remap fh fi p.2)) := by
  cases hf : c.fetch with
  | none =>
    unfold execute
    rw [fetch_remap, hf]
    rfl
  | some p =>
    obtain ⟨w, c0⟩ := p
    by_cases h3 : w.tmod 100 = 3
    · exact execute_remap_input fh fi c hne hcons c0 w hf h3
    · exact execute_remap fh fi hfh c c0 w hf h3

/-! ## What one `execute` does -/

theorem get_input_spec (c c1 : CPU) (v : Int) (h : c.get_input = some (v, c1)) :
    c1.halted = c.halted ∧ c1.blocking = c.blocking := by
  unfold get_input at h
  split_ifs at h
  · simp only [Option.some.injEq, Prod.mk.injEq] at h
    obtain ⟨_, rfl⟩ := h
    exact ⟨rfl, rfl⟩
  · cases hq : c.input_values with
    | nil =>
      rw [hq] at h
      exact absurd h (by simp)
    | cons x rest =>
      rw [hq] at h
      simp only [Option.some.injEq, Prod.mk.injEq] at h
      obtain ⟨_, rfl⟩ := h
      exact ⟨rfl, rfl⟩

/-- The three ways in which `execute` returns: `true` with the halted flag as
it was, `false` at a halt instruction, `false` at a starved blocking input. -/
theorem execute_spec (c c1 : CPU) (r : Bool) (h : c.execute = some (r, c1)) :
    ∃ w c0, c.fetch = some (w, c0) ∧ c1.blocking = c.blocking ∧
      ((r = true ∧ c1.halted = c.halted ∧ w.tmod 100 ≠ 99 ∧
          ¬ (w.tmod 100 = 3 ∧ c.blocking = true ∧ c.input_values = [])) ∨
        (r = false ∧ w.tmod 100 = 99 ∧ c1 = { c0 with halted := true }) ∨
        (r = false ∧ w.tmod 100 = 3 ∧ c.blocking = true ∧ c.input_values = [] ∧
          c1 = { c0 with ip := c0.ip - 1 })) := by
  unfold execute at h
  cases hf : c.fetch with
  | none =>
    rw [hf] at h
    exact absurd h (by simp)
  | some p =>
    obtain ⟨w, c0⟩ := p
    rw [hf] at h
    dsimp only at h
    obtain ⟨_, _, _, rf, _⟩ := fetch_spec c c0 w hf
    have ok : ∀ c2 : CPU, c2.halted = c0.halted → c2.blocking = c0.blocking →
        w.tmod 100 ≠ 99 → w.tmod 100 ≠ 3 →
        ∃ w1 c3, some (w, c0) = some (w1, c3) ∧ c2.blocking = c.blocking ∧
          ((true = true ∧ c2.halted = c.halted ∧ w1.tmod 100 ≠ 99 ∧
              ¬ (w1.tmod 100 = 3 ∧ c.blocking = true ∧ c.input_values = [])) ∨
            (true = false ∧ w1.tmod 100 = 99 ∧ c2 = { c3 with halted := true }) ∨
            (true = false ∧ w1.tmod 100 = 3 ∧ c.blocking = true ∧ c.input_values = [] ∧
              c2 = { c3 with ip := c3.ip - 1 })) := by
      intro c2 e1 e2 n99 n3
      exact ⟨w, c0, rfl, e2.trans rf.2.2.1,
        Or.inl ⟨rfl, e1.trans rf.2.1, n99, fun hh => n3 hh.1⟩⟩
    by_cases h1 : w.tmod 100 = 1
    · simp only [if_pos h1] at h
      rcases ha : c0.arg (w.tdiv 100) with _ | ⟨a1, c2, m1⟩
      · rw [ha] at h
        exact absurd h (by simp)
      rw [ha] at h
      dsimp only at h
      rcases hb : c2.arg m1 with _ | ⟨a2, c3, m2⟩
      · rw [hb] at h
        exact absurd h (by simp)
      rw [hb] at h
      dsimp only at h
      rcases hs : c3.store m2 (a1 + a2) with _ | c4
      · rw [hs] at h
        exact absurd h (by simp)
      rw [hs] at h
      simp only [Option.map_some', Option.some.injEq, Prod.mk.injEq] at h
      obtain ⟨rfl, rfl⟩ := h
      obtain ⟨_, ra, _, _⟩ := arg_spec _ _ _ _ _ ha
      obtain ⟨_, rb, _, _⟩ := arg_spec _ _ _ _ _ hb
      obtain ⟨_, rs⟩ := store_spec _ _ _ _ hs
      have rr := sameRegs_trans (sameRegs_trans ra rb) rs
      exact ok _ rr.2.1 rr.2.2.1 (by omega) (by omega)
    simp only [if_neg h1] at h
    by_cases h2 : w.tmod 100 = 2
    · simp only [if_pos h2] at h
      rcases ha : c0.arg (w.tdiv 100) with _ | ⟨a1, c2, m1⟩
      · rw [ha] at h
        exact absurd h (by simp)
      rw [ha] at h
      dsimp only at h
      rcases hb : c2.arg m1 with _ | ⟨a2, c3, m2⟩
      · rw [hb] at h
        exact absurd h (by simp)
      rw [hb] at h
      dsimp only at h
      rcases hs : c3.store m2 (a1 * a2) with _ | c4
      · rw [hs] at h
        exact absurd h (by simp)
      rw [hs] at h
      simp only [Option.map_some', Option.some.injEq, Prod.mk.injEq] at h
      obtain ⟨rfl, rfl⟩ := h
      obtain ⟨_, ra, _, _⟩ := arg_spec _ _ _ _ _ ha
      obtain ⟨_, rb, _, _⟩ := arg_spec _ _ _ _ _ hb
      obtain ⟨_, rs⟩ := store_spec _ _ _ _ hs
      have rr := sameRegs_trans (sameRegs_trans ra rb) rs
      exact ok _ rr.2.1 rr.2.2.1 (by omega) (by omega)
    simp only [if_neg h2] at h
    by_cases h3 : w.tmod 100 = 3
    · simp only [if_pos h3] at h
      by_cases hp : c0.blocking = true ∧ c0.input_values = []
      · simp only [if_pos hp, Option.some.injEq, Prod.mk.injEq] at h
        obtain ⟨rfl, rfl⟩ := h
        refine ⟨w, c0, rfl, rf.2.2.1, Or.inr (Or.inr ⟨rfl, h3, ?_, ?_, rfl⟩)⟩
        · exact rf.2.2.1.symm.trans hp.1
        · exact rf.2.2.2.1.symm.trans hp.2
      · simp only [if_neg hp] at h
        rcases hg : c0.get_input with _ | ⟨v, c2⟩
        · rw [hg] at h
          exact absurd h (by simp)
        rw [hg] at h
        dsimp only at h
        rcases hs : c2.store (w.tdiv 100) v with _ | c4
        · rw [hs] at h
          exact absurd h (by simp)
        rw [hs] at h
        simp only [Option.map_some', Option.some.injEq, Prod.mk.injEq] at h
        obtain ⟨rfl, rfl⟩ := h
        obtain ⟨g1, g2⟩ := get_input_spec _ _ _ hg
        obtain ⟨_, rs⟩ := store_spec _ _ _ _ hs
        refine ⟨w, c0, rfl, (rs.2.2.1.trans g2).trans rf.2.2.1,
          Or.inl ⟨rfl, (rs.2.1.trans g1).trans rf.2.1, by omega, ?_⟩⟩
        intro hh
        apply hp
        exact ⟨rf.2.2.1.trans hh.2.1, rf.2.2.2.1.trans hh.2.2⟩
    simp only [if_neg h3] at h
    by_cases h4 : w.tmod 100 = 4
    · simp only [if_pos h4] at h
      rcases ha : c0.arg (w.tdiv 100) with _ | ⟨a1, c2, m1⟩
      · rw [ha] at h
        exact absurd h (by simp)
      rw [ha] at h
      dsimp only at h
      simp only [Option.some.injEq, Prod.mk.injEq] at h
      obtain ⟨rfl, rfl⟩ := h
      obtain ⟨_, ra, _, _⟩ := arg_spec _ _ _ _ _ ha
      exact ok _ ra.2.1 ra.2.2.1 (by omega) (by omega)
    simp only [if_neg h4] at h
    by_cases h5 : w.tmod 100 = 5
    · simp only [if_pos h5] at h
      rcases ha : c0.arg (w.tdiv 100) with _ | ⟨a1, c2, m1⟩
      · rw [ha] at h
        exact absurd h (by simp)
      rw [ha] at h
      dsimp only at h
      rcases hb : c2.arg m1 with _ | ⟨a2, c3, m2⟩
      · rw [hb] at h
        exact absurd h (by simp)
      rw [hb] at h
      dsimp only at h
      simp only [Option.some.injEq, Prod.mk.injEq] at h
      obtain ⟨rfl, rfl⟩ := h
      obtain ⟨_, ra, _, _⟩ := arg_spec _ _ _ _ _ ha
      obtain ⟨_, rb, _, _⟩ := arg_spec _ _ _ _ _ hb
      have rr := sameRegs_trans ra rb
      refine ok _ ?_ ?_ (by omega) (by omega)
      · split_ifs
        · exact rr.2.1
        · exact rr.2.1
      · split_ifs
        · exact rr.2.2.1
        · exact rr.2.2.1
    simp only [if_neg h5] at h
    by_cases h6 : w.tmod 100 = 6
    · simp only [if_pos h6] at h
      rcases ha : c0.arg (w.tdiv 100) with _ | ⟨a1, c2, m1⟩
      · rw [ha] at h
        exact absurd h (by simp)
      rw [ha] at h
      dsimp only at h
      rcases hb : c2.arg m1 with _ | ⟨a2, c3, m2⟩
      · rw [hb] at h
        exact absurd h (by simp)
      rw [hb] at h
      dsimp only at h
      simp only [Option.some.injEq, Prod.mk.injEq] at h
      obtain ⟨rfl, rfl⟩ := h
      obtain ⟨_, ra, _, _⟩ := arg_spec _ _ _ _ _ ha
      obtain ⟨_, rb, _, _⟩ := arg_spec _ _ _ _ _ hb
      have rr := sameRegs_trans ra rb
      refine ok _ ?_ ?_ (by omega) (by omega)
      · split_ifs
        · exact rr.2.1
        · exact rr.2.1
      · split_ifs
        · exact rr.2.2.1
        · exact rr.2.2.1
    simp only [if_neg h6] at h
    by_cases h7 : w.tmod 100 = 7
    · simp only [if_pos h7] at h
      rcases ha : c0.arg (w.tdiv 100) with _ | ⟨a1, c2, m1⟩
      · rw [ha] at h
        exact absurd h (by simp)
      rw [ha] at h
      dsimp only at h
      rcases hb : c2.arg m1 with _ | ⟨a2, c3, m2⟩
      · rw [hb] at h
        exact absurd h (by simp)
      rw [hb] at h
      dsimp only at h
      rcases hs : c3.store m2 (ofBool (decide (a1 < a2))) with _ | c4
      · rw [hs] at h
        exact absurd h (by simp)
      rw [hs] at h
      simp only [Option.map_some', Option.some.injEq, Prod.mk.injEq] at h
      obtain ⟨rfl, rfl⟩ := h
      obtain ⟨_, ra, _, _⟩ := arg_spec _ _ _ _ _ ha
      obtain ⟨_, rb, _, _⟩ := arg_spec _ _ _ _ _ hb
      obtain ⟨_, rs⟩ := store_spec _ _ _ _ hs
      have rr := sameRegs_trans (sameRegs_trans ra rb) rs
      exact ok _ rr.2.1 rr.2.2.1 (by omega) (by omega)
    simp only [if_neg h7] at h
    by_cases h8 : w.tmod 100 = 8
    · simp only [if_pos h8] at h
      rcases ha : c0.arg (w.tdiv 100) with _ | ⟨a1, c2, m1⟩
      · rw [ha] at h
        exact absurd h (by simp)
      rw [ha] at h
      dsimp only at h
      rcases hb : c2.arg m1 with _ | ⟨a2, c3, m2⟩
      · rw [hb] at h
        exact absurd h (by simp)
      rw [hb] at h
      dsimp only at h
      rcases hs : c3.store m2 (ofBool (decide (a1 = a2))) with _ | c4
      · rw [hs] at h
        exact absurd h (by simp)
      rw [hs] at h
      simp only [Option.map_some', Option.some.injEq, Prod.mk.injEq] at h
      obtain ⟨rfl, rfl⟩ := h
      obtain ⟨_, ra, _, _⟩ := arg_spec _ _ _ _ _ ha
      obtain ⟨_, rb, _, _⟩ := arg_spec _ _ _ _ _ hb
      obtain ⟨_, rs⟩ := store_spec _ _ _ _ hs
      have rr := sameRegs_trans (sameRegs_trans ra rb) rs
      exact ok _ rr.2.1 rr.2.2.1 (by omega) (by omega)
    simp only [if_neg h8] at h
    by_cases h9 : w.tmod 100 = 9
    · simp only [if_pos h9] at h
      rcases ha : c0.arg (w.tdiv 100) with _ | ⟨a1, c2, m1⟩
      · rw [ha] at h
        exact absurd h (by simp)
      rw [ha] at h
      dsimp only at h
      simp only [Option.some.injEq, Prod.mk.injEq] at h
      obtain ⟨rfl, rfl⟩ := h
      obtain ⟨_, ra, _, _⟩ := arg_spec _ _ _ _ _ ha
      exact ok _ ra.2.1 ra.2.2.1 (by omega) (by omega)
    simp only [if_neg h9] at h
    by_cases h99 : w.tmod 100 = 99
    · simp only [if_pos h99, Option.some.injEq, Prod.mk.injEq] at h
      obtain ⟨rfl, rfl⟩ := h
      exact ⟨w, c0, rfl, rf.2.2.1, Or.inr (Or.inl ⟨rfl, h99, rfl⟩)⟩
    · simp only [if_neg h99] at h
      exact absurd h (by simp)

/-! ## Facts about `run` and `steps` -/

theorem with_halted_eq_remap (c : CPU) :
    with_halted c true = remap (fun _ => true) id c := rfl

theorem ext_eq_remap (c : CPU) (b : List Int) :
    ext c b = remap id (fun q => q ++ b) c := rfl

theorem give_inputs_eq_ext (vs : List Int) (c : CPU) : give_inputs c vs = ext c vs := by
  induction vs generalizing c with
  | nil =>
    unfold give_inputs ext
    simp
  | cons v rest ih =>
    have h1 : give_inputs c (v :: rest) = give_inputs (c.give_input v) rest := rfl
    rw [h1, ih]
    unfold ext give_input
    simp

theorem ext_ext (c : CPU) (a b : List Int) : ext (ext c a) b = ext c (a ++ b) := by
  unfold ext
  simp

/-- More fuel does not change a result that was reached. -/
theorem run_mono (n j : Nat) (c : CPU) (r : RunResult) (h : run n c = r)
    (hr : r ≠ RunResult.unfinished) : run (n + j) c = r := by
  induction n generalizing c with
  | zero =>
    unfold run at h
    exact absurd h.symm hr
  | succ n ih =>
    have e : n + 1 + j = (n + j) + 1 := by omega
    rw [e]
    unfold run
    unfold run at h
    rcases hx : c.execute with _ | ⟨b, c1⟩
    · rw [hx] at h
      exact h
    · rw [hx] at h
      cases b with
      | true => exact ih c1 h
      | false => exact h

/-- A returning `run` is a number of `execute` calls that return `true`,
followed by one that returns `false`; the value returned is the halted flag
then. -/
theorem run_returned (n : Nat) (c c1 : CPU) (r : Bool)
    (h : run n c = RunResult.returned r c1) :
    ∃ k s, steps k c = some s ∧ s.execute = some (false, c1) ∧ r = c1.halted := by
  induction n generalizing c with
  | zero =>
    unfold run at h
    exact absurd h (by simp)
  | succ n ih =>
    unfold run at h
    rcases hx : c.execute with _ | ⟨b, c2⟩
    · rw [hx] at h
      exact absurd h (by simp)
    · rw [hx] at h
      cases b with
      | true =>
        obtain ⟨k, s, h1, h2, h3⟩ := ih c2 h
        refine ⟨k + 1, s, ?_, h2, h3⟩
        unfold steps
        rw [hx]
        exact h1
      | false =>
        simp only [RunResult.returned.injEq] at h
        obtain ⟨rfl, rfl⟩ := h
        exact ⟨0, c, rfl, hx, rfl⟩

/-- Calls of `execute` that return `true` leave the halted flag and the
blocking flag as they are. -/
theorem steps_flags (k : Nat) (c s : CPU) (h : steps k c = some s) :
    s.halted = c.halted ∧ s.blocking = c.blocking := by
  induction k generalizing c with
  | zero =>
    unfold steps at h
    simp only [Option.some.injEq] at h
    subst h
    exact ⟨rfl, rfl⟩
  | succ k ih =>
    unfold steps at h
    rcases hx : c.execute with _ | ⟨b, c2⟩
    · rw [hx] at h
      exact absurd h (by simp)
    · rw [hx] at h
      cases b with
      | false => exact absurd h (by simp)
      | true =>
        obtain ⟨i1, i2⟩ := ih c2 h
        obtain ⟨w, c0, _, e1, e2⟩ := execute_spec c c2 true hx
        rcases e2 with ⟨_, e3, _, _⟩ | ⟨e3, _⟩ | ⟨e3, _⟩
        · exact ⟨i1.trans e3, i2.trans e1⟩
        · exact absurd e3 (by simp)
        · exact absurd e3 (by simp)

/-- An `execute` that returns `false` and leaves the halted flag clear is a
starved blocking input: the machine is unchanged and its input queue is
empty. -/
theorem execute_paused (c c1 : CPU) (h : c.execute = some (false, c1))
    (hh : c1.halted = false) :
    c1 = c ∧ c.input_values = [] ∧ c.blocking = true ∧
      ∃ w, c.current_word = some w ∧ w.tmod 100 = 3 := by
  obtain ⟨w, c0, hf, _, e2⟩ := execute_spec c c1 false h
  rcases e2 with ⟨e3, _⟩ | ⟨_, _, e3⟩ | ⟨_, e3, e4, e5, e6⟩
  · exact absurd e3 (by simp)
  · rw [e3] at hh
    exact absurd hh (by simp)
  · have hw : w ≠ 0 := by
      intro h0
      rw [h0] at e3
      exact absurd e3 (by decide)
    obtain ⟨f1, f2⟩ := fetch_nonzero c c0 w hf hw
    refine ⟨?_, e5, e4, w, f1, e3⟩
    rw [e6, f2]
    cases c
    simp

/-- In blocking mode an `execute` that returns `true` does the same with more
input queued behind. -/
theorem execute_ext_true (c c1 : CPU) (b : List Int) (hb : c.blocking = true)
    (h : c.execute = some (true, c1)) :
    (ext c b).execute = some (true, ext c1 b) := by
  obtain ⟨w, c0, hf, _, e2⟩ := execute_spec c c1 true h
  rcases e2 with ⟨_, _, _, e3⟩ | ⟨e3, _⟩ | ⟨e3, _⟩
  · by_cases h3 : w.tmod 100 = 3
    · have hq : c.input_values ≠ [] := fun hq => e3 ⟨h3, hb, hq⟩
      rw [ext_eq_remap, execute_remap_all id (fun q => q ++ b) rfl c (by simp [hq])
        (fun v rest _ => rfl), h]
      rfl
    · rw [ext_eq_remap, execute_remap id (fun q => q ++ b) rfl c c0 w hf h3, h]
      rfl
  · exact absurd e3 (by simp)
  · exact absurd e3 (by simp)

/-- A blocking run that pauses is a prefix of the run with more input queued
behind: after some number of `execute` calls the longer run is in the paused
machine with the extra input. -/
theorem run_ext (n : Nat) (c c1 : CPU) (b : List Int) (hb : c.blocking = true)
    (h : run n c = RunResult.returned false c1) :
    ∃ j, ∀ k, run (j + k) (ext c b) = run k (ext c1 b) := by
  induction n generalizing c with
  | zero =>
    unfold run at h
    exact absurd h (by simp)
  | succ n ih =>
    unfold run at h
    rcases hx : c.execute with _ | ⟨r, c2⟩
    · rw [hx] at h
      exact absurd h (by simp)
    · rw [hx] at h
      cases r with
      | true =>
        dsimp only at h
        obtain ⟨_, _, _, e1, _⟩ := execute_spec c c2 true hx
        obtain ⟨j, hj⟩ := ih c2 (e1.trans hb) h
        refine ⟨j + 1, fun k => ?_⟩
        have e : j + 1 + k = (j + k) + 1 := by omega
        rw [e]
        conv_lhs => unfold run
        rw [execute_ext_true c c2 b hb hx]
        exact hj k
      | false =>
        simp only [RunResult.returned.injEq] at h
        obtain ⟨h1, rfl⟩ := h
        obtain ⟨e1, _⟩ := execute_paused c c2 hx h1
        rw [e1]
        exact ⟨0, fun k => by rw [Nat.zero_add]⟩

/-- A halt word inside the memory: `execute` moves `ip` past it, sets the
halted flag and returns `false`. -/
theorem execute_of_halt_word (c : CPU) (w : Int) (hw : c.current_word = some w)
    (hop : w.tmod 100 = 99) :
    c.execute = some (false, { c with ip := c.ip + 1, halted := true }) := by
  unfold execute
  rw [fetch_of_current_word c w hw]
  simp [hop]

/-! ## Halting and pausing -/

/-- C2: in blocking mode, `execute` on a machine whose input queue is empty and
whose instruction word at `ip` (inside the memory) has opcode 3 returns `false`
and leaves the whole machine as it was; a second `execute` without new input
therefore gives the same result.  The machine of `07/doit.cc`, which always
blocks and whose `ip` is a 32-bit `unsigned`, does the same. -/
theorem execute_starved_read :
    (∀ (c : CPU) (w : Int), c.blocking = true → c.input_values = [] →
      c.current_word = some w → w.tmod 100 = 3 →
      c.execute = some (false, c) ∧
        ∀ r c1, c.execute = some (r, c1) → c1.execute = some (r, c1)) ∧
    (∀ (c : Day07.CPU) (w : Int), c.ip < 4294967296 → c.input_values = [] →
      c.memory[c.ip]? = some w → w.tmod 100 = 3 →
      c.execute = some (false, c) ∧
        ∀ r c1, c.execute = some (r, c1) → c1.execute = some (r, c1)) := by
  constructor
  · intro c w hb hq hw hop
    have h : c.execute = some (false, c) := by
      unfold execute
      rw [fetch_of_current_word c w hw]
      simp only [hop, hb, hq]
      cases c
      simp_all
    refine ⟨h, ?_⟩
    intro r c1 h1
    rw [h] at h1
    simp only [Option.some.injEq, Prod.mk.injEq] at h1
    obtain ⟨rfl, rfl⟩ := h1
    exact h
  · intro c w hip hq hw hop
    have hlt : c.ip < c.memory.length := by
      rcases Nat.lt_or_ge c.ip c.memory.length with h1 | h1
      · exact h1
      · rw [List.getElem?_eq_none h1] at hw
        exact absurd hw (by simp)
    have hf : c.fetch = some (w, { c with ip := (c.ip + 1) % 4294967296 }) := by
      unfold Day07.CPU.fetch Day07.CPU.mem
      rw [if_pos hlt, List.getD_eq_getElem?_getD, hw]
      rfl
    have hback : ((c.ip + 1) % 4294967296 + 4294967295) % 4294967296 = c.ip := by omega
    have h : c.execute = some (false, c) := by
      unfold Day07.CPU.execute
      rw [hf]
      have n1 : w.tmod 100 ≠ 1 := by omega
      have n2 : w.tmod 100 ≠ 2 := by omega
      simp only [if_neg n1, if_neg n2, if_pos hop, if_pos hq, hback]
    refine ⟨h, ?_⟩
    intro r c1 h1
    rw [h] at h1
    simp only [Option.some.injEq, Prod.mk.injEq] at h1
    obtain ⟨rfl, rfl⟩ := h1
    exact h

/-- C2 at the program `[3,0,4,0,99]` with no input, in both machines. -/
theorem execute_starved_read_witness :
    ((ofProgram [3, 0, 4, 0, 99]).blocking = true ∧
      (ofProgram [3, 0, 4, 0, 99]).input_values = [] ∧
      (ofProgram [3, 0, 4, 0, 99]).current_word = some 3 ∧
      (ofProgram [3, 0, 4, 0, 99]).execute = some (false, ofProgram [3, 0, 4, 0, 99])) ∧
    (({ memory := [3, 0, 4, 0, 99] } : Day07.CPU).ip < 4294967296 ∧
      ({ memory := [3, 0, 4, 0, 99] } : Day07.CPU).input_values = [] ∧
      ({ memory := [3, 0, 4, 0, 99] } : Day07.CPU).execute =
        some (false, { memory := [3, 0, 4, 0, 99] })) :=
  ⟨⟨rfl, rfl, rfl,
      (execute_starved_read.1 (ofProgram [3, 0, 4, 0, 99]) 3 rfl rfl rfl (by decide)).1⟩,
    ⟨by decide, rfl,
      (execute_starved_read.2 { memory := [3, 0, 4, 0, 99] } 3 (by decide) rfl rfl
        (by decide)).1⟩⟩

/-- C4: `execute` on an instruction word whose opcode (word `%` 100) is 99 sets
the halted flag and returns `false`; the machine afterwards differs from the
one before only in the halted flag and in `ip` (moved past the word), so the
memory, the relative base and both queues are unchanged. -/
theorem execute_halt (c : CPU) (w : Int) (hw : c.current_word = some w)
    (hop : w.tmod 100 = 99) :
    c.execute = some (false, { c with ip := c.ip + 1, halted := true }) ∧
      ∀ c1, c.execute = some (false, c1) →
        c1.halted = true ∧ c1.memory = c.memory ∧ c1.rel_base = c.rel_base ∧
          c1.input_values = c.input_values ∧ c1.output_values = c.output_values := by
  have h := execute_of_halt_word c w hw hop
  refine ⟨h, ?_⟩
  intro c1 h1
  rw [h] at h1
  simp only [Option.some.injEq, Prod.mk.injEq, true_and] at h1
  subst h1
  exact ⟨rfl, rfl, rfl, rfl, rfl⟩

/-- C4 at the word `1099` (opcode 99 with non-zero mode digits). -/
theorem execute_halt_witness :
    (ofProgram [1099]).current_word = some 1099 ∧
      (ofProgram [1099]).execute =
        some (false, { memory := [1099], ip := 1, halted := true }) :=
  ⟨rfl, (execute_halt (ofProgram [1099]) 1099 rfl (by decide)).1⟩

/-- C7: for every integer `v`, the machine built from `[3,0,4,0,99]` and given
the single input `v` runs to halt: `run` returns `true`, the output queue is
`[v]` and the input queue is empty. -/
theorem echo_program (v : Int) :
    run 3 ((ofProgram [3, 0, 4, 0, 99]).give_input v) =
      RunResult.returned true
        { memory := [v, 0, 4, 0, 99], ip := 5, halted := true,
          input_values := [], output_values := [v] } := by
  have f1 : ((ofProgram [3, 0, 4, 0, 99]).give_input v).fetch =
      some (3, { memory := [3, 0, 4, 0, 99], ip := 1, input_values := [v] }) :=
    fetch_of_current_word _ 3 rfl
  have f2 : ({ memory := [3, 0, 4, 0, 99], ip := 1 } : CPU).fetch =
      some (0, { memory := [3, 0, 4, 0, 99], ip := 2 }) :=
    fetch_of_current_word _ 0 rfl
  have s1 : ({ memory := [3, 0, 4, 0, 99], ip := 1 } : CPU).store 0 v =
      some { memory := [v, 0, 4, 0, 99], ip := 2 } := by
    unfold store
    rw [f2]
    simp [mem_assign, grow]
  have e1 : ((ofProgram [3, 0, 4, 0, 99]).give_input v).execute =
      some (true, { memory := [v, 0, 4, 0, 99], ip := 2 }) := by
    have t1 : Int.tmod 3 100 = 3 := by decide
    have t2 : Int.tdiv 3 100 = 0 := by decide
    unfold execute
    rw [f1]
    simp [get_input, s1, t1, t2]
  have f3 : ({ memory := [v, 0, 4, 0, 99], ip := 2 } : CPU).fetch =
      some (4, { memory := [v, 0, 4, 0, 99], ip := 3 }) :=
    fetch_of_current_word _ 4 rfl
  have f4 : ({ memory := [v, 0, 4, 0, 99], ip := 3 } : CPU).fetch =
      some (0, { memory := [v, 0, 4, 0, 99], ip := 4 }) :=
    fetch_of_current_word _ 0 rfl
  have a1 : ({ memory := [v, 0, 4, 0, 99], ip := 3 } : CPU).arg 0 =
      some (v, { memory := [v, 0, 4, 0, 99], ip := 4 }, 0) := by
    have t1 : Int.tmod 0 10 = 0 := by decide
    have t2 : Int.tdiv 0 10 = 0 := by decide
    unfold arg
    rw [f4]
    simp [mem, grow, t1, t2]
  have e2 : ({ memory := [v, 0, 4, 0, 99], ip := 2 } : CPU).execute =
      some (true, { memory := [v, 0, 4, 0, 99], ip := 4, output_values := [v] }) := by
    have t1 : Int.tmod 4 100 = 4 := by decide
    have t2 : Int.tdiv 4 100 = 0 := by decide
    unfold execute
    rw [f3]
    simp [a1, save_output, t1, t2]
  have e3 : ({ memory := [v, 0, 4, 0, 99], ip := 4, output_values := [v] } : CPU).execute =
      some (false, { memory := [v, 0, 4, 0, 99], ip := 5, halted := true, output_values := [v] }) :=
    execute_of_halt_word _ 99 rfl (by decide)
  simp [run, e1, e2, e3]

/-- C1: pause/resume equivalence in blocking mode.  If `run` on the machine `m`
with `a` appended to its input queue returns `false` (paused) and leaves `m1`,
then `run` on `m1` with `b` appended and a single `run` on `m` with `a ++ b`
appended come to the same result: one returns or aborts exactly when the other
does, with the same returned value and the same final machine (all seven
members).  A machine on which `run` returns `false` was not halted on entry,
which is the first part of the conclusion. -/
theorem pause_resume (m m1 : CPU) (a b : List Int) (n : Nat) (hb : m.blocking = true)
    (hrun : run n (m.give_inputs a) = RunResult.returned false m1) :
    m.halted = false ∧
      ∀ r, r ≠ RunResult.unfinished →
        ((∃ k, run k (m1.give_inputs b) = r) ↔ (∃ k, run k (m.give_inputs (a ++ b)) = r)) := by
  rw [give_inputs_eq_ext] at hrun
  have hp : m.halted = false := by
    obtain ⟨k, s, h1, h2, h3⟩ := run_returned n _ m1 false hrun
    obtain ⟨e1, _⟩ := execute_paused s m1 h2 h3.symm
    rw [e1] at h3
    exact ((steps_flags k _ s h1).1.symm.trans h3.symm)
  refine ⟨hp, ?_⟩
  intro r hr
  obtain ⟨j, hj⟩ := run_ext n (ext m a) m1 b hb hrun
  rw [give_inputs_eq_ext, give_inputs_eq_ext, ← ext_ext]
  constructor
  · rintro ⟨k, hk⟩
    exact ⟨j + k, (hj k).trans hk⟩
  · rintro ⟨k, hk⟩
    refine ⟨k, ?_⟩
    rw [← hj k, Nat.add_comm]
    exact run_mono k j _ r hk hr

/-- C1 at the program `[3,0,3,1,4,0,4,1,99]` (read twice, write both values):
with the input `5` it pauses at the second read, and resuming with `6` gives
the result of a single run with `5, 6`. -/
theorem pause_resume_witness :
    (ofProgram [3, 0, 3, 1, 4, 0, 4, 1, 99]).blocking = true ∧
      run 2 ((ofProgram [3, 0, 3, 1, 4, 0, 4, 1, 99]).give_inputs [5]) =
        RunResult.returned false { memory := [5, 0, 3, 1, 4, 0, 4, 1, 99], ip := 2 } ∧
      ((∃ k, run k (({ memory := [5, 0, 3, 1, 4, 0, 4, 1, 99], ip := 2 } : CPU).give_inputs [6]) =
          RunResult.returned true { memory := [5, 6, 3, 1, 4, 0, 4, 1, 99], ip := 9,
                                    halted := true, output_values := [5, 6] }) ↔
        (∃ k, run k ((ofProgram [3, 0, 3, 1, 4, 0, 4, 1, 99]).give_inputs ([5] ++ [6])) =
          RunResult.returned true { memory := [5, 6, 3, 1, 4, 0, 4, 1, 99], ip := 9,
                                    halted := true, output_values := [5, 6] })) :=
  ⟨rfl, by decide,
    (pause_resume (ofProgram [3, 0, 3, 1, 4, 0, 4, 1, 99])
      { memory := [5, 0, 3, 1, 4, 0, 4, 1, 99], ip := 2 } [5] [6] 2 rfl (by decide)).2 _
      (by simp)⟩

/-- C3: when `run` on a machine that is not halted returns, the last `execute`
call was made in a machine `s` (reached by calls that returned `true`) at an
instruction word `w`; `run` returns `true` exactly when `w` is a halt, and
returns `false` exactly when `s` is in blocking mode with an empty input queue
and `w` is a read, which was not executed (the machine left is `s`). -/
theorem run_return_value (m m1 : CPU) (n : Nat) (r : Bool) (hh : m.halted = false)
    (hrun : run n m = RunResult.returned r m1) :
    ∃ k s w, steps k m = some s ∧ s.current_word = some w ∧
      s.execute = some (false, m1) ∧
      (r = true ↔ w.tmod 100 = 99) ∧
      (r = false ↔
        (s.blocking = true ∧ s.input_values = [] ∧ w.tmod 100 = 3 ∧ m1 = s)) := by
  obtain ⟨k, s, h1, h2, h3⟩ := run_returned n m m1 r hrun
  have hs : s.halted = false := (steps_flags k m s h1).1.trans hh
  obtain ⟨w, c0, hf, _, e2⟩ := execute_spec s m1 false h2
  rcases e2 with ⟨e3, _⟩ | ⟨_, e3, e4⟩ | ⟨_, e3, e4, e5, e6⟩
  · exact absurd e3 (by simp)
  · have hw : w ≠ 0 := by
      intro h0
      rw [h0] at e3
      exact absurd e3 (by decide)
    obtain ⟨f1, _⟩ := fetch_nonzero s c0 w hf hw
    have hr : r = true := by rw [h3, e4]
    refine ⟨k, s, w, h1, f1, h2, ⟨fun _ => e3, fun _ => hr⟩, ?_⟩
    constructor
    · intro h
      rw [hr] at h
      exact absurd h (by simp)
    · rintro ⟨_, _, h, _⟩
      rw [e3] at h
      exact absurd h (by decide)
  · have hw : w ≠ 0 := by
      intro h0
      rw [h0] at e3
      exact absurd e3 (by decide)
    obtain ⟨f1, f2⟩ := fetch_nonzero s c0 w hf hw
    have hm : m1 = s := by
      rw [e6, f2]
      cases s
      simp
    have hr : r = false := by rw [h3, hm, hs]
    refine ⟨k, s, w, h1, f1, h2, ?_, fun _ => ⟨e4, e5, e3, hm⟩, fun _ => hr⟩
    constructor
    · intro h
      rw [hr] at h
      exact absurd h (by simp)
    · intro h
      rw [e3] at h
      exact absurd h (by decide)

/-- C5, as the code has it: `execute` and `run` do not look at the halted flag on
entry.  On a machine whose flag is set, `execute` fetches and executes the word
at `ip` as it does with the flag clear (same returned value, same machine
afterwards but for the flag, which stays set), and `run` goes on in the same way
until an `execute` returns `false`, and then returns `true`. -/
theorem execute_ignores_halted (c : CPU) :
    (with_halted c true).execute = c.execute.map (fun p => (p.1, with_halted p.2 true)) ∧
      ∀ n, run n (with_halted c true) =
        match run n c with
        | RunResult.returned _ c1 => RunResult.returned true (with_halted c1 true)
        | RunResult.aborted => RunResult.aborted
        | RunResult.unfinished => RunResult.unfinished := by
  have hex : ∀ c : CPU,
      (with_halted c true).execute = c.execute.map (fun p => (p.1, with_halted p.2 true)) :=
    fun c => execute_remap_all (fun _ => true) id rfl c Iff.rfl (fun _ _ _ => rfl)
  refine ⟨hex c, fun n => ?_⟩
  induction n generalizing c with
  | zero => rfl
  | succ n ih =>
    unfold run
    rw [hex c]
    rcases c.execute with _ | ⟨r, c2⟩
    · rfl
    · cases r with
      | true => exact ih c2
      | false => rfl

/-- C5 is not what the code does: after the halt of `[99,104,7,99]` the flag is
set, and a further `execute` does not abort: it runs the output instruction
that follows the halt and returns `true`; a further `run` returns too. -/
theorem halted_machine_executes :
    run 1 (ofProgram [99, 104, 7, 99]) =
        RunResult.returned true { memory := [99, 104, 7, 99], ip := 1, halted := true } ∧
      ({ memory := [99, 104, 7, 99], ip := 1, halted := true } : CPU).execute =
        some (true, { memory := [99, 104, 7, 99], ip := 3, halted := true,
                      output_values := [7] }) ∧
      run 2 { memory := [99, 104, 7, 99], ip := 1, halted := true } =
        RunResult.returned true { memory := [99, 104, 7, 99], ip := 4, halted := true,
                                  output_values := [7] } := by
  decide

/-- C3 at the program `[3,0,99]` with no input: `run` returns `false`, paused at
the read. -/
theorem run_return_value_witness :
    (ofProgram [3, 0, 99]).halted = false ∧
      run 1 (ofProgram [3, 0, 99]) = RunResult.returned false (ofProgram [3, 0, 99]) ∧
      ∃ k s w, steps k (ofProgram [3, 0, 99]) = some s ∧ s.current_word = some w ∧
        s.execute = some (false, ofProgram [3, 0, 99]) ∧
        (false = true ↔ w.tmod 100 = 99) ∧
        (false = false ↔
          (s.blocking = true ∧ s.input_values = [] ∧ w.tmod 100 = 3 ∧
            ofProgram [3, 0, 99] = s)) :=
  ⟨rfl, by decide,
    run_return_value (ofProgram [3, 0, 99]) (ofProgram [3, 0, 99]) 1 false rfl (by decide)⟩

/-! ## Arithmetic instructions -/

/-- In mode 2 `store` assigns at operand word + relative base. -/
theorem store_relative (s s1 : CPU) (o v : Int) (hf : s.fetch = some (o, s1)) :
    s.store 2 v = s1.mem_assign (o + s.rel_base) v := by
  obtain ⟨_, _, _, f4, _⟩ := fetch_spec s s1 o hf
  unfold store
  rw [hf]
  simp [f4.1]

/-- The function `arg` resolves the next operand under the lowest decimal
digit of its mode argument, and hands on the mode without that digit. -/
theorem arg_eq_operand (c : CPU) (md : Int) :
    c.arg md = (c.operand (digit md 0)).map (fun p => (p.1, p.2, md.tdiv 10)) := by
  unfold arg operand resolve
  rw [digit_zero]
  cases c.fetch with
  | none => rfl
  | some p =>
    obtain ⟨v, c1⟩ := p
    dsimp only
    split_ifs
    · cases c1.mem v <;> rfl
    · cases c1.mem (v + c1.rel_base) <;> rfl
    · rfl

theorem arg_of_operand_none (c : CPU) (md : Int) (h : c.operand (digit md 0) = none) :
    c.arg md = none := by
  rw [arg_eq_operand, h]
  rfl

theorem arg_of_operand_some (c c1 : CPU) (md a : Int)
    (h : c.operand (digit md 0) = some (a, c1)) :
    c.arg md = some (a, c1, md.tdiv 10) := by
  rw [arg_eq_operand, h]
  rfl

/-- C9: the addressing mode of the `i`-th value operand of an instruction word
`w` is the `i`-th decimal digit of `w / 100`, whatever the other digits are.
`arg` resolves its operand under digit 0 of its mode and hands on the mode
divided by 10, whose digit `i` is digit `i + 1` of the mode before; so in
every instruction with value operands the first is resolved under digit 0 of
`w / 100` and the second under digit 1.  For the word `1002` these are 0
(position) and 1 (immediate), and `[1002,4,3,4,33]` run to halt leaves 99 at
address 4. -/
theorem operand_mode_digits :
    (∀ (c : CPU) (md : Int),
      c.arg md = (c.operand (digit md 0)).map (fun p => (p.1, p.2, md.tdiv 10))) ∧
    (∀ (md : Int) (i : Nat), digit (md.tdiv 10) i = digit md (i + 1)) ∧
    (∀ (c : CPU) (md md1 : Int), digit md 0 = digit md1 0 →
      (c.arg md).map (fun p => (p.1, p.2.1)) = (c.arg md1).map (fun p => (p.1, p.2.1))) ∧
    (∀ (c c0 : CPU) (w : Int), c.fetch = some (w, c0) →
      (w.tmod 100 = 1 ∨ w.tmod 100 = 2 ∨ w.tmod 100 = 7 ∨ w.tmod 100 = 8) →
      c.execute =
        match c0.operand (digit (w.tdiv 100) 0) with
        | none => none
        | some (a, c1) =>
          match c1.operand (digit (w.tdiv 100) 1) with
          | none => none
          | some (b, c2) =>
            (c2.store (((w.tdiv 100).tdiv 10).tdiv 10)
              (if w.tmod 100 = 1 then a + b
                else if w.tmod 100 = 2 then a * b
                else if w.tmod 100 = 7 then ofBool (decide (a < b))
                else ofBool (decide (a = b)))).map (fun c3 => (true, c3))) ∧
    (∀ (c c0 : CPU) (w : Int), c.fetch = some (w, c0) →
      (w.tmod 100 = 5 ∨ w.tmod 100 = 6) →
      c.execute =
        match c0.operand (digit (w.tdiv 100) 0) with
        | none => none
        | some (a, c1) =>
          match c1.operand (digit (w.tdiv 100) 1) with
          | none => none
          | some (b, c2) =>
            some (true, if (w.tmod 100 = 5 ∧ a ≠ 0) ∨ (w.tmod 100 = 6 ∧ a = 0)
              then { c2 with ip := b } else c2)) ∧
    (∀ (c c0 : CPU) (w : Int), c.fetch = some (w, c0) →
      (w.tmod 100 = 4 ∨ w.tmod 100 = 9) →
      c.execute =
        match c0.operand (digit (w.tdiv 100) 0) with
        | none => none
        | some (a, c1) =>
          some (true, if w.tmod 100 = 4 then c1.save_output a
            else { c1 with rel_base := c1.rel_base + a })) ∧
    digit ((1002 : Int).tdiv 100) 0 = 0 ∧ digit ((1002 : Int).tdiv 100) 1 = 1 ∧
    run 2 (ofProgram [1002, 4, 3, 4, 33]) =
      RunResult.returned true { memory := [1002, 4, 3, 4, 99], ip := 5, halted := true } := by
  refine ⟨arg_eq_operand, digit_tdiv_ten, ?_, ?_, ?_, ?_, by decide, by decide, by decide⟩
  · intro c md md1 h
    rw [arg_eq_operand, arg_eq_operand, h]
    cases c.operand (digit md1 0) <;> rfl
  · intro c c0 w hf hop
    unfold execute
    rw [hf]
    dsimp only
    rcases hop with h | h | h | h
    · simp only [if_pos h]
      rcases h1 : c0.operand (digit (w.tdiv 100) 0) with _ | ⟨a, c1⟩
      · rw [arg_of_operand_none _ _ h1]
      rw [arg_of_operand_some _ _ _ _ h1]
      dsimp only
      rw [← digit_tdiv_ten]
      rcases h2 : c1.operand (digit ((w.tdiv 100).tdiv 10) 0) with _ | ⟨b, c2⟩
      · rw [arg_of_operand_none _ _ h2]
      rw [arg_of_operand_some _ _ _ _ h2]
    · have n1 : w.tmod 100 ≠ 1 := by omega
      simp only [if_neg n1, if_pos h]
      rcases h1 : c0.operand (digit (w.tdiv 100) 0) with _ | ⟨a, c1⟩
      · rw [arg_of_operand_none _ _ h1]
      rw [arg_of_operand_some _ _ _ _ h1]
      dsimp only
      rw [← digit_tdiv_ten]
      rcases h2 : c1.operand (digit ((w.tdiv 100).tdiv 10) 0) with _ | ⟨b, c2⟩
      · rw [arg_of_operand_none _ _ h2]
      rw [arg_of_operand_some _ _ _ _ h2]
    · have n1 : w.tmod 100 ≠ 1 := by omega
      have n2 : w.tmod 100 ≠ 2 := by omega
      have n3 : w.tmod 100 ≠ 3 := by omega
      have n4 : w.tmod 100 ≠ 4 := by omega
      have n5 : w.tmod 100 ≠ 5 := by omega
      have n6 : w.tmod 100 ≠ 6 := by omega
      simp only [if_neg n1, if_neg n2, if_neg n3, if_neg n4, if_neg n5, if_neg n6, if_pos h]
      rcases h1 : c0.operand (digit (w.tdiv 100) 0) with _ | ⟨a, c1⟩
      · rw [arg_of_operand_none _ _ h1]
      rw [arg_of_operand_some _ _ _ _ h1]
      dsimp only
      rw [← digit_tdiv_ten]
      rcases h2 : c1.operand (digit ((w.tdiv 100).tdiv 10) 0) with _ | ⟨b, c2⟩
      · rw [arg_of_operand_none _ _ h2]
      rw [arg_of_operand_some _ _ _ _ h2]
    · have n1 : w.tmod 100 ≠ 1 := by omega
      have n2 : w.tmod 100 ≠ 2 := by omega
      have n3 : w.tmod 100 ≠ 3 := by omega
      have n4 : w.tmod 100 ≠ 4 := by omega
      have n5 : w.tmod 100 ≠ 5 := by omega
      have n6 : w.tmod 100 ≠ 6 := by omega
      have n7 : w.tmod 100 ≠ 7 := by omega
      simp only [if_neg n1, if_neg n2, if_neg n3, if_neg n4, if_neg n5, if_neg n6, if_neg n7, if_pos h]
      rcases h1 : c0.operand (digit (w.tdiv 100) 0) with _ | ⟨a, c1⟩
      · rw [arg_of_operand_none _ _ h1]
      rw [arg_of_operand_some _ _ _ _ h1]
      dsimp only
      rw [← digit_tdiv_ten]
      rcases h2 : c1.operand (digit ((w.tdiv 100).tdiv 10) 0) with _ | ⟨b, c2⟩
      · rw [arg_of_operand_none _ _ h2]
      rw [arg_of_operand_some _ _ _ _ h2]
  · intro c c0 w hf hop
    unfold execute
    rw [hf]
    dsimp only
    rcases hop with h | h
    · have n1 : w.tmod 100 ≠ 1 := by omega
      have n2 : w.tmod 100 ≠ 2 := by omega
      have n3 : w.tmod 100 ≠ 3 := by omega
      have n4 : w.tmod 100 ≠ 4 := by omega
      simp only [if_neg n1, if_neg n2, if_neg n3, if_neg n4, if_pos h]
      rcases h1 : c0.operand (digit (w.tdiv 100) 0) with _ | ⟨a, c1⟩
      · rw [arg_of_operand_none _ _ h1]
      rw [arg_of_operand_some _ _ _ _ h1]
      dsimp only
      rw [← digit_tdiv_ten]
      rcases h2 : c1.operand (digit ((w.tdiv 100).tdiv 10) 0) with _ | ⟨b, c2⟩
      · rw [arg_of_operand_none _ _ h2]
      rw [arg_of_operand_some _ _ _ _ h2]
      simp only [h, true_and]
      have e6 : ¬ ((5 : Int) = 6) := by decide
      simp only [e6, false_and, or_false]
    · have n1 : w.tmod 100 ≠ 1 := by omega
      have n2 : w.tmod 100 ≠ 2 := by omega
      have n3 : w.tmod 100 ≠ 3 := by omega
      have n4 : w.tmod 100 ≠ 4 := by omega
      have n5 : w.tmod 100 ≠ 5 := by omega
      simp only [if_neg n1, if_neg n2, if_neg n3, if_neg n4, if_neg n5, if_pos h]
      rcases h1 : c0.operand (digit (w.tdiv 100) 0) with _ | ⟨a, c1⟩
      · rw [arg_of_operand_none _ _ h1]
      rw [arg_of_operand_some _ _ _ _ h1]
      dsimp only
      rw [← digit_tdiv_ten]
      rcases h2 : c1.operand (digit ((w.tdiv 100).tdiv 10) 0) with _ | ⟨b, c2⟩
      · rw [arg_of_operand_none _ _ h2]
      rw [arg_of_operand_some _ _ _ _ h2]
      simp only [h, true_and]
      have e5 : ¬ ((6 : Int) = 5) := by decide
      simp only [e5, false_and, false_or]
  · intro c c0 w hf hop
    unfold execute
    rw [hf]
    dsimp only
    rcases hop with h | h
    · have n1 : w.tmod 100 ≠ 1 := by omega
      have n2 : w.tmod 100 ≠ 2 := by omega
      have n3 : w.tmod 100 ≠ 3 := by omega
      simp only [if_neg n1, if_neg n2, if_neg n3, if_pos h]
      rcases h1 : c0.operand (digit (w.tdiv 100) 0) with _ | ⟨a, c1⟩
      · rw [arg_of_operand_none _ _ h1]
      rw [arg_of_operand_some _ _ _ _ h1]
    · have n1 : w.tmod 100 ≠ 1 := by omega
      have n2 : w.tmod 100 ≠ 2 := by omega
      have n3 : w.tmod 100 ≠ 3 := by omega
      have n4 : w.tmod 100 ≠ 4 := by omega
      have n5 : w.tmod 100 ≠ 5 := by omega
      have n6 : w.tmod 100 ≠ 6 := by omega
      have n7 : w.tmod 100 ≠ 7 := by omega
      have n8 : w.tmod 100 ≠ 8 := by omega
      simp only [if_neg n1, if_neg n2, if_neg n3, if_neg n4, if_neg n5, if_neg n6, if_neg n7, if_neg n8, if_pos h]
      rcases h1 : c0.operand (digit (w.tdiv 100) 0) with _ | ⟨a, c1⟩
      · rw [arg_of_operand_none _ _ h1]
      rw [arg_of_operand_some _ _ _ _ h1]

/-- C9 at the word `1002` of `[1002,4,3,4,33]`: the first operand is resolved
under digit 0 of `10` (position) and the second under digit 1 (immediate). -/
theorem operand_mode_digits_witness :
    (ofProgram [1002, 4, 3, 4, 33]).fetch =
        some (1002, { memory := [1002, 4, 3, 4, 33], ip := 1 }) ∧
      (ofProgram [1002, 4, 3, 4, 33]).execute =
        match ({ memory := [1002, 4, 3, 4, 33], ip := 1 } : CPU).operand
            (digit ((1002 : Int).tdiv 100) 0) with
        | none => none
        | some (a, c1) =>
          match c1.operand (digit ((1002 : Int).tdiv 100) 1) with
          | none => none
          | some (b, c2) =>
            (c2.store ((((1002 : Int).tdiv 100).tdiv 10).tdiv 10)
              (if (1002 : Int).tmod 100 = 1 then a + b
                else if (1002 : Int).tmod 100 = 2 then a * b
                else if (1002 : Int).tmod 100 = 7 then ofBool (decide (a < b))
                else ofBool (decide (a = b)))).map (fun c3 => (true, c3)) :=
  ⟨by decide,
    operand_mode_digits.2.2.2.1 (ofProgram [1002, 4, 3, 4, 33])
      { memory := [1002, 4, 3, 4, 33], ip := 1 } 1002 (by decide) (Or.inr (Or.inl (by decide)))⟩

/-! ## The write target -/

theorem tdiv_hundred_ten_ten (w : Int) : ((w.tdiv 100).tdiv 10).tdiv 10 = w.tdiv 10000 := by
  have h1 := tdiv_tdiv_nat w 100 10
  have h2 := tdiv_tdiv_nat w 1000 10
  have e : ((100 * 10 : Nat) : Int) = ((1000 : Nat) : Int) := rfl
  rw [e] at h1
  have h3 : (((w.tdiv ((100 : Nat) : Int)).tdiv ((10 : Nat) : Int)).tdiv ((10 : Nat) : Int)) =
      w.tdiv ((1000 * 10 : Nat) : Int) := by rw [h1, h2]
  exact h3

/-- C10, as the code has it: the write target is decided by the whole mode value
that is left when the target is reached, which is `w / 10000` for the opcodes
1, 2, 7 and 8 and `w / 100` for opcode 3.  The value 0 makes `store` assign at
the operand word, the value 2 at operand word + relative base, and with every
other value `store` aborts: a non-zero decimal digit above the target's own
position aborts the instruction. -/
theorem store_target_mode :
    (∀ (s : CPU) (md v : Int),
      s.store md v =
        if md = 0 then
          match s.fetch with
          | none => none
          | some (o, s1) => s1.mem_assign o v
        else if md = 2 then
          match s.fetch with
          | none => none
          | some (o, s1) => s1.mem_assign (o + s.rel_base) v
        else none) ∧
    (∀ (c c0 c1 c2 : CPU) (w a b m1 m2 : Int), c.fetch = some (w, c0) →
      (w.tmod 100 = 1 ∨ w.tmod 100 = 2 ∨ w.tmod 100 = 7 ∨ w.tmod 100 = 8) →
      c0.arg (w.tdiv 100) = some (a, c1, m1) → c1.arg m1 = some (b, c2, m2) →
      c.execute =
        (c2.store (w.tdiv 10000)
          (if w.tmod 100 = 1 then a + b
            else if w.tmod 100 = 2 then a * b
            else if w.tmod 100 = 7 then ofBool (decide (a < b))
            else ofBool (decide (a = b)))).map (fun c3 => (true, c3))) ∧
    (∀ (c c0 c1 : CPU) (w v : Int), c.fetch = some (w, c0) → w.tmod 100 = 3 →
      ¬ (c0.blocking = true ∧ c0.input_values = []) → c0.get_input = some (v, c1) →
      c.execute = (c1.store (w.tdiv 100) v).map (fun c2 => (true, c2))) := by
  refine ⟨?_, ?_, ?_⟩
  · intro s md v
    unfold store
    by_cases h0 : md = 0
    · have h2 : md ≠ 2 := by omega
      simp only [h0, true_or, if_true]
      cases s.fetch with
      | none => rfl
      | some p => simp
    · by_cases h2 : md = 2
      · obtain rfl := h2
        simp only [or_true, if_true, if_neg h0]
        cases hf : s.fetch with
        | none => rfl
        | some p =>
          obtain ⟨o, s1⟩ := p
          obtain ⟨_, _, _, f4, _⟩ := fetch_spec s s1 o hf
          simp [f4.1]
      · have h : ¬ (md = 0 ∨ md = 2) := by omega
        simp only [if_neg h, if_neg h0, if_neg h2]
  · intro c c0 c1 c2 w a b m1 m2 hf hop ha hb
    obtain ⟨_, _, _, e1⟩ := arg_spec c0 c1 _ a m1 ha
    obtain ⟨_, _, _, e2⟩ := arg_spec c1 c2 _ b m2 hb
    have hm : m2 = w.tdiv 10000 := by rw [e2, e1, tdiv_hundred_ten_ten]
    rw [← hm]
    unfold execute
    rw [hf]
    dsimp only
    rcases hop with h | h | h | h
    · simp only [if_pos h]
      rw [ha]
      dsimp only
      rw [hb]
    · have n1 : w.tmod 100 ≠ 1 := by omega
      simp only [if_neg n1, if_pos h]
      rw [ha]
      dsimp only
      rw [hb]
    · have n1 : w.tmod 100 ≠ 1 := by omega
      have n2 : w.tmod 100 ≠ 2 := by omega
      have n3 : w.tmod 100 ≠ 3 := by omega
      have n4 : w.tmod 100 ≠ 4 := by omega
      have n5 : w.tmod 100 ≠ 5 := by omega
      have n6 : w.tmod 100 ≠ 6 := by omega
      simp only [if_neg n1, if_neg n2, if_neg n3, if_neg n4, if_neg n5, if_neg n6, if_pos h]
      rw [ha]
      dsimp only
      rw [hb]
    · have n1 : w.tmod 100 ≠ 1 := by omega
      have n2 : w.tmod 100 ≠ 2 := by omega
      have n3 : w.tmod 100 ≠ 3 := by omega
      have n4 : w.tmod 100 ≠ 4 := by omega
      have n5 : w.tmod 100 ≠ 5 := by omega
      have n6 : w.tmod 100 ≠ 6 := by omega
      have n7 : w.tmod 100 ≠ 7 := by omega
      simp only [if_neg n1, if_neg n2, if_neg n3, if_neg n4, if_neg n5, if_neg n6, if_neg n7, if_pos h]
      rw [ha]
      dsimp only
      rw [hb]
  · intro c c0 c1 w v hf hop hp hg
    unfold execute
    rw [hf]
    dsimp only
    have n1 : w.tmod 100 ≠ 1 := by omega
    have n2 : w.tmod 100 ≠ 2 := by omega
    simp only [if_neg n1, if_neg n2, if_pos hop, if_neg hp]
    rw [hg]

/-- C10 at the instruction `1,0,0,0` of `[1,0,0,0,99]`: the mode left at the
target is `1 / 10000 = 0`, and the sum is stored at the operand word. -/
theorem store_target_mode_witness :
    (ofProgram [1, 0, 0, 0, 99]).execute =
      (({ memory := [1, 0, 0, 0, 99], ip := 3 } : CPU).store ((1 : Int).tdiv 10000)
        (if (1 : Int).tmod 100 = 1 then 1 + 1
          else if (1 : Int).tmod 100 = 2 then 1 * 1
          else if (1 : Int).tmod 100 = 7 then ofBool (decide ((1 : Int) < 1))
          else ofBool (decide ((1 : Int) = 1)))).map (fun c3 => (true, c3)) :=
  store_target_mode.2.1 (ofProgram [1, 0, 0, 0, 99])
    { memory := [1, 0, 0, 0, 99], ip := 1 } { memory := [1, 0, 0, 0, 99], ip := 2 }
    { memory := [1, 0, 0, 0, 99], ip := 3 } 1 1 1 0 0 (by decide) (Or.inl (by decide))
    (by decide) (by decide)

/-- C10 is not what the code does: in the word `100001` the digit at the write
target's own position (digit 2 of `100001 / 100`) is 0 and only a higher digit
is set, yet `execute` does not store at the operand word: it aborts, where the
same instruction with the word `1` stores the sum at address 0. -/
theorem higher_mode_digit_aborts :
    digit ((100001 : Int).tdiv 100) 2 = 0 ∧
      (ofProgram [100001, 0, 0, 0, 99]).execute = none ∧
      (ofProgram [1, 0, 0, 0, 99]).execute =
        some (true, { memory := [2, 0, 0, 0, 99], ip := 4 }) := by
  decide

/-! ## Aborts -/

theorem tmod_nonpos (w : Int) (h : w ≤ 0) : w.tmod 100 ≤ 0 := by
  cases w with
  | ofNat n =>
    have hn : n = 0 := by
      have h1 : (n : Int) ≤ 0 := h
      omega
    subst hn
    decide
  | negSucc n =>
    show -(((n + 1) % 100 : Nat) : Int) ≤ 0
    omega

/-- With a mode other than 0 and 2, `store` aborts at its first statement. -/
theorem store_of_bad_mode (s : CPU) (md v : Int) (h0 : md ≠ 0) (h2 : md ≠ 2) :
    s.store md v = none := by
  unfold store
  have h : ¬ (md = 0 ∨ md = 2) := by omega
  rw [if_neg h]

/-- A mode whose lowest digit is 1 is neither 0 nor 2. -/
theorem mode_of_digit_one (md : Int) (h : md.tmod 10 = 1) : md ≠ 0 ∧ md ≠ 2 := by
  constructor
  · intro h0
    rw [h0] at h
    exact absurd h (by decide)
  · intro h2
    rw [h2] at h
    exact absurd h (by decide)

/-- The two value operands and then the store of the opcodes 1, 2, 7 and 8:
when the mode handed to the first `arg` has digit 2 equal to 1, the whole
aborts. -/
theorem args_store_abort (c0 : CPU) (md : Int) (f : Int → Int → Int)
    (hd : digit md 2 = 1) :
    (match c0.arg md with
      | none => none
      | some (arg1, c1, mode1) =>
        match c1.arg mode1 with
        | none => none
        | some (arg2, c2, mode2) =>
          (c2.store mode2 (f arg1 arg2)).map (fun c3 => (true, c3))) = none := by
  rcases ha : c0.arg md with _ | ⟨a, c1, m1⟩
  · rfl
  dsimp only
  rcases hb : c1.arg m1 with _ | ⟨b, c2, m2⟩
  · rfl
  dsimp only
  obtain ⟨_, _, _, e1⟩ := arg_spec c0 c1 md a m1 ha
  obtain ⟨_, _, _, e2⟩ := arg_spec c1 c2 m1 b m2 hb
  have hm : m2.tmod 10 = 1 := by
    rw [e2, e1, ← digit_zero, digit_tdiv_ten, digit_tdiv_ten]
    exact hd
  obtain ⟨h0, h2⟩ := mode_of_digit_one m2 hm
  rw [store_of_bad_mode c2 m2 _ h0 h2]
  rfl

/-- C11: `execute` aborts whenever it comes to a write target whose mode digit
is 1 (immediate).  `store` asserts before it fetches or assigns anything, so
nothing is written.  For the opcodes 1, 2, 7 and 8 (target digit: digit 2 of
`w / 100`) `execute` always aborts; for opcode 3 (target digit: digit 0) it
aborts whenever the read does not pause. -/
theorem immediate_write_target_aborts :
    (∀ (s : CPU) (md v : Int), md.tmod 10 = 1 → s.store md v = none) ∧
    (∀ (c c0 : CPU) (w : Int), c.fetch = some (w, c0) →
      (w.tmod 100 = 1 ∨ w.tmod 100 = 2 ∨ w.tmod 100 = 7 ∨ w.tmod 100 = 8) →
      digit (w.tdiv 100) 2 = 1 → c.execute = none) ∧
    (∀ (c c0 : CPU) (w : Int), c.fetch = some (w, c0) → w.tmod 100 = 3 →
      digit (w.tdiv 100) 0 = 1 → ¬ (c.blocking = true ∧ c.input_values = []) →
      c.execute = none) := by
  refine ⟨?_, ?_, ?_⟩
  · intro s md v h
    obtain ⟨h0, h2⟩ := mode_of_digit_one md h
    exact store_of_bad_mode s md v h0 h2
  · intro c c0 w hf hop hd
    unfold execute
    rw [hf]
    dsimp only
    rcases hop with h | h | h | h
    · simp only [if_pos h]
      exact args_store_abort c0 (w.tdiv 100) (fun a b => a + b) hd
    · have n1 : w.tmod 100 ≠ 1 := by omega
      simp only [if_neg n1, if_pos h]
      exact args_store_abort c0 (w.tdiv 100) (fun a b => a * b) hd
    · have n1 : w.tmod 100 ≠ 1 := by omega
      have n2 : w.tmod 100 ≠ 2 := by omega
      have n3 : w.tmod 100 ≠ 3 := by omega
      have n4 : w.tmod 100 ≠ 4 := by omega
      have n5 : w.tmod 100 ≠ 5 := by omega
      have n6 : w.tmod 100 ≠ 6 := by omega
      simp only [if_neg n1, if_neg n2, if_neg n3, if_neg n4, if_neg n5, if_neg n6, if_pos h]
      exact args_store_abort c0 (w.tdiv 100) (fun a b => ofBool (decide (a < b))) hd
    · have n1 : w.tmod 100 ≠ 1 := by omega
      have n2 : w.tmod 100 ≠ 2 := by omega
      have n3 : w.tmod 100 ≠ 3 := by omega
      have n4 : w.tmod 100 ≠ 4 := by omega
      have n5 : w.tmod 100 ≠ 5 := by omega
      have n6 : w.tmod 100 ≠ 6 := by omega
      have n7 : w.tmod 100 ≠ 7 := by omega
      simp only [if_neg n1, if_neg n2, if_neg n3, if_neg n4, if_neg n5, if_neg n6, if_neg n7, if_pos h]
      exact args_store_abort c0 (w.tdiv 100) (fun a b => ofBool (decide (a = b))) hd
  · intro c c0 w hf hop hd hp
    obtain ⟨_, _, _, f4, _⟩ := fetch_spec c c0 w hf
    have hp0 : ¬ (c0.blocking = true ∧ c0.input_values = []) := by
      rw [f4.2.2.1, f4.2.2.2.1]
      exact hp
    have hm : (w.tdiv 100).tmod 10 = 1 := by
      rw [← digit_zero]
      exact hd
    obtain ⟨h0, h2⟩ := mode_of_digit_one _ hm
    unfold execute
    rw [hf]
    dsimp only
    have n1 : w.tmod 100 ≠ 1 := by omega
    have n2 : w.tmod 100 ≠ 2 := by omega
    simp only [if_neg n1, if_neg n2, if_pos hop, if_neg hp0]
    rcases c0.get_input with _ | ⟨v, c1⟩
    · rfl
    dsimp only
    rw [store_of_bad_mode c1 _ v h0 h2]
    rfl

/-- C11 at the words `10001` (add with an immediate target) and `103` (read
with an immediate target, input queued). -/
theorem immediate_write_target_aborts_witness :
    (ofProgram [10001, 0, 0, 0, 99]).execute = none ∧
      (({ memory := [103, 0, 99], input_values := [7] } : CPU)).execute = none :=
  ⟨immediate_write_target_aborts.2.1 (ofProgram [10001, 0, 0, 0, 99])
      { memory := [10001, 0, 0, 0, 99], ip := 1 } 10001 (by decide) (Or.inl (by decide))
      (by decide),
    immediate_write_target_aborts.2.2 { memory := [103, 0, 99], input_values := [7] }
      { memory := [103, 0, 99], ip := 1, input_values := [7] } 103 (by decide) (by decide)
      (by decide) (by decide)⟩

/-- C12: `execute` on an instruction word `w` whose opcode `w % 100` is none of
1, ..., 9, 99 aborts: the `default` case asserts `op == halt`.  This is so for
the word 0 and for every negative word, whose remainder is never positive in
C++; a `run` that comes to such a word aborts too. -/
theorem unknown_opcode_aborts :
    (∀ (c c0 : CPU) (w : Int), c.fetch = some (w, c0) →
      w.tmod 100 ≠ 1 → w.tmod 100 ≠ 2 → w.tmod 100 ≠ 3 → w.tmod 100 ≠ 4 →
      w.tmod 100 ≠ 5 → w.tmod 100 ≠ 6 → w.tmod 100 ≠ 7 → w.tmod 100 ≠ 8 →
      w.tmod 100 ≠ 9 → w.tmod 100 ≠ 99 →
      c.execute = none ∧ ∀ n, run (n + 1) c = RunResult.aborted) ∧
    (∀ (c c0 : CPU) (w : Int), c.fetch = some (w, c0) → w ≤ 0 →
      c.execute = none ∧ ∀ n, run (n + 1) c = RunResult.aborted) := by
  have key : ∀ (c c0 : CPU) (w : Int), c.fetch = some (w, c0) →
      w.tmod 100 ≠ 1 → w.tmod 100 ≠ 2 → w.tmod 100 ≠ 3 → w.tmod 100 ≠ 4 →
      w.tmod 100 ≠ 5 → w.tmod 100 ≠ 6 → w.tmod 100 ≠ 7 → w.tmod 100 ≠ 8 →
      w.tmod 100 ≠ 9 → w.tmod 100 ≠ 99 →
      c.execute = none ∧ ∀ n, run (n + 1) c = RunResult.aborted := by
    intro c c0 w hf n1 n2 n3 n4 n5 n6 n7 n8 n9 n99
    have he : c.execute = none := by
      unfold execute
      rw [hf]
      simp only [if_neg n1, if_neg n2, if_neg n3, if_neg n4, if_neg n5, if_neg n6, if_neg n7,
        if_neg n8, if_neg n9, if_neg n99]
    refine ⟨he, fun n => ?_⟩
    unfold run
    rw [he]
  refine ⟨key, ?_⟩
  intro c c0 w hf hw
  have h := tmod_nonpos w hw
  exact key c c0 w hf (by omega) (by omega) (by omega) (by omega) (by omega) (by omega)
    (by omega) (by omega) (by omega) (by omega)

/-- C12 at the words `55`, `0` and `-1`. -/
theorem unknown_opcode_aborts_witness :
    (ofProgram [55, 99]).execute = none ∧ (ofProgram [0, 99]).execute = none ∧
      (ofProgram [-1, 99]).execute = none :=
  ⟨(unknown_opcode_aborts.1 (ofProgram [55, 99]) { memory := [55, 99], ip := 1 } 55
      (by decide) (by decide) (by decide) (by decide) (by decide) (by decide) (by decide)
      (by decide) (by decide) (by decide) (by decide)).1,
    (unknown_opcode_aborts.2 (ofProgram [0, 99]) { memory := [0, 99], ip := 1 } 0
      (by decide) (by decide)).1,
    (unknown_opcode_aborts.2 (ofProgram [-1, 99]) { memory := [-1, 99], ip := 1 } (-1)
      (by decide) (by decide)).1⟩

/-- C14: every memory access at a negative address is fatal.  `mem` with a
negative address aborts, as a value and as the target of an assignment; so do
a fetch (and with it `execute`) at a negative `ip`, a position-mode operand
with a negative word, a relative-mode operand with word + relative base
negative, and a write target whose address (the word, or word + relative
base) is negative. -/
theorem negative_address_aborts :
    (∀ (c : CPU) (a v : Int), a < 0 → c.mem a = none ∧ c.mem_assign a v = none) ∧
    (∀ (c : CPU), c.ip < 0 →
      c.fetch = none ∧ c.execute = none ∧ ∀ n, run (n + 1) c = RunResult.aborted) ∧
    (∀ (c c1 : CPU) (o md : Int), c.fetch = some (o, c1) → md.tmod 10 = 0 → o < 0 →
      c.arg md = none) ∧
    (∀ (c c1 : CPU) (o md : Int), c.fetch = some (o, c1) → md.tmod 10 = 2 →
      o + c.rel_base < 0 → c.arg md = none) ∧
    (∀ (c c1 : CPU) (o v : Int), c.fetch = some (o, c1) → o + c.rel_base < 0 →
      c.store 2 v = none) ∧
    (∀ (c c1 : CPU) (o v : Int), c.fetch = some (o, c1) → o < 0 → c.store 0 v = none) := by
  have hmem : ∀ (c : CPU) (a : Int), a < 0 → c.mem a = none := by
    intro c a ha
    unfold mem
    rw [if_pos ha]
  have hset : ∀ (c : CPU) (a v : Int), a < 0 → c.mem_assign a v = none := by
    intro c a v ha
    unfold mem_assign
    rw [if_pos ha]
  refine ⟨fun c a v ha => ⟨hmem c a ha, hset c a v ha⟩, ?_, ?_, ?_, ?_, ?_⟩
  · intro c hip
    have hf : c.fetch = none := hmem _ _ hip
    have he : c.execute = none := by
      unfold execute
      rw [hf]
    refine ⟨hf, he, fun n => ?_⟩
    unfold run
    rw [he]
  · intro c c1 o md hf hm ho
    unfold arg
    rw [hf]
    dsimp only
    rw [if_pos hm, hmem c1 o ho]
  · intro c c1 o md hf hm ho
    obtain ⟨_, _, _, f4, _⟩ := fetch_spec c c1 o hf
    have h0 : md.tmod 10 ≠ 0 := by omega
    unfold arg
    rw [hf]
    dsimp only
    rw [if_neg h0, if_pos hm, f4.1, hmem c1 _ ho]
  · intro c c1 o v hf ho
    rw [store_relative c c1 o v hf]
    exact hset c1 _ v ho
  · intro c c1 o v hf ho
    unfold store
    rw [hf]
    simp [hset c1 o v ho]

/-- C14 at the programs `[4,-1]` (position-mode operand with word -1) and
`[204,-1]` (relative-mode operand, base 0), and at `ip = -1`. -/
theorem negative_address_aborts_witness :
    ({ memory := [4, -1], ip := 1 } : CPU).arg 0 = none ∧
      ({ memory := [204, -1], ip := 1 } : CPU).arg 2 = none ∧
      ({ memory := [99], ip := -1 } : CPU).execute = none :=
  ⟨negative_address_aborts.2.2.1 { memory := [4, -1], ip := 1 } { memory := [4, -1], ip := 2 }
      (-1) 0 (by decide) (by decide) (by decide),
    negative_address_aborts.2.2.2.1 { memory := [204, -1], ip := 1 }
      { memory := [204, -1], ip := 2 } (-1) 2 (by decide) (by decide) (by decide),
    (negative_address_aborts.2.1 { memory := [99], ip := -1 } (by decide)).2.1⟩

/-! ## Memory growth -/

/-- A successful `mem` at a non-negative address, spelled out. -/
theorem mem_of_nonneg (c : CPU) (a : Int) (h : 0 ≤ a) :
    c.mem a = some (c.memory.getD a.toNat 0, { c with memory := grow c.memory a.toNat }) := by
  unfold mem
  have h1 : ¬ a < 0 := by omega
  rw [if_neg h1]
  simp only [getD_grow]

/-- A successful assignment through `mem` at a non-negative address, spelled
out. -/
theorem mem_assign_of_nonneg (c : CPU) (a v : Int) (h : 0 ≤ a) :
    c.mem_assign a v =
      some { c with memory := (grow c.memory a.toNat).set a.toNat v } := by
  unfold mem_assign
  have h1 : ¬ a < 0 := by omega
  rw [if_neg h1]

/-- When the write target resolves to a non-negative address, `store` assigns
there. -/
theorem store_of_target (c c1 : CPU) (md d v : Int) (hd : c.store_target md = some (d, c1))
    (hd0 : 0 ≤ d) :
    c.store md v = some { c1 with memory := (grow c1.memory d.toNat).set d.toNat v } := by
  rw [store_eq, hd]
  exact mem_assign_of_nonneg c1 d v hd0

/-- C18: in non-blocking mode, `execute` on a read instruction (opcode 3) with
an empty input queue does not pause: it stores -1 at the write target,
advances `ip` by 2, returns `true` and leaves the input queue empty.  With a
non-empty input queue, in non-blocking mode and in blocking mode alike, it
stores the front of the queue at the write target and removes it from the
queue.  In both cases the relative base, the flags, the output queue and
every other cell that existed are unchanged.  The write target is what `store`
computes, at a non-negative address `d`. -/
theorem execute_read :
    (∀ (c c0 c1 : CPU) (w d : Int), c.blocking = false → c.input_values = [] →
      c.fetch = some (w, c0) → w.tmod 100 = 3 →
      c0.store_target (w.tdiv 100) = some (d, c1) → 0 ≤ d →
      ∃ c2, c.execute = some (true, c2) ∧ c2.memory[d.toNat]? = some (-1) ∧
        c2.ip = c.ip + 2 ∧ c2.input_values = [] ∧ c2.rel_base = c.rel_base ∧
        c2.halted = c.halted ∧ c2.blocking = c.blocking ∧
        c2.output_values = c.output_values ∧
        ∀ i, i < c.memory.length → i ≠ d.toNat → c2.memory[i]? = c.memory[i]?) ∧
    (∀ (c c0 c1 : CPU) (w d v : Int) (rest : List Int), c.input_values = v :: rest →
      c.fetch = some (w, c0) → w.tmod 100 = 3 →
      c0.store_target (w.tdiv 100) = some (d, c1) → 0 ≤ d →
      ∃ c2, c.execute = some (true, c2) ∧ c2.memory[d.toNat]? = some v ∧
        c2.ip = c.ip + 2 ∧ c2.input_values = rest ∧ c2.rel_base = c.rel_base ∧
        c2.halted = c.halted ∧ c2.blocking = c.blocking ∧
        c2.output_values = c.output_values ∧
        ∀ i, i < c.memory.length → i ≠ d.toNat → c2.memory[i]? = c.memory[i]?) := by
  constructor
  · intro c c0 c1 w d hb hq hf hop hd hd0
    obtain ⟨_, _, f3, f4, f5⟩ := fetch_spec c c0 w hf
    obtain ⟨_, t3, t4, t5, _⟩ := store_target_spec c0 c1 _ d hd
    have hb0 : c0.blocking = false := f4.2.2.1.trans hb
    have hq0 : c0.input_values = [] := f4.2.2.2.1.trans hq
    have hp : ¬ (c0.blocking = true ∧ c0.input_values = []) := by
      rw [hb0]
      simp
    have hg : c0.get_input = some (-1, c0) := by
      unfold get_input
      rw [if_pos ⟨hb0, hq0⟩]
    have hex : c.execute =
        some (true, { c1 with memory := (grow c1.memory d.toNat).set d.toNat (-1) }) := by
      unfold execute
      rw [hf]
      dsimp only
      have n1 : w.tmod 100 ≠ 1 := by omega
      have n2 : w.tmod 100 ≠ 2 := by omega
      simp only [if_neg n1, if_neg n2, if_pos hop, if_neg hp]
      rw [hg]
      dsimp only
      rw [store_of_target c0 c1 _ d (-1) hd hd0]
      rfl
    have rr := sameRegs_trans f4 t4
    have zz : ZeroExt c.memory (grow c1.memory d.toNat) :=
      zeroExt_trans (zeroExt_trans f5 t5) (zeroExt_grow _ _)
    refine ⟨_, hex, ?_, ?_, ?_, rr.1, rr.2.1, rr.2.2.1, rr.2.2.2.2, ?_⟩
    · show ((grow c1.memory d.toNat).set d.toNat _)[d.toNat]? = _
      rw [List.getElem?_set_self (lt_length_grow _ _)]
    · show c1.ip = c.ip + 2
      omega
    · show c1.input_values = []
      rw [rr.2.2.2.1, hq]
    · intro i hi hne
      show ((grow c1.memory d.toNat).set d.toNat _)[i]? = _
      rw [List.getElem?_set_ne (Ne.symm hne)]
      exact zeroExt_getElem? zz i hi
  · intro c c0 c1 w d v rest hq hf hop hd hd0
    obtain ⟨_, _, f3, f4, f5⟩ := fetch_spec c c0 w hf
    obtain ⟨_, t3, t4, t5, _⟩ := store_target_spec c0 c1 _ d hd
    have hq0 : c0.input_values = v :: rest := f4.2.2.2.1.trans hq
    have hp : ¬ (c0.blocking = true ∧ c0.input_values = []) := by
      rw [hq0]
      simp
    have hg : c0.get_input = some (v, remap id (fun _ => rest) c0) := by
      unfold get_input
      rw [hq0]
      simp only [reduceCtorEq, and_false, if_false]
      rfl
    have hex : c.execute =
        some (true, remap id (fun _ => rest)
          { c1 with memory := (grow c1.memory d.toNat).set d.toNat v }) := by
      unfold execute
      rw [hf]
      dsimp only
      have n1 : w.tmod 100 ≠ 1 := by omega
      have n2 : w.tmod 100 ≠ 2 := by omega
      simp only [if_neg n1, if_neg n2, if_pos hop, if_neg hp]
      rw [hg]
      dsimp only
      rw [store_remap, store_of_target c0 c1 _ d v hd hd0]
      rfl
    have rr := sameRegs_trans f4 t4
    have zz : ZeroExt c.memory (grow c1.memory d.toNat) :=
      zeroExt_trans (zeroExt_trans f5 t5) (zeroExt_grow _ _)
    refine ⟨_, hex, ?_, ?_, rfl, rr.1, rr.2.1, rr.2.2.1, rr.2.2.2.2, ?_⟩
    · show ((grow c1.memory d.toNat).set d.toNat _)[d.toNat]? = _
      rw [List.getElem?_set_self (lt_length_grow _ _)]
    · show c1.ip = c.ip + 2
      omega
    · intro i hi hne
      show ((grow c1.memory d.toNat).set d.toNat _)[i]? = _
      rw [List.getElem?_set_ne (Ne.symm hne)]
      exact zeroExt_getElem? zz i hi

/-- C18 at the program `[3,2,99]`: non-blocking with no input it stores -1 at
address 2; with the input `7` queued it stores 7, in blocking mode too. -/
theorem execute_read_witness :
    ({ memory := [3, 2, 99], blocking := false } : CPU).execute =
        some (true, { memory := [3, 2, -1], ip := 2, blocking := false }) ∧
      (∃ c2, ({ memory := [3, 2, 99], blocking := false } : CPU).execute = some (true, c2) ∧
        c2.memory[(2 : Int).toNat]? = some (-1) ∧ c2.input_values = []) ∧
      (∃ c2, ({ memory := [3, 2, 99], input_values := [7] } : CPU).execute = some (true, c2) ∧
        c2.memory[(2 : Int).toNat]? = some 7 ∧ c2.input_values = []) :=
  ⟨by decide,
   match execute_read.1 { memory := [3, 2, 99], blocking := false }
      { memory := [3, 2, 99], ip := 1, blocking := false }
      { memory := [3, 2, 99], ip := 2, blocking := false } 3 2 rfl rfl (by decide) (by decide)
      (by decide) (by decide) with
    | ⟨c2, h1, h2, _, h4, _⟩ => ⟨c2, h1, h2, h4⟩,
   match execute_read.2 { memory := [3, 2, 99], input_values := [7] }
      { memory := [3, 2, 99], ip := 1, input_values := [7] }
      { memory := [3, 2, 99], ip := 2, input_values := [7] } 3 2 7 [] rfl (by decide)
      (by decide) (by decide) (by decide) with
    | ⟨c2, h1, h2, _, h4, _⟩ => ⟨c2, h1, h2, h4⟩⟩

/-! ## The queues -/

/-- C19: `a.transmit(b)` appends the output values of `a`, in their order, to
the end of the input queue of `b` and leaves the output queue of `a` empty.
Nothing else changes in either machine (the input queue of `a`, the output
queue of `b`, memory, `ip`, relative base and flags of both), and a second
`transmit` right after changes nothing.  The same holds for `transmit` of
`07/doit.cc`. -/
theorem transmit_moves_output :
    (∀ a b : CPU,
      (a.transmit b).2.input_values = b.input_values ++ a.output_values ∧
      (a.transmit b).1.output_values = [] ∧
      (a.transmit b).1 = { a with output_values := [] } ∧
      (a.transmit b).2 = { b with input_values := (a.transmit b).2.input_values } ∧
      (a.transmit b).1.input_values = a.input_values ∧
      (a.transmit b).2.output_values = b.output_values ∧
      (a.transmit b).1.memory = a.memory ∧ (a.transmit b).2.memory = b.memory ∧
      (a.transmit b).1.ip = a.ip ∧ (a.transmit b).2.ip = b.ip ∧
      (a.transmit b).1.rel_base = a.rel_base ∧ (a.transmit b).2.rel_base = b.rel_base ∧
      (a.transmit b).1.halted = a.halted ∧ (a.transmit b).2.halted = b.halted ∧
      (a.transmit b).1.transmit (a.transmit b).2 = a.transmit b) ∧
    (∀ a b : Day07.CPU,
      (a.transmit b).2.input_values = b.input_values ++ a.output_values ∧
      (a.transmit b).1.output_values = [] ∧
      (a.transmit b).1 = { a with output_values := [] } ∧
      (a.transmit b).2 = { b with input_values := (a.transmit b).2.input_values } ∧
      (a.transmit b).1.input_values = a.input_values ∧
      (a.transmit b).2.output_values = b.output_values ∧
      (a.transmit b).1.memory = a.memory ∧ (a.transmit b).2.memory = b.memory ∧
      (a.transmit b).1.ip = a.ip ∧ (a.transmit b).2.ip = b.ip ∧
      (a.transmit b).1.halted = a.halted ∧ (a.transmit b).2.halted = b.halted ∧
      (a.transmit b).1.transmit (a.transmit b).2 = a.transmit b) := by
  constructor
  · intro a b
    refine ⟨rfl, rfl, rfl, rfl, rfl, rfl, rfl, rfl, rfl, rfl, rfl, rfl, rfl, rfl, ?_⟩
    unfold transmit
    simp
  · intro a b
    refine ⟨rfl, rfl, rfl, rfl, rfl, rfl, rfl, rfl, rfl, rfl, rfl, rfl, ?_⟩
    unfold Day07.CPU.transmit
    simp

/-- The machine after some `save_output` calls. -/
theorem foldl_save_output (vs : List Int) (c : CPU) :
    vs.foldl save_output c = { c with output_values := c.output_values ++ vs } := by
  induction vs generalizing c with
  | nil => simp
  | cons v rest ih =>
    rw [List.foldl_cons, ih]
    unfold save_output
    simp

/-- As many `get_output` calls as the queue is long return the queue, front
first, and empty it. -/
theorem get_outputs_all (q : List Int) (c : CPU) (h : c.output_values = q) :
    get_outputs q.length c = some (q, { c with output_values := [] }) := by
  induction q generalizing c with
  | nil =>
    unfold get_outputs
    cases c
    simp_all
  | cons v rest ih =>
    have hg : c.get_output = some (v, { c with output_values := rest }) := by
      unfold get_output
      rw [h]
    rw [List.length_cons]
    unfold get_outputs
    rw [hg]
    dsimp only
    rw [ih { c with output_values := rest } rfl]

/-- C20: the output queue is first in, first out.  `get_output` returns the
front of the queue and removes it; a write instruction (opcode 4) appends its
value at the back; so after values have been emitted one after another, as
many `get_output` calls return what was queued before and then the emitted
values in the order of emission.  `last_output` gives the value emitted last
(it is `const`: it has no effect on the machine). -/
theorem output_queue_fifo :
    (∀ (c : CPU) (v : Int) (rest : List Int), c.output_values = v :: rest →
      c.get_output = some (v, { c with output_values := rest })) ∧
    (∀ (c c0 c1 : CPU) (w v md : Int), c.fetch = some (w, c0) → w.tmod 100 = 4 →
      c0.arg (w.tdiv 100) = some (v, c1, md) →
      c.execute = some (true, c1.save_output v) ∧
        (c1.save_output v).output_values = c.output_values ++ [v]) ∧
    (∀ (c : CPU) (vs : List Int),
      get_outputs (c.output_values.length + vs.length) (vs.foldl save_output c) =
        some (c.output_values ++ vs, { c with output_values := [] })) ∧
    (∀ (c : CPU) (v : Int), (c.save_output v).last_output = some v) ∧
    (∀ (c : CPU) (vs : List Int), vs ≠ [] →
      (vs.foldl save_output c).last_output = vs.getLast?) := by
  refine ⟨?_, ?_, ?_, ?_, ?_⟩
  · intro c v rest h
    unfold get_output
    rw [h]
  · intro c c0 c1 w v md hf hop ha
    obtain ⟨_, _, _, f4, _⟩ := fetch_spec c c0 w hf
    obtain ⟨_, a4, _, _⟩ := arg_spec c0 c1 _ v md ha
    constructor
    · unfold execute
      rw [hf]
      dsimp only
      have n1 : w.tmod 100 ≠ 1 := by omega
      have n2 : w.tmod 100 ≠ 2 := by omega
      have n3 : w.tmod 100 ≠ 3 := by omega
      simp only [if_neg n1, if_neg n2, if_neg n3, if_pos hop]
      rw [ha]
    · show c1.output_values ++ [v] = c.output_values ++ [v]
      rw [a4.2.2.2.2, f4.2.2.2.2]
  · intro c vs
    rw [foldl_save_output]
    have h := get_outputs_all (c.output_values ++ vs)
      { c with output_values := c.output_values ++ vs } rfl
    rw [List.length_append] at h
    exact h
  · intro c v
    unfold last_output save_output
    simp
  · intro c vs hvs
    rw [foldl_save_output]
    unfold last_output
    show (c.output_values ++ vs).getLast? = vs.getLast?
    rw [List.getLast?_append_of_ne_nil _ hvs]

/-- C20 at the program `[104,5,104,6,99]`: the two write instructions emit 5 and
then 6, and two `get_output` calls return 5 and then 6. -/
theorem output_queue_fifo_witness :
    (ofProgram [104, 5, 104, 6, 99]).execute =
        some (true, ({ memory := [104, 5, 104, 6, 99], ip := 2 } : CPU).save_output 5) ∧
      get_outputs 2 ([5, 6].foldl save_output (ofProgram [104, 5, 104, 6, 99])) =
        some ([5, 6], ofProgram [104, 5, 104, 6, 99]) ∧
      ([5, 6].foldl save_output (ofProgram [104, 5, 104, 6, 99])).last_output = some 6 :=
  ⟨(output_queue_fifo.2.1 (ofProgram [104, 5, 104, 6, 99])
      { memory := [104, 5, 104, 6, 99], ip := 1 } { memory := [104, 5, 104, 6, 99], ip := 2 }
      104 5 0 (by decide) (by decide) (by decide)).1,
    output_queue_fifo.2.2.1 (ofProgram [104, 5, 104, 6, 99]) [5, 6],
    output_queue_fifo.2.2.2.2 (ofProgram [104, 5, 104, 6, 99]) [5, 6] (by decide)⟩

/-- C21: `get_output` and `last_output` abort when the output queue is empty.
Otherwise `get_output` returns the front of the queue and leaves the machine
as it was but for the removal of that value, and `last_output` returns the
back of the queue (it is `const`: the machine is as it was). -/
theorem output_accessors :
    (∀ c : CPU, c.output_values = [] → c.get_output = none ∧ c.last_output = none) ∧
    (∀ (c : CPU) (v : Int) (rest : List Int), c.output_values = v :: rest →
      c.get_output = some (v, { c with output_values := rest }) ∧
      c.last_output = some ((v :: rest).getLast (List.cons_ne_nil v rest))) := by
  constructor
  · intro c h
    unfold get_output last_output
    rw [h]
    exact ⟨rfl, rfl⟩
  · intro c v rest h
    unfold get_output last_output
    rw [h]
    exact ⟨rfl, List.getLast?_eq_getLast _ _⟩

/-- C21 at the queues `[]` and `[5,6]`. -/
theorem output_accessors_witness :
    (ofProgram [99]).get_output = none ∧ (ofProgram [99]).last_output = none ∧
      ({ memory := [99], output_values := [5, 6] } : CPU).get_output =
        some (5, { memory := [99], output_values := [6] }) ∧
      ({ memory := [99], output_values := [5, 6] } : CPU).last_output = some 6 :=
  ⟨(output_accessors.1 (ofProgram [99]) rfl).1, (output_accessors.1 (ofProgram [99]) rfl).2,
    (output_accessors.2 { memory := [99], output_values := [5, 6] } 5 [6] rfl).1,
    (output_accessors.2 { memory := [99], output_values := [5, 6] } 5 [6] rfl).2⟩

/-! ## Jumps -/

/-- C30: for opcode 5 (jump-if-true) with operands resolving to `a` and `t`,
`execute` returns `true` and sets `ip` to `t` when `a != 0`, and otherwise
leaves it just past the instruction, at the old `ip` + 3; for opcode 6
(jump-if-false) it sets `ip` to `t` when `a == 0` and otherwise leaves it at
the old `ip` + 3.  The relative base, the flags and both queues are unchanged,
and every memory cell that existed keeps its value. -/
theorem execute_jump :
    ∀ (c c0 c1 c2 : CPU) (w a t md1 md2 : Int),
      c.fetch = some (w, c0) → (w.tmod 100 = 5 ∨ w.tmod 100 = 6) →
      c0.arg (w.tdiv 100) = some (a, c1, md1) → c1.arg md1 = some (t, c2, md2) →
      ∃ c3, c.execute = some (true, c3) ∧
        c3.ip = (if (w.tmod 100 = 5 ∧ a ≠ 0) ∨ (w.tmod 100 = 6 ∧ a = 0) then t
          else c.ip + 3) ∧
        c3.rel_base = c.rel_base ∧ c3.halted = c.halted ∧ c3.blocking = c.blocking ∧
        c3.input_values = c.input_values ∧ c3.output_values = c.output_values ∧
        ∀ i, i < c.memory.length → c3.memory[i]? = c.memory[i]? := by
  intro c c0 c1 c2 w a t md1 md2 hf hop ha hb
  obtain ⟨_, _, f3, f4, f5⟩ := fetch_spec c c0 w hf
  obtain ⟨a3, a4, a5, _⟩ := arg_spec c0 c1 _ a md1 ha
  obtain ⟨b3, b4, b5, _⟩ := arg_spec c1 c2 _ t md2 hb
  have rr := sameRegs_trans (sameRegs_trans f4 a4) b4
  have zz := zeroExt_trans (zeroExt_trans f5 a5) b5
  have hip : c2.ip = c.ip + 3 := by omega
  have n1 : w.tmod 100 ≠ 1 := by omega
  have n2 : w.tmod 100 ≠ 2 := by omega
  have n3 : w.tmod 100 ≠ 3 := by omega
  have n4 : w.tmod 100 ≠ 4 := by omega
  rcases hop with h | h
  · have n6 : w.tmod 100 ≠ 6 := by omega
    have hex : c.execute = some (true, if a ≠ 0 then { c2 with ip := t } else c2) := by
      unfold execute
      rw [hf]
      dsimp only
      simp only [if_neg n1, if_neg n2, if_neg n3, if_neg n4, if_pos h]
      rw [ha]
      dsimp only
      rw [hb]
    refine ⟨_, hex, ?_, ?_, ?_, ?_, ?_, ?_, ?_⟩
    all_goals by_cases h0 : a = 0
    all_goals simp only [h0, h, n6, ne_eq, not_true_eq_false, not_false_eq_true, if_true,
      if_false, true_and, false_and, and_true, and_false, or_false, false_or, or_self]
    any_goals exact hip
    any_goals exact rr.1
    any_goals exact rr.2.1
    any_goals exact rr.2.2.1
    any_goals exact rr.2.2.2.1
    any_goals exact rr.2.2.2.2
    all_goals exact fun i hi => zeroExt_getElem? zz i hi
  · have n5 : w.tmod 100 ≠ 5 := by omega
    have hex : c.execute = some (true, if a = 0 then { c2 with ip := t } else c2) := by
      unfold execute
      rw [hf]
      dsimp only
      simp only [if_neg n1, if_neg n2, if_neg n3, if_neg n4, if_neg n5, if_pos h]
      rw [ha]
      dsimp only
      rw [hb]
    refine ⟨_, hex, ?_, ?_, ?_, ?_, ?_, ?_, ?_⟩
    all_goals by_cases h0 : a = 0
    all_goals simp only [h0, h, n5, ne_eq, not_true_eq_false, not_false_eq_true, if_true,
      if_false, true_and, false_and, and_true, and_false, or_false, false_or, or_self]
    any_goals exact hip
    any_goals exact rr.1
    any_goals exact rr.2.1
    any_goals exact rr.2.2.1
    any_goals exact rr.2.2.2.1
    any_goals exact rr.2.2.2.2
    all_goals exact fun i hi => zeroExt_getElem? zz i hi

/-- C30 at the instruction `1105,1,7` (jump taken, to 7) and at `1105,0,7` (not
taken, `ip` = 3). -/
theorem execute_jump_witness :
    (∃ c3, (ofProgram [1105, 1, 7, 99]).execute = some (true, c3) ∧ c3.ip = 7) ∧
      (∃ c3, (ofProgram [1105, 0, 7, 99]).execute = some (true, c3) ∧ c3.ip = 3) :=
  ⟨match execute_jump (ofProgram [1105, 1, 7, 99]) { memory := [1105, 1, 7, 99], ip := 1 }
      { memory := [1105, 1, 7, 99], ip := 2 } { memory := [1105, 1, 7, 99], ip := 3 }
      1105 1 7 1 0 (by decide) (Or.inl (by decide)) (by decide) (by decide) with
    | ⟨c3, h1, h2, _⟩ => ⟨c3, h1, h2⟩,
   match execute_jump (ofProgram [1105, 0, 7, 99]) { memory := [1105, 0, 7, 99], ip := 1 }
      { memory := [1105, 0, 7, 99], ip := 2 } { memory := [1105, 0, 7, 99], ip := 3 }
      1105 0 7 1 0 (by decide) (Or.inl (by decide)) (by decide) (by decide) with
    | ⟨c3, h1, h2, _⟩ => ⟨c3, h1, h2⟩⟩

end CPU

end Day23

/-! # The machines of `09/doit.cc`, `11/doit.cc` and `15/doit.cc` -/

namespace Day09

namespace CPU

/-- C13, what the code does: in `09/doit.cc` and `11/doit.cc` the `switch` of
`execute` has no `default`, so a word whose opcode is outside the table does
not abort: `execute` skips the word and returns `true`.  So it is for the
words 55, 0 and -1. -/
theorem unknown_opcode_skipped :
    (∀ (c c0 : CPU) (w : Int), c.fetch = Res.ok (w, c0) →
      w.tmod 100 ≠ 1 → w.tmod 100 ≠ 2 → w.tmod 100 ≠ 3 → w.tmod 100 ≠ 4 →
      w.tmod 100 ≠ 5 → w.tmod 100 ≠ 6 → w.tmod 100 ≠ 7 → w.tmod 100 ≠ 8 →
      w.tmod 100 ≠ 9 → w.tmod 100 ≠ 99 →
      c.execute = Res.ok (true, c0) ∧ Day11.execute c = Res.ok (true, c0)) ∧
    ({ memory := [55, 99] } : CPU).execute = Res.ok (true, { memory := [55, 99], ip := 1 }) ∧
    Day11.execute { memory := [55, 99] } = Res.ok (true, { memory := [55, 99], ip := 1 }) ∧
    ({ memory := [0, 99] } : CPU).execute = Res.ok (true, { memory := [0, 99], ip := 1 }) ∧
    ({ memory := [-1, 99] } : CPU).execute = Res.ok (true, { memory := [-1, 99], ip := 1 }) := by
  refine ⟨?_, by decide, by decide, by decide, by decide⟩
  intro c c0 w hf n1 n2 n3 n4 n5 n6 n7 n8 n9 n99
  have he : c.execute = Res.ok (true, c0) := by
    unfold execute
    rw [hf]
    simp only [Res.bind, if_neg n1, if_neg n2, if_neg n3, if_neg n4, if_neg n5, if_neg n6,
      if_neg n7, if_neg n8, if_neg n9, if_neg n99]
  exact ⟨he, he⟩

/-- The general part of `unknown_opcode_skipped` at the word 55 of `[55,99]`. -/
theorem unknown_opcode_skipped_witness :
    ({ memory := [55, 99] } : CPU).fetch = Res.ok (55, { memory := [55, 99], ip := 1 }) ∧
      ({ memory := [55, 99] } : CPU).execute =
        Res.ok (true, { memory := [55, 99], ip := 1 }) :=
  ⟨by decide,
    (unknown_opcode_skipped.1 { memory := [55, 99] } { memory := [55, 99], ip := 1 } 55
      (by decide) (by decide) (by decide) (by decide) (by decide) (by decide) (by decide)
      (by decide) (by decide) (by decide) (by decide)).1⟩

/-- C17, what the code does: in `09/doit.cc`, `11/doit.cc` and `15/doit.cc`,
`mem` at the address equal to the memory length does not resize the vector
(the test is `>`): the access indexes the vector out of bounds, as a value and
as the target of an assignment.  So the output instruction of `[4,3,99]`,
which reads address 3, has no defined result, where the machine of
`23/doit.cc` grows the memory to 103 cells and reads 0.  One address further
the memory does grow. -/
theorem mem_at_length_undefined :
    (∀ (c : CPU) (v : Int),
      c.mem c.memory.length = Res.undefined ∧ Day11.mem c c.memory.length = Res.undefined ∧
      Day15.mem c c.memory.length = Res.undefined ∧
      c.mem_assign c.memory.length v = Res.undefined) ∧
    ({ memory := [4, 3, 99] } : CPU).mem 3 = Res.undefined ∧
    ({ memory := [4, 3, 99] } : CPU).execute = Res.undefined ∧
    (({ memory := [4, 3, 99] } : CPU).mem 4).bind (fun p => Res.ok (p.1, p.2.memory.length)) =
      Res.ok (0, 104) ∧
    ((Day23.CPU.ofProgram [4, 3, 99]).mem 3).map (fun p => (p.1, p.2.memory.length)) =
      some (0, 103) := by
  refine ⟨?_, by decide, by decide, by decide, by decide⟩
  intro c v
  have hg : grow c.memory c.memory.length = c.memory := by
    unfold grow
    rw [if_neg (Nat.lt_irrefl _)]
  have h0 : ¬ ((c.memory.length : Int) < 0) := by omega
  have hm : c.mem c.memory.length = Res.undefined := by
    unfold mem
    rw [if_neg h0]
    simp only [Int.toNat_ofNat, hg, Nat.lt_irrefl, if_false]
  refine ⟨hm, hm, hm, ?_⟩
  unfold mem_assign
  rw [if_neg h0]
  simp only [Int.toNat_ofNat, hg, Nat.lt_irrefl, if_false]

end CPU

end Day09

/-! # The feedback pipeline of `07/doit.cc` -/

namespace Day07

namespace CPU

/-- The value that `run` returns is the halted flag of the machine it
leaves. -/
theorem run_halted (n : Nat) (c c1 : CPU) (done : Bool)
    (h : c.run n = Outcome.ok (done, c1)) : done = c1.halted := by
  induction n generalizing c with
  | zero =>
    unfold run at h
    exact absurd h (by simp)
  | succ n ih =>
    unfold run at h
    rcases hx : c.execute with _ | ⟨b, c2⟩
    · rw [hx] at h
      exact absurd h (by simp)
    · rw [hx] at h
      cases b with
      | true => exact ih c2 h
      | false =>
        simp only [Outcome.ok.injEq, Prod.mk.injEq] at h
        rw [← h.1, ← h.2]

theorem fetch_output (c c1 : CPU) (w : Int) (h : c.fetch = some (w, c1)) :
    c1.output_values = c.output_values ∧ c1.halted = c.halted := by
  unfold fetch at h
  rcases hm : c.mem c.ip with _ | v
  · rw [hm] at h
    exact absurd h (by simp)
  · rw [hm] at h
    simp only [Option.some.injEq, Prod.mk.injEq] at h
    rw [← h.2]
    exact ⟨rfl, rfl⟩

theorem arg_output (c c1 : CPU) (md v md1 : Int) (h : c.arg md = some (v, c1, md1)) :
    c1.output_values = c.output_values ∧ c1.halted = c.halted := by
  unfold arg at h
  rcases hf : c.fetch with _ | ⟨w, c0⟩
  · rw [hf] at h
    exact absurd h (by simp)
  · rw [hf] at h
    dsimp only at h
    have h0 := fetch_output c c0 w hf
    split_ifs at h
    · rcases hm : c0.mem (toUnsigned w) with _ | v2
      · rw [hm] at h
        exact absurd h (by simp)
      · rw [hm] at h
        simp only [Option.some.injEq, Prod.mk.injEq] at h
        rw [← h.2.1]
        exact h0
    · simp only [Option.some.injEq, Prod.mk.injEq] at h
      rw [← h.2.1]
      exact h0

theorem store_output (c c1 : CPU) (v : Int) (h : c.store v = some c1) :
    c1.output_values = c.output_values ∧ c1.halted = c.halted := by
  unfold store at h
  rcases hf : c.fetch with _ | ⟨w, c0⟩
  · rw [hf] at h
    exact absurd h (by simp)
  · rw [hf] at h
    dsimp only at h
    have h0 := fetch_output c c0 w hf
    split_ifs at h
    simp only [Option.some.injEq] at h
    rw [← h]
    exact h0

end CPU

theorem transmit_at_length (st : List CPU) (i j : Nat) :
    (transmit_at st i j).length = st.length := by
  unfold transmit_at
  split
  · split_ifs <;> simp
  · rfl

/-- What a step of the `for` loop that succeeds does to the flag
`last_halted`: it leaves it alone, or it is the step of the last stage, whose
`run` returned `true`, and then no transmit was done. -/
theorem stage_step_ok (fuel : Nat) (stages st : List CPU) (lh lh1 : Bool) (i : Nat)
    (h : stage_step fuel stages lh i = Outcome.ok (st, lh1)) :
    st.length = stages.length ∧ (i + 1 < stages.length → lh1 = lh) ∧
      (lh1 = lh ∨ (i + 1 = stages.length ∧ lh1 = true ∧
        ∃ c c1, stages[i]? = some c ∧ c.run fuel = Outcome.ok (true, c1) ∧
          st = stages.set i c1)) := by
  unfold stage_step at h
  rcases hc : stages[i]? with _ | c
  · rw [hc] at h
    exact absurd h (by simp)
  · rw [hc] at h
    dsimp only at h
    have hi : i < stages.length := by
      rcases Nat.lt_or_ge i stages.length with h1 | h1
      · exact h1
      · rw [List.getElem?_eq_none h1] at hc
        exact absurd hc (by simp)
    rcases hr : c.run fuel with ⟨done, c1⟩ | _ | _ | _
    · rw [hr] at h
      dsimp only at h
      rw [List.length_set] at h
      by_cases h1 : i + 1 < stages.length
      · rw [if_pos h1] at h
        simp only [Outcome.ok.injEq, Prod.mk.injEq] at h
        obtain ⟨rfl, rfl⟩ := h
        refine ⟨?_, fun _ => rfl, Or.inl rfl⟩
        rw [transmit_at_length, List.length_set]
      · rw [if_neg h1] at h
        cases done with
        | false =>
          simp only [if_true, Outcome.ok.injEq, Prod.mk.injEq] at h
          obtain ⟨rfl, rfl⟩ := h
          refine ⟨?_, fun _ => rfl, Or.inl rfl⟩
          rw [transmit_at_length, List.length_set]
        | true =>
          simp only [Bool.true_eq_false, if_false, Outcome.ok.injEq, Prod.mk.injEq] at h
          obtain ⟨rfl, rfl⟩ := h
          refine ⟨List.length_set _ _ _, fun h2 => absurd h2 h1, Or.inr ⟨by omega, rfl, ?_⟩⟩
          exact ⟨c, c1, rfl, hr, rfl⟩
    · rw [hr] at h
      exact absurd h (by simp)
    · rw [hr] at h
      exact absurd h (by simp)
    · rw [hr] at h
      exact absurd h (by simp)

theorem stages_loop_cons (fuel : Nat) (i : Nat) (rest : List Nat) (stages : List CPU)
    (lh : Bool) :
    stages_loop fuel (i :: rest) stages lh =
      match stage_step fuel stages lh i with
      | Outcome.ok (st, lh1) => stages_loop fuel rest st lh1
      | Outcome.aborted => Outcome.aborted
      | Outcome.undefined => Outcome.undefined
      | Outcome.unfinished => Outcome.unfinished := rfl

/-- The loop over a list of indices followed by another. -/
theorem stages_loop_append (fuel : Nat) (is js : List Nat) (stages : List CPU) (lh : Bool) :
    stages_loop fuel (is ++ js) stages lh =
      match stages_loop fuel is stages lh with
      | Outcome.ok (st, lh1) => stages_loop fuel js st lh1
      | Outcome.aborted => Outcome.aborted
      | Outcome.undefined => Outcome.undefined
      | Outcome.unfinished => Outcome.unfinished := by
  induction is generalizing stages lh with
  | nil => rfl
  | cons i rest ih =>
    rw [List.cons_append, stages_loop_cons, stages_loop_cons]
    rcases stage_step fuel stages lh i with ⟨st, lh1⟩ | _ | _ | _
    · exact ih st lh1
    · rfl
    · rfl
    · rfl

/-- Before the last stage the flag `last_halted` is not touched. -/
theorem stages_loop_inner (fuel : Nat) (is : List Nat) (stages st : List CPU) (lh lh1 : Bool)
    (his : ∀ i ∈ is, i + 1 < stages.length)
    (h : stages_loop fuel is stages lh = Outcome.ok (st, lh1)) :
    lh1 = lh ∧ st.length = stages.length := by
  induction is generalizing stages lh with
  | nil =>
    unfold stages_loop at h
    simp only [Outcome.ok.injEq, Prod.mk.injEq] at h
    exact ⟨h.2.symm, by rw [h.1]⟩
  | cons i rest ih =>
    unfold stages_loop at h
    rcases hs : stage_step fuel stages lh i with ⟨st1, lh2⟩ | _ | _ | _
    · rw [hs] at h
      dsimp only at h
      obtain ⟨e1, e2, _⟩ := stage_step_ok fuel stages st1 lh lh2 i hs
      have e3 := e2 (his i (List.mem_cons_self _ _))
      have his1 : ∀ j ∈ rest, j + 1 < st1.length := by
        intro j hj
        rw [e1]
        exact his j (List.mem_cons_of_mem _ hj)
      obtain ⟨r1, r2⟩ := ih st1 lh2 his1 h
      exact ⟨r1.trans e3, r2.trans e1⟩
    · rw [hs] at h
      exact absurd h (by simp)
    · rw [hs] at h
      exact absurd h (by simp)
    · rw [hs] at h
      exact absurd h (by simp)

/-- A round of the `for` loop that sets `last_halted` ends with the `run` of
the last stage returning `true`: the last stage is halted. -/
theorem round_flag (fuel : Nat) (stages st : List CPU)
    (h : stages_loop fuel (List.range stages.length) stages false = Outcome.ok (st, true)) :
    ∃ c, st.getLast? = some c ∧ c.halted = true := by
  rcases hn : stages.length with _ | m
  · rw [hn] at h
    simp only [List.range_zero] at h
    unfold stages_loop at h
    simp at h
  · rw [hn, List.range_succ, stages_loop_append] at h
    rcases h1 : stages_loop fuel (List.range m) stages false with ⟨st1, lh1⟩ | _ | _ | _
    · rw [h1] at h
      dsimp only at h
      have his : ∀ i ∈ List.range m, i + 1 < stages.length := by
        intro i hi
        rw [List.mem_range] at hi
        omega
      obtain ⟨r1, r2⟩ := stages_loop_inner fuel _ stages st1 false lh1 his h1
      subst r1
      unfold stages_loop at h
      rcases hs : stage_step fuel st1 false m with ⟨st2, lh2⟩ | _ | _ | _
      · rw [hs] at h
        dsimp only at h
        unfold stages_loop at h
        simp only [Outcome.ok.injEq, Prod.mk.injEq] at h
        obtain ⟨rfl, rfl⟩ := h
        obtain ⟨_, _, e3⟩ := stage_step_ok fuel st1 st2 false true m hs
        rcases e3 with e3 | ⟨_, _, c, c1, _, hr, rfl⟩
        · exact absurd e3 (by simp)
        · refine ⟨c1, ?_, (CPU.run_halted fuel c c1 true hr).symm⟩
          rw [List.getLast?_eq_getElem?, List.length_set]
          have hm : st1.length - 1 = m := by omega
          rw [hm]
          exact List.getElem?_set_self (by omega)
      · rw [hs] at h
        exact absurd h (by simp)
      · rw [hs] at h
        exact absurd h (by simp)
      · rw [hs] at h
        exact absurd h (by simp)
    · rw [h1] at h
      exact absurd h (by simp)
    · rw [h1] at h
      exact absurd h (by simp)
    · rw [h1] at h
      exact absurd h (by simp)

/-- When the `while` loop of `amplify` returns, the last stage is halted and the
value returned is the back of its output queue. -/
theorem amplify_loop_returned (fuel k : Nat) (stages st : List CPU) (v : Int)
    (h : amplify_loop fuel k stages = Outcome.ok (v, st)) :
    ∃ c, st.getLast? = some c ∧ c.halted = true ∧ c.output_values.getLast? = some v := by
  induction k generalizing stages with
  | zero =>
    unfold amplify_loop at h
    exact absurd h (by simp)
  | succ k ih =>
    unfold amplify_loop at h
    rcases hr : stages_loop fuel (List.range stages.length) stages false with
      ⟨st1, lh⟩ | _ | _ | _
    · rw [hr] at h
      cases lh with
      | false => exact ih st1 h
      | true =>
        dsimp only at h
        obtain ⟨c, hc, hh⟩ := round_flag fuel stages st1 hr
        rw [hc] at h
        dsimp only at h
        rcases hl : c.last_output with _ | x
        · rw [hl] at h
          exact absurd h (by simp)
        · rw [hl] at h
          simp only [Outcome.ok.injEq, Prod.mk.injEq] at h
          obtain ⟨rfl, rfl⟩ := h
          exact ⟨c, hc, hh, hl⟩
    · rw [hr] at h
      exact absurd h (by simp)
    · rw [hr] at h
      exact absurd h (by simp)
    · rw [hr] at h
      exact absurd h (by simp)

/-- C22, as the code has it: the pipeline is driven until the last stage has
halted.  When `amplify` returns, the last stage machine has its halted flag
set (about the other stages nothing is promised). -/
theorem amplify_last_halted (fuel : Nat) (cpu : CPU) (phases : List Int) (v : Int)
    (st : List CPU) (h : amplify fuel cpu phases = Outcome.ok (v, st)) :
    ∃ c, st.getLast? = some c ∧ c.halted = true := by
  unfold amplify at h
  rcases hi : initial_stages cpu phases with _ | stages
  · rw [hi] at h
    exact absurd h (by simp)
  · rw [hi] at h
    obtain ⟨c, h1, h2, _⟩ := amplify_loop_returned fuel fuel stages st v h
    exact ⟨c, h1, h2⟩

/-- C22 (amended) at the program `[3,5,4,5,99,0]` (read, write, halt) with the
single phase 7. -/
theorem amplify_last_halted_witness :
    amplify 5 { memory := [3, 5, 4, 5, 99, 0] } [7] =
        Outcome.ok (7, [{ memory := [3, 5, 4, 5, 99, 7], ip := 5, halted := true,
                          input_values := [0], output_values := [7] }]) ∧
      ∃ c, ([{ memory := [3, 5, 4, 5, 99, 7], ip := 5, halted := true,
               input_values := [0], output_values := [7] }] : List CPU).getLast? = some c ∧
        c.halted = true :=
  ⟨by decide,
    amplify_last_halted 5 { memory := [3, 5, 4, 5, 99, 0] } [7] 7 _ (by decide)⟩

set_option maxRecDepth 8000 in
/-- C22 is not what the code does: with the program below (read the phase, read
a value, write it, halt unless the phase is 0, else read again) and the phases
`0,1,2,3,4`, `amplify` returns 0 while stage 0 is paused at its third read and
is not halted. -/
theorem amplify_returns_with_stage_not_halted :
    halted_flags (amplify 20
        { memory := [3, 20, 3, 21, 4, 21, 1005, 20, 12, 3, 22, 99, 99,
                     0, 0, 0, 0, 0, 0, 0, 0, 0, 0] } [0, 1, 2, 3, 4]) =
      some (0, [false, true, true, true, true]) := by
  decide

end Day07

/-! # The network of `23/doit.cc`: routing -/

namespace Day23

namespace CPU

/-- What `get_input` does to the queues and the instruction pointer. -/
theorem get_input_queue (c c1 : CPU) (v : Int) (h : c.get_input = some (v, c1)) :
    c1.ip = c.ip ∧ c1.output_values = c.output_values ∧
      (c1.input_values = c.input_values ∨ c.input_values = v :: c1.input_values) := by
  unfold get_input at h
  by_cases hb : c.blocking = false ∧ c.input_values = []
  · rw [if_pos hb] at h
    simp only [Option.some.injEq, Prod.mk.injEq] at h
    obtain ⟨_, rfl⟩ := h
    exact ⟨rfl, rfl, Or.inl rfl⟩
  · rw [if_neg hb] at h
    rcases hi : c.input_values with _ | ⟨v0, rest⟩
    · rw [hi] at h
      exact absurd h (by simp)
    · rw [hi] at h
      simp only [Option.some.injEq, Prod.mk.injEq] at h
      obtain ⟨rfl, rfl⟩ := h
      exact ⟨rfl, rfl, Or.inr rfl⟩

/-- What one instruction does to the queues: nothing, or it takes the front
value of the input queue, or it appends a value to the output queue; in the
last two cases it is two cells long. -/
theorem execute_queues (c c1 : CPU) (r : Bool) (h : c.execute = some (r, c1)) :
    (c1.input_values = c.input_values ∧ c1.output_values = c.output_values) ∨
      (c1.ip = c.ip + 2 ∧ c1.output_values = c.output_values ∧
        ∃ v, c.input_values = v :: c1.input_values) ∨
      (c1.ip = c.ip + 2 ∧ c1.input_values = c.input_values ∧
        ∃ v, c1.output_values = c.output_values ++ [v]) := by
  unfold execute at h
  cases hf : c.fetch with
  | none =>
    rw [hf] at h
    exact absurd h (by simp)
  | some p =>
    obtain ⟨w, c0⟩ := p
    rw [hf] at h
    dsimp only at h
    obtain ⟨_, _, hip, rf, _⟩ := fetch_spec c c0 w hf
    by_cases h1 : w.tmod 100 = 1
    · simp only [if_pos h1] at h
      rcases ha : c0.arg (w.tdiv 100) with _ | ⟨a1, c2, m1⟩
      · rw [ha] at h
        exact absurd h (by simp)
      rw [ha] at h
      dsimp only at h
      rcases hb : c2.arg m1 with _ | ⟨a2, c3, m2⟩
      · rw [hb] at h
        exact absurd h (by simp)
      rw [hb] at h
      dsimp only at h
      rcases hs : c3.store m2 (a1 + a2) with _ | c4
      · rw [hs] at h
        exact absurd h (by simp)
      rw [hs] at h
      simp only [Option.map_some', Option.some.injEq, Prod.mk.injEq] at h
      obtain ⟨rfl, rfl⟩ := h
      obtain ⟨_, ra, _, _⟩ := arg_spec _ _ _ _ _ ha
      obtain ⟨_, rb, _, _⟩ := arg_spec _ _ _ _ _ hb
      obtain ⟨_, rs⟩ := store_spec _ _ _ _ hs
      have rr := sameRegs_trans (sameRegs_trans (sameRegs_trans rf ra) rb) rs
      exact Or.inl ⟨rr.2.2.2.1, rr.2.2.2.2⟩
    simp only [if_neg h1] at h
    by_cases h2 : w.tmod 100 = 2
    · simp only [if_pos h2] at h
      rcases ha : c0.arg (w.tdiv 100) with _ | ⟨a1, c2, m1⟩
      · rw [ha] at h
        exact absurd h (by simp)
      rw [ha] at h
      dsimp only at h
      rcases hb : c2.arg m1 with _ | ⟨a2, c3, m2⟩
      · rw [hb] at h
        exact absurd h (by simp)
      rw [hb] at h
      dsimp only at h
      rcases hs : c3.store m2 (a1 * a2) with _ | c4
      · rw [hs] at h
        exact absurd h (by simp)
      rw [hs] at h
      simp only [Option.map_some', Option.some.injEq, Prod.mk.injEq] at h
      obtain ⟨rfl, rfl⟩ := h
      obtain ⟨_, ra, _, _⟩ := arg_spec _ _ _ _ _ ha
      obtain ⟨_, rb, _, _⟩ := arg_spec _ _ _ _ _ hb
      obtain ⟨_, rs⟩ := store_spec _ _ _ _ hs
      have rr := sameRegs_trans (sameRegs_trans (sameRegs_trans rf ra) rb) rs
      exact Or.inl ⟨rr.2.2.2.1, rr.2.2.2.2⟩
    simp only [if_neg h2] at h
    by_cases h3 : w.tmod 100 = 3
    · simp only [if_pos h3] at h
      by_cases hb : c0.blocking = true ∧ c0.input_values = []
      · rw [if_pos hb] at h
        simp only [Option.some.injEq, Prod.mk.injEq] at h
        obtain ⟨rfl, rfl⟩ := h
        exact Or.inl ⟨rf.2.2.2.1, rf.2.2.2.2⟩
      · rw [if_neg hb] at h
        rcases hg : c0.get_input with _ | ⟨v, c2⟩
        · rw [hg] at h
          exact absurd h (by simp)
        rw [hg] at h
        dsimp only at h
        rcases hs : c2.store (w.tdiv 100) v with _ | c3
        · rw [hs] at h
          exact absurd h (by simp)
        rw [hs] at h
        simp only [Option.map_some', Option.some.injEq, Prod.mk.injEq] at h
        obtain ⟨rfl, rfl⟩ := h
        obtain ⟨gip, gout, gin⟩ := get_input_queue _ _ _ hg
        obtain ⟨sip, rs⟩ := store_spec _ _ _ _ hs
        have eout : c3.output_values = c.output_values :=
          (rs.2.2.2.2.trans gout).trans rf.2.2.2.2
        rcases gin with gin | gin
        · exact Or.inl ⟨(rs.2.2.2.1.trans gin).trans rf.2.2.2.1, eout⟩
        · refine Or.inr (Or.inl ⟨by omega, eout, v, ?_⟩)
          rw [rs.2.2.2.1, ← gin, rf.2.2.2.1]
    simp only [if_neg h3] at h
    by_cases h4 : w.tmod 100 = 4
    · simp only [if_pos h4] at h
      rcases ha : c0.arg (w.tdiv 100) with _ | ⟨a1, c2, m1⟩
      · rw [ha] at h
        exact absurd h (by simp)
      rw [ha] at h
      simp only [Option.some.injEq, Prod.mk.injEq] at h
      obtain ⟨rfl, rfl⟩ := h
      obtain ⟨aip, ra, _, _⟩ := arg_spec _ _ _ _ _ ha
      have rr := sameRegs_trans rf ra
      refine Or.inr (Or.inr ⟨?_, rr.2.2.2.1, a1, ?_⟩)
      · show c2.ip = c.ip + 2
        omega
      · show c2.output_values ++ [a1] = c.output_values ++ [a1]
        rw [rr.2.2.2.2]
    simp only [if_neg h4] at h
    by_cases h5 : w.tmod 100 = 5
    · simp only [if_pos h5] at h
      rcases ha : c0.arg (w.tdiv 100) with _ | ⟨a1, c2, m1⟩
      · rw [ha] at h
        exact absurd h (by simp)
      rw [ha] at h
      dsimp only at h
      rcases hb : c2.arg m1 with _ | ⟨a2, c3, m2⟩
      · rw [hb] at h
        exact absurd h (by simp)
      rw [hb] at h
      simp only [Option.some.injEq, Prod.mk.injEq] at h
      obtain ⟨rfl, rfl⟩ := h
      obtain ⟨_, ra, _, _⟩ := arg_spec _ _ _ _ _ ha
      obtain ⟨_, rb, _, _⟩ := arg_spec _ _ _ _ _ hb
      have rr := sameRegs_trans (sameRegs_trans rf ra) rb
      by_cases ht : a1 ≠ 0
      · rw [if_pos ht]
        exact Or.inl ⟨rr.2.2.2.1, rr.2.2.2.2⟩
      · rw [if_neg ht]
        exact Or.inl ⟨rr.2.2.2.1, rr.2.2.2.2⟩
    simp only [if_neg h5] at h
    by_cases h6 : w.tmod 100 = 6
    · simp only [if_pos h6] at h
      rcases ha : c0.arg (w.tdiv 100) with _ | ⟨a1, c2, m1⟩
      · rw [ha] at h
        exact absurd h (by simp)
      rw [ha] at h
      dsimp only at h
      rcases hb : c2.arg m1 with _ | ⟨a2, c3, m2⟩
      · rw [hb] at h
        exact absurd h (by simp)
      rw [hb] at h
      simp only [Option.some.injEq, Prod.mk.injEq] at h
      obtain ⟨rfl, rfl⟩ := h
      obtain ⟨_, ra, _, _⟩ := arg_spec _ _ _ _ _ ha
      obtain ⟨_, rb, _, _⟩ := arg_spec _ _ _ _ _ hb
      have rr := sameRegs_trans (sameRegs_trans rf ra) rb
      by_cases ht : a1 = 0
      · rw [if_pos ht]
        exact Or.inl ⟨rr.2.2.2.1, rr.2.2.2.2⟩
      · rw [if_neg ht]
        exact Or.inl ⟨rr.2.2.2.1, rr.2.2.2.2⟩
    simp only [if_neg h6] at h
    by_cases h7 : w.tmod 100 = 7
    · simp only [if_pos h7] at h
      rcases ha : c0.arg (w.tdiv 100) with _ | ⟨a1, c2, m1⟩
      · rw [ha] at h
        exact absurd h (by simp)
      rw [ha] at h
      dsimp only at h
      rcases hb : c2.arg m1 with _ | ⟨a2, c3, m2⟩
      · rw [hb] at h
        exact absurd h (by simp)
      rw [hb] at h
      dsimp only at h
      rcases hs : c3.store m2 (ofBool (decide (a1 < a2))) with _ | c4
      · rw [hs] at h
        exact absurd h (by simp)
      rw [hs] at h
      simp only [Option.map_some', Option.some.injEq, Prod.mk.injEq] at h
      obtain ⟨rfl, rfl⟩ := h
      obtain ⟨_, ra, _, _⟩ := arg_spec _ _ _ _ _ ha
      obtain ⟨_, rb, _, _⟩ := arg_spec _ _ _ _ _ hb
      obtain ⟨_, rs⟩ := store_spec _ _ _ _ hs
      have rr := sameRegs_trans (sameRegs_trans (sameRegs_trans rf ra) rb) rs
      exact Or.inl ⟨rr.2.2.2.1, rr.2.2.2.2⟩
    simp only [if_neg h7] at h
    by_cases h8 : w.tmod 100 = 8
    · simp only [if_pos h8] at h
      rcases ha : c0.arg (w.tdiv 100) with _ | ⟨a1, c2, m1⟩
      · rw [ha] at h
        exact absurd h (by simp)
      rw [ha] at h
      dsimp only at h
      rcases hb : c2.arg m1 with _ | ⟨a2, c3, m2⟩
      · rw [hb] at h
        exact absurd h (by simp)
      rw [hb] at h
      dsimp only at h
      rcases hs : c3.store m2 (ofBool (decide (a1 = a2))) with _ | c4
      · rw [hs] at h
        exact absurd h (by simp)
      rw [hs] at h
      simp only [Option.map_some', Option.some.injEq, Prod.mk.injEq] at h
      obtain ⟨rfl, rfl⟩ := h
      obtain ⟨_, ra, _, _⟩ := arg_spec _ _ _ _ _ ha
      obtain ⟨_, rb, _, _⟩ := arg_spec _ _ _ _ _ hb
      obtain ⟨_, rs⟩ := store_spec _ _ _ _ hs
      have rr := sameRegs_trans (sameRegs_trans (sameRegs_trans rf ra) rb) rs
      exact Or.inl ⟨rr.2.2.2.1, rr.2.2.2.2⟩
    simp only [if_neg h8] at h
    by_cases h9 : w.tmod 100 = 9
    · simp only [if_pos h9] at h
      rcases ha : c0.arg (w.tdiv 100) with _ | ⟨a1, c2, m1⟩
      · rw [ha] at h
        exact absurd h (by simp)
      rw [ha] at h
      simp only [Option.some.injEq, Prod.mk.injEq] at h
      obtain ⟨rfl, rfl⟩ := h
      obtain ⟨_, ra, _, _⟩ := arg_spec _ _ _ _ _ ha
      have rr := sameRegs_trans rf ra
      exact Or.inl ⟨rr.2.2.2.1, rr.2.2.2.2⟩
    simp only [if_neg h9] at h
    by_cases h99 : w.tmod 100 = 99
    · simp only [if_pos h99] at h
      simp only [Option.some.injEq, Prod.mk.injEq] at h
      obtain ⟨rfl, rfl⟩ := h
      exact Or.inl ⟨rf.2.2.2.1, rf.2.2.2.2⟩
    simp only [if_neg h99] at h
    exact absurd h (by simp)

end CPU

namespace network

theorem fed_refl (c : CPU) : Fed c c := ⟨[], by unfold CPU.ext; simp⟩

theorem fed_trans {c d e : CPU} (h1 : Fed c d) (h2 : Fed d e) : Fed c e := by
  obtain ⟨l1, rfl⟩ := h1
  obtain ⟨l2, rfl⟩ := h2
  exact ⟨l1 ++ l2, CPU.ext_ext c l1 l2⟩

theorem flat_append (ps qs : List (Int × Int × Int)) :
    flat (ps ++ qs) = flat ps ++ flat qs := by
  induction ps with
  | nil => rfl
  | cons p ps ih =>
    obtain ⟨d, x, y⟩ := p
    show d :: x :: y :: flat (ps ++ qs) = d :: x :: y :: flat ps ++ flat qs
    rw [ih]
    rfl

theorem length_flat (ps : List (Int × Int × Int)) : (flat ps).length = 3 * ps.length := by
  induction ps with
  | nil => rfl
  | cons p ps ih =>
    obtain ⟨d, x, y⟩ := p
    simp only [flat, List.length_cons, ih]
    omega

theorem routed_refl (c : CPU) : Routed c c := ⟨[], [], c.output_values, rfl, by simp⟩

theorem routed_of_fed {c d : CPU} (h : Fed c d) : Routed c d := by
  obtain ⟨l, rfl⟩ := h
  exact ⟨l, [], c.output_values, rfl, rfl⟩

theorem routed_fed {c d e : CPU} (h1 : Routed c d) (h2 : Fed d e) : Routed c e := by
  obtain ⟨l1, ps, rest, hq, rfl⟩ := h1
  obtain ⟨l2, rfl⟩ := h2
  exact ⟨l1 ++ l2, ps, rest, hq, by unfold CPU.ext; simp⟩

theorem routed_trans {c d e : CPU} (h1 : Routed c d) (h2 : Routed d e) : Routed c e := by
  obtain ⟨l1, ps1, rest1, hq1, rfl⟩ := h1
  obtain ⟨l2, ps2, rest2, hq2, rfl⟩ := h2
  refine ⟨l1 ++ l2, ps1 ++ ps2, rest2, ?_, by simp⟩
  dsimp only at hq2
  rw [hq1, hq2, flat_append, List.append_assoc]

theorem routed_packet (c : CPU) (d x y : Int) (rest : List Int)
    (hq : c.output_values = d :: x :: y :: rest) :
    Routed c { c with output_values := rest } :=
  ⟨[], [(d, x, y)], rest, hq, by simp⟩

theorem routedAt_refl (i : Nat) (cs : List CPU) : RoutedAt i cs cs := by
  refine ⟨rfl, fun j c hc => ⟨c, hc, ?_⟩⟩
  by_cases hj : j = i
  · rw [if_pos hj]
    exact routed_refl c
  · rw [if_neg hj]
    exact fed_refl c

theorem routedAt_trans {i : Nat} {cs cs2 cs3 : List CPU} (h1 : RoutedAt i cs cs2)
    (h2 : RoutedAt i cs2 cs3) : RoutedAt i cs cs3 := by
  refine ⟨h2.1.trans h1.1, fun j c hc => ?_⟩
  obtain ⟨e, he, hr⟩ := h1.2 j c hc
  obtain ⟨f, hf, hr2⟩ := h2.2 j e he
  refine ⟨f, hf, ?_⟩
  by_cases hj : j = i
  · rw [if_pos hj] at hr hr2 ⊢
    exact routed_trans hr hr2
  · rw [if_neg hj] at hr hr2 ⊢
    exact fed_trans hr hr2

/-- A delivery that succeeds goes to a machine of the network and appends `x`
and then `y` to its input queue. -/
theorem deliver_next (n n2 : network) (d x y : Int) (h : n.deliver d x y = Outcome.next n2) :
    0 ≤ d ∧ d < (n.cpus.length : Int) ∧
      ∃ c, n.cpus[d.toNat]? = some c ∧
        n2 = { n with cpus := n.cpus.set d.toNat (c.ext [x, y]) } := by
  unfold deliver at h
  by_cases h1 : d < (n.cpus.length : Int)
  · rw [if_pos h1] at h
    by_cases h2 : d < 0
    · rw [if_pos h2] at h
      exact absurd h (by simp)
    · rw [if_neg h2] at h
      rcases hc : n.cpus[d.toNat]? with _ | c
      · rw [hc] at h
        exact absurd h (by simp)
      · rw [hc] at h
        simp only [Outcome.next.injEq] at h
        refine ⟨by omega, h1, c, rfl, ?_⟩
        rw [← h]
        unfold CPU.give_input CPU.ext
        simp
  · rw [if_neg h1] at h
    exact absurd h (by simp)

/-- A delivery to a machine of the network succeeds. -/
theorem deliver_of_valid (n : network) (d x y : Int) (c : CPU) (h0 : 0 ≤ d)
    (h1 : d < (n.cpus.length : Int)) (hc : n.cpus[d.toNat]? = some c) :
    n.deliver d x y = Outcome.next { n with cpus := n.cpus.set d.toNat (c.ext [x, y]) } := by
  unfold deliver
  have h2 : ¬ d < 0 := by omega
  rw [if_pos h1, if_neg h2, hc]
  unfold CPU.give_input CPU.ext
  simp

/-- What a delivery does to the machines: the input queues grow, nothing else
changes. -/
theorem deliver_fed (n n2 : network) (d x y : Int) (h : n.deliver d x y = Outcome.next n2) :
    n2.cpus.length = n.cpus.length ∧ n2.idling_ips = n.idling_ips ∧
      n2.last_nat_y = n.last_nat_y ∧ n2.nat_x = n.nat_x ∧ n2.nat_y = n.nat_y ∧
      ∀ j c, n.cpus[j]? = some c → ∃ e, n2.cpus[j]? = some e ∧ Fed c e ∧
        (j ≠ d.toNat → e = c) := by
  obtain ⟨h0, h1, c0, hc0, rfl⟩ := deliver_next n n2 d x y h
  refine ⟨List.length_set _ _ _, rfl, rfl, rfl, rfl, ?_⟩
  intro j c hc
  show ∃ e, (n.cpus.set d.toNat (c0.ext [x, y]))[j]? = some e ∧ _
  by_cases hj : j = d.toNat
  · subst hj
    rw [hc0] at hc
    simp only [Option.some.injEq] at hc
    subst hc
    have hlt : d.toNat < n.cpus.length := by omega
    exact ⟨_, List.getElem?_set_self hlt, ⟨[x, y], rfl⟩, fun hne => absurd rfl hne⟩
  · rw [List.getElem?_set_ne (Ne.symm hj)]
    exact ⟨c, hc, fed_refl c, fun _ => rfl⟩

/-- One round of the packet loop on a queue that holds a packet. -/
theorem drain_step (fn : Bool) (fuel : Nat) (n : network) (i : Nat) (c : CPU)
    (d x y : Int) (rest : List Int) (hc : n.cpus[i]? = some c)
    (hq : c.output_values = d :: x :: y :: rest) :
    drain fn (fuel + 1) n i =
      if d = 255 then
        if fn = true then
          Outcome.returned y { n with cpus := n.cpus.set i { c with output_values := rest } }
        else
          drain fn fuel { n with cpus := n.cpus.set i { c with output_values := rest },
                                 nat_x := some x, nat_y := some y } i
      else
        match deliver { n with cpus := n.cpus.set i { c with output_values := rest } } d x y with
        | Outcome.next n2 => drain fn fuel n2 i
        | Outcome.returned v m => Outcome.returned v m
        | Outcome.aborted => Outcome.aborted
        | Outcome.undefined => Outcome.undefined
        | Outcome.unfinished => Outcome.unfinished := by
  conv_lhs => unfold drain
  rw [hc]
  dsimp only
  have h3 : 3 ≤ c.has_output := by
    unfold CPU.has_output
    rw [hq]
    simp
  rw [if_pos h3]
  have g1 : c.get_output = some (d, { c with output_values := x :: y :: rest }) := by
    unfold CPU.get_output
    rw [hq]
  have g2 : ({ c with output_values := x :: y :: rest } : CPU).get_output =
      some (x, { c with output_values := y :: rest }) := rfl
  have g3 : ({ c with output_values := y :: rest } : CPU).get_output =
      some (y, { c with output_values := rest }) := rfl
  rw [g1]
  dsimp only
  rw [g2]
  dsimp only
  rw [g3]

/-- The packet loop ends at once on a queue with fewer than three values. -/
theorem drain_done (fn : Bool) (fuel : Nat) (n : network) (i : Nat) (c : CPU)
    (hc : n.cpus[i]? = some c) (hq : c.output_values.length < 3) :
    drain fn (fuel + 1) n i = Outcome.next n := by
  conv_lhs => unfold drain
  rw [hc]
  dsimp only
  have h3 : ¬ 3 ≤ c.has_output := by
    unfold CPU.has_output
    omega
  rw [if_neg h3]

/-- A queue with at least three values begins with a packet. -/
theorem packet_of_length (q : List Int) (h : 3 ≤ q.length) :
    ∃ d x y rest, q = d :: x :: y :: rest := by
  match q, h with
  | d :: x :: y :: rest, _ => exact ⟨d, x, y, rest, rfl⟩

theorem routedAt_set (i : Nat) (cs : List CPU) (c e : CPU) (hc : cs[i]? = some c)
    (hr : Routed c e) : RoutedAt i cs (cs.set i e) := by
  refine ⟨List.length_set _ _ _, fun j cj hj => ?_⟩
  by_cases hji : j = i
  · subst hji
    rw [hc] at hj
    simp only [Option.some.injEq] at hj
    subst hj
    have hlt : j < cs.length := by
      rcases Nat.lt_or_ge j cs.length with h | h
      · exact h
      · rw [List.getElem?_eq_none h] at hc
        exact absurd hc (by simp)
    refine ⟨e, List.getElem?_set_self hlt, ?_⟩
    rw [if_pos rfl]
    exact hr
  · rw [List.getElem?_set_ne (Ne.symm hji)]
    refine ⟨cj, hj, ?_⟩
    rw [if_neg hji]
    exact fed_refl cj

theorem routedAt_of_fed (i : Nat) (cs cs2 : List CPU) (hl : cs2.length = cs.length)
    (h : ∀ (j : Nat) (c : CPU), cs[j]? = some c → ∃ e, cs2[j]? = some e ∧ Fed c e) :
    RoutedAt i cs cs2 := by
  refine ⟨hl, fun j c hc => ?_⟩
  obtain ⟨e, he, hf⟩ := h j c hc
  refine ⟨e, he, ?_⟩
  by_cases hji : j = i
  · rw [if_pos hji]
    exact routed_of_fed hf
  · rw [if_neg hji]
    exact hf

/-- What a packet loop that ends has done: packets of machine `i` were routed,
fewer than three values are left in its output queue, the idle history and the
value sent last by the NAT are untouched, and with `first_nat` so is the packet
stored at the NAT. -/
theorem drain_next (fn : Bool) : ∀ (fuel : Nat) (n n2 : network) (i : Nat),
    drain fn fuel n i = Outcome.next n2 →
    RoutedAt i n.cpus n2.cpus ∧ (∀ e, n2.cpus[i]? = some e → e.output_values.length < 3) ∧
      n2.idling_ips = n.idling_ips ∧ n2.last_nat_y = n.last_nat_y ∧
      (fn = true → n2.nat_x = n.nat_x ∧ n2.nat_y = n.nat_y) := by
  intro fuel
  induction fuel with
  | zero =>
    intro n n2 i h
    exact absurd h (by simp [drain])
  | succ fuel ih =>
    intro n n2 i h
    rcases hc : n.cpus[i]? with _ | c
    · unfold drain at h
      rw [hc] at h
      exact absurd h (by simp)
    · by_cases hq : c.output_values.length < 3
      · rw [drain_done fn fuel n i c hc hq] at h
        simp only [Outcome.next.injEq] at h
        subst h
        refine ⟨routedAt_refl i _, ?_, rfl, rfl, fun _ => ⟨rfl, rfl⟩⟩
        intro e he
        rw [hc] at he
        simp only [Option.some.injEq] at he
        subst he
        exact hq
      · obtain ⟨d, x, y, rest, hq2⟩ := packet_of_length c.output_values (by omega)
        rw [drain_step fn fuel n i c d x y rest hc hq2] at h
        have hset : RoutedAt i n.cpus (n.cpus.set i { c with output_values := rest }) :=
          routedAt_set i n.cpus c _ hc (routed_packet c d x y rest hq2)
        by_cases hd : d = 255
        · rw [if_pos hd] at h
          cases fn with
          | true => exact absurd h (by simp)
          | false =>
            simp only [Bool.false_eq_true, if_false] at h
            obtain ⟨h1, h2, h3, h4, _⟩ := ih _ n2 i h
            exact ⟨routedAt_trans hset h1, h2, h3, h4, fun hf => absurd hf (by simp)⟩
        · rw [if_neg hd] at h
          rcases hdel : deliver { n with cpus := n.cpus.set i { c with output_values := rest } }
              d x y with ⟨n3⟩ | ⟨v, m⟩ | _ | _ | _
          · rw [hdel] at h
            dsimp only at h
            obtain ⟨g1, g2, g3, g4, g5, g6⟩ := deliver_fed _ n3 d x y hdel
            obtain ⟨h1, h2, h3, h4, h5⟩ := ih n3 n2 i h
            have hmid : RoutedAt i (n.cpus.set i { c with output_values := rest }) n3.cpus :=
              routedAt_of_fed i _ _ g1 (fun j cj hj => by
                obtain ⟨e, he, hf, _⟩ := g6 j cj hj
                exact ⟨e, he, hf⟩)
            refine ⟨routedAt_trans hset (routedAt_trans hmid h1), h2, h3.trans g2, h4.trans g3, ?_⟩
            intro hf
            obtain ⟨a, b⟩ := h5 hf
            exact ⟨a.trans g4, b.trans g5⟩
          all_goals
            rw [hdel] at h
            exact absurd h (by simp)

theorem deliver_not_returned (n : network) (d x y v : Int) (m : network) :
    n.deliver d x y ≠ Outcome.returned v m := by
  unfold deliver
  intro h
  by_cases h1 : d < (n.cpus.length : Int)
  · rw [if_pos h1] at h
    by_cases h2 : d < 0
    · rw [if_pos h2] at h
      exact absurd h (by simp)
    · rw [if_neg h2] at h
      rcases hc : n.cpus[d.toNat]? with _ | c
      · rw [hc] at h
        exact absurd h (by simp)
      · rw [hc] at h
        exact absurd h (by simp)
  · rw [if_neg h1] at h
    exact absurd h (by simp)

theorem deliver_not_unfinished (n : network) (d x y : Int) :
    n.deliver d x y ≠ Outcome.unfinished := by
  unfold deliver
  intro h
  by_cases h1 : d < (n.cpus.length : Int)
  · rw [if_pos h1] at h
    by_cases h2 : d < 0
    · rw [if_pos h2] at h
      exact absurd h (by simp)
    · rw [if_neg h2] at h
      rcases hc : n.cpus[d.toNat]? with _ | c
      · rw [hc] at h
        exact absurd h (by simp)
      · rw [hc] at h
        exact absurd h (by simp)
  · rw [if_neg h1] at h
    exact absurd h (by simp)

theorem getElem?_set_self_of_some (cs : List CPU) (i : Nat) (c e : CPU) (hc : cs[i]? = some c) :
    (cs.set i e)[i]? = some e := by
  have hlt : i < cs.length := by
    rcases Nat.lt_or_ge i cs.length with h | h
    · exact h
    · rw [List.getElem?_eq_none h] at hc
      exact absurd hc (by simp)
  exact List.getElem?_set_self hlt

/-- The packet loop ends when its fuel exceeds the number of packets in the
output queue. -/
theorem drain_total (fn : Bool) : ∀ (fuel : Nat) (n : network) (i : Nat) (c : CPU),
    n.cpus[i]? = some c → c.output_values.length < 3 * fuel →
    drain fn fuel n i ≠ Outcome.unfinished := by
  intro fuel
  induction fuel with
  | zero =>
    intro n i c _ hl
    exact absurd hl (by omega)
  | succ fuel ih =>
    intro n i c hc hl
    by_cases hq : c.output_values.length < 3
    · rw [drain_done fn fuel n i c hc hq]
      simp
    · obtain ⟨d, x, y, rest, hq2⟩ := packet_of_length c.output_values (by omega)
      rw [drain_step fn fuel n i c d x y rest hc hq2]
      have hrest : rest.length < 3 * fuel := by
        rw [hq2] at hl
        simp only [List.length_cons] at hl
        omega
      have hself : (n.cpus.set i { c with output_values := rest })[i]? =
          some { c with output_values := rest } := getElem?_set_self_of_some _ _ _ _ hc
      by_cases hd : d = 255
      · rw [if_pos hd]
        cases fn with
        | true => simp
        | false =>
          simp only [Bool.false_eq_true, if_false]
          exact ih _ i _ hself hrest
      · rw [if_neg hd]
        rcases hdel : deliver { n with cpus := n.cpus.set i { c with output_values := rest } }
            d x y with ⟨n3⟩ | ⟨v, m⟩ | _ | _ | _
        · dsimp only
          obtain ⟨_, _, _, _, _, g6⟩ := deliver_fed _ n3 d x y hdel
          obtain ⟨e, he, ⟨l, hf⟩, _⟩ := g6 i _ hself
          refine ih n3 i e he ?_
          rw [hf]
          exact hrest
        · simp
        · simp
        · simp
        · exact absurd hdel (deliver_not_unfinished _ d x y)

/-- Without `first_nat` the packet loop never returns from `run`. -/
theorem drain_false_not_returned : ∀ (fuel : Nat) (n : network) (i : Nat) (v : Int)
    (m : network), drain false fuel n i ≠ Outcome.returned v m := by
  intro fuel
  induction fuel with
  | zero =>
    intro n i v m
    simp [drain]
  | succ fuel ih =>
    intro n i v m h
    rcases hc : n.cpus[i]? with _ | c
    · unfold drain at h
      rw [hc] at h
      exact absurd h (by simp)
    · by_cases hq : c.output_values.length < 3
      · rw [drain_done false fuel n i c hc hq] at h
        exact absurd h (by simp)
      · obtain ⟨d, x, y, rest, hq2⟩ := packet_of_length c.output_values (by omega)
        rw [drain_step false fuel n i c d x y rest hc hq2] at h
        by_cases hd : d = 255
        · rw [if_pos hd] at h
          simp only [Bool.false_eq_true, if_false] at h
          exact ih _ i v m h
        · rw [if_neg hd] at h
          rcases hdel : deliver { n with cpus := n.cpus.set i { c with output_values := rest } }
              d x y with ⟨n3⟩ | ⟨v2, m2⟩ | _ | _ | _
          · rw [hdel] at h
            exact ih n3 i v m h
          · exact absurd hdel (deliver_not_returned _ d x y v2 m2)
          all_goals
            rw [hdel] at h
            exact absurd h (by simp)

/-- With `first_nat`, a packet loop on a queue of at most three values returns
only on a packet for 255, with the `y` of that packet; the packet is removed
from the output queue and nothing else has changed. -/
theorem drain_true_returned (fuel : Nat) (n : network) (i : Nat) (c : CPU) (v : Int)
    (m : network) (hc : n.cpus[i]? = some c) (hl : c.output_values.length ≤ 3)
    (h : drain true fuel n i = Outcome.returned v m) :
    ∃ x, c.output_values = [255, x, v] ∧
      m = { n with cpus := n.cpus.set i { c with output_values := [] } } := by
  cases fuel with
  | zero => exact absurd h (by simp [drain])
  | succ fuel =>
    by_cases hq : c.output_values.length < 3
    · rw [drain_done true fuel n i c hc hq] at h
      exact absurd h (by simp)
    · obtain ⟨d, x, y, rest, hq2⟩ := packet_of_length c.output_values (by omega)
      have hrest : rest = [] := by
        rw [hq2] at hl
        simp only [List.length_cons] at hl
        exact List.length_eq_zero.mp (by omega)
      subst hrest
      rw [drain_step true fuel n i c d x y [] hc hq2] at h
      by_cases hd : d = 255
      · rw [if_pos hd] at h
        simp only [if_true, Outcome.returned.injEq] at h
        obtain ⟨rfl, rfl⟩ := h
        subst hd
        exact ⟨x, hq2, rfl⟩
      · rw [if_neg hd] at h
        rcases hdel : deliver { n with cpus := n.cpus.set i { c with output_values := [] } }
            d x y with ⟨n3⟩ | ⟨v2, m2⟩ | _ | _ | _
        · rw [hdel] at h
          dsimp only at h
          have hself : (n.cpus.set i { c with output_values := [] })[i]? =
              some { c with output_values := [] } := getElem?_set_self_of_some _ _ _ _ hc
          obtain ⟨_, _, _, _, _, g6⟩ := deliver_fed _ n3 d x y hdel
          obtain ⟨e, he, ⟨l, hf⟩, _⟩ := g6 i _ hself
          cases fuel with
          | zero => exact absurd h (by simp [drain])
          | succ fuel =>
            rw [drain_done true fuel n3 i e he (by rw [hf]; exact Nat.zero_lt_succ 2)] at h
            exact absurd h (by simp)
        · exact absurd hdel (deliver_not_returned _ d x y v2 m2)
        all_goals
          rw [hdel] at h
          exact absurd h (by simp)

/-- The turn of machine `i`: one `execute`, then the packet loop. -/
theorem turn_eq (fn : Bool) (n : network) (i : Nat) (c c1 : CPU) (r : Bool)
    (hc : n.cpus[i]? = some c) (he : c.execute = some (r, c1)) :
    turn fn n i =
      match drain fn (c1.has_output + 1) { n with cpus := n.cpus.set i c1 } i with
      | Outcome.next n2 => Outcome.next (n2, toInt32 c1.ip)
      | Outcome.returned v m => Outcome.returned v m
      | Outcome.aborted => Outcome.aborted
      | Outcome.undefined => Outcome.undefined
      | Outcome.unfinished => Outcome.unfinished := by
  unfold turn
  rw [hc]
  dsimp only
  rw [he]

/-- A turn that does not end `run` belongs to a machine of the network whose
`execute` call returns. -/
theorem turn_executes (fn : Bool) (n : network) (i : Nat)
    (h : turn fn n i ≠ Outcome.undefined) (h2 : turn fn n i ≠ Outcome.aborted) :
    ∃ c r c1, n.cpus[i]? = some c ∧ c.execute = some (r, c1) := by
  rcases hc : n.cpus[i]? with _ | c
  · unfold turn at h
    rw [hc] at h
    exact absurd rfl h
  · rcases he : c.execute with _ | ⟨r, c1⟩
    · unfold turn at h2
      rw [hc] at h2
      dsimp only at h2
      rw [he] at h2
      exact absurd rfl h2
    · exact ⟨c, r, c1, rfl, he⟩

/-- The packet loop of a turn always has fuel enough. -/
theorem turn_not_unfinished (fn : Bool) (n : network) (i : Nat) :
    turn fn n i ≠ Outcome.unfinished := by
  intro h
  obtain ⟨c, r, c1, hc, he⟩ := turn_executes fn n i (by rw [h]; simp) (by rw [h]; simp)
  rw [turn_eq fn n i c c1 r hc he] at h
  have hself : (n.cpus.set i c1)[i]? = some c1 := getElem?_set_self_of_some _ _ _ _ hc
  have ht := drain_total fn (c1.has_output + 1) { n with cpus := n.cpus.set i c1 } i c1 hself
    (by unfold CPU.has_output; omega)
  rcases hd : drain fn (c1.has_output + 1) { n with cpus := n.cpus.set i c1 } i
    with ⟨n3⟩ | ⟨v2, m2⟩ | _ | _ | _
  · rw [hd] at h
    exact absurd h (by simp)
  · rw [hd] at h
    exact absurd h (by simp)
  · rw [hd] at h
    exact absurd h (by simp)
  · rw [hd] at h
    exact absurd h (by simp)
  · exact ht hd

/-- What a turn that ends has done. -/
theorem turn_next (fn : Bool) (n n2 : network) (i : Nat) (ip : Int)
    (h : turn fn n i = Outcome.next (n2, ip)) :
    ∃ c r c1, n.cpus[i]? = some c ∧ c.execute = some (r, c1) ∧ ip = toInt32 c1.ip ∧
      RoutedAt i (n.cpus.set i c1) n2.cpus ∧
      (∀ e, n2.cpus[i]? = some e → e.output_values.length < 3) ∧
      n2.idling_ips = n.idling_ips ∧ n2.last_nat_y = n.last_nat_y ∧
      (fn = true → n2.nat_x = n.nat_x ∧ n2.nat_y = n.nat_y) := by
  obtain ⟨c, r, c1, hc, he⟩ := turn_executes fn n i (by rw [h]; simp) (by rw [h]; simp)
  rw [turn_eq fn n i c c1 r hc he] at h
  rcases hd : drain fn (c1.has_output + 1) { n with cpus := n.cpus.set i c1 } i
    with ⟨n3⟩ | ⟨v2, m2⟩ | _ | _ | _
  · rw [hd] at h
    simp only [Outcome.next.injEq, Prod.mk.injEq] at h
    obtain ⟨rfl, rfl⟩ := h
    obtain ⟨h1, h2, h3, h4, h5⟩ := drain_next fn _ _ n3 i hd
    exact ⟨c, r, c1, hc, he, rfl, h1, h2, h3, h4, h5⟩
  all_goals
    rw [hd] at h
    exact absurd h (by simp)

/-- What a turn that ends has done to each machine. -/
theorem turn_machines (fn : Bool) (n n2 : network) (i : Nat) (ip : Int)
    (h : turn fn n i = Outcome.next (n2, ip)) :
    n2.cpus.length = n.cpus.length ∧
      ∀ (j : Nat) (c : CPU), n.cpus[j]? = some c → ∃ e, n2.cpus[j]? = some e ∧
        (if j = i then Turned ip c e else Fed c e) := by
  obtain ⟨c, r, c1, hc, he, hip, hr, hlt, _⟩ := turn_next fn n n2 i ip h
  have hself : (n.cpus.set i c1)[i]? = some c1 := getElem?_set_self_of_some _ _ _ _ hc
  refine ⟨hr.1.trans (List.length_set _ _ _), fun j cj hj => ?_⟩
  by_cases hji : j = i
  · subst hji
    rw [hc] at hj
    simp only [Option.some.injEq] at hj
    subst hj
    obtain ⟨e, he2, hre⟩ := hr.2 j c1 hself
    rw [if_pos rfl] at hre
    refine ⟨e, he2, ?_⟩
    rw [if_pos rfl]
    exact ⟨c, r, c1, fed_refl c, he, hre, hlt e he2, hip⟩
  · have hj2 : (n.cpus.set i c1)[j]? = some cj := by
      rw [List.getElem?_set_ne (Ne.symm hji)]
      exact hj
    obtain ⟨e, he2, hre⟩ := hr.2 j cj hj2
    rw [if_neg hji] at hre
    refine ⟨e, he2, ?_⟩
    rw [if_neg hji]
    exact hre

/-- Without `first_nat` no turn returns from `run`. -/
theorem turn_false_not_returned (n : network) (i : Nat) (v : Int) (m : network) :
    turn false n i ≠ Outcome.returned v m := by
  intro h
  obtain ⟨c, r, c1, hc, he⟩ := turn_executes false n i (by rw [h]; simp) (by rw [h]; simp)
  rw [turn_eq false n i c c1 r hc he] at h
  rcases hd : drain false (c1.has_output + 1) { n with cpus := n.cpus.set i c1 } i
    with ⟨n3⟩ | ⟨v2, m2⟩ | _ | _ | _
  · rw [hd] at h
    exact absurd h (by simp)
  · exact absurd hd (drain_false_not_returned _ _ i v2 m2)
  all_goals
    rw [hd] at h
    exact absurd h (by simp)

/-- With `first_nat`, the turn of a machine that had no complete packet
returns from `run` only when its instruction completes a packet for 255; the
value is the `y` of the packet, and the packet is removed from the output
queue and goes nowhere. -/
theorem turn_true_returned (n : network) (i : Nat) (v : Int) (m : network)
    (hl : ∀ c, n.cpus[i]? = some c → c.output_values.length < 3)
    (h : turn true n i = Outcome.returned v m) :
    ∃ c r c1 x, n.cpus[i]? = some c ∧ c.execute = some (r, c1) ∧
      c1.output_values = [255, x, v] ∧
      m = { n with cpus := n.cpus.set i { c1 with output_values := [] } } := by
  obtain ⟨c, r, c1, hc, he⟩ := turn_executes true n i (by rw [h]; simp) (by rw [h]; simp)
  rw [turn_eq true n i c c1 r hc he] at h
  have hself : (n.cpus.set i c1)[i]? = some c1 := getElem?_set_self_of_some _ _ _ _ hc
  have hlen : c1.output_values.length ≤ 3 := by
    have h0 := hl c hc
    rcases CPU.execute_queues c c1 r he with ⟨_, e⟩ | ⟨_, e, _⟩ | ⟨_, _, w, e⟩
    · rw [e]
      omega
    · rw [e]
      omega
    · rw [e, List.length_append]
      simp only [List.length_cons, List.length_nil]
      omega
  rcases hd : drain true (c1.has_output + 1) { n with cpus := n.cpus.set i c1 } i
    with ⟨n3⟩ | ⟨v2, m2⟩ | _ | _ | _
  · rw [hd] at h
    exact absurd h (by simp)
  · rw [hd] at h
    simp only [Outcome.returned.injEq] at h
    obtain ⟨rfl, rfl⟩ := h
    obtain ⟨x, hx, hm⟩ := drain_true_returned _ _ i c1 v2 m2 hself hlen hd
    refine ⟨c, r, c1, x, hc, he, hx, ?_⟩
    rw [hm]
    simp only [List.set_set]
  all_goals
    rw [hd] at h
    exact absurd h (by simp)

/-- The turn of a machine with at most one value in its output queue is its
`execute` call and nothing else. -/
theorem turn_quiet (fn : Bool) (n : network) (i : Nat) (c : CPU) (o : Outcome (network × Int))
    (hc : n.cpus[i]? = some c) (hq : c.output_values.length < 2) (h : turn fn n i = o)
    (ho : o ≠ Outcome.aborted) :
    ∃ r c1, c.execute = some (r, c1) ∧
      o = Outcome.next ({ n with cpus := n.cpus.set i c1 }, toInt32 c1.ip) := by
  rcases he : c.execute with _ | ⟨r, c1⟩
  · unfold turn at h
    rw [hc] at h
    dsimp only at h
    rw [he] at h
    exact absurd h.symm ho
  · rw [turn_eq fn n i c c1 r hc he] at h
    have hself : (n.cpus.set i c1)[i]? = some c1 := getElem?_set_self_of_some _ _ _ _ hc
    have hlen : c1.output_values.length < 3 := by
      rcases CPU.execute_queues c c1 r he with ⟨_, e⟩ | ⟨_, e, _⟩ | ⟨_, _, w, e⟩
      · rw [e]
        omega
      · rw [e]
        omega
      · rw [e, List.length_append]
        simp only [List.length_cons, List.length_nil]
        omega
    rw [drain_done fn _ _ i c1 hself hlen] at h
    exact ⟨r, c1, rfl, h.symm⟩

theorem turned_fed {ip : Int} {c e f : CPU} (h1 : Turned ip c e) (h2 : Fed e f) :
    Turned ip c f := by
  obtain ⟨c0, r, c1, hf, he, hr, hl, hip⟩ := h1
  refine ⟨c0, r, c1, hf, he, routed_fed hr h2, ?_, hip⟩
  obtain ⟨l, rfl⟩ := h2
  exact hl

theorem fed_turned {ip : Int} {c e f : CPU} (h1 : Fed c e) (h2 : Turned ip e f) :
    Turned ip c f := by
  obtain ⟨c0, r, c1, hf, he, hr, hl, hip⟩ := h2
  exact ⟨c0, r, c1, fed_trans h1 hf, he, hr, hl, hip⟩

theorem turns_cons (fn : Bool) (i : Nat) (rest : List Nat) (n : network) (ips : List Int) :
    turns fn (i :: rest) n ips =
      match turn fn n i with
      | Outcome.next (n1, ip) => turns fn rest n1 (ips ++ [ip])
      | Outcome.returned v m => Outcome.returned v m
      | Outcome.aborted => Outcome.aborted
      | Outcome.undefined => Outcome.undefined
      | Outcome.unfinished => Outcome.unfinished := rfl

/-- The turns of a list of machines, cut in two. -/
theorem turns_append (fn : Bool) : ∀ (is js : List Nat) (n : network) (ips : List Int),
    turns fn (is ++ js) n ips =
      match turns fn is n ips with
      | Outcome.next (n1, ips1) => turns fn js n1 ips1
      | Outcome.returned v m => Outcome.returned v m
      | Outcome.aborted => Outcome.aborted
      | Outcome.undefined => Outcome.undefined
      | Outcome.unfinished => Outcome.unfinished := by
  intro is
  induction is with
  | nil =>
    intro js n ips
    rfl
  | cons i rest ih =>
    intro js n ips
    rw [List.cons_append, turns_cons, turns_cons]
    rcases ht : turn fn n i with ⟨n1, ip⟩ | ⟨v, m⟩ | _ | _ | _
    · exact ih js n1 (ips ++ [ip])
    all_goals rfl

/-- No sweep runs out of fuel. -/
theorem turns_not_unfinished (fn : Bool) : ∀ (is : List Nat) (n : network) (ips : List Int),
    turns fn is n ips ≠ Outcome.unfinished := by
  intro is
  induction is with
  | nil =>
    intro n ips
    simp [turns]
  | cons i rest ih =>
    intro n ips h
    rw [turns_cons] at h
    rcases ht : turn fn n i with ⟨n1, ip⟩ | ⟨v, m⟩ | _ | _ | _
    · rw [ht] at h
      exact ih n1 _ h
    · rw [ht] at h
      exact absurd h (by simp)
    · rw [ht] at h
      exact absurd h (by simp)
    · rw [ht] at h
      exact absurd h (by simp)
    · exact turn_not_unfinished fn n i ht

/-- Without `first_nat` no sweep returns from `run`. -/
theorem turns_false_not_returned : ∀ (is : List Nat) (n : network) (ips : List Int) (v : Int)
    (m : network), turns false is n ips ≠ Outcome.returned v m := by
  intro is
  induction is with
  | nil =>
    intro n ips v m
    simp [turns]
  | cons i rest ih =>
    intro n ips v m h
    rw [turns_cons] at h
    rcases ht : turn false n i with ⟨n1, ip⟩ | ⟨v2, m2⟩ | _ | _ | _
    · rw [ht] at h
      exact ih n1 _ v m h
    · exact turn_false_not_returned n i v2 m2 ht
    all_goals
      rw [ht] at h
      exact absurd h (by simp)

/-- What the turns of a list of machines leave alone. -/
theorem turns_frame (fn : Bool) : ∀ (is : List Nat) (n n2 : network) (ips ips2 : List Int),
    turns fn is n ips = Outcome.next (n2, ips2) →
    n2.cpus.length = n.cpus.length ∧ n2.idling_ips = n.idling_ips ∧
      n2.last_nat_y = n.last_nat_y ∧ (fn = true → n2.nat_x = n.nat_x ∧ n2.nat_y = n.nat_y) := by
  intro is
  induction is with
  | nil =>
    intro n n2 ips ips2 h
    simp only [turns, Outcome.next.injEq, Prod.mk.injEq] at h
    obtain ⟨rfl, rfl⟩ := h
    exact ⟨rfl, rfl, rfl, fun _ => ⟨rfl, rfl⟩⟩
  | cons i rest ih =>
    intro n n2 ips ips2 h
    rw [turns_cons] at h
    rcases ht : turn fn n i with ⟨n1, ip⟩ | ⟨v2, m2⟩ | _ | _ | _
    · rw [ht] at h
      obtain ⟨a1, a2, a3, a4⟩ := ih n1 n2 _ ips2 h
      obtain ⟨_, _, _, _, _, _, hr, _, b2, b3, b4⟩ := turn_next fn n n1 i ip ht
      refine ⟨a1.trans (hr.1.trans (List.length_set _ _ _)), a2.trans b2, a3.trans b3, ?_⟩
      intro hf
      exact ⟨(a4 hf).1.trans (b4 hf).1, (a4 hf).2.trans (b4 hf).2⟩
    all_goals
      rw [ht] at h
      exact absurd h (by simp)

/-- What the turns of a list of different machines have done: each machine of
the list has had one turn, the others have only been fed, and `ips` has grown
by one instruction pointer for each turn, in the order of the list. -/
theorem turns_summary (fn : Bool) : ∀ (is : List Nat) (n n2 : network) (ips ips2 : List Int),
    is.Nodup → turns fn is n ips = Outcome.next (n2, ips2) →
    ∃ new, ips2 = ips ++ new ∧ new.length = is.length ∧
      ∀ (j : Nat) (c : CPU), n.cpus[j]? = some c → ∃ e, n2.cpus[j]? = some e ∧
        (j ∉ is → Fed c e) ∧
        (∀ (k : Nat), is[k]? = some j → ∃ ip, new[k]? = some ip ∧ Turned ip c e) := by
  intro is
  induction is with
  | nil =>
    intro n n2 ips ips2 _ h
    simp only [turns, Outcome.next.injEq, Prod.mk.injEq] at h
    obtain ⟨rfl, rfl⟩ := h
    refine ⟨[], by simp, rfl, fun j c hc => ⟨c, hc, fun _ => fed_refl c, ?_⟩⟩
    intro k hk
    exact absurd hk (by simp)
  | cons i rest ih =>
    intro n n2 ips ips2 hnd h
    rw [turns_cons] at h
    obtain ⟨hi, hnd2⟩ := List.nodup_cons.mp hnd
    rcases ht : turn fn n i with ⟨n1, ip⟩ | ⟨v2, m2⟩ | _ | _ | _
    · rw [ht] at h
      obtain ⟨new, hnew, hlen, hall⟩ := ih n1 n2 _ ips2 hnd2 h
      obtain ⟨_, hm⟩ := turn_machines fn n n1 i ip ht
      refine ⟨ip :: new, by rw [hnew]; simp, by simp [hlen], fun j c hc => ?_⟩
      obtain ⟨e1, he1, hr1⟩ := hm j c hc
      obtain ⟨e, he, hfed, hturn⟩ := hall j e1 he1
      refine ⟨e, he, ?_, ?_⟩
      · intro hj
        have hji : j ≠ i := fun hh => hj (by rw [hh]; exact List.mem_cons_self _ _)
        have hjr : j ∉ rest := fun hh => hj (List.mem_cons_of_mem _ hh)
        rw [if_neg hji] at hr1
        exact fed_trans hr1 (hfed hjr)
      · intro k hk
        cases k with
        | zero =>
          simp only [List.getElem?_cons_zero, Option.some.injEq] at hk
          subst hk
          rw [if_pos rfl] at hr1
          exact ⟨ip, List.getElem?_cons_zero, turned_fed hr1 (hfed hi)⟩
        | succ k =>
          simp only [List.getElem?_cons_succ] at hk
          have hjr : j ∈ rest := List.getElem?_mem hk
          have hji : j ≠ i := fun hh => hi (by rw [← hh]; exact hjr)
          rw [if_neg hji] at hr1
          obtain ⟨ip2, hip2, ht2⟩ := hturn k hk
          exact ⟨ip2, by simpa using hip2, fed_turned hr1 ht2⟩
    all_goals
      rw [ht] at h
      exact absurd h (by simp)

/-- The turns of machines that each have at most one value in the output
queue: every machine of the list has executed one instruction and nothing else
has happened. -/
theorem turns_quiet (fn : Bool) : ∀ (is : List Nat) (n n2 : network) (ips ips2 : List Int),
    is.Nodup → (∀ j ∈ is, ∀ c, n.cpus[j]? = some c → c.output_values.length < 2) →
    turns fn is n ips = Outcome.next (n2, ips2) →
    n2.cpus.length = n.cpus.length ∧
      ∀ (j : Nat) (c : CPU), n.cpus[j]? = some c → ∃ e, n2.cpus[j]? = some e ∧
        (j ∉ is → e = c) ∧ (j ∈ is → ∃ r, c.execute = some (r, e)) := by
  intro is
  induction is with
  | nil =>
    intro n n2 ips ips2 _ _ h
    simp only [turns, Outcome.next.injEq, Prod.mk.injEq] at h
    obtain ⟨rfl, rfl⟩ := h
    exact ⟨rfl, fun j c hc => ⟨c, hc, fun _ => rfl, fun hj => absurd hj (by simp)⟩⟩
  | cons i rest ih =>
    intro n n2 ips ips2 hnd hq h
    rw [turns_cons] at h
    obtain ⟨hi, hnd2⟩ := List.nodup_cons.mp hnd
    rcases ht : turn fn n i with ⟨n1, ip⟩ | ⟨v2, m2⟩ | _ | _ | _
    · rw [ht] at h
      obtain ⟨ci, _, _, hci, _⟩ := turn_next fn n n1 i ip ht
      obtain ⟨r, c1, he, ho⟩ := turn_quiet fn n i ci _ hci
        (hq i (List.mem_cons_self _ _) ci hci) ht (by simp)
      simp only [Outcome.next.injEq, Prod.mk.injEq] at ho
      obtain ⟨rfl, _⟩ := ho
      have hq2 : ∀ j ∈ rest, ∀ c, (n.cpus.set i c1)[j]? = some c → c.output_values.length < 2 := by
        intro j hj c hc
        have hji : j ≠ i := fun hh => hi (by rw [← hh]; exact hj)
        rw [List.getElem?_set_ne (Ne.symm hji)] at hc
        exact hq j (List.mem_cons_of_mem _ hj) c hc
      obtain ⟨hlen, hall⟩ := ih _ n2 _ ips2 hnd2 hq2 h
      refine ⟨hlen.trans (List.length_set _ _ _), fun j c hc => ?_⟩
      by_cases hji : j = i
      · subst hji
        rw [hci] at hc
        simp only [Option.some.injEq] at hc
        subst hc
        obtain ⟨e, he2, hsame, _⟩ := hall j c1 (getElem?_set_self_of_some _ _ _ _ hci)
        refine ⟨e, he2, fun hj => absurd (List.mem_cons_self _ _) hj, fun _ => ?_⟩
        rw [hsame hi]
        exact ⟨r, he⟩
      · have hc2 : (n.cpus.set i c1)[j]? = some c := by
          rw [List.getElem?_set_ne (Ne.symm hji)]
          exact hc
        obtain ⟨e, he2, hsame, hex⟩ := hall j c hc2
        refine ⟨e, he2, fun hj => hsame (fun hh => hj (List.mem_cons_of_mem _ hh)), fun hj => ?_⟩
        rcases List.mem_cons.mp hj with hh | hh
        · exact absurd hh hji
        · exact hex hh
    all_goals
      rw [ht] at h
      exact absurd h (by simp)

theorem lt_length_of_getElem? (cs : List CPU) (j : Nat) (c : CPU) (h : cs[j]? = some c) :
    j < cs.length := by
  rcases Nat.lt_or_ge j cs.length with h1 | h1
  · exact h1
  · rw [List.getElem?_eq_none h1] at h
    exact absurd h (by simp)

/-- A sequence of turns that ends has ended after each of its beginnings. -/
theorem turns_prefix (fn : Bool) (is js : List Nat) (n n2 : network) (ips ips2 : List Int)
    (h : turns fn (is ++ js) n ips = Outcome.next (n2, ips2)) :
    ∃ nm ipsm, turns fn is n ips = Outcome.next (nm, ipsm) ∧
      turns fn js nm ipsm = Outcome.next (n2, ips2) := by
  rw [turns_append] at h
  rcases ht : turns fn is n ips with ⟨nm, ipsm⟩ | ⟨v, m⟩ | _ | _ | _
  · rw [ht] at h
    exact ⟨nm, ipsm, rfl, h⟩
  all_goals
    rw [ht] at h
    exact absurd h (by simp)

theorem range_split (m N : Nat) (h : m ≤ N) :
    List.range N = List.range m ++ List.drop m (List.range N) := by
  have e := List.take_append_drop m (List.range N)
  rw [List.take_range, Nat.min_eq_left h] at e
  exact e.symm

/-- The sweep after the turns of the first `m` machines: machines `0`, ...,
`m - 1` have had their turn and pushed their instruction pointers, the others
have only been fed. -/
theorem sweep_prefix (fn : Bool) (n n1 : network) (ips : List Int)
    (hs : sweep fn n = Outcome.next (n1, ips)) (m : Nat) (hm : m ≤ n.cpus.length) :
    ∃ nm, turns fn (List.range m) n [] = Outcome.next (nm, ips.take m) ∧
      nm.cpus.length = n.cpus.length ∧
      ∀ (j : Nat) (c : CPU), n.cpus[j]? = some c → ∃ e, nm.cpus[j]? = some e ∧
        (if j < m then ∃ ip, ips[j]? = some ip ∧ Turned ip c e else Fed c e) := by
  unfold sweep at hs
  rw [range_split m n.cpus.length hm] at hs
  obtain ⟨nm, ipsm, h1, h2⟩ := turns_prefix fn _ _ n n1 [] ips hs
  obtain ⟨new, hnew, hlen, hall⟩ := turns_summary fn _ n nm [] ipsm (List.nodup_range m) h1
  have hnd : (List.drop m (List.range n.cpus.length)).Nodup :=
    List.Nodup.sublist (List.drop_sublist _ _) (List.nodup_range _)
  obtain ⟨new2, hnew2, _, _⟩ := turns_summary fn _ nm n1 ipsm ips hnd h2
  simp only [List.nil_append] at hnew
  subst hnew
  rw [List.length_range] at hlen
  have htake : ips.take m = ipsm := by
    rw [hnew2, List.take_left' hlen]
  rw [htake]
  refine ⟨nm, h1, (turns_frame fn _ n nm [] ipsm h1).1, fun j c hc => ?_⟩
  obtain ⟨e, he, hfed, hturn⟩ := hall j c hc
  refine ⟨e, he, ?_⟩
  by_cases hj : j < m
  · rw [if_pos hj]
    obtain ⟨ip, hip, ht⟩ := hturn j (List.getElem?_range hj)
    refine ⟨ip, ?_, ht⟩
    rw [hnew2, List.getElem?_append_left (by omega)]
    exact hip
  · rw [if_neg hj]
    exact hfed (fun hh => hj (List.mem_range.mp hh))

/-- The whole sweep: every machine has had its turn. -/
theorem sweep_summary (fn : Bool) (n n1 : network) (ips : List Int)
    (hs : sweep fn n = Outcome.next (n1, ips)) :
    n1.cpus.length = n.cpus.length ∧ ips.length = n.cpus.length ∧
      ∀ (j : Nat) (c : CPU), n.cpus[j]? = some c →
        ∃ e ip, n1.cpus[j]? = some e ∧ ips[j]? = some ip ∧ Turned ip c e := by
  obtain ⟨nm, h1, h2, h3⟩ := sweep_prefix fn n n1 ips hs n.cpus.length (Nat.le_refl _)
  have hlen : ips.length = n.cpus.length := by
    unfold sweep at hs
    obtain ⟨new, hnew, hl, _⟩ := turns_summary fn _ n n1 [] ips (List.nodup_range _) hs
    rw [hnew, List.nil_append, hl, List.length_range]
  have hnm : nm = n1 := by
    unfold sweep at hs
    rw [hs] at h1
    simp only [Outcome.next.injEq, Prod.mk.injEq] at h1
    exact h1.1.symm
  subst hnm
  refine ⟨h2, hlen, fun j c hc => ?_⟩
  obtain ⟨e, he, hh⟩ := h3 j c hc
  rw [if_pos (lt_length_of_getElem? _ j c hc)] at hh
  obtain ⟨ip, hip, ht⟩ := hh
  exact ⟨e, ip, he, hip, ht⟩

theorem routed_ip {c e : CPU} (h : Routed c e) : e.ip = c.ip := by
  obtain ⟨l, ps, rest, _, rfl⟩ := h
  rfl

/-- The vector `ips` of a sweep holds the instruction pointers that the
machines have at its end. -/
theorem sweep_ips (fn : Bool) (n n1 : network) (ips : List Int)
    (hs : sweep fn n = Outcome.next (n1, ips)) : ips = n1.cur_ips := by
  obtain ⟨h1, h2, h3⟩ := sweep_summary fn n n1 ips hs
  apply List.ext_getElem?_iff.mpr
  intro j
  unfold cur_ips
  rw [List.getElem?_map]
  rcases Nat.lt_or_ge j n.cpus.length with hj | hj
  · have hcj : n.cpus[j]? = some (n.cpus.get ⟨j, hj⟩) := List.getElem?_eq_getElem hj
    obtain ⟨e, ip, he, hip, c0, r, c1, _, _, hr, _, hipe⟩ := h3 j _ hcj
    rw [he, hip, hipe, ← routed_ip hr]
    rfl
  · rw [List.getElem?_eq_none (by omega), List.getElem?_eq_none (by omega)]
    rfl

/-- After a sweep no output queue holds a complete packet. -/
theorem sweep_short (fn : Bool) (n n1 : network) (ips : List Int)
    (hs : sweep fn n = Outcome.next (n1, ips)) (j : Nat) (e : CPU) (he : n1.cpus[j]? = some e) :
    e.output_values.length < 3 := by
  obtain ⟨h1, h2, h3⟩ := sweep_summary fn n n1 ips hs
  have hj : j < n.cpus.length := by
    rw [← h1]
    exact lt_length_of_getElem? _ j e he
  have hcj : n.cpus[j]? = some (n.cpus.get ⟨j, hj⟩) := List.getElem?_eq_getElem hj
  obtain ⟨e2, ip, he2, _, _, _, _, _, _, _, hl, _⟩ := h3 j _ hcj
  rw [he] at he2
  simp only [Option.some.injEq] at he2
  subst he2
  exact hl

/-- Something is pending when some machine has a value in one of its queues. -/
theorem pending_iff (n : network) :
    n.pending = true ↔
      ∃ (j : Nat) (c : CPU), n.cpus[j]? = some c ∧
        (c.input_values ≠ [] ∨ c.output_values ≠ []) := by
  unfold pending
  rw [List.any_eq_true]
  constructor
  · rintro ⟨c, hc, hp⟩
    obtain ⟨j, hj⟩ := List.getElem?_of_mem hc
    refine ⟨j, c, hj, ?_⟩
    unfold CPU.has_input CPU.has_output at hp
    simp only [Bool.or_eq_true, Bool.not_eq_true', List.isEmpty_eq_false, bne_iff_ne, ne_eq,
      List.length_eq_zero] at hp
    exact hp
  · rintro ⟨j, c, hj, hp⟩
    refine ⟨c, List.getElem?_mem hj, ?_⟩
    unfold CPU.has_input CPU.has_output
    simp only [Bool.or_eq_true, Bool.not_eq_true', List.isEmpty_eq_false, bne_iff_ne, ne_eq,
      List.length_eq_zero]
    exact hp

theorem not_pending (n : network) (h : n.pending = false) (j : Nat) (c : CPU)
    (hc : n.cpus[j]? = some c) : c.input_values = [] ∧ c.output_values = [] := by
  constructor
  · by_contra hh
    have hp := (pending_iff n).mpr ⟨j, c, hc, Or.inl hh⟩
    rw [h] at hp
    exact absurd hp (by simp)
  · by_contra hh
    have hp := (pending_iff n).mpr ⟨j, c, hc, Or.inr hh⟩
    rw [h] at hp
    exact absurd hp (by simp)

theorem toInt32_add_two (v : Int) : toInt32 (v + 2) ≠ toInt32 v := by
  unfold toInt32
  omega

theorem history_of_pending (n : network) (h : n.pending = true) : n.history = [] := by
  unfold history
  rw [if_pos h]

theorem history_of_not_pending (n : network) (h : n.pending = false) :
    n.history = n.idling_ips := by
  unfold history
  rw [h]
  rfl

theorem mem_history (n : network) (v : List Int) (h : v ∈ n.history) :
    n.pending = false ∧ v ∈ n.idling_ips := by
  rcases hp : n.pending with _ | _
  · rw [history_of_not_pending n hp] at h
    exact ⟨rfl, h⟩
  · rw [history_of_pending n hp] at h
    exact absurd h (by simp)

/-- The end of an iteration when the network is not declared idle. -/
theorem idle_check_of_not_mem (n : network) (ips : List Int) (h : ips ∉ n.history) :
    n.idle_check ips = Outcome.next { n with idling_ips := ips :: n.history } := by
  unfold idle_check
  rw [if_neg h]

/-- The end of an iteration when the network is declared idle and the NAT
holds the `y` that it sent last. -/
theorem idle_check_of_repeat (n : network) (ips : List Int) (x y : Int) (h : ips ∈ n.history)
    (hx : n.nat_x = some x) (hy : n.nat_y = some y) (hl : n.last_nat_y = some y) :
    n.idle_check ips = Outcome.returned y { n with idling_ips := n.history } := by
  unfold idle_check
  rw [if_pos h, hx, hy]
  dsimp only
  rw [if_pos hl]

/-- The end of an iteration when the network is declared idle and the NAT
holds another `y` than the one it sent last. -/
theorem idle_check_of_fresh (n : network) (ips : List Int) (x y : Int) (c0 : CPU)
    (rest : List CPU) (h : ips ∈ n.history) (hx : n.nat_x = some x) (hy : n.nat_y = some y)
    (hl : n.last_nat_y ≠ some y) (hc : n.cpus = c0 :: rest) :
    n.idle_check ips =
      Outcome.next { n with cpus := c0.ext [x, y] :: rest, last_nat_y := some y,
                            nat_x := none, nat_y := none, idling_ips := [] } := by
  unfold idle_check
  rw [if_pos h, hx, hy]
  dsimp only
  rw [if_neg hl, hc]
  dsimp only
  unfold CPU.give_input CPU.ext
  simp

/-- The end of an iteration when the network is declared idle and the NAT
holds no packet. -/
theorem idle_check_of_no_packet (n : network) (ips : List Int) (h : ips ∈ n.history)
    (hn : n.nat_x = none ∨ n.nat_y = none) :
    n.idle_check ips = Outcome.next { n with idling_ips := [] } := by
  unfold idle_check
  rw [if_pos h]
  rcases hx : n.nat_x with _ | x
  · rfl
  · rcases hy : n.nat_y with _ | y
    · rfl
    · rcases hn with hn | hn
      · rw [hx] at hn
        exact absurd hn (by simp)
      · rw [hy] at hn
        exact absurd hn (by simp)

/-- The end of an iteration never runs out of fuel. -/
theorem idle_check_not_unfinished (n : network) (ips : List Int) :
    n.idle_check ips ≠ Outcome.unfinished := by
  by_cases h : ips ∈ n.history
  · rcases hx : n.nat_x with _ | x
    · rw [idle_check_of_no_packet n ips h (Or.inl hx)]
      simp
    · rcases hy : n.nat_y with _ | y
      · rw [idle_check_of_no_packet n ips h (Or.inr hy)]
        simp
      · by_cases hl : n.last_nat_y = some y
        · rw [idle_check_of_repeat n ips x y h hx hy hl]
          simp
        · rcases hc : n.cpus with _ | ⟨c0, rest⟩
          · unfold idle_check
            rw [if_pos h, hx, hy]
            dsimp only
            rw [if_neg hl, hc]
            simp
          · rw [idle_check_of_fresh n ips x y c0 rest h hx hy hl hc]
            simp
  · rw [idle_check_of_not_mem n ips h]
    simp

/-- The end of an iteration that goes on: the machines are only fed, and the
idle history is empty or holds the vector of this sweep in front of what was
left of it. -/
theorem idle_check_next (n n2 : network) (ips : List Int)
    (h : n.idle_check ips = Outcome.next n2) :
    n2.cpus.length = n.cpus.length ∧
      (∀ (j : Nat) (c : CPU), n.cpus[j]? = some c → ∃ e, n2.cpus[j]? = some e ∧ Fed c e) ∧
      (n2.idling_ips = [] ∨ (n2.idling_ips = ips :: n.history ∧ n2.cpus = n.cpus)) ∧
      (n.nat_x = none → n2.nat_x = none) := by
  by_cases hm : ips ∈ n.history
  · rcases hx : n.nat_x with _ | x
    · rw [idle_check_of_no_packet n ips hm (Or.inl hx)] at h
      simp only [Outcome.next.injEq] at h
      subst h
      exact ⟨rfl, fun j c hc => ⟨c, hc, fed_refl c⟩, Or.inl rfl, fun _ => hx⟩
    · rcases hy : n.nat_y with _ | y
      · rw [idle_check_of_no_packet n ips hm (Or.inr hy)] at h
        simp only [Outcome.next.injEq] at h
        subst h
        exact ⟨rfl, fun j c hc => ⟨c, hc, fed_refl c⟩, Or.inl rfl, fun hh => absurd hh (by simp)⟩
      · by_cases hl : n.last_nat_y = some y
        · rw [idle_check_of_repeat n ips x y hm hx hy hl] at h
          exact absurd h (by simp)
        · rcases hc : n.cpus with _ | ⟨c0, rest⟩
          · unfold idle_check at h
            rw [if_pos hm, hx, hy] at h
            dsimp only at h
            rw [if_neg hl, hc] at h
            exact absurd h (by simp)
          · rw [idle_check_of_fresh n ips x y c0 rest hm hx hy hl hc] at h
            simp only [Outcome.next.injEq] at h
            subst h
            refine ⟨by simp, ?_, Or.inl rfl, fun _ => rfl⟩
            intro j c hj
            cases j with
            | zero =>
              simp only [List.getElem?_cons_zero, Option.some.injEq] at hj
              subst hj
              exact ⟨_, List.getElem?_cons_zero, [x, y], rfl⟩
            | succ j =>
              simp only [List.getElem?_cons_succ] at hj
              exact ⟨c, by simpa using hj, fed_refl c⟩
  · rw [idle_check_of_not_mem n ips hm] at h
    simp only [Outcome.next.injEq] at h
    subst h
    exact ⟨rfl, fun j c hc => ⟨c, hc, fed_refl c⟩, Or.inr ⟨rfl, rfl⟩, fun hh => hh⟩

theorem iteration_eq (fn : Bool) (n n1 : network) (ips : List Int)
    (hs : sweep fn n = Outcome.next (n1, ips)) : iteration fn n = n1.idle_check ips := by
  unfold iteration
  rw [hs]

/-- An iteration that goes on consists of a sweep that ends and the end of
the iteration. -/
theorem iteration_next (fn : Bool) (n n2 : network) (h : iteration fn n = Outcome.next n2) :
    ∃ n1 ips, sweep fn n = Outcome.next (n1, ips) ∧ n1.idle_check ips = Outcome.next n2 := by
  unfold iteration at h
  rcases hs : sweep fn n with ⟨n1, ips⟩ | ⟨v, m⟩ | _ | _ | _
  · rw [hs] at h
    exact ⟨n1, ips, rfl, h⟩
  all_goals
    rw [hs] at h
    exact absurd h (by simp)

theorem pending_congr (n n2 : network) (h : n2.cpus = n.cpus) : n2.pending = n.pending := by
  unfold pending
  rw [h]

theorem cur_ips_congr (n n2 : network) (h : n2.cpus = n.cpus) : n2.cur_ips = n.cur_ips := by
  unfold cur_ips
  rw [h]

/-- After every iteration the network is settled. -/
theorem settled_iteration (fn : Bool) (n n2 : network) (h : iteration fn n = Outcome.next n2) :
    Settled n2 := by
  obtain ⟨n1, ips, hs, hi⟩ := iteration_next fn n n2 h
  obtain ⟨hlen, hfed, hhist, _⟩ := idle_check_next n1 n2 ips hi
  constructor
  · intro j e he
    have hj : j < n1.cpus.length := by
      rw [← hlen]
      exact lt_length_of_getElem? _ j e he
    have hcj : n1.cpus[j]? = some (n1.cpus.get ⟨j, hj⟩) := List.getElem?_eq_getElem hj
    obtain ⟨e2, he2, l, hl⟩ := hfed j _ hcj
    rw [he] at he2
    simp only [Option.some.injEq] at he2
    subst he2
    rw [hl]
    exact sweep_short fn n n1 ips hs j (n1.cpus.get ⟨j, hj⟩) hcj
  · intro hp v hv
    rcases hhist with h0 | ⟨h1, h2⟩
    · rw [h0] at hv
      exact absurd hv (by simp)
    · rw [pending_congr n1 n2 h2] at hp
      rw [h1, history_of_pending n1 hp] at hv
      simp only [List.mem_singleton] at hv
      rw [hv, cur_ips_congr n1 n2 h2]
      exact sweep_ips fn n n1 ips hs

theorem sweeps_succ (fn : Bool) (k : Nat) (n : network) :
    sweeps fn (k + 1) n =
      match sweeps fn k n with
      | Outcome.next n1 => iteration fn n1
      | Outcome.returned v m => Outcome.returned v m
      | Outcome.aborted => Outcome.aborted
      | Outcome.undefined => Outcome.undefined
      | Outcome.unfinished => Outcome.unfinished := rfl

/-- A network with an empty idle history and no complete packet stays settled
through the iterations of `run`. -/
theorem settled_sweeps (fn : Bool) (n0 : network) (h0 : Settled n0) : ∀ (k : Nat) (n : network),
    sweeps fn k n0 = Outcome.next n → Settled n := by
  intro k
  cases k with
  | zero =>
    intro n h
    simp only [sweeps, Outcome.next.injEq] at h
    subst h
    exact h0
  | succ k =>
    intro n h
    rw [sweeps_succ] at h
    rcases hk : sweeps fn k n0 with ⟨n1⟩ | ⟨v, m⟩ | _ | _ | _
    · rw [hk] at h
      exact settled_iteration fn n1 n h
    all_goals
      rw [hk] at h
      exact absurd h (by simp)

theorem sweep_frame (fn : Bool) (n n1 : network) (ips : List Int)
    (hs : sweep fn n = Outcome.next (n1, ips)) :
    n1.cpus.length = n.cpus.length ∧ n1.idling_ips = n.idling_ips ∧
      n1.last_nat_y = n.last_nat_y ∧ (fn = true → n1.nat_x = n.nat_x ∧ n1.nat_y = n.nat_y) :=
  turns_frame fn _ n n1 [] ips hs

/-- Every vector of the idle history was pushed by an earlier sweep. -/
theorem history_recorded (fn : Bool) (n0 : network) (h0 : n0.idling_ips = []) :
    ∀ (k : Nat) (n : network), sweeps fn k n0 = Outcome.next n → ∀ v ∈ n.idling_ips,
      ∃ j nj n1, j < k ∧ sweeps fn j n0 = Outcome.next nj ∧
        sweep fn nj = Outcome.next (n1, v) := by
  intro k
  induction k with
  | zero =>
    intro n h v hv
    simp only [sweeps, Outcome.next.injEq] at h
    subst h
    rw [h0] at hv
    exact absurd hv (by simp)
  | succ k ih =>
    intro n h v hv
    rw [sweeps_succ] at h
    rcases hk : sweeps fn k n0 with ⟨nk⟩ | ⟨v2, m⟩ | _ | _ | _
    · rw [hk] at h
      dsimp only at h
      obtain ⟨n1, ips, hs, hi⟩ := iteration_next fn nk n h
      obtain ⟨_, _, hhist, _⟩ := idle_check_next n1 n ips hi
      rcases hhist with hh | ⟨hh, _⟩
      · rw [hh] at hv
        exact absurd hv (by simp)
      · rw [hh] at hv
        rcases List.mem_cons.mp hv with hv | hv
        · subst hv
          exact ⟨k, nk, n1, Nat.lt_succ_self k, hk, hs⟩
        · have hv2 := (mem_history n1 v hv).2
          rw [(sweep_frame fn nk n1 ips hs).2.1] at hv2
          obtain ⟨j, nj, nj1, hj, a, b⟩ := ih nk hk v hv2
          exact ⟨j, nj, nj1, Nat.lt_succ_of_lt hj, a, b⟩
    all_goals
      rw [hk] at h
      exact absurd h (by simp)

/-- In a sweep at whose end the network is declared idle nothing was pending
at any time: not at its beginning, and not after the turn of any machine. -/
theorem idle_quiet (fn : Bool) (n n1 : network) (ips : List Int) (hst : Settled n)
    (hs : sweep fn n = Outcome.next (n1, ips)) (hidle : ips ∈ n1.history) :
    ∀ m, m ≤ n.cpus.length → ∃ nm ipsm,
      turns fn (List.range m) n [] = Outcome.next (nm, ipsm) ∧ nm.pending = false := by
  obtain ⟨hp1, hmem⟩ := mem_history n1 ips hidle
  rw [(sweep_frame fn n n1 ips hs).2.1] at hmem
  obtain ⟨hl1, hl2, hsum⟩ := sweep_summary fn n n1 ips hs
  have hp0 : n.pending = false := by
    rcases hp : n.pending with _ | _
    · rfl
    · exfalso
      have hips : ips = n.cur_ips := hst.2 hp ips hmem
      obtain ⟨j, c, hc, hq⟩ := (pending_iff n).mp hp
      obtain ⟨e, ip, he, hip, c0, r, c1, ⟨l, hl⟩, hex, ⟨l2, ps, rest, hout, hre⟩, _, hipe⟩ :=
        hsum j c hc
      obtain ⟨e1, e2⟩ := not_pending n1 hp1 j e he
      have hcur : n.cur_ips[j]? = some (toInt32 c.ip) := by
        unfold cur_ips
        rw [List.getElem?_map, hc]
        rfl
      rw [hips, hcur] at hip
      simp only [Option.some.injEq] at hip
      subst hre
      dsimp only at e1 e2
      subst e2
      subst hl
      have hc1 : c1.input_values = [] := (List.append_eq_nil.mp e1).1
      rcases CPU.execute_queues _ c1 r hex with ⟨a, b⟩ | ⟨a, _, _⟩ | ⟨a, _, _⟩
      · have hin : c.input_values = [] := by
          rw [hc1] at a
          exact (List.append_eq_nil.mp a.symm).1
        have hlen := hst.1 j c hc
        have hb : c.output_values = flat ps ++ [] := b.symm.trans hout
        rw [hb, List.append_nil, length_flat] at hlen
        have hps : ps = [] := List.length_eq_zero.mp (by omega)
        rw [hps] at hb
        rcases hq with hq | hq
        · exact hq hin
        · exact hq hb
      · have a2 : c1.ip = c.ip + 2 := a
        rw [hipe, a2] at hip
        exact toInt32_add_two c.ip hip.symm
      · have a2 : c1.ip = c.ip + 2 := a
        rw [hipe, a2] at hip
        exact toInt32_add_two c.ip hip.symm
  intro m hm
  obtain ⟨nm, hm1, hm2, _⟩ := sweep_prefix fn n n1 ips hs m hm
  refine ⟨nm, ips.take m, hm1, ?_⟩
  have hq0 : ∀ (is : List Nat), ∀ j ∈ is, ∀ c, n.cpus[j]? = some c →
      c.output_values.length < 2 := by
    intro is j _ c hc
    rw [(not_pending n hp0 j c hc).2]
    exact Nat.zero_lt_two
  obtain ⟨_, qm⟩ := turns_quiet fn _ n nm [] _ (List.nodup_range m) (hq0 _) hm1
  obtain ⟨_, qn⟩ := turns_quiet fn _ n n1 [] _ (List.nodup_range _) (hq0 _) hs
  rcases hpm : nm.pending with _ | _
  · rfl
  · exfalso
    obtain ⟨j, e, he, hq⟩ := (pending_iff nm).mp hpm
    have hj : j < n.cpus.length := by
      rw [← hm2]
      exact lt_length_of_getElem? _ j e he
    have hcj : n.cpus[j]? = some (n.cpus.get ⟨j, hj⟩) := List.getElem?_eq_getElem hj
    obtain ⟨e2, he2, hsame, hexe⟩ := qm j _ hcj
    rw [he] at he2
    simp only [Option.some.injEq] at he2
    subst he2
    by_cases hjm : j ∈ List.range m
    · obtain ⟨r, hr⟩ := hexe hjm
      obtain ⟨f, hf, _, hexf⟩ := qn j _ hcj
      obtain ⟨r2, hr2⟩ := hexf (List.mem_range.mpr hj)
      rw [hr] at hr2
      simp only [Option.some.injEq, Prod.mk.injEq] at hr2
      obtain ⟨_, rfl⟩ := hr2
      obtain ⟨a, b⟩ := not_pending n1 hp1 j e hf
      rcases hq with hq | hq
      · exact hq a
      · exact hq b
    · rw [hsame hjm] at hq
      obtain ⟨a, b⟩ := not_pending n hp0 j _ hcj
      rcases hq with hq | hq
      · exact hq a
      · exact hq b

/-- The first of `k + 1` iterations, then the other `k`. -/
theorem sweeps_front (fn : Bool) : ∀ (k : Nat) (n : network),
    sweeps fn (k + 1) n =
      match iteration fn n with
      | Outcome.next n1 => sweeps fn k n1
      | Outcome.returned v m => Outcome.returned v m
      | Outcome.aborted => Outcome.aborted
      | Outcome.undefined => Outcome.undefined
      | Outcome.unfinished => Outcome.unfinished := by
  intro k
  induction k with
  | zero =>
    intro n
    rw [sweeps_succ]
    simp only [sweeps]
    rcases iteration fn n with ⟨n1⟩ | ⟨v, m⟩ | _ | _ | _ <;> rfl
  | succ k ih =>
    intro n
    rw [sweeps_succ, ih n]
    rcases iteration fn n with ⟨n1⟩ | ⟨v, m⟩ | _ | _ | _
    · exact (sweeps_succ fn k n1).symm
    all_goals rfl

theorem run_succ (fn : Bool) (k : Nat) (n : network) :
    run fn (k + 1) n =
      match iteration fn n with
      | Outcome.next n1 => run fn k n1
      | Outcome.returned v m => Outcome.returned v m
      | Outcome.aborted => Outcome.aborted
      | Outcome.undefined => Outcome.undefined
      | Outcome.unfinished => Outcome.unfinished := rfl

/-- A run returns in an iteration that follows complete iterations. -/
theorem run_returns_in_iteration (fn : Bool) : ∀ (k : Nat) (n0 : network) (v : Int) (m : network),
    run fn k n0 = Outcome.returned v m →
    ∃ j nj, j < k ∧ sweeps fn j n0 = Outcome.next nj ∧
      iteration fn nj = Outcome.returned v m := by
  intro k
  induction k with
  | zero =>
    intro n0 v m h
    exact absurd h (by simp [run])
  | succ k ih =>
    intro n0 v m h
    rw [run_succ] at h
    rcases hi : iteration fn n0 with ⟨n1⟩ | ⟨v2, m2⟩ | _ | _ | _
    · rw [hi] at h
      obtain ⟨j, nj, hj, a, b⟩ := ih n1 v m h
      refine ⟨j + 1, nj, Nat.succ_lt_succ hj, ?_, b⟩
      rw [sweeps_front, hi]
      exact a
    · rw [hi] at h
      simp only [Outcome.returned.injEq] at h
      obtain ⟨rfl, rfl⟩ := h
      exact ⟨0, n0, Nat.zero_lt_succ k, rfl, hi⟩
    all_goals
      rw [hi] at h
      exact absurd h (by simp)

/-- A run returns in the first iteration that returns, whatever fuel is left. -/
theorem run_of_sweeps (fn : Bool) : ∀ (j : Nat) (n0 nj : network) (v : Int) (m : network)
    (k : Nat), sweeps fn j n0 = Outcome.next nj → iteration fn nj = Outcome.returned v m →
    j < k → run fn k n0 = Outcome.returned v m := by
  intro j
  induction j with
  | zero =>
    intro n0 nj v m k h1 h2 hk
    simp only [sweeps, Outcome.next.injEq] at h1
    subst h1
    obtain ⟨k2, rfl⟩ : ∃ k2, k = k2 + 1 := ⟨k - 1, by omega⟩
    rw [run_succ, h2]
  | succ j ih =>
    intro n0 nj v m k h1 h2 hk
    obtain ⟨k2, rfl⟩ : ∃ k2, k = k2 + 1 := ⟨k - 1, by omega⟩
    rw [sweeps_front] at h1
    rw [run_succ]
    rcases hi : iteration fn n0 with ⟨n1⟩ | ⟨v2, m2⟩ | _ | _ | _
    · rw [hi] at h1
      exact ih n1 nj v m k2 h1 h2 (by omega)
    all_goals
      rw [hi] at h1
      exact absurd h1 (by simp)

/-- With `first_nat` nothing is ever stored at the NAT. -/
theorem iteration_true_nat (n n2 : network) (hx : n.nat_x = none)
    (h : iteration true n = Outcome.next n2) : n2.nat_x = none := by
  obtain ⟨n1, ips, hs, hi⟩ := iteration_next true n n2 h
  have h1 : n1.nat_x = none := ((sweep_frame true n n1 ips hs).2.2.2 rfl).1.trans hx
  exact (idle_check_next n1 n2 ips hi).2.2.2 h1

theorem sweeps_true_nat (n0 : network) (hx : n0.nat_x = none) : ∀ (k : Nat) (n : network),
    sweeps true k n0 = Outcome.next n → n.nat_x = none := by
  intro k
  induction k with
  | zero =>
    intro n h
    simp only [sweeps, Outcome.next.injEq] at h
    subst h
    exact hx
  | succ k ih =>
    intro n h
    rw [sweeps_succ] at h
    rcases hk : sweeps true k n0 with ⟨nk⟩ | ⟨v2, m⟩ | _ | _ | _
    · rw [hk] at h
      exact iteration_true_nat nk n (ih nk hk) h
    all_goals
      rw [hk] at h
      exact absurd h (by simp)

/-- With `first_nat` and nothing stored at the NAT an iteration returns only
from its sweep. -/
theorem iteration_true_returned (n : network) (v : Int) (m : network) (hx : n.nat_x = none)
    (h : iteration true n = Outcome.returned v m) : sweep true n = Outcome.returned v m := by
  unfold iteration at h
  rcases hs : sweep true n with ⟨n1, ips⟩ | ⟨v2, m2⟩ | _ | _ | _
  · rw [hs] at h
    dsimp only at h
    have h1 : n1.nat_x = none := ((sweep_frame true n n1 ips hs).2.2.2 rfl).1.trans hx
    by_cases hm : ips ∈ n1.history
    · rw [idle_check_of_no_packet n1 ips hm (Or.inl h1)] at h
      exact absurd h (by simp)
    · rw [idle_check_of_not_mem n1 ips hm] at h
      exact absurd h (by simp)
  · rw [hs] at h
    simp only [Outcome.returned.injEq] at h
    rw [h.1, h.2]
  all_goals
    rw [hs] at h
    exact absurd h (by simp)

/-- A sequence of turns returns in the turn of one machine, after the turns
of the machines before it have ended. -/
theorem turns_returned (fn : Bool) : ∀ (is : List Nat) (n : network) (ips : List Int) (v : Int)
    (m : network), turns fn is n ips = Outcome.returned v m →
    ∃ pre i post ni ipsi, is = pre ++ i :: post ∧
      turns fn pre n ips = Outcome.next (ni, ipsi) ∧ turn fn ni i = Outcome.returned v m := by
  intro is
  induction is with
  | nil =>
    intro n ips v m h
    exact absurd h (by simp [turns])
  | cons i rest ih =>
    intro n ips v m h
    rw [turns_cons] at h
    rcases ht : turn fn n i with ⟨n1, ip⟩ | ⟨v2, m2⟩ | _ | _ | _
    · rw [ht] at h
      obtain ⟨pre, i2, post, ni, ipsi, e, a, b⟩ := ih n1 _ v m h
      refine ⟨i :: pre, i2, post, ni, ipsi, by rw [e]; rfl, ?_, b⟩
      rw [turns_cons, ht]
      exact a
    · rw [ht] at h
      simp only [Outcome.returned.injEq] at h
      obtain ⟨rfl, rfl⟩ := h
      exact ⟨[], i, rest, n, ips, rfl, rfl, ht⟩
    all_goals
      rw [ht] at h
      exact absurd h (by simp)

theorem range_decomp (N i : Nat) (pre post : List Nat) (h : List.range N = pre ++ i :: post) :
    pre = List.range i ∧ i < N := by
  have hlen : pre.length + (post.length + 1) = N := by
    have e := congrArg List.length h
    rw [List.length_range, List.length_append, List.length_cons] at e
    exact e.symm
  have hi : (List.range N)[pre.length]? = some i := by
    rw [h, List.getElem?_append_right (Nat.le_refl _), Nat.sub_self]
    exact List.getElem?_cons_zero
  rw [List.getElem?_range (by omega)] at hi
  simp only [Option.some.injEq] at hi
  subst hi
  refine ⟨?_, by omega⟩
  have e := congrArg (List.take pre.length) h
  rw [List.take_range, Nat.min_eq_left (by omega), List.take_left' rfl] at e
  exact e.symm

/-- With `first_nat`, a sweep of a network without complete packets returns
only in the turn of a machine whose instruction completes a packet for 255. -/
theorem sweep_true_returned (n : network) (v : Int) (m : network)
    (hsh : ∀ (j : Nat) (c : CPU), n.cpus[j]? = some c → c.output_values.length < 3)
    (h : sweep true n = Outcome.returned v m) :
    ∃ i ni ipsi c r c1 x, i < n.cpus.length ∧
      turns true (List.range i) n [] = Outcome.next (ni, ipsi) ∧
      ni.cpus[i]? = some c ∧ c.execute = some (r, c1) ∧ c1.output_values = [255, x, v] ∧
      m = { ni with cpus := ni.cpus.set i { c1 with output_values := [] } } := by
  obtain ⟨pre, i, post, ni, ipsi, e, a, b⟩ := turns_returned true _ n [] v m h
  obtain ⟨rfl, hi⟩ := range_decomp _ i pre post e
  obtain ⟨new, _, _, hall⟩ := turns_summary true _ n ni [] ipsi (List.nodup_range i) a
  have hl : ∀ c, ni.cpus[i]? = some c → c.output_values.length < 3 := by
    intro c hc
    have hci : n.cpus[i]? = some (n.cpus.get ⟨i, hi⟩) := List.getElem?_eq_getElem hi
    obtain ⟨e2, he2, hfed, _⟩ := hall i _ hci
    rw [hc] at he2
    simp only [Option.some.injEq] at he2
    subst he2
    obtain ⟨l, hl⟩ := hfed (by simp)
    rw [hl]
    exact hsh i (n.cpus.get ⟨i, hi⟩) hci
  obtain ⟨c, r, c1, x, h1, h2, h3, h4⟩ := turn_true_returned ni i v m hl b
  exact ⟨i, ni, ipsi, c, r, c1, x, hi, a, h1, h2, h3, h4⟩

/-- A sweep returns when the turn of a machine returns. -/
theorem sweep_of_turn_returned (fn : Bool) (n ni : network) (i : Nat) (ipsi : List Int)
    (v : Int) (m : network) (hi : i < n.cpus.length)
    (h1 : turns fn (List.range i) n [] = Outcome.next (ni, ipsi))
    (h2 : turn fn ni i = Outcome.returned v m) : sweep fn n = Outcome.returned v m := by
  unfold sweep
  rw [range_split (i + 1) n.cpus.length hi, List.range_succ, List.append_assoc, turns_append, h1]
  dsimp only
  rw [List.singleton_append, turns_cons, h2]

/-! ## The packet loop -/

/-- C25: the packet loop `while (cpu.has_output() >= 3)` of machine `i`, whose
output queue begins with `dest`, `x`, `y`.  One round removes the three values
from that queue.  When `dest` is not 255 and is the index of a machine, `x` and
then `y` are appended to the input queue of machine `dest` and nothing else
changes; when `dest` is 255 and `first_nat` is false, `x` and `y` replace what
is stored at the NAT and no machine is touched but for the removal.  In both
cases the loop then goes on with what is left in the queue, and when fewer than
three values are left it ends: the result of the whole loop is the network
given.  When `dest` is 255 and `first_nat` is true, `run` returns `y`.  When
`dest` is not 255 and not below the number of machines the assertion fails; a
negative `dest` indexes the vector of machines out of bounds.  A loop that ends
leaves fewer than three values in the queue.  The turn of machine `i` in
`run` is its `execute` followed by this loop. -/
theorem route_packet (fn : Bool) (fuel : Nat) (n : network) (i : Nat) (c : CPU)
    (dest x y : Int) (rest : List Int) (hc : n.cpus[i]? = some c)
    (hq : c.output_values = dest :: x :: y :: rest) :
    (dest ≠ 255 → 0 ≤ dest → dest < (n.cpus.length : Int) →
        ∃ t, (n.cpus.set i { c with output_values := rest })[dest.toNat]? = some t ∧
          drain fn (fuel + 1) n i =
            drain fn fuel
              { n with cpus := (n.cpus.set i { c with output_values := rest }).set dest.toNat
                                 { t with input_values := t.input_values ++ [x, y] } } i ∧
          (rest.length < 3 →
            drain fn (fuel + 2) n i =
              Outcome.next
                { n with cpus := (n.cpus.set i { c with output_values := rest }).set dest.toNat
                                   { t with input_values := t.input_values ++ [x, y] } })) ∧
      (dest = 255 → fn = false →
        drain fn (fuel + 1) n i =
            drain fn fuel { n with cpus := n.cpus.set i { c with output_values := rest },
                                   nat_x := some x, nat_y := some y } i ∧
          (rest.length < 3 →
            drain fn (fuel + 2) n i =
              Outcome.next { n with cpus := n.cpus.set i { c with output_values := rest },
                                    nat_x := some x, nat_y := some y })) ∧
      (dest = 255 → fn = true →
        drain fn (fuel + 1) n i =
          Outcome.returned y { n with cpus := n.cpus.set i { c with output_values := rest } }) ∧
      (dest ≠ 255 → (n.cpus.length : Int) ≤ dest → drain fn (fuel + 1) n i = Outcome.aborted) ∧
      (dest < 0 → drain fn (fuel + 1) n i = Outcome.undefined) ∧
      (∀ n2, drain fn (fuel + 1) n i = Outcome.next n2 →
        ∀ e, n2.cpus[i]? = some e → e.output_values.length < 3) ∧
      (∀ (n0 : network) (c0 : CPU) (r : Bool), n0.cpus[i]? = some c0 →
        c0.execute = some (r, c) → n = { n0 with cpus := n0.cpus.set i c } →
        turn fn n0 i =
          match drain fn (rest.length + 4) n i with
          | Outcome.next n2 => Outcome.next (n2, toInt32 c.ip)
          | Outcome.returned v m => Outcome.returned v m
          | Outcome.aborted => Outcome.aborted
          | Outcome.undefined => Outcome.undefined
          | Outcome.unfinished => Outcome.unfinished) := by
  have hi : i < n.cpus.length := by
    rcases Nat.lt_or_ge i n.cpus.length with h | h
    · exact h
    · rw [List.getElem?_eq_none h] at hc
      exact absurd hc (by simp)
  refine ⟨?_, ?_, ?_, ?_, ?_, ?_, ?_⟩
  · intro hd h0 h1
    have hlt : dest.toNat < (n.cpus.set i { c with output_values := rest }).length := by
      rw [List.length_set]
      omega
    obtain ⟨t, ht⟩ : ∃ t, (n.cpus.set i { c with output_values := rest })[dest.toNat]? = some t :=
      ⟨_, List.getElem?_eq_getElem hlt⟩
    have hstep : ∀ fuel, drain fn (fuel + 1) n i =
        drain fn fuel
          { n with cpus := (n.cpus.set i { c with output_values := rest }).set dest.toNat
                             { t with input_values := t.input_values ++ [x, y] } } i := by
      intro fuel
      rw [drain_step fn fuel n i c dest x y rest hc hq, if_neg hd,
        deliver_of_valid _ dest x y _ h0 (by rw [List.length_set]; exact h1) ht]
      rfl
    refine ⟨t, ht, hstep fuel, ?_⟩
    intro hr
    rw [hstep (fuel + 1)]
    by_cases hdi : dest.toNat = i
    · apply drain_done fn fuel _ i { t with input_values := t.input_values ++ [x, y] }
      · show ((n.cpus.set i { c with output_values := rest }).set dest.toNat _)[i]? = _
        rw [hdi]
        exact List.getElem?_set_self (by rw [List.length_set]; exact hi)
      · have hg : t = { c with output_values := rest } := by
          have h2 : (n.cpus.set i { c with output_values := rest })[dest.toNat]? =
              some { c with output_values := rest } := by
            rw [hdi]
            exact List.getElem?_set_self hi
          rw [ht] at h2
          simp only [Option.some.injEq] at h2
          exact h2
        rw [hg]
        exact hr
    · apply drain_done fn fuel _ i { c with output_values := rest }
      · show ((n.cpus.set i { c with output_values := rest }).set dest.toNat _)[i]? = _
        rw [List.getElem?_set_ne hdi]
        exact List.getElem?_set_self hi
      · exact hr
  · intro hd hf
    have hstep : ∀ fuel, drain fn (fuel + 1) n i =
        drain fn fuel { n with cpus := n.cpus.set i { c with output_values := rest },
                               nat_x := some x, nat_y := some y } i := by
      intro fuel
      rw [drain_step fn fuel n i c dest x y rest hc hq, if_pos hd, hf]
      rfl
    refine ⟨hstep fuel, ?_⟩
    intro hr
    rw [hstep (fuel + 1)]
    apply drain_done fn fuel _ i { c with output_values := rest }
    · show (n.cpus.set i { c with output_values := rest })[i]? = _
      exact List.getElem?_set_self hi
    · exact hr
  · intro hd hf
    rw [drain_step fn fuel n i c dest x y rest hc hq, if_pos hd, hf]
    rfl
  · intro hd h1
    rw [drain_step fn fuel n i c dest x y rest hc hq, if_neg hd]
    unfold deliver
    rw [if_neg (by rw [List.length_set]; omega)]
  · intro h0
    have hd : dest ≠ 255 := by omega
    rw [drain_step fn fuel n i c dest x y rest hc hq, if_neg hd]
    unfold deliver
    rw [if_pos (by rw [List.length_set]; omega), if_pos h0]
  · intro n2 h e he
    exact (drain_next fn _ n n2 i h).2.1 e he
  · intro n0 c0 r hc0 he hn
    rw [turn_eq fn n0 i c0 c r hc0 he, hn]
    have hl : c.has_output + 1 = rest.length + 4 := by
      unfold CPU.has_output
      rw [hq]
      simp
    rw [hl]

/-- C25 at two machines.  Machine 0 holds `1, 10` in its output queue and
writes 20 in its turn: the packet `1, 10, 20` is removed and 10 and 20 go to the
input queue of machine 1. -/
theorem route_packet_witness :
    (∃ t, ([({ memory := [104, 20, 99], ip := 2, blocking := false } : CPU),
            { memory := [99], blocking := false }])[(1 : Int).toNat]? = some t ∧
      drain false 2
          { cpus := [{ memory := [104, 20, 99], ip := 2, blocking := false,
                       output_values := [1, 10, 20] },
                     { memory := [99], blocking := false }] } 0 =
        Outcome.next
          { cpus := [({ memory := [104, 20, 99], ip := 2, blocking := false } : CPU),
                     { memory := [99], blocking := false }].set (1 : Int).toNat
                     { t with input_values := t.input_values ++ [10, 20] } }) ∧
      drain false 2
          { cpus := [{ memory := [104, 20, 99], ip := 2, blocking := false,
                       output_values := [1, 10, 20] },
                     { memory := [99], blocking := false }] } 0 =
        Outcome.next
          { cpus := [{ memory := [104, 20, 99], ip := 2, blocking := false },
                     { memory := [99], blocking := false, input_values := [10, 20] }] } ∧
      turn false
          { cpus := [{ memory := [104, 20, 99], blocking := false, output_values := [1, 10] },
                     { memory := [99], blocking := false }] } 0 =
        Outcome.next
          ({ cpus := [{ memory := [104, 20, 99], ip := 2, blocking := false },
                      { memory := [99], blocking := false, input_values := [10, 20] }] }, 2) :=
  ⟨match (route_packet false 0
        ({ cpus := [{ memory := [104, 20, 99], ip := 2, blocking := false,
                      output_values := [1, 10, 20] },
                    { memory := [99], blocking := false }] } : network) 0
        { memory := [104, 20, 99], ip := 2, blocking := false, output_values := [1, 10, 20] }
        1 10 20 [] rfl rfl).1 (by decide) (by decide) (by decide) with
    | ⟨t, h1, _, h3⟩ => ⟨t, h1, h3 (by decide)⟩,
    by decide, by decide⟩

/-! ## The sweep -/

/-- C28: in a sweep that ends, after the turns of the first `m` machines
(`m` = 0, ..., the number of machines) exactly the machines `0`, ..., `m - 1`
have had their turn, each one `execute` call whose instruction pointer is the
entry of `ips` at the index of the machine, and the other machines have only
been fed; with `m` the number of machines this is the whole sweep.  The sweep
is a function of the state before it. -/
theorem sweep_one_execute_each (fn : Bool) (n n1 : network) (ips : List Int)
    (hs : sweep fn n = Outcome.next (n1, ips)) (m : Nat) (hm : m ≤ n.cpus.length) :
    (∃ nm, turns fn (List.range m) n [] = Outcome.next (nm, ips.take m) ∧
      (m = n.cpus.length → nm = n1) ∧ nm.cpus.length = n.cpus.length ∧
      (ips.take m).length = m ∧
      ∀ (j : Nat) (c : CPU), n.cpus[j]? = some c → ∃ e, nm.cpus[j]? = some e ∧
        (if j < m then ∃ ip, ips[j]? = some ip ∧ Turned ip c e else Fed c e)) ∧
      (∀ n2 ips2, sweep fn n = Outcome.next (n2, ips2) → n2 = n1 ∧ ips2 = ips) := by
  obtain ⟨nm, h1, h2, h3⟩ := sweep_prefix fn n n1 ips hs m hm
  obtain ⟨_, hl, _⟩ := sweep_summary fn n n1 ips hs
  refine ⟨⟨nm, h1, ?_, h2, ?_, h3⟩, ?_⟩
  · intro hmn
    subst hmn
    have hs2 : turns fn (List.range n.cpus.length) n [] = Outcome.next (n1, ips) := hs
    rw [hs2] at h1
    simp only [Outcome.next.injEq, Prod.mk.injEq] at h1
    exact h1.1.symm
  · rw [List.length_take, hl]
    omega
  · intro n2 ips2 h
    rw [hs] at h
    simp only [Outcome.next.injEq, Prod.mk.injEq] at h
    exact ⟨h.1.symm, h.2.symm⟩

/-- C28 at two machines that each write a value: after the first turn of the
sweep one instruction pointer has been pushed. -/
theorem sweep_one_execute_each_witness :
    ∃ nm, turns false (List.range 1) ({ cpus := [{ memory := [104, 5, 99], blocking := false },
                 { memory := [104, 5, 99], blocking := false }] } : network) [] = Outcome.next (nm, [2]) ∧
      nm.cpus.length = 2 :=
  match (sweep_one_execute_each false ({ cpus := [{ memory := [104, 5, 99], blocking := false },
             { memory := [104, 5, 99], blocking := false }] } : network)
      ({ cpus := [{ memory := [104, 5, 99], ip := 2, blocking := false, output_values := [5] },
               { memory := [104, 5, 99], ip := 2, blocking := false, output_values := [5] }] } : network)
      [2, 2] (by decide) 1 (by decide)).1 with
  | ⟨nm, h1, _, h2, _⟩ => ⟨nm, h1, h2⟩

/-! ## The idle test -/

/-- C29: after a sweep at whose end some machine has a value in its input or
output queue, the vector of the sweep is not found in the idle history (the
network is not declared idle), nothing of the old history is left, and the
iteration ends with the vector of this sweep as the only entry of the
history. -/
theorem pending_clears_idle_history (fn : Bool) (n n1 : network) (ips : List Int) (c : CPU)
    (hs : sweep fn n = Outcome.next (n1, ips)) (hc : c ∈ n1.cpus)
    (hq : c.input_values ≠ [] ∨ c.output_values ≠ []) :
    ips ∉ n1.history ∧ n1.history = [] ∧
      iteration fn n = Outcome.next { n1 with idling_ips := [ips] } := by
  obtain ⟨j, hj⟩ := List.getElem?_of_mem hc
  have hp : n1.pending = true := (pending_iff n1).mpr ⟨j, c, hj, hq⟩
  have hh : n1.history = [] := history_of_pending n1 hp
  have hm : ips ∉ n1.history := by
    rw [hh]
    simp
  refine ⟨hm, hh, ?_⟩
  rw [iteration_eq fn n n1 ips hs, idle_check_of_not_mem n1 ips hm, hh]

/-- C29 at two machines that each write a value: the values are pending at
the end of the sweep. -/
theorem pending_clears_idle_history_witness :
    [2, 2] ∉ ({ cpus := [{ memory := [104, 5, 99], ip := 2, blocking := false, output_values := [5] },
                 { memory := [104, 5, 99], ip := 2, blocking := false, output_values := [5] }] } : network).history ∧
      ({ cpus := [{ memory := [104, 5, 99], ip := 2, blocking := false, output_values := [5] },
               { memory := [104, 5, 99], ip := 2, blocking := false, output_values := [5] }] } : network).history = [] ∧
      iteration false ({ cpus := [{ memory := [104, 5, 99], blocking := false },
               { memory := [104, 5, 99], blocking := false }] } : network) =
        Outcome.next ({ cpus := [{ memory := [104, 5, 99], ip := 2, blocking := false, output_values := [5] },
                 { memory := [104, 5, 99], ip := 2, blocking := false, output_values := [5] }], idling_ips := [[2, 2]] } : network) :=
  pending_clears_idle_history false ({ cpus := [{ memory := [104, 5, 99], blocking := false },
             { memory := [104, 5, 99], blocking := false }] } : network)
    ({ cpus := [{ memory := [104, 5, 99], ip := 2, blocking := false, output_values := [5] },
             { memory := [104, 5, 99], ip := 2, blocking := false, output_values := [5] }] } : network) [2, 2]
    { memory := [104, 5, 99], ip := 2, blocking := false, output_values := [5] }
    (by decide) (by decide) (Or.inr (by decide))

/-- C27: from a network with an empty idle history and no complete packet in
an output queue (the network that the constructor makes is one), let `k`
iterations of `while (true)` be followed by a sweep at whose end the network
is declared idle, that is, the vector `ips` of the sweep is found in the idle
history.  Then `ips` is the vector of one of the `k` earlier sweeps, and at no
time in the sweep did a machine have a value in its input queue or in its
output queue: not at the beginning, and not after the turn of any machine. -/
theorem idle_only_after_quiet_repeat (fn : Bool) (n0 : network) (k : Nat) (n n1 : network)
    (ips : List Int) (h0 : n0.idling_ips = [])
    (hs0 : ∀ c ∈ n0.cpus, c.output_values.length < 3)
    (hk : sweeps fn k n0 = Outcome.next n) (hs : sweep fn n = Outcome.next (n1, ips))
    (hidle : ips ∈ n1.history) :
    (∃ j nj nj1, j < k ∧ sweeps fn j n0 = Outcome.next nj ∧
        sweep fn nj = Outcome.next (nj1, ips)) ∧
      ∀ m, m ≤ n.cpus.length → ∃ nm ipsm,
        turns fn (List.range m) n [] = Outcome.next (nm, ipsm) ∧
          ∀ c ∈ nm.cpus, c.input_values = [] ∧ c.output_values = [] := by
  have hst0 : Settled n0 := by
    refine ⟨fun j c hc => hs0 c (List.getElem?_mem hc), fun _ v hv => ?_⟩
    rw [h0] at hv
    exact absurd hv (by simp)
  have hst : Settled n := settled_sweeps fn n0 hst0 k n hk
  constructor
  · have hv := (mem_history n1 ips hidle).2
    rw [(sweep_frame fn n n1 ips hs).2.1] at hv
    exact history_recorded fn n0 h0 k n hk ips hv
  · intro m hm
    obtain ⟨nm, ipsm, h1, h2⟩ := idle_quiet fn n n1 ips hst hs hidle m hm
    refine ⟨nm, ipsm, h1, fun c hc => ?_⟩
    obtain ⟨j, hj⟩ := List.getElem?_of_mem hc
    exact not_pending nm h2 j c hj

/-- C27 at one machine that jumps to itself: the second sweep pushes the
vector of the first and the network is declared idle. -/
theorem idle_only_after_quiet_repeat_witness :
    (∃ j nj nj1, j < 1 ∧ sweeps false j ({ cpus := [{ memory := [1105, 1, 0], blocking := false }] } : network) = Outcome.next nj ∧
        sweep false nj = Outcome.next (nj1, [0])) ∧
      ∀ m, m ≤ 1 → ∃ nm ipsm,
        turns false (List.range m) ({ cpus := [{ memory := [1105, 1, 0], blocking := false }], idling_ips := [[0]] } : network) [] =
            Outcome.next (nm, ipsm) ∧
          ∀ c ∈ nm.cpus, c.input_values = [] ∧ c.output_values = [] :=
  idle_only_after_quiet_repeat false ({ cpus := [{ memory := [1105, 1, 0], blocking := false }] } : network) 1
    ({ cpus := [{ memory := [1105, 1, 0], blocking := false }], idling_ips := [[0]] } : network)
    ({ cpus := [{ memory := [1105, 1, 0], blocking := false }], idling_ips := [[0]] } : network) [0]
    rfl (by decide) (by decide) (by decide) (by decide)

/-! ## The two ways in which `run` returns -/

/-- C24: `run(true)` on a network with nothing stored at the NAT and no
complete packet in an output queue (the network that the constructor makes is
one).  If it returns `v`, then after some complete iterations and the turns of
the machines `0`, ..., `i - 1` of the next sweep, the `execute` call of machine
`i` has completed a packet `255, x, v`, and the network left is the network of
that moment with the packet removed from the output queue of machine `i`:
nothing was appended to an input queue.  And whenever an `execute` call
completes a packet for 255, `run(true)` returns the `y` of that packet. -/
theorem run_true_returns_first_nat (n0 : network) (hx : n0.nat_x = none)
    (hs0 : ∀ c ∈ n0.cpus, c.output_values.length < 3) :
    (∀ k v m, run true k n0 = Outcome.returned v m →
        ∃ j nj i ni ipsi c r c1 x, j < k ∧ sweeps true j n0 = Outcome.next nj ∧
          i < nj.cpus.length ∧ turns true (List.range i) nj [] = Outcome.next (ni, ipsi) ∧
          ni.cpus[i]? = some c ∧ c.execute = some (r, c1) ∧
          c1.output_values = [255, x, v] ∧
          m = { ni with cpus := ni.cpus.set i { c1 with output_values := [] } }) ∧
      (∀ j nj i ni ipsi c r c1 x y rest k, sweeps true j n0 = Outcome.next nj →
        i < nj.cpus.length → turns true (List.range i) nj [] = Outcome.next (ni, ipsi) →
        ni.cpus[i]? = some c → c.execute = some (r, c1) →
        c1.output_values = 255 :: x :: y :: rest → j < k →
        run true k n0 =
          Outcome.returned y { ni with cpus := ni.cpus.set i { c1 with output_values := rest } })
    := by
  constructor
  · intro k v m h
    obtain ⟨j, nj, hj, a, b⟩ := run_returns_in_iteration true k n0 v m h
    have hnx : nj.nat_x = none := sweeps_true_nat n0 hx j nj a
    have hsh : ∀ (j : Nat) (c : CPU), nj.cpus[j]? = some c → c.output_values.length < 3 := by
      cases j with
      | zero =>
        simp only [sweeps, Outcome.next.injEq] at a
        subst a
        exact fun j c hc => hs0 c (List.getElem?_mem hc)
      | succ j =>
        rw [sweeps_succ] at a
        rcases hk : sweeps true j n0 with ⟨nk⟩ | ⟨v2, m2⟩ | _ | _ | _
        · rw [hk] at a
          exact (settled_iteration true nk nj a).1
        all_goals
          rw [hk] at a
          exact absurd a (by simp)
    obtain ⟨i, ni, ipsi, c, r, c1, x, h1, h2, h3, h4, h5, h6⟩ :=
      sweep_true_returned nj v m hsh (iteration_true_returned nj v m hnx b)
    exact ⟨j, nj, i, ni, ipsi, c, r, c1, x, hj, a, h1, h2, h3, h4, h5, h6⟩
  · intro j nj i ni ipsi c r c1 x y rest k a hi ht hc he ho hjk
    have hturn : turn true ni i =
        Outcome.returned y { ni with cpus := ni.cpus.set i { c1 with output_values := rest } } := by
      rw [turn_eq true ni i c c1 r hc he,
        drain_step true _ _ i c1 255 x y rest (getElem?_set_self_of_some _ _ _ _ hc) ho]
      simp only [if_true, List.set_set]
    have hsw := sweep_of_turn_returned true nj ni i ipsi y _ hi ht hturn
    have hit : iteration true nj =
        Outcome.returned y { ni with cpus := ni.cpus.set i { c1 with output_values := rest } } := by
      unfold iteration
      rw [hsw]
    exact run_of_sweeps true j n0 nj y _ k a hit hjk

/-- C24 at two machines that each write `255, 1, 7`: the run returns 7 in the
third sweep, in the turn of machine 0. -/
theorem run_true_returns_first_nat_witness :
    ∃ j nj i ni ipsi c r c1 x, j < 3 ∧
      sweeps true j ({ cpus := [{ memory := [104, 255, 104, 1, 104, 7, 99], blocking := false },
               { memory := [104, 255, 104, 1, 104, 7, 99], blocking := false }] } : network) = Outcome.next nj ∧
      i < nj.cpus.length ∧ turns true (List.range i) nj [] = Outcome.next (ni, ipsi) ∧
      ni.cpus[i]? = some c ∧ c.execute = some (r, c1) ∧ c1.output_values = [255, x, 7] ∧
      ({ cpus := [{ memory := [104, 255, 104, 1, 104, 7, 99], ip := 6, blocking := false },
             { memory := [104, 255, 104, 1, 104, 7, 99], ip := 4, blocking := false,
                   output_values := [255, 1] }], idling_ips := [[4, 4]] } : network) =
        { ni with cpus := ni.cpus.set i { c1 with output_values := [] } } :=
  (run_true_returns_first_nat ({ cpus := [{ memory := [104, 255, 104, 1, 104, 7, 99], blocking := false },
             { memory := [104, 255, 104, 1, 104, 7, 99], blocking := false }] } : network)
    rfl (by decide)).1 3 7
    ({ cpus := [{ memory := [104, 255, 104, 1, 104, 7, 99], ip := 6, blocking := false },
             { memory := [104, 255, 104, 1, 104, 7, 99], ip := 4, blocking := false,
                   output_values := [255, 1] }], idling_ips := [[4, 4]] } : network)
    (by decide)

/-- C26, as the code has it: `run(false)` returns `v` only at the end of an
iteration in which the network is declared idle while the NAT holds a packet
`(x, v)` and `v` is the value `last_nat_y`; the packet is then neither sent to
machine 0 nor cleared.  At the end of an iteration in which the network is
declared idle while the NAT holds `(x, y)`: if `y` is the value `last_nat_y`,
`run(false)` returns `y`; otherwise `x` and then `y` are appended to the input
queue of machine 0, the packet is cleared and `last_nat_y` becomes `y`.
Nothing else changes `last_nat_y`, so it is the `y` of the latest packet that
was sent to machine 0. -/
theorem run_false_returns_repeated_nat (n0 : network) :
    (∀ k v m, run false k n0 = Outcome.returned v m →
        ∃ j nj n1 ips x, j < k ∧ sweeps false j n0 = Outcome.next nj ∧
          sweep false nj = Outcome.next (n1, ips) ∧ ips ∈ n1.history ∧
          n1.nat_x = some x ∧ n1.nat_y = some v ∧ n1.last_nat_y = some v ∧
          m = { n1 with idling_ips := n1.history }) ∧
      (∀ j nj n1 ips x y, sweeps false j n0 = Outcome.next nj →
        sweep false nj = Outcome.next (n1, ips) → ips ∈ n1.history →
        n1.nat_x = some x → n1.nat_y = some y →
        (n1.last_nat_y = some y → ∀ k, j < k →
          run false k n0 = Outcome.returned y { n1 with idling_ips := n1.history }) ∧
        (n1.last_nat_y ≠ some y → ∀ c0 rest, n1.cpus = c0 :: rest →
          sweeps false (j + 1) n0 =
            Outcome.next { n1 with cpus := { c0 with input_values := c0.input_values ++ [x, y] }
                                            :: rest,
                                   last_nat_y := some y, nat_x := none, nat_y := none,
                                   idling_ips := [] })) ∧
      (∀ j nj nj2, sweeps false j n0 = Outcome.next nj → iteration false nj = Outcome.next nj2 →
        nj2.last_nat_y ≠ nj.last_nat_y →
        ∃ n1 ips x y c0 rest, sweep false nj = Outcome.next (n1, ips) ∧ ips ∈ n1.history ∧
          n1.nat_x = some x ∧ n1.nat_y = some y ∧ n1.cpus = c0 :: rest ∧
          nj2.last_nat_y = some y ∧
          nj2.cpus = { c0 with input_values := c0.input_values ++ [x, y] } :: rest) := by
  refine ⟨?_, ?_, ?_⟩
  · intro k v m h
    obtain ⟨j, nj, hj, a, b⟩ := run_returns_in_iteration false k n0 v m h
    unfold iteration at b
    rcases hs : sweep false nj with ⟨n1, ips⟩ | ⟨v2, m2⟩ | _ | _ | _
    · rw [hs] at b
      dsimp only at b
      refine ⟨j, nj, n1, ips, ?_⟩
      by_cases hm : ips ∈ n1.history
      · rcases hx : n1.nat_x with _ | x
        · rw [idle_check_of_no_packet n1 ips hm (Or.inl hx)] at b
          exact absurd b (by simp)
        · rcases hy : n1.nat_y with _ | y
          · rw [idle_check_of_no_packet n1 ips hm (Or.inr hy)] at b
            exact absurd b (by simp)
          · by_cases hl : n1.last_nat_y = some y
            · rw [idle_check_of_repeat n1 ips x y hm hx hy hl] at b
              simp only [Outcome.returned.injEq] at b
              obtain ⟨rfl, rfl⟩ := b
              exact ⟨x, hj, a, hs, hm, rfl, rfl, hl, by rw [hx, hy]⟩
            · rcases hc : n1.cpus with _ | ⟨c0, rest⟩
              · unfold idle_check at b
                rw [if_pos hm, hx, hy] at b
                dsimp only at b
                rw [if_neg hl, hc] at b
                exact absurd b (by simp)
              · rw [idle_check_of_fresh n1 ips x y c0 rest hm hx hy hl hc] at b
                exact absurd b (by simp)
      · rw [idle_check_of_not_mem n1 ips hm] at b
        exact absurd b (by simp)
    · exact absurd hs (turns_false_not_returned _ nj [] v2 m2)
    all_goals
      rw [hs] at b
      exact absurd b (by simp)
  · intro j nj n1 ips x y a hs hm hx hy
    constructor
    · intro hl k hjk
      have hit : iteration false nj = Outcome.returned y { n1 with idling_ips := n1.history } := by
        rw [iteration_eq false nj n1 ips hs, idle_check_of_repeat n1 ips x y hm hx hy hl]
      exact run_of_sweeps false j n0 nj y _ k a hit hjk
    · intro hl c0 rest hc
      rw [sweeps_succ, a]
      dsimp only
      rw [iteration_eq false nj n1 ips hs, idle_check_of_fresh n1 ips x y c0 rest hm hx hy hl hc]
      rfl
  · intro j nj nj2 _ hit hne
    obtain ⟨n1, ips, hs, hi⟩ := iteration_next false nj nj2 hit
    have hfr := (sweep_frame false nj n1 ips hs).2.2.1
    refine ⟨n1, ips, ?_⟩
    by_cases hm : ips ∈ n1.history
    · rcases hx : n1.nat_x with _ | x
      · rw [idle_check_of_no_packet n1 ips hm (Or.inl hx)] at hi
        simp only [Outcome.next.injEq] at hi
        subst hi
        exact absurd hfr hne
      · rcases hy : n1.nat_y with _ | y
        · rw [idle_check_of_no_packet n1 ips hm (Or.inr hy)] at hi
          simp only [Outcome.next.injEq] at hi
          subst hi
          exact absurd hfr hne
        · by_cases hl : n1.last_nat_y = some y
          · rw [idle_check_of_repeat n1 ips x y hm hx hy hl] at hi
            exact absurd hi (by simp)
          · rcases hc : n1.cpus with _ | ⟨c0, rest⟩
            · unfold idle_check at hi
              rw [if_pos hm, hx, hy] at hi
              dsimp only at hi
              rw [if_neg hl, hc] at hi
              exact absurd hi (by simp)
            · rw [idle_check_of_fresh n1 ips x y c0 rest hm hx hy hl hc] at hi
              simp only [Outcome.next.injEq] at hi
              subst hi
              exact ⟨x, y, c0, rest, hs, hm, rfl, rfl, rfl, rfl, rfl⟩
    · rw [idle_check_of_not_mem n1 ips hm] at hi
      simp only [Outcome.next.injEq] at hi
      subst hi
      exact absurd hfr hne

set_option maxRecDepth 100000 in
/-- C26 fails as stated: on the network that the constructor makes from a
program in which machine 0 sends `255, 0, 7`, waits for a packet and sends
`255, 0, 7` again, while the other machines loop, `run(false)` returns 7 at the
second idle; at that moment the packet (0, 7) is still stored at the NAT and
no input queue holds a value: the packet was not sent to machine 0. -/
theorem run_false_returns_without_delivery :
    (returned_state (run false 16 (init (CPU.ofProgram
        [3, 30, 1005, 30, 21, 104, 255, 104, 0, 104, 7, 3, 31, 1005, 31, 11, 3, 31, 1105, 1, 5,
          1105, 1, 21, 0, 0, 0, 0, 0, 0, 0, 0])))).map
      (fun p => (p.1, p.2.cpus.map (fun c => c.input_values), p.2.nat_x, p.2.nat_y,
        p.2.last_nat_y)) =
      some (7, List.replicate 50 [], some 0, some 7, some 7) := by
  decide!

end network

end Day23

/-! # More on the instructions of `23/doit.cc` -/

namespace Day23

namespace CPU

/-- C32: an `execute` call that returns has returned `false` exactly when the
instruction word has opcode 99 (halt) or has opcode 3 (read) while the machine
is in blocking mode with an empty input queue; in every other case it has
returned `true`.  In non-blocking mode it has returned `false` exactly when the
opcode is 99. -/
theorem execute_false_iff (c c1 : CPU) (r : Bool) (h : c.execute = some (r, c1)) :
    ∃ w c0, c.fetch = some (w, c0) ∧
      (r = false ↔
        (w.tmod 100 = 99 ∨ (w.tmod 100 = 3 ∧ c.blocking = true ∧ c.input_values = []))) ∧
      (r = true ↔
        ¬ (w.tmod 100 = 99 ∨ (w.tmod 100 = 3 ∧ c.blocking = true ∧ c.input_values = []))) ∧
      (c.blocking = false → (r = false ↔ w.tmod 100 = 99)) := by
  obtain ⟨w, c0, hf, _, hcase⟩ := execute_spec c c1 r h
  refine ⟨w, c0, hf, ?_⟩
  rcases hcase with ⟨rfl, _, h99, hn3⟩ | ⟨rfl, h99, _⟩ | ⟨rfl, h3, hb, hi, _⟩
  · refine ⟨?_, ?_, ?_⟩
    · constructor
      · intro hh
        exact absurd hh (by simp)
      · rintro (hh | hh)
        · exact absurd hh h99
        · exact absurd hh hn3
    · constructor
      · rintro _ (hh | hh)
        · exact h99 hh
        · exact hn3 hh
      · intro _
        rfl
    · intro _
      constructor
      · intro hh
        exact absurd hh (by simp)
      · intro hh
        exact absurd hh h99
  · refine ⟨?_, ?_, ?_⟩
    · exact ⟨fun _ => Or.inl h99, fun _ => rfl⟩
    · constructor
      · intro hh
        exact absurd hh (by simp)
      · intro hh
        exact absurd (Or.inl h99) hh
    · intro _
      exact ⟨fun _ => h99, fun _ => rfl⟩
  · refine ⟨?_, ?_, ?_⟩
    · exact ⟨fun _ => Or.inr ⟨h3, hb, hi⟩, fun _ => rfl⟩
    · constructor
      · intro hh
        exact absurd hh (by simp)
      · intro hh
        exact absurd (Or.inr ⟨h3, hb, hi⟩) hh
    · intro hnb
      rw [hb] at hnb
      exact absurd hnb (by simp)

/-- C32 at the programs `[3,0,99]` (a read with no input, in blocking mode) and
`[99]` (in non-blocking mode). -/
theorem execute_false_iff_witness :
    (∃ w c0, (ofProgram [3, 0, 99]).fetch = some (w, c0) ∧
      (false = false ↔
        (w.tmod 100 = 99 ∨
          (w.tmod 100 = 3 ∧ (ofProgram [3, 0, 99]).blocking = true ∧
            (ofProgram [3, 0, 99]).input_values = [])))) ∧
      (∃ w c0, ({ memory := [99], blocking := false } : CPU).fetch = some (w, c0) ∧
        (false = false ↔ w.tmod 100 = 99)) :=
  ⟨match execute_false_iff (ofProgram [3, 0, 99]) (ofProgram [3, 0, 99]) false (by decide) with
    | ⟨w, c0, h1, h2, _⟩ => ⟨w, c0, h1, h2⟩,
   match execute_false_iff { memory := [99], blocking := false }
      { memory := [99], ip := 1, halted := true, blocking := false } false (by decide) with
    | ⟨w, c0, h1, _, _, h4⟩ => ⟨w, c0, h1, h4 rfl⟩⟩

/-! ## The memory across one instruction -/

/-- What a `store` that returns has done to the memory: it has assigned at the
address that `store_target` gives, which is not negative. -/
theorem store_memory (c c1 : CPU) (md v : Int) (h : c.store md v = some c1) :
    ∃ d c2, c.store_target md = some (d, c2) ∧ 0 ≤ d ∧
      c1.memory = (grow c2.memory d.toNat).set d.toNat v ∧ ZeroExt c.memory c2.memory := by
  rw [store_eq] at h
  rcases hd : c.store_target md with _ | ⟨d, c2⟩
  · rw [hd] at h
    exact absurd h (by simp)
  · rw [hd] at h
    dsimp only at h
    obtain ⟨h0, _, _, hm⟩ := mem_assign_spec c2 c1 d v h
    obtain ⟨_, _, _, hz, _⟩ := store_target_spec c c2 md d hd
    exact ⟨d, c2, rfl, h0, hm, hz⟩

/-- A memory that has only grown is not shorter and has its old cells. -/
theorem memory_of_zeroExt (m m1 : List Int) (t : Option Int) (hz : ZeroExt m m1) :
    m.length ≤ m1.length ∧
      ∀ (i : Nat), i < m.length → t ≠ some (i : Int) → m1[i]? = m[i]? :=
  ⟨zeroExt_length hz, fun i hi _ => zeroExt_getElem? hz i hi⟩

/-- A memory that has grown and was then assigned at `d` is not shorter and has
its old cells but for the one at `d`. -/
theorem memory_after_store (m m2 m4 : List Int) (d v : Int) (hz : ZeroExt m m2) (hd0 : 0 ≤ d)
    (hm : m4 = (grow m2 d.toNat).set d.toNat v) :
    ∀ (t : Option Int), t = some d →
      m.length ≤ m4.length ∧
        ∀ (i : Nat), i < m.length → t ≠ some (i : Int) → m4[i]? = m[i]? := by
  intro t ht
  have zz : ZeroExt m (grow m2 d.toNat) := zeroExt_trans hz (zeroExt_grow _ _)
  subst hm
  subst ht
  constructor
  · rw [List.length_set]
    exact zeroExt_length zz
  · intro i hi hne
    have hid : d.toNat ≠ i := by
      intro hh
      apply hne
      rw [← hh, Int.toNat_of_nonneg hd0]
    rw [List.getElem?_set_ne hid]
    exact zeroExt_getElem? zz i hi

theorem store_target_input (c : CPU) (md : Int) (rest : List Int) :
    ({ c with input_values := rest } : CPU).store_target md =
      (c.store_target md).map (fun p => (p.1, { p.2 with input_values := rest })) := by
  unfold store_target
  by_cases hmd : md = 0 ∨ md = 2
  · rw [if_pos hmd, if_pos hmd]
    unfold fetch mem
    by_cases hip : c.ip < 0
    · simp only [if_pos hip]
      rfl
    · simp only [if_neg hip]
      rfl
  · rw [if_neg hmd, if_neg hmd]
    rfl

/-- C33: across an `execute` call that returns, the memory does not get
shorter, and every cell that existed before the call keeps its value, except
the cell at the write target of the instruction (if it has one). -/
theorem memory_changes_at_target_only (c c1 : CPU) (r : Bool)
    (h : c.execute = some (r, c1)) :
    c.memory.length ≤ c1.memory.length ∧
      ∀ (i : Nat), i < c.memory.length → c.write_target ≠ some (i : Int) →
        c1.memory[i]? = c.memory[i]? := by
  unfold execute at h
  cases hf : c.fetch with
  | none =>
    rw [hf] at h
    exact absurd h (by simp)
  | some p =>
    obtain ⟨w, c0⟩ := p
    rw [hf] at h
    dsimp only at h
    obtain ⟨_, _, _, rf, zf⟩ := fetch_spec c c0 w hf
    by_cases h1 : w.tmod 100 = 1
    · simp only [if_pos h1] at h
      rcases ha : c0.arg (w.tdiv 100) with _ | ⟨a1, c2, m1⟩
      · rw [ha] at h
        exact absurd h (by simp)
      rw [ha] at h
      dsimp only at h
      rcases hb : c2.arg m1 with _ | ⟨a2, c3, m2⟩
      · rw [hb] at h
        exact absurd h (by simp)
      rw [hb] at h
      dsimp only at h
      rcases hs : c3.store m2 (a1 + a2) with _ | c4
      · rw [hs] at h
        exact absurd h (by simp)
      rw [hs] at h
      simp only [Option.map_some', Option.some.injEq, Prod.mk.injEq] at h
      obtain ⟨rfl, rfl⟩ := h
      obtain ⟨_, _, za, _⟩ := arg_spec _ _ _ _ _ ha
      obtain ⟨_, _, zb, _⟩ := arg_spec _ _ _ _ _ hb
      obtain ⟨d, c5, hd, hd0, hm, zs⟩ := store_memory _ _ _ _ hs
      have hwt : c.write_target = some d := by
        unfold write_target
        rw [hf]
        dsimp only
        rw [if_pos (by omega), ha]
        dsimp only
        rw [hb]
        dsimp only
        rw [hd]
        rfl
      exact memory_after_store c.memory c5.memory c4.memory d _
        (zeroExt_trans (zeroExt_trans (zeroExt_trans zf za) zb) zs) hd0 hm
        c.write_target hwt
    simp only [if_neg h1] at h
    by_cases h2 : w.tmod 100 = 2
    · simp only [if_pos h2] at h
      rcases ha : c0.arg (w.tdiv 100) with _ | ⟨a1, c2, m1⟩
      · rw [ha] at h
        exact absurd h (by simp)
      rw [ha] at h
      dsimp only at h
      rcases hb : c2.arg m1 with _ | ⟨a2, c3, m2⟩
      · rw [hb] at h
        exact absurd h (by simp)
      rw [hb] at h
      dsimp only at h
      rcases hs : c3.store m2 (a1 * a2) with _ | c4
      · rw [hs] at h
        exact absurd h (by simp)
      rw [hs] at h
      simp only [Option.map_some', Option.some.injEq, Prod.mk.injEq] at h
      obtain ⟨rfl, rfl⟩ := h
      obtain ⟨_, _, za, _⟩ := arg_spec _ _ _ _ _ ha
      obtain ⟨_, _, zb, _⟩ := arg_spec _ _ _ _ _ hb
      obtain ⟨d, c5, hd, hd0, hm, zs⟩ := store_memory _ _ _ _ hs
      have hwt : c.write_target = some d := by
        unfold write_target
        rw [hf]
        dsimp only
        rw [if_pos (by omega), ha]
        dsimp only
        rw [hb]
        dsimp only
        rw [hd]
        rfl
      exact memory_after_store c.memory c5.memory c4.memory d _
        (zeroExt_trans (zeroExt_trans (zeroExt_trans zf za) zb) zs) hd0 hm
        c.write_target hwt
    simp only [if_neg h2] at h
    by_cases h3 : w.tmod 100 = 3
    · simp only [if_pos h3] at h
      by_cases hb : c0.blocking = true ∧ c0.input_values = []
      · rw [if_pos hb] at h
        simp only [Option.some.injEq, Prod.mk.injEq] at h
        obtain ⟨rfl, rfl⟩ := h
        exact memory_of_zeroExt c.memory c0.memory c.write_target zf
      · rw [if_neg hb] at h
        rcases hg : c0.get_input with _ | ⟨v, c2⟩
        · rw [hg] at h
          exact absurd h (by simp)
        rw [hg] at h
        dsimp only at h
        rcases hs : c2.store (w.tdiv 100) v with _ | c3
        · rw [hs] at h
          exact absurd h (by simp)
        rw [hs] at h
        simp only [Option.map_some', Option.some.injEq, Prod.mk.injEq] at h
        obtain ⟨rfl, rfl⟩ := h
        obtain ⟨d, c5, hd, hd0, hm, zs⟩ := store_memory _ _ _ _ hs
        have hc2 : c2 = { c0 with input_values := c2.input_values } := by
          unfold get_input at hg
          by_cases hbb : c0.blocking = false ∧ c0.input_values = []
          · rw [if_pos hbb] at hg
            simp only [Option.some.injEq, Prod.mk.injEq] at hg
            rw [← hg.2]
          · rw [if_neg hbb] at hg
            rcases hi : c0.input_values with _ | ⟨v0, rest⟩
            · rw [hi] at hg
              exact absurd hg (by simp)
            · rw [hi] at hg
              simp only [Option.some.injEq, Prod.mk.injEq] at hg
              rw [← hg.2]
        have hm2 : c2.memory = c0.memory := by
          rw [hc2]
        have hwt : c.write_target = some d := by
          unfold write_target
          rw [hf]
          dsimp only
          rw [if_neg (by omega), if_pos h3]
          rw [hc2, store_target_input] at hd
          rcases hd0 : c0.store_target (w.tdiv 100) with _ | ⟨d2, c6⟩
          · rw [hd0] at hd
            exact absurd hd (by simp)
          · rw [hd0] at hd
            simp only [Option.map_some', Option.some.injEq, Prod.mk.injEq] at hd
            rw [← hd.1]
            rfl
        rw [hm2] at zs
        exact memory_after_store c.memory c5.memory c3.memory d _
          (zeroExt_trans zf zs) hd0 hm c.write_target hwt
    simp only [if_neg h3] at h
    by_cases h4 : w.tmod 100 = 4
    · simp only [if_pos h4] at h
      rcases ha : c0.arg (w.tdiv 100) with _ | ⟨a1, c2, m1⟩
      · rw [ha] at h
        exact absurd h (by simp)
      rw [ha] at h
      simp only [Option.some.injEq, Prod.mk.injEq] at h
      obtain ⟨rfl, rfl⟩ := h
      obtain ⟨_, _, za, _⟩ := arg_spec _ _ _ _ _ ha
      exact memory_of_zeroExt c.memory c2.memory c.write_target (zeroExt_trans zf za)
    simp only [if_neg h4] at h
    by_cases h5 : w.tmod 100 = 5
    · simp only [if_pos h5] at h
      rcases ha : c0.arg (w.tdiv 100) with _ | ⟨a1, c2, m1⟩
      · rw [ha] at h
        exact absurd h (by simp)
      rw [ha] at h
      dsimp only at h
      rcases hb : c2.arg m1 with _ | ⟨a2, c3, m2⟩
      · rw [hb] at h
        exact absurd h (by simp)
      rw [hb] at h
      simp only [Option.some.injEq, Prod.mk.injEq] at h
      obtain ⟨rfl, rfl⟩ := h
      obtain ⟨_, _, za, _⟩ := arg_spec _ _ _ _ _ ha
      obtain ⟨_, _, zb, _⟩ := arg_spec _ _ _ _ _ hb
      have zz := zeroExt_trans (zeroExt_trans zf za) zb
      by_cases ht : a1 ≠ 0
      · rw [if_pos ht]
        exact memory_of_zeroExt c.memory c3.memory c.write_target zz
      · rw [if_neg ht]
        exact memory_of_zeroExt c.memory c3.memory c.write_target zz
    simp only [if_neg h5] at h
    by_cases h6 : w.tmod 100 = 6
    · simp only [if_pos h6] at h
      rcases ha : c0.arg (w.tdiv 100) with _ | ⟨a1, c2, m1⟩
      · rw [ha] at h
        exact absurd h (by simp)
      rw [ha] at h
      dsimp only at h
      rcases hb : c2.arg m1 with _ | ⟨a2, c3, m2⟩
      · rw [hb] at h
        exact absurd h (by simp)
      rw [hb] at h
      simp only [Option.some.injEq, Prod.mk.injEq] at h
      obtain ⟨rfl, rfl⟩ := h
      obtain ⟨_, _, za, _⟩ := arg_spec _ _ _ _ _ ha
      obtain ⟨_, _, zb, _⟩ := arg_spec _ _ _ _ _ hb
      have zz := zeroExt_trans (zeroExt_trans zf za) zb
      by_cases ht : a1 = 0
      · rw [if_pos ht]
        exact memory_of_zeroExt c.memory c3.memory c.write_target zz
      · rw [if_neg ht]
        exact memory_of_zeroExt c.memory c3.memory c.write_target zz
    simp only [if_neg h6] at h
    by_cases h7 : w.tmod 100 = 7
    · simp only [if_pos h7] at h
      rcases ha : c0.arg (w.tdiv 100) with _ | ⟨a1, c2, m1⟩
      · rw [ha] at h
        exact absurd h (by simp)
      rw [ha] at h
      dsimp only at h
      rcases hb : c2.arg m1 with _ | ⟨a2, c3, m2⟩
      · rw [hb] at h
        exact absurd h (by simp)
      rw [hb] at h
      dsimp only at h
      rcases hs : c3.store m2 (ofBool (decide (a1 < a2))) with _ | c4
      · rw [hs] at h
        exact absurd h (by simp)
      rw [hs] at h
      simp only [Option.map_some', Option.some.injEq, Prod.mk.injEq] at h
      obtain ⟨rfl, rfl⟩ := h
      obtain ⟨_, _, za, _⟩ := arg_spec _ _ _ _ _ ha
      obtain ⟨_, _, zb, _⟩ := arg_spec _ _ _ _ _ hb
      obtain ⟨d, c5, hd, hd0, hm, zs⟩ := store_memory _ _ _ _ hs
      have hwt : c.write_target = some d := by
        unfold write_target
        rw [hf]
        dsimp only
        rw [if_pos (by omega), ha]
        dsimp only
        rw [hb]
        dsimp only
        rw [hd]
        rfl
      exact memory_after_store c.memory c5.memory c4.memory d _
        (zeroExt_trans (zeroExt_trans (zeroExt_trans zf za) zb) zs) hd0 hm
        c.write_target hwt
    simp only [if_neg h7] at h
    by_cases h8 : w.tmod 100 = 8
    · simp only [if_pos h8] at h
      rcases ha : c0.arg (w.tdiv 100) with _ | ⟨a1, c2, m1⟩
      · rw [ha] at h
        exact absurd h (by simp)
      rw [ha] at h
      dsimp only at h
      rcases hb : c2.arg m1 with _ | ⟨a2, c3, m2⟩
      · rw [hb] at h
        exact absurd h (by simp)
      rw [hb] at h
      dsimp only at h
      rcases hs : c3.store m2 (ofBool (decide (a1 = a2))) with _ | c4
      · rw [hs] at h
        exact absurd h (by simp)
      rw [hs] at h
      simp only [Option.map_some', Option.some.injEq, Prod.mk.injEq] at h
      obtain ⟨rfl, rfl⟩ := h
      obtain ⟨_, _, za, _⟩ := arg_spec _ _ _ _ _ ha
      obtain ⟨_, _, zb, _⟩ := arg_spec _ _ _ _ _ hb
      obtain ⟨d, c5, hd, hd0, hm, zs⟩ := store_memory _ _ _ _ hs
      have hwt : c.write_target = some d := by
        unfold write_target
        rw [hf]
        dsimp only
        rw [if_pos (by omega), ha]
        dsimp only
        rw [hb]
        dsimp only
        rw [hd]
        rfl
      exact memory_after_store c.memory c5.memory c4.memory d _
        (zeroExt_trans (zeroExt_trans (zeroExt_trans zf za) zb) zs) hd0 hm
        c.write_target hwt
    simp only [if_neg h8] at h
    by_cases h9 : w.tmod 100 = 9
    · simp only [if_pos h9] at h
      rcases ha : c0.arg (w.tdiv 100) with _ | ⟨a1, c2, m1⟩
      · rw [ha] at h
        exact absurd h (by simp)
      rw [ha] at h
      simp only [Option.some.injEq, Prod.mk.injEq] at h
      obtain ⟨rfl, rfl⟩ := h
      obtain ⟨_, _, za, _⟩ := arg_spec _ _ _ _ _ ha
      exact memory_of_zeroExt c.memory c2.memory c.write_target (zeroExt_trans zf za)
    simp only [if_neg h9] at h
    by_cases h99 : w.tmod 100 = 99
    · simp only [if_pos h99] at h
      simp only [Option.some.injEq, Prod.mk.injEq] at h
      obtain ⟨rfl, rfl⟩ := h
      exact memory_of_zeroExt c.memory c0.memory c.write_target zf
    simp only [if_neg h99] at h
    exact absurd h (by simp)

/-- C33 at the first instruction of `[1,0,0,0,99]`, whose write target is the
address 0: the memory keeps its five cells and the cells 1 to 4 keep their
values. -/
theorem memory_changes_at_target_only_witness :
    (ofProgram [1, 0, 0, 0, 99]).write_target = some 0 ∧
      (ofProgram [1, 0, 0, 0, 99]).memory.length ≤
        ({ memory := [2, 0, 0, 0, 99], ip := 4 } : CPU).memory.length ∧
      ∀ (i : Nat), i < (ofProgram [1, 0, 0, 0, 99]).memory.length →
        (ofProgram [1, 0, 0, 0, 99]).write_target ≠ some (i : Int) →
        ({ memory := [2, 0, 0, 0, 99], ip := 4 } : CPU).memory[i]? =
          (ofProgram [1, 0, 0, 0, 99]).memory[i]? :=
  ⟨by decide,
    memory_changes_at_target_only (ofProgram [1, 0, 0, 0, 99])
      { memory := [2, 0, 0, 0, 99], ip := 4 } true (by decide)⟩

/-! ## Comparisons -/

theorem ofBool_decide (p : Prop) [Decidable p] : ofBool (decide p) = if p then 1 else 0 := by
  unfold ofBool
  by_cases hp : p
  · simp [hp]
  · simp [hp]

/-- C35: `arg` with a mode whose lowest decimal digit is neither 0 nor 2 (the
digits 1 and 3 to 9, and the digits of a negative mode) gives the operand word
itself.  It does what `fetch` does and nothing more: no other cell is read, no
assertion is added, and the mode is handed on without that digit.  When `ip` is
not negative it returns. -/
theorem arg_immediate (c : CPU) (md : Int) (h0 : md.tmod 10 ≠ 0) (h2 : md.tmod 10 ≠ 2) :
    c.arg md = c.fetch.map (fun p => (p.1, p.2, md.tdiv 10)) ∧
      (0 ≤ c.ip →
        c.arg md =
          some (c.memory.getD c.ip.toNat 0,
            { c with ip := c.ip + 1, memory := grow c.memory c.ip.toNat }, md.tdiv 10)) := by
  have e : c.arg md = c.fetch.map (fun p => (p.1, p.2, md.tdiv 10)) := by
    unfold arg
    rcases c.fetch with _ | ⟨v, c1⟩
    · rfl
    · dsimp only
      rw [if_neg h0, if_neg h2]
      rfl
  refine ⟨e, fun hip => ?_⟩
  rw [e]
  unfold fetch
  rw [mem_of_nonneg _ _ hip]
  rfl

/-- C35 at the operand `7` of the word `304` (mode digit 3) and at the operand
`50` of the word `904` (mode digit 9), which lies beyond the memory as an
address: the operand is the word itself and the memory has not grown. -/
theorem arg_immediate_witness :
    ({ memory := [304, 7], ip := 1 } : CPU).arg 3 =
        some (7, { memory := [304, 7], ip := 2 }, 0) ∧
      ({ memory := [904, 50], ip := 1 } : CPU).arg 9 =
        some (50, { memory := [904, 50], ip := 2 }, 0) :=
  ⟨((arg_immediate { memory := [304, 7], ip := 1 } 3 (by decide) (by decide)).2
      (by decide)).trans (by decide),
    ((arg_immediate { memory := [904, 50], ip := 1 } 9 (by decide) (by decide)).2
      (by decide)).trans (by decide)⟩

/-! ## The halted flag -/

/-- An `execute` call leaves a halted flag that is set as it is. -/
theorem execute_stays_halted (c c1 : CPU) (r : Bool) (hh : c.halted = true)
    (h : c.execute = some (r, c1)) : c1.halted = true := by
  obtain ⟨w, c0, hf, _, hcase⟩ := execute_spec c c1 r h
  obtain ⟨_, _, _, rf, _⟩ := fetch_spec c c0 w hf
  rcases hcase with ⟨_, e, _, _⟩ | ⟨_, _, e⟩ | ⟨_, _, _, _, e⟩
  · exact e.trans hh
  · rw [e]
  · rw [e]
    exact rf.2.1.trans hh

/-- A `run` call of a machine whose halted flag is set returns `true` if it
returns. -/
theorem run_stays_halted (n : Nat) (c c1 : CPU) (r : Bool) (hh : c.halted = true)
    (h : run n c = RunResult.returned r c1) : r = true ∧ c1.halted = true := by
  induction n generalizing c with
  | zero =>
    unfold run at h
    exact absurd h (by simp)
  | succ n ih =>
    unfold run at h
    rcases hx : c.execute with _ | ⟨b, c2⟩
    · rw [hx] at h
      exact absurd h (by simp)
    · rw [hx] at h
      have h2 := execute_stays_halted c c2 b hh hx
      cases b with
      | true => exact ih c2 h2 h
      | false =>
        simp only [RunResult.returned.injEq] at h
        rw [← h.1, ← h.2]
        exact ⟨h2, h2⟩

end CPU

end Day23

/-! # The halted flag in both machines -/

namespace Day07

namespace CPU

/-- An `execute` call of `07/doit.cc` changes the halted flag only by setting
it. -/
theorem execute_keeps_halted (c c1 : CPU) (r : Bool) (h : c.execute = some (r, c1)) :
    c1.halted = c.halted ∨ c1.halted = true := by
  unfold execute at h
  rcases hf : c.fetch with _ | ⟨w, c0⟩
  · rw [hf] at h
    exact absurd h (by simp)
  · rw [hf] at h
    dsimp only at h
    have f0 := (fetch_output c c0 w hf).2
    by_cases h99 : w.tmod 100 = 99
    · right
      have n1 : w.tmod 100 ≠ 1 := by omega
      have n2 : w.tmod 100 ≠ 2 := by omega
      have n3 : w.tmod 100 ≠ 3 := by omega
      have n4 : w.tmod 100 ≠ 4 := by omega
      have n5 : w.tmod 100 ≠ 5 := by omega
      have n6 : w.tmod 100 ≠ 6 := by omega
      have n7 : w.tmod 100 ≠ 7 := by omega
      have n8 : w.tmod 100 ≠ 8 := by omega
      simp only [if_neg n1, if_neg n2, if_neg n3, if_neg n4, if_neg n5, if_neg n6, if_neg n7,
        if_neg n8, if_pos h99, Option.some.injEq, Prod.mk.injEq] at h
      rw [← h.2]
    left
    by_cases h1 : w.tmod 100 = 1
    · simp only [if_pos h1] at h
      rcases ha : c0.arg (w.tdiv 100) with _ | ⟨a1, c2, m1⟩
      · rw [ha] at h
        exact absurd h (by simp)
      rw [ha] at h
      dsimp only at h
      rcases hb : c2.arg m1 with _ | ⟨a2, c3, m2⟩
      · rw [hb] at h
        exact absurd h (by simp)
      rw [hb] at h
      dsimp only at h
      rcases hs : c3.store (a1 + a2) with _ | c4
      · rw [hs] at h
        exact absurd h (by simp)
      rw [hs] at h
      simp only [Option.map_some', Option.some.injEq, Prod.mk.injEq] at h
      obtain ⟨_, rfl⟩ := h
      rw [(store_output _ _ _ hs).2, (arg_output _ _ _ _ _ hb).2,
        (arg_output _ _ _ _ _ ha).2, f0]
    simp only [if_neg h1] at h
    by_cases h2 : w.tmod 100 = 2
    · simp only [if_pos h2] at h
      rcases ha : c0.arg (w.tdiv 100) with _ | ⟨a1, c2, m1⟩
      · rw [ha] at h
        exact absurd h (by simp)
      rw [ha] at h
      dsimp only at h
      rcases hb : c2.arg m1 with _ | ⟨a2, c3, m2⟩
      · rw [hb] at h
        exact absurd h (by simp)
      rw [hb] at h
      dsimp only at h
      rcases hs : c3.store (a1 * a2) with _ | c4
      · rw [hs] at h
        exact absurd h (by simp)
      rw [hs] at h
      simp only [Option.map_some', Option.some.injEq, Prod.mk.injEq] at h
      obtain ⟨_, rfl⟩ := h
      rw [(store_output _ _ _ hs).2, (arg_output _ _ _ _ _ hb).2,
        (arg_output _ _ _ _ _ ha).2, f0]
    simp only [if_neg h2] at h
    by_cases h3 : w.tmod 100 = 3
    · simp only [if_pos h3] at h
      by_cases hq : c0.input_values = []
      · simp only [if_pos hq, Option.some.injEq, Prod.mk.injEq] at h
        rw [← h.2]
        exact f0
      · simp only [if_neg hq] at h
        rcases hg : c0.get_input with _ | ⟨v, c2⟩
        · rw [hg] at h
          exact absurd h (by simp)
        rw [hg] at h
        dsimp only at h
        rcases hs : c2.store v with _ | c4
        · rw [hs] at h
          exact absurd h (by simp)
        rw [hs] at h
        simp only [Option.map_some', Option.some.injEq, Prod.mk.injEq] at h
        obtain ⟨_, rfl⟩ := h
        have hg2 : c2.halted = c0.halted := by
          unfold get_input at hg
          rcases hi : c0.input_values with _ | ⟨x, rest⟩
          · rw [hi] at hg
            exact absurd hg (by simp)
          · rw [hi] at hg
            simp only [Option.some.injEq, Prod.mk.injEq] at hg
            rw [← hg.2]
        rw [(store_output _ _ _ hs).2, hg2, f0]
    simp only [if_neg h3] at h
    by_cases h4 : w.tmod 100 = 4
    · simp only [if_pos h4] at h
      rcases ha : c0.arg (w.tdiv 100) with _ | ⟨a1, c2, m1⟩
      · rw [ha] at h
        exact absurd h (by simp)
      rw [ha] at h
      simp only [Option.some.injEq, Prod.mk.injEq] at h
      obtain ⟨_, rfl⟩ := h
      show c2.halted = c.halted
      rw [(arg_output _ _ _ _ _ ha).2, f0]
    simp only [if_neg h4] at h
    by_cases h5 : w.tmod 100 = 5
    · simp only [if_pos h5] at h
      rcases ha : c0.arg (w.tdiv 100) with _ | ⟨a1, c2, m1⟩
      · rw [ha] at h
        exact absurd h (by simp)
      rw [ha] at h
      dsimp only at h
      rcases hb : c2.arg m1 with _ | ⟨a2, c3, m2⟩
      · rw [hb] at h
        exact absurd h (by simp)
      rw [hb] at h
      simp only [Option.some.injEq, Prod.mk.injEq] at h
      obtain ⟨_, rfl⟩ := h
      rw [← f0, ← (arg_output _ _ _ _ _ ha).2, ← (arg_output _ _ _ _ _ hb).2]
      split_ifs <;> rfl
    simp only [if_neg h5] at h
    by_cases h6 : w.tmod 100 = 6
    · simp only [if_pos h6] at h
      rcases ha : c0.arg (w.tdiv 100) with _ | ⟨a1, c2, m1⟩
      · rw [ha] at h
        exact absurd h (by simp)
      rw [ha] at h
      dsimp only at h
      rcases hb : c2.arg m1 with _ | ⟨a2, c3, m2⟩
      · rw [hb] at h
        exact absurd h (by simp)
      rw [hb] at h
      simp only [Option.some.injEq, Prod.mk.injEq] at h
      obtain ⟨_, rfl⟩ := h
      rw [← f0, ← (arg_output _ _ _ _ _ ha).2, ← (arg_output _ _ _ _ _ hb).2]
      split_ifs <;> rfl
    simp only [if_neg h6] at h
    by_cases h7 : w.tmod 100 = 7
    · simp only [if_pos h7] at h
      rcases ha : c0.arg (w.tdiv 100) with _ | ⟨a1, c2, m1⟩
      · rw [ha] at h
        exact absurd h (by simp)
      rw [ha] at h
      dsimp only at h
      rcases hb : c2.arg m1 with _ | ⟨a2, c3, m2⟩
      · rw [hb] at h
        exact absurd h (by simp)
      rw [hb] at h
      dsimp only at h
      rcases hs : c3.store (if a1 < a2 then 1 else 0) with _ | c4
      · rw [hs] at h
        exact absurd h (by simp)
      rw [hs] at h
      simp only [Option.map_some', Option.some.injEq, Prod.mk.injEq] at h
      obtain ⟨_, rfl⟩ := h
      rw [(store_output _ _ _ hs).2, (arg_output _ _ _ _ _ hb).2,
        (arg_output _ _ _ _ _ ha).2, f0]
    simp only [if_neg h7] at h
    by_cases h8 : w.tmod 100 = 8
    · simp only [if_pos h8] at h
      rcases ha : c0.arg (w.tdiv 100) with _ | ⟨a1, c2, m1⟩
      · rw [ha] at h
        exact absurd h (by simp)
      rw [ha] at h
      dsimp only at h
      rcases hb : c2.arg m1 with _ | ⟨a2, c3, m2⟩
      · rw [hb] at h
        exact absurd h (by simp)
      rw [hb] at h
      dsimp only at h
      rcases hs : c3.store (if a1 = a2 then 1 else 0) with _ | c4
      · rw [hs] at h
        exact absurd h (by simp)
      rw [hs] at h
      simp only [Option.map_some', Option.some.injEq, Prod.mk.injEq] at h
      obtain ⟨_, rfl⟩ := h
      rw [(store_output _ _ _ hs).2, (arg_output _ _ _ _ _ hb).2,
        (arg_output _ _ _ _ _ ha).2, f0]
    simp only [if_neg h8] at h
    simp only [if_neg h99, Option.some.injEq, Prod.mk.injEq] at h
    rw [← h.2]
    exact f0

/-- A `run` call of `07/doit.cc` on a machine whose halted flag is set returns
`true` if it returns. -/
theorem run_of_halted (n : Nat) (c c1 : CPU) (r : Bool) (hh : c.halted = true)
    (h : c.run n = Outcome.ok (r, c1)) : r = true ∧ c1.halted = true := by
  induction n generalizing c with
  | zero =>
    unfold run at h
    exact absurd h (by simp)
  | succ n ih =>
    unfold run at h
    rcases hx : c.execute with _ | ⟨b, c2⟩
    · rw [hx] at h
      exact absurd h (by simp)
    · rw [hx] at h
      have h2 : c2.halted = true := by
        rcases execute_keeps_halted c c2 b hx with e | e
        · exact e.trans hh
        · exact e
      cases b with
      | true => exact ih c2 h2 h
      | false =>
        simp only [Outcome.ok.injEq, Prod.mk.injEq] at h
        rw [← h.1, ← h.2]
        exact ⟨h2, h2⟩

end CPU

end Day07

namespace Day23

namespace CPU

/-- C34: in the machine of `23/doit.cc` and in the machine of `07/doit.cc`, a
halted flag that is set stays set under `execute`, `run`, `give_input`,
`get_input`, `save_output`, `get_output` and `transmit` (on either side), and
a `run` call on such a machine returns `true` whenever it returns.  So it does
for the machine that has halted at `[99,3,0]`, stands at the read instruction
and has no input: `run` stops at the starved read and returns `true`. -/
theorem halted_is_never_reset :
    (∀ (c : CPU), c.halted = true →
      (∀ r c1, c.execute = some (r, c1) → c1.halted = true) ∧
      (∀ n r c1, run n c = RunResult.returned r c1 → r = true ∧ c1.halted = true) ∧
      (∀ v, (c.give_input v).halted = true) ∧ (∀ v, (c.save_output v).halted = true) ∧
      (∀ v c1, c.get_input = some (v, c1) → c1.halted = true) ∧
      (∀ v c1, c.get_output = some (v, c1) → c1.halted = true) ∧
      (∀ b : CPU, (c.transmit b).1.halted = true ∧ (b.transmit c).2.halted = true)) ∧
    (∀ (c : Day07.CPU), c.halted = true →
      (∀ r c1, c.execute = some (r, c1) → c1.halted = true) ∧
      (∀ n r c1, c.run n = Day07.Outcome.ok (r, c1) → r = true ∧ c1.halted = true) ∧
      (∀ v, (c.give_input v).halted = true) ∧ (∀ v, (c.save_output v).halted = true) ∧
      (∀ v c1, c.get_input = some (v, c1) → c1.halted = true) ∧
      (∀ b : Day07.CPU, (c.transmit b).1.halted = true ∧ (b.transmit c).2.halted = true)) ∧
    run 1 { memory := [99, 3, 0], ip := 1, halted := true } =
      RunResult.returned true { memory := [99, 3, 0], ip := 1, halted := true } ∧
    Day07.CPU.run 1 { memory := [99, 3, 0], ip := 1, halted := true } =
      Day07.Outcome.ok (true, { memory := [99, 3, 0], ip := 1, halted := true }) := by
  refine ⟨?_, ?_, by decide, by decide⟩
  · intro c hh
    refine ⟨fun r c1 h => execute_stays_halted c c1 r hh h,
      fun n r c1 h => run_stays_halted n c c1 r hh h, fun _ => hh, fun _ => hh, ?_, ?_,
      fun _ => ⟨hh, hh⟩⟩
    · intro v c1 h
      exact (get_input_spec c c1 v h).1.trans hh
    · intro v c1 h
      unfold get_output at h
      rcases ho : c.output_values with _ | ⟨x, rest⟩
      · rw [ho] at h
        exact absurd h (by simp)
      · rw [ho] at h
        simp only [Option.some.injEq, Prod.mk.injEq] at h
        rw [← h.2]
        exact hh
  · intro c hh
    refine ⟨?_, fun n r c1 h => Day07.CPU.run_of_halted n c c1 r hh h, fun _ => hh,
      fun _ => hh, ?_, fun _ => ⟨hh, hh⟩⟩
    · intro r c1 h
      rcases Day07.CPU.execute_keeps_halted c c1 r h with e | e
      · exact e.trans hh
      · exact e
    · intro v c1 h
      unfold Day07.CPU.get_input at h
      rcases hi : c.input_values with _ | ⟨x, rest⟩
      · rw [hi] at h
        exact absurd h (by simp)
      · rw [hi] at h
        simp only [Option.some.injEq, Prod.mk.injEq] at h
        rw [← h.2]
        exact hh

end CPU

namespace network

/-- C37: from a network in which every output queue holds fewer than three
values, the network after any number of complete iterations of `while (true)`,
and the network right after the `for` loop of any later sweep, have at most two
values in every output queue. -/
theorem outputs_short_after_sweep (fn : Bool) (n0 : network)
    (hs0 : ∀ c ∈ n0.cpus, c.output_values.length < 3) :
    (∀ k n, sweeps fn k n0 = Outcome.next n → ∀ c ∈ n.cpus, c.output_values.length ≤ 2) ∧
      (∀ k n n1 ips, sweeps fn k n0 = Outcome.next n → sweep fn n = Outcome.next (n1, ips) →
        ∀ c ∈ n1.cpus, c.output_values.length ≤ 2) := by
  constructor
  · intro k n hk c hc
    obtain ⟨j, hj⟩ := List.getElem?_of_mem hc
    cases k with
    | zero =>
      simp only [sweeps, Outcome.next.injEq] at hk
      subst hk
      exact Nat.le_of_lt_succ (hs0 c hc)
    | succ k =>
      rw [sweeps_succ] at hk
      rcases hk2 : sweeps fn k n0 with ⟨nk⟩ | ⟨v2, m2⟩ | _ | _ | _
      · rw [hk2] at hk
        exact Nat.le_of_lt_succ ((settled_iteration fn nk n hk).1 j c hj)
      all_goals
        rw [hk2] at hk
        exact absurd hk (by simp)
  · intro k n n1 ips _ hs c hc
    obtain ⟨j, hj⟩ := List.getElem?_of_mem hc
    exact Nat.le_of_lt_succ (sweep_short fn n n1 ips hs j c hj)

/-- C37 at two machines that each write a value in every sweep: after two
iterations both output queues hold two values. -/
theorem outputs_short_after_sweep_witness :
    sweeps false 2
        { cpus := [{ memory := [104, 5, 104, 6, 104, 7, 99], blocking := false },
                   { memory := [104, 5, 104, 6, 104, 7, 99], blocking := false }] } =
      Outcome.next
        { cpus := [{ memory := [104, 5, 104, 6, 104, 7, 99], ip := 4, blocking := false,
                     output_values := [5, 6] },
                   { memory := [104, 5, 104, 6, 104, 7, 99], ip := 4, blocking := false,
                     output_values := [5, 6] }],
          idling_ips := [[4, 4]] } ∧
      ({ memory := [104, 5, 104, 6, 104, 7, 99], ip := 4, blocking := false,
         output_values := [5, 6] } : CPU).output_values.length ≤ 2 :=
  ⟨by decide,
    (outputs_short_after_sweep false
      { cpus := [{ memory := [104, 5, 104, 6, 104, 7, 99], blocking := false },
                 { memory := [104, 5, 104, 6, 104, 7, 99], blocking := false }] }
      (by decide)).1 2
      { cpus := [{ memory := [104, 5, 104, 6, 104, 7, 99], ip := 4, blocking := false,
                   output_values := [5, 6] },
                 { memory := [104, 5, 104, 6, 104, 7, 99], ip := 4, blocking := false,
                   output_values := [5, 6] }],
        idling_ips := [[4, 4]] }
      (by decide)
      { memory := [104, 5, 104, 6, 104, 7, 99], ip := 4, blocking := false,
        output_values := [5, 6] }
      (by decide)⟩

end network

end Day23

/-! # The machine of `23/doit.cc` as an extension of the machine of `07/doit.cc` -/

namespace Day07

namespace CPU

theorem toUnsigned_of_lt (a : Int) (n : Nat) (ha : -2147483648 ≤ a ∧ a < 2147483648)
    (hn : n ≤ 2147483648) (h : toUnsigned a < n) : 0 ≤ a ∧ toUnsigned a = a.toNat := by
  unfold toUnsigned at h ⊢
  omega

/-- A read of `07/doit.cc` that returns is the same read in `23/doit.cc`, which
does not grow the memory. -/
theorem mem_toDay23 (c : CPU) (rb : Int) (a : Nat) (v : Int) (h : c.mem a = some v) :
    (c.toDay23 rb).mem (a : Int) = some (v, c.toDay23 rb) := by
  unfold mem at h
  by_cases ha : a < c.memory.length
  · rw [if_pos ha] at h
    simp only [Option.some.injEq] at h
    rw [Day23.CPU.mem_of_nonneg _ _ (Int.ofNat_nonneg a)]
    have e : ((a : Nat) : Int).toNat = a := Int.toNat_ofNat a
    rw [e]
    have hg : Day23.CPU.grow (c.toDay23 rb).memory a = c.memory :=
      Day23.CPU.grow_of_lt _ _ ha
    rw [hg, ← h]
    rfl
  · rw [if_neg ha] at h
    exact absurd h (by simp)

theorem fetch_toDay23 (c c1 : CPU) (rb : Int) (v : Int)
    (hlen : c.memory.length ≤ 2147483648) (h : c.fetch = some (v, c1)) :
    (c.toDay23 rb).fetch = some (v, c1.toDay23 rb) ∧ c1 = { c with ip := c.ip + 1 } ∧
      v ∈ c.memory ∧ c.ip < c.memory.length := by
  unfold fetch at h
  rcases hm : c.mem c.ip with _ | v2
  · rw [hm] at h
    exact absurd h (by simp)
  · rw [hm] at h
    simp only [Option.some.injEq, Prod.mk.injEq] at h
    obtain ⟨rfl, rfl⟩ := h
    have hip : c.ip < c.memory.length := by
      unfold mem at hm
      by_cases ha : c.ip < c.memory.length
      · exact ha
      · rw [if_neg ha] at hm
        exact absurd hm (by simp)
    have hv : v2 ∈ c.memory := by
      unfold mem at hm
      rw [if_pos hip] at hm
      simp only [Option.some.injEq] at hm
      rw [← hm, List.getD_eq_getElem _ _ hip]
      exact List.getElem_mem _
    have hmod : (c.ip + 1) % 4294967296 = c.ip + 1 := Nat.mod_eq_of_lt (by omega)
    rw [hmod]
    refine ⟨?_, rfl, hv, hip⟩
    have hm2 : ({ c with ip := c.ip + 1 } : CPU).mem c.ip = some v2 := hm
    have h3 := mem_toDay23 { c with ip := c.ip + 1 } rb c.ip v2 hm2
    unfold Day23.CPU.fetch
    have e : ({ c.toDay23 rb with ip := (c.toDay23 rb).ip + 1 } : Day23.CPU) =
        ({ c with ip := c.ip + 1 } : CPU).toDay23 rb := by
      unfold toDay23
      simp
    rw [e]
    exact h3

theorem arg_toDay23 (c c1 : CPU) (rb : Int) (md v md1 : Int)
    (hlen : c.memory.length ≤ 2147483648) (h32 : c.Words32)
    (hmd : md.tmod 10 = 0 ∨ md.tmod 10 = 1) (h : c.arg md = some (v, c1, md1)) :
    (c.toDay23 rb).arg md = some (v, c1.toDay23 rb, md1) ∧ c1 = { c with ip := c.ip + 1 } ∧
      v ∈ c.memory ∧ md1 = md.tdiv 10 := by
  unfold arg at h
  rcases hf : c.fetch with _ | ⟨a, c0⟩
  · rw [hf] at h
    exact absurd h (by simp)
  · rw [hf] at h
    dsimp only at h
    obtain ⟨f1, f2, f3, f4⟩ := fetch_toDay23 c c0 rb a hlen hf
    unfold Day23.CPU.arg
    rw [f1]
    dsimp only
    rcases hmd with h0 | h1
    · rw [if_pos h0] at h ⊢
      rcases hm : c0.mem (toUnsigned a) with _ | v2
      · rw [hm] at h
        exact absurd h (by simp)
      · rw [hm] at h
        simp only [Option.some.injEq, Prod.mk.injEq] at h
        obtain ⟨rfl, rfl, rfl⟩ := h
        have hlt : toUnsigned a < c0.memory.length := by
          unfold mem at hm
          by_cases ha : toUnsigned a < c0.memory.length
          · exact ha
          · rw [if_neg ha] at hm
            exact absurd hm (by simp)
        have hlen0 : c0.memory.length ≤ 2147483648 := by
          rw [f2]
          exact hlen
        obtain ⟨a0, au⟩ := toUnsigned_of_lt a _ (h32 a f3) hlen0 hlt
        have hv : v2 ∈ c.memory := by
          unfold mem at hm
          rw [if_pos hlt] at hm
          simp only [Option.some.injEq] at hm
          rw [← hm, List.getD_eq_getElem _ _ hlt]
          have hmem0 : c0.memory = c.memory := by rw [f2]
          have hin := List.getElem_mem (l := c0.memory) hlt
          rw [← hmem0]
          exact hin
        have h3 := mem_toDay23 c0 rb (toUnsigned a) v2 hm
        have ea : ((toUnsigned a : Nat) : Int) = a := by
          rw [au, Int.toNat_of_nonneg a0]
        rw [ea] at h3
        rw [h3]
        exact ⟨rfl, f2, hv, rfl⟩
    · have n0 : md.tmod 10 ≠ 0 := by omega
      have n2 : md.tmod 10 ≠ 2 := by omega
      rw [if_neg n0] at h ⊢
      rw [if_neg n2]
      simp only [Option.some.injEq, Prod.mk.injEq] at h
      obtain ⟨rfl, rfl, rfl⟩ := h
      exact ⟨rfl, f2, f3, rfl⟩

theorem store_toDay23 (c c1 : CPU) (rb : Int) (v : Int)
    (hlen : c.memory.length ≤ 2147483648) (h32 : c.Words32) (h : c.store v = some c1) :
    (c.toDay23 rb).store 0 v = some (c1.toDay23 rb) := by
  unfold store at h
  rcases hf : c.fetch with _ | ⟨a, c0⟩
  · rw [hf] at h
    exact absurd h (by simp)
  · rw [hf] at h
    dsimp only at h
    obtain ⟨f1, f2, f3, f4⟩ := fetch_toDay23 c c0 rb a hlen hf
    by_cases hlt : toUnsigned a < c0.memory.length
    · rw [if_pos hlt] at h
      simp only [Option.some.injEq] at h
      subst h
      have hlen0 : c0.memory.length ≤ 2147483648 := by
        rw [f2]
        exact hlen
      obtain ⟨a0, au⟩ := toUnsigned_of_lt a _ (h32 a f3) hlen0 hlt
      unfold Day23.CPU.store
      rw [if_pos (Or.inl rfl), f1]
      dsimp only
      rw [if_neg (by decide), Day23.CPU.mem_assign_of_nonneg _ _ _ a0]
      have hlt2 : a.toNat < (c0.toDay23 rb).memory.length := by
        rw [← au]
        exact hlt
      rw [Day23.CPU.grow_of_lt _ _ hlt2, au]
      rfl
    · rw [if_neg hlt] at h
      exact absurd h (by simp)

/-- C36, as the code has it: let `execute` of `07/doit.cc` return on a machine
whose memory holds `int` words and has at most 2^31 cells, at an instruction
word `w` with an opcode of 1 to 8 or 99, whose value operands have the mode
digits 0 or 1, and with no digit left at or above the position of the write
target; for the opcodes 5 and 6 let the instruction pointer afterwards be below
2^31 (a jump that is taken goes to a non-negative address).  Then `execute` of
`23/doit.cc`, in blocking mode and with any relative base, on the machine with
the same memory, instruction pointer, halted flag and queues returns the same
value and leaves the same memory, instruction pointer, halted flag and queues.
(The words are integers in both embeddings, so the `int` arithmetic of the one
and the `long` arithmetic of the other agree wherever neither overflows.) -/
theorem day23_extends_day07 (c c1 : CPU) (r : Bool) (rb w : Int)
    (hw : c.memory[c.ip]? = some w) (hlen : c.memory.length ≤ 2147483648) (h32 : c.Words32)
    (hop : w.tmod 100 = 1 ∨ w.tmod 100 = 2 ∨ w.tmod 100 = 3 ∨ w.tmod 100 = 4 ∨
      w.tmod 100 = 5 ∨ w.tmod 100 = 6 ∨ w.tmod 100 = 7 ∨ w.tmod 100 = 8 ∨ w.tmod 100 = 99)
    (hm1 : w.tmod 100 ≠ 3 → w.tmod 100 ≠ 99 →
      Day23.CPU.digit (w.tdiv 100) 0 = 0 ∨ Day23.CPU.digit (w.tdiv 100) 0 = 1)
    (hm2 : w.tmod 100 ≠ 3 → w.tmod 100 ≠ 4 → w.tmod 100 ≠ 99 →
      Day23.CPU.digit (w.tdiv 100) 1 = 0 ∨ Day23.CPU.digit (w.tdiv 100) 1 = 1)
    (ht : (w.tmod 100 = 1 ∨ w.tmod 100 = 2 ∨ w.tmod 100 = 7 ∨ w.tmod 100 = 8 →
        w.tdiv 10000 = 0) ∧ (w.tmod 100 = 3 → w.tdiv 100 = 0))
    (hj : w.tmod 100 = 5 ∨ w.tmod 100 = 6 → c1.ip < 2147483648)
    (hex : c.execute = some (r, c1)) :
    (c.toDay23 rb).execute = some (r, c1.toDay23 rb) := by
  have d1 : w.tmod 100 ≠ 3 → w.tmod 100 ≠ 99 →
      (w.tdiv 100).tmod 10 = 0 ∨ (w.tdiv 100).tmod 10 = 1 := by
    intro a b
    have := hm1 a b
    rw [Day23.CPU.digit_zero] at this
    exact this
  have d2 : w.tmod 100 ≠ 3 → w.tmod 100 ≠ 4 → w.tmod 100 ≠ 99 →
      ((w.tdiv 100).tdiv 10).tmod 10 = 0 ∨ ((w.tdiv 100).tdiv 10).tmod 10 = 1 := by
    intro a b e
    have := hm2 a b e
    rw [← Day23.CPU.digit_tdiv_ten, Day23.CPU.digit_zero] at this
    exact this
  unfold execute at hex
  unfold Day23.CPU.execute
  rcases hf : c.fetch with _ | ⟨w0, c0⟩
  · rw [hf] at hex
    exact absurd hex (by simp)
  · rw [hf] at hex
    dsimp only at hex
    obtain ⟨sf, ef, _, hip⟩ := fetch_toDay23 c c0 rb w0 hlen hf
    have hww : w0 = w := by
      unfold fetch mem at hf
      rw [if_pos hip] at hf
      simp only [Option.some.injEq, Prod.mk.injEq] at hf
      rw [← hf.1, List.getD_eq_getElem?_getD, hw]
      rfl
    subst hww
    rw [sf]
    dsimp only
    have hlen0 : c0.memory.length ≤ 2147483648 := by
      rw [ef]
      exact hlen
    have h320 : c0.Words32 := by
      rw [ef]
      exact h32
    by_cases h1 : w0.tmod 100 = 1
    · simp only [if_pos h1] at hex ⊢
      rcases ha : c0.arg (w0.tdiv 100) with _ | ⟨a1, c2, m1⟩
      · rw [ha] at hex
        exact absurd hex (by simp)
      rw [ha] at hex
      dsimp only at hex
      obtain ⟨sa, ea, _, em1⟩ := arg_toDay23 c0 c2 rb _ a1 m1 hlen0 h320
        (d1 (by rw [h1]; decide) (by rw [h1]; decide)) ha
      rcases hb : c2.arg m1 with _ | ⟨a2, c3, m2⟩
      · rw [hb] at hex
        exact absurd hex (by simp)
      rw [hb] at hex
      dsimp only at hex
      have hlen2 : c2.memory.length ≤ 2147483648 := by
        rw [ea]
        exact hlen0
      have h322 : c2.Words32 := by
        rw [ea]
        exact h320
      obtain ⟨sb, eb, _, em2⟩ := arg_toDay23 c2 c3 rb _ a2 m2 hlen2 h322
        (by rw [em1]; exact d2 (by rw [h1]; decide) (by rw [h1]; decide) (by rw [h1]; decide)) hb
      rcases hs : c3.store (a1 + a2) with _ | c4
      · rw [hs] at hex
        exact absurd hex (by simp)
      rw [hs] at hex
      simp only [Option.map_some', Option.some.injEq, Prod.mk.injEq] at hex
      obtain ⟨rfl, rfl⟩ := hex
      have hlen3 : c3.memory.length ≤ 2147483648 := by
        rw [eb]
        exact hlen2
      have h323 : c3.Words32 := by
        rw [eb]
        exact h322
      have hm2 : m2 = 0 := by
        rw [em2, em1, Day23.CPU.tdiv_hundred_ten_ten]
        exact ht.1 (Or.inl h1)
      rw [sa]
      dsimp only
      rw [sb]
      dsimp only
      rw [hm2, store_toDay23 c3 c4 rb _ hlen3 h323 hs]
      rfl
    simp only [if_neg h1] at hex ⊢
    by_cases h2 : w0.tmod 100 = 2
    · simp only [if_pos h2] at hex ⊢
      rcases ha : c0.arg (w0.tdiv 100) with _ | ⟨a1, c2, m1⟩
      · rw [ha] at hex
        exact absurd hex (by simp)
      rw [ha] at hex
      dsimp only at hex
      obtain ⟨sa, ea, _, em1⟩ := arg_toDay23 c0 c2 rb _ a1 m1 hlen0 h320
        (d1 (by rw [h2]; decide) (by rw [h2]; decide)) ha
      rcases hb : c2.arg m1 with _ | ⟨a2, c3, m2⟩
      · rw [hb] at hex
        exact absurd hex (by simp)
      rw [hb] at hex
      dsimp only at hex
      have hlen2 : c2.memory.length ≤ 2147483648 := by
        rw [ea]
        exact hlen0
      have h322 : c2.Words32 := by
        rw [ea]
        exact h320
      obtain ⟨sb, eb, _, em2⟩ := arg_toDay23 c2 c3 rb _ a2 m2 hlen2 h322
        (by rw [em1]; exact d2 (by rw [h2]; decide) (by rw [h2]; decide) (by rw [h2]; decide)) hb
      rcases hs : c3.store (a1 * a2) with _ | c4
      · rw [hs] at hex
        exact absurd hex (by simp)
      rw [hs] at hex
      simp only [Option.map_some', Option.some.injEq, Prod.mk.injEq] at hex
      obtain ⟨rfl, rfl⟩ := hex
      have hlen3 : c3.memory.length ≤ 2147483648 := by
        rw [eb]
        exact hlen2
      have h323 : c3.Words32 := by
        rw [eb]
        exact h322
      have hm2 : m2 = 0 := by
        rw [em2, em1, Day23.CPU.tdiv_hundred_ten_ten]
        exact ht.1 (Or.inr (Or.inl h2))
      rw [sa]
      dsimp only
      rw [sb]
      dsimp only
      rw [hm2, store_toDay23 c3 c4 rb _ hlen3 h323 hs]
      rfl
    simp only [if_neg h2] at hex ⊢
    by_cases h3 : w0.tmod 100 = 3
    · simp only [if_pos h3] at hex ⊢
      by_cases hq : c0.input_values = []
      · have hq2 : (c0.toDay23 rb).blocking = true ∧ (c0.toDay23 rb).input_values = [] :=
          ⟨rfl, hq⟩
        rw [if_pos hq] at hex
        rw [if_pos hq2]
        simp only [Option.some.injEq, Prod.mk.injEq] at hex
        obtain ⟨rfl, rfl⟩ := hex
        have e : (c0.ip + 4294967295) % 4294967296 = c.ip := by
          rw [ef]
          show (c.ip + 1 + 4294967295) % 4294967296 = c.ip
          omega
        have e2 : (c0.toDay23 rb).ip - 1 = (c.ip : Int) := by
          rw [ef]
          show ((c.ip + 1 : Nat) : Int) - 1 = (c.ip : Int)
          push_cast
          ring
        rw [e]
        unfold toDay23 at e2 ⊢
        simp only [e2]
      · have hq2 : ¬ ((c0.toDay23 rb).blocking = true ∧ (c0.toDay23 rb).input_values = []) :=
          fun hh => hq hh.2
        rw [if_neg hq] at hex
        rw [if_neg hq2]
        rcases hg : c0.get_input with _ | ⟨v, c2⟩
        · rw [hg] at hex
          exact absurd hex (by simp)
        rw [hg] at hex
        dsimp only at hex
        rcases hs : c2.store v with _ | c4
        · rw [hs] at hex
          exact absurd hex (by simp)
        rw [hs] at hex
        simp only [Option.map_some', Option.some.injEq, Prod.mk.injEq] at hex
        obtain ⟨rfl, rfl⟩ := hex
        have hg2 : (c0.toDay23 rb).get_input = some (v, c2.toDay23 rb) ∧
            c2.memory = c0.memory := by
          unfold get_input at hg
          unfold Day23.CPU.get_input
          rcases hi : c0.input_values with _ | ⟨x, rest⟩
          · exact absurd hi hq
          · rw [hi] at hg
            simp only [Option.some.injEq, Prod.mk.injEq] at hg
            obtain ⟨rfl, rfl⟩ := hg
            have hn : ¬ ((c0.toDay23 rb).blocking = false ∧
                (c0.toDay23 rb).input_values = []) :=
              fun hh => absurd (show (true : Bool) = false from hh.1) (by decide)
            rw [if_neg hn]
            have hi2 : (c0.toDay23 rb).input_values = x :: rest := hi
            rw [hi2]
            exact ⟨rfl, rfl⟩
        have hlen2 : c2.memory.length ≤ 2147483648 := by
          rw [hg2.2]
          exact hlen0
        have h322 : c2.Words32 := by
          unfold Words32
          rw [hg2.2]
          exact h320
        rw [hg2.1]
        dsimp only
        rw [ht.2 h3, store_toDay23 c2 c4 rb _ hlen2 h322 hs]
        rfl
    simp only [if_neg h3] at hex ⊢
    by_cases h4 : w0.tmod 100 = 4
    · simp only [if_pos h4] at hex ⊢
      rcases ha : c0.arg (w0.tdiv 100) with _ | ⟨a1, c2, m1⟩
      · rw [ha] at hex
        exact absurd hex (by simp)
      rw [ha] at hex
      simp only [Option.some.injEq, Prod.mk.injEq] at hex
      obtain ⟨rfl, rfl⟩ := hex
      obtain ⟨sa, ea, _, em1⟩ := arg_toDay23 c0 c2 rb _ a1 m1 hlen0 h320
        (d1 (by rw [h4]; decide) (by rw [h4]; decide)) ha
      rw [sa]
      rfl
    simp only [if_neg h4] at hex ⊢
    by_cases h5 : w0.tmod 100 = 5
    · simp only [if_pos h5] at hex ⊢
      rcases ha : c0.arg (w0.tdiv 100) with _ | ⟨a1, c2, m1⟩
      · rw [ha] at hex
        exact absurd hex (by simp)
      rw [ha] at hex
      dsimp only at hex
      obtain ⟨sa, ea, _, em1⟩ := arg_toDay23 c0 c2 rb _ a1 m1 hlen0 h320
        (d1 (by rw [h5]; decide) (by rw [h5]; decide)) ha
      rcases hb : c2.arg m1 with _ | ⟨a2, c3, m2⟩
      · rw [hb] at hex
        exact absurd hex (by simp)
      rw [hb] at hex
      simp only [Option.some.injEq, Prod.mk.injEq] at hex
      obtain ⟨rfl, rfl⟩ := hex
      have hlen2 : c2.memory.length ≤ 2147483648 := by
        rw [ea]
        exact hlen0
      have h322 : c2.Words32 := by
        rw [ea]
        exact h320
      obtain ⟨sb, eb, hv2, em2⟩ := arg_toDay23 c2 c3 rb _ a2 m2 hlen2 h322
        (by rw [em1]; exact d2 (by rw [h5]; decide) (by rw [h5]; decide) (by rw [h5]; decide)) hb
      rw [sa]
      dsimp only
      rw [sb]
      dsimp only
      by_cases ht : a1 ≠ 0
      · rw [if_pos ht] at hj ⊢
        have hj2 : toUnsigned a2 < 2147483648 := hj (Or.inl h5)
        obtain ⟨a0, au⟩ := toUnsigned_of_lt a2 2147483648 (h322 a2 hv2) (Nat.le_refl _) hj2
        have e : ((toUnsigned a2 : Nat) : Int) = a2 := by
          rw [au, Int.toNat_of_nonneg a0]
        rw [if_pos ht]
        unfold toDay23
        simp only [e]
      · rw [if_neg ht, if_neg ht]
    simp only [if_neg h5] at hex ⊢
    by_cases h6 : w0.tmod 100 = 6
    · simp only [if_pos h6] at hex ⊢
      rcases ha : c0.arg (w0.tdiv 100) with _ | ⟨a1, c2, m1⟩
      · rw [ha] at hex
        exact absurd hex (by simp)
      rw [ha] at hex
      dsimp only at hex
      obtain ⟨sa, ea, _, em1⟩ := arg_toDay23 c0 c2 rb _ a1 m1 hlen0 h320
        (d1 (by rw [h6]; decide) (by rw [h6]; decide)) ha
      rcases hb : c2.arg m1 with _ | ⟨a2, c3, m2⟩
      · rw [hb] at hex
        exact absurd hex (by simp)
      rw [hb] at hex
      simp only [Option.some.injEq, Prod.mk.injEq] at hex
      obtain ⟨rfl, rfl⟩ := hex
      have hlen2 : c2.memory.length ≤ 2147483648 := by
        rw [ea]
        exact hlen0
      have h322 : c2.Words32 := by
        rw [ea]
        exact h320
      obtain ⟨sb, eb, hv2, em2⟩ := arg_toDay23 c2 c3 rb _ a2 m2 hlen2 h322
        (by rw [em1]; exact d2 (by rw [h6]; decide) (by rw [h6]; decide) (by rw [h6]; decide)) hb
      rw [sa]
      dsimp only
      rw [sb]
      dsimp only
      by_cases ht : a1 = 0
      · rw [if_pos ht] at hj ⊢
        have hj2 : toUnsigned a2 < 2147483648 := hj (Or.inr h6)
        obtain ⟨a0, au⟩ := toUnsigned_of_lt a2 2147483648 (h322 a2 hv2) (Nat.le_refl _) hj2
        have e : ((toUnsigned a2 : Nat) : Int) = a2 := by
          rw [au, Int.toNat_of_nonneg a0]
        rw [if_pos ht]
        unfold toDay23
        simp only [e]
      · rw [if_neg ht, if_neg ht]
    simp only [if_neg h6] at hex ⊢
    by_cases h7 : w0.tmod 100 = 7
    · simp only [if_pos h7] at hex ⊢
      rcases ha : c0.arg (w0.tdiv 100) with _ | ⟨a1, c2, m1⟩
      · rw [ha] at hex
        exact absurd hex (by simp)
      rw [ha] at hex
      dsimp only at hex
      obtain ⟨sa, ea, _, em1⟩ := arg_toDay23 c0 c2 rb _ a1 m1 hlen0 h320
        (d1 (by rw [h7]; decide) (by rw [h7]; decide)) ha
      rcases hb : c2.arg m1 with _ | ⟨a2, c3, m2⟩
      · rw [hb] at hex
        exact absurd hex (by simp)
      rw [hb] at hex
      dsimp only at hex
      have hlen2 : c2.memory.length ≤ 2147483648 := by
        rw [ea]
        exact hlen0
      have h322 : c2.Words32 := by
        rw [ea]
        exact h320
      obtain ⟨sb, eb, _, em2⟩ := arg_toDay23 c2 c3 rb _ a2 m2 hlen2 h322
        (by rw [em1]; exact d2 (by rw [h7]; decide) (by rw [h7]; decide) (by rw [h7]; decide)) hb
      rcases hs : c3.store (if a1 < a2 then 1 else 0) with _ | c4
      · rw [hs] at hex
        exact absurd hex (by simp)
      rw [hs] at hex
      simp only [Option.map_some', Option.some.injEq, Prod.mk.injEq] at hex
      obtain ⟨rfl, rfl⟩ := hex
      have hlen3 : c3.memory.length ≤ 2147483648 := by
        rw [eb]
        exact hlen2
      have h323 : c3.Words32 := by
        rw [eb]
        exact h322
      have hm2 : m2 = 0 := by
        rw [em2, em1, Day23.CPU.tdiv_hundred_ten_ten]
        exact ht.1 (Or.inr (Or.inr (Or.inl h7)))
      rw [sa]
      dsimp only
      rw [sb]
      dsimp only
      rw [hm2, Day23.CPU.ofBool_decide, store_toDay23 c3 c4 rb _ hlen3 h323 hs]
      rfl
    simp only [if_neg h7] at hex ⊢
    by_cases h8 : w0.tmod 100 = 8
    · simp only [if_pos h8] at hex ⊢
      rcases ha : c0.arg (w0.tdiv 100) with _ | ⟨a1, c2, m1⟩
      · rw [ha] at hex
        exact absurd hex (by simp)
      rw [ha] at hex
      dsimp only at hex
      obtain ⟨sa, ea, _, em1⟩ := arg_toDay23 c0 c2 rb _ a1 m1 hlen0 h320
        (d1 (by rw [h8]; decide) (by rw [h8]; decide)) ha
      rcases hb : c2.arg m1 with _ | ⟨a2, c3, m2⟩
      · rw [hb] at hex
        exact absurd hex (by simp)
      rw [hb] at hex
      dsimp only at hex
      have hlen2 : c2.memory.length ≤ 2147483648 := by
        rw [ea]
        exact hlen0
      have h322 : c2.Words32 := by
        rw [ea]
        exact h320
      obtain ⟨sb, eb, _, em2⟩ := arg_toDay23 c2 c3 rb _ a2 m2 hlen2 h322
        (by rw [em1]; exact d2 (by rw [h8]; decide) (by rw [h8]; decide) (by rw [h8]; decide)) hb
      rcases hs : c3.store (if a1 = a2 then 1 else 0) with _ | c4
      · rw [hs] at hex
        exact absurd hex (by simp)
      rw [hs] at hex
      simp only [Option.map_some', Option.some.injEq, Prod.mk.injEq] at hex
      obtain ⟨rfl, rfl⟩ := hex
      have hlen3 : c3.memory.length ≤ 2147483648 := by
        rw [eb]
        exact hlen2
      have h323 : c3.Words32 := by
        rw [eb]
        exact h322
      have hm2 : m2 = 0 := by
        rw [em2, em1, Day23.CPU.tdiv_hundred_ten_ten]
        exact ht.1 (Or.inr (Or.inr (Or.inr h8)))
      rw [sa]
      dsimp only
      rw [sb]
      dsimp only
      rw [hm2, Day23.CPU.ofBool_decide, store_toDay23 c3 c4 rb _ hlen3 h323 hs]
      rfl
    simp only [if_neg h8] at hex ⊢
    have h99 : w0.tmod 100 = 99 := by
      rcases hop with h | h | h | h | h | h | h | h | h
      · exact absurd h h1
      · exact absurd h h2
      · exact absurd h h3
      · exact absurd h h4
      · exact absurd h h5
      · exact absurd h h6
      · exact absurd h h7
      · exact absurd h h8
      · exact h
    have n9 : w0.tmod 100 ≠ 9 := by
      rw [h99]
      decide
    simp only [if_pos h99, Option.some.injEq, Prod.mk.injEq] at hex
    obtain ⟨rfl, rfl⟩ := hex
    simp only [if_neg n9, if_pos h99]
    rfl

/-- C36 (amended) at the first instruction of `[1002,4,3,4,33]`, which stores
99 at the address 4. -/
theorem day23_extends_day07_witness :
    ({ memory := [1002, 4, 3, 4, 33] } : CPU).execute =
        some (true, { memory := [1002, 4, 3, 4, 99], ip := 4 }) ∧
      (({ memory := [1002, 4, 3, 4, 33] } : CPU).toDay23 0).execute =
        some (true, ({ memory := [1002, 4, 3, 4, 99], ip := 4 } : CPU).toDay23 0) :=
  ⟨by decide,
    day23_extends_day07 { memory := [1002, 4, 3, 4, 33] }
      { memory := [1002, 4, 3, 4, 99], ip := 4 } true 0 1002 (by decide) (by decide)
      (by unfold Words32; decide) (by decide) (fun _ _ => Or.inl (by decide))
      (fun _ _ _ => Or.inr (by decide)) ⟨fun _ => by decide, fun h => absurd h (by decide)⟩
      (fun _ => by decide) (by decide)⟩

/-- C36 is not what the code does at a jump to a negative address: the
instruction `1105,1,-1` returns `true` in both machines, with the instruction
pointer 4294967295 in the machine of `07/doit.cc` (the `int` -1 converted to
`unsigned`) and -1 in the machine of `23/doit.cc`. -/
theorem jump_to_negative_differs :
    ({ memory := [1105, 1, -1] } : CPU).execute =
        some (true, { memory := [1105, 1, -1], ip := 4294967295 }) ∧
      (({ memory := [1105, 1, -1] } : CPU).toDay23 0).execute =
        some (true, { memory := [1105, 1, -1], ip := -1 }) ∧
      (({ memory := [1105, 1, -1], ip := 4294967295 } : CPU).toDay23 0).ip ≠ -1 := by
  decide

end CPU

end Day07

/-! # The shuffles of `22/doit.cc`: products and inverses -/

namespace Day22

/-- The reduction to `long` leaves the values of `long` as they are. -/
theorem toLong_eq (v : Int) (h1 : -9223372036854775808 ≤ v) (h2 : v < 9223372036854775808) :
    toLong v = v := by
  unfold toLong
  omega

theorem x_mod_eq (a b m : Int) (hab : 0 ≤ a * b) (hm : 0 < m) (hm2 : m ≤ 9223372036854775808) :
    x_mod a b m = (a * b) % m := by
  unfold x_mod
  rw [Int.tmod_eq_emod hab (le_of_lt hm)]
  have b1 := Int.emod_nonneg (a * b) (ne_of_gt hm)
  have b2 := Int.emod_lt_of_pos (a * b) hm
  exact toLong_eq _ (by omega) (by omega)

/-- Two numbers of `0`, ..., `n - 1` with the same class modulo `n` are
equal. -/
theorem eq_of_cast (n : Nat) (x y : Int) (hx0 : 0 ≤ x) (hx : x < n) (hy0 : 0 ≤ y) (hy : y < n)
    (h : (x : ZMod n) = (y : ZMod n)) : x = y := by
  have h2 := (ZMod.intCast_eq_intCast_iff' x y n).mp h
  rw [Int.emod_eq_of_lt hx0 hx, Int.emod_eq_of_lt hy0 hy] at h2
  exact h2

/-- The loop on `new_cut` ends, with a value that is not negative and is in
the class of the value it began with. -/
theorem raise_cut_spec (sz : Int) (hsz : 0 < sz) (hs : sz ≤ 4611686018427387904) :
    ∀ (k : Nat) (x : Int), -9223372036854775808 ≤ x → 0 ≤ x + k * sz →
    ∃ r, raise_cut sz (k + 1) x = some r ∧ 0 ≤ r ∧ r % sz = x % sz := by
  intro k
  induction k with
  | zero =>
    intro x _ hx
    have h0 : ¬ x < 0 := by
      simp only [Nat.cast_zero, zero_mul, add_zero] at hx
      omega
    refine ⟨x, ?_, by omega, rfl⟩
    unfold raise_cut
    rw [if_neg h0]
  | succ k ih =>
    intro x hlo hx
    by_cases h0 : x < 0
    · have hx2 : 0 ≤ x + sz + k * sz := by
        have e : x + ((k + 1 : Nat) : Int) * sz = x + sz + k * sz := by
          push_cast
          ring
        rw [e] at hx
        exact hx
      obtain ⟨r, h1, h2, h3⟩ := ih (x + sz) (by omega) hx2
      refine ⟨r, ?_, h2, ?_⟩
      · rw [raise_cut, if_pos h0, toLong_eq _ (by omega) (by omega)]
        exact h1
      · rw [h3, Int.add_emod_self]
    · refine ⟨x, ?_, by omega, rfl⟩
      rw [raise_cut, if_neg h0]

namespace shuffl

/-- `forward` on a position that is not negative, for a shuffle in standard
form and a deck of at most `2 ^ 62` cards: a position of the deck, in the class
of `pos * deal - cut`, or of `-1 - (pos * deal - cut)` after the reverse. -/
theorem forward_spec (s : shuffl) (n : Nat) (p : Int) (hn : s.sz = n) (hsz : 0 < s.sz)
    (hs : s.sz ≤ 4611686018427387904) (hd : 0 ≤ s.deal) (hc0 : 0 ≤ s.cut) (hc : s.cut < s.sz)
    (hp : 0 ≤ p) :
    0 ≤ s.forward p ∧ s.forward p < s.sz ∧
      ((s.forward p : Int) : ZMod n) =
        if s.rev = true then -1 - ((p : ZMod n) * s.deal - s.cut) else (p : ZMod n) * s.deal - s.cut := by
  have h1 : x_mod p s.deal s.sz = (p * s.deal) % s.sz :=
    x_mod_eq p s.deal s.sz (mul_nonneg hp hd) hsz (by omega)
  have hne : s.sz ≠ 0 := ne_of_gt hsz
  have b1 := Int.emod_nonneg (p * s.deal) hne
  have b2 := Int.emod_lt_of_pos (p * s.deal) hsz
  have w1 : toLong (s.sz - s.cut) = s.sz - s.cut := toLong_eq _ (by omega) (by omega)
  have w2 : toLong ((p * s.deal) % s.sz + (s.sz - s.cut)) = (p * s.deal) % s.sz + (s.sz - s.cut) :=
    toLong_eq _ (by omega) (by omega)
  have h2 : ((p * s.deal) % s.sz + (s.sz - s.cut)).tmod s.sz =
      ((p * s.deal) % s.sz + (s.sz - s.cut)) % s.sz :=
    Int.tmod_eq_emod (by omega) (le_of_lt hsz)
  have b3 := Int.emod_nonneg ((p * s.deal) % s.sz + (s.sz - s.cut)) hne
  have b4 := Int.emod_lt_of_pos ((p * s.deal) % s.sz + (s.sz - s.cut)) hsz
  have w3 : toLong (s.sz - 1) = s.sz - 1 := toLong_eq _ (by omega) (by omega)
  have w4 : toLong (s.sz - 1 - ((p * s.deal) % s.sz + (s.sz - s.cut)) % s.sz) =
      s.sz - 1 - ((p * s.deal) % s.sz + (s.sz - s.cut)) % s.sz :=
    toLong_eq _ (by omega) (by omega)
  have hcast : ((((p * s.deal) % s.sz + (s.sz - s.cut)) % s.sz : Int) : ZMod n) =
      (p : ZMod n) * s.deal - s.cut := by
    rw [hn]
    simp only [ZMod.intCast_mod, Int.cast_add, Int.cast_sub, Int.cast_mul, Int.cast_natCast,
      ZMod.natCast_self]
    ring
  unfold forward
  dsimp only
  rw [h1, w1, w2, h2, w3, w4]
  by_cases hr : s.rev = true
  · rw [if_pos hr, if_pos hr]
    refine ⟨by omega, by omega, ?_⟩
    have e : ((s.sz : Int) : ZMod n) = 0 := by
      rw [hn, Int.cast_natCast]
      exact ZMod.natCast_self n
    rw [Int.cast_sub, Int.cast_sub, Int.cast_one, hcast, e]
    ring
  · rw [if_neg hr, if_neg hr]
    exact ⟨b3, b4, hcast⟩

/-- The product, for a deck of at most `2 ^ 62` cards and two shuffles in
standard form: `a *= b` returns (with fuel for three tests of its loop), the
product is in standard form, and its `forward` is `forward` of `a` followed by
`forward` of `b` on every position of the deck. -/
theorem mul_assign_spec (a b : shuffl) (fuel : Nat) (hsz : 0 < a.sz)
    (hs : a.sz ≤ 4611686018427387904) (hb : b.sz = a.sz)
    (ha : a.Standard) (hbs : b.Standard) (hfuel : 3 ≤ fuel) :
    ∃ c, a.mul_assign fuel b = Res.ok c ∧ c.sz = a.sz ∧ c.Standard ∧
        ∀ p, 0 ≤ p → p < a.sz → c.forward p = b.forward (a.forward p) := by
  obtain ⟨n, hn⟩ : ∃ n : Nat, a.sz = n := ⟨a.sz.toNat, (Int.toNat_of_nonneg (le_of_lt hsz)).symm⟩
  obtain ⟨had, hadl, hac, hacl⟩ := ha
  obtain ⟨hbd, hbdl, hbc, hbcl⟩ := hbs
  rw [hb] at hbdl hbcl
  have hne : a.sz ≠ 0 := ne_of_gt hsz
  obtain ⟨f, rfl⟩ : ∃ f, fuel = f + 1 := ⟨fuel - 1, by omega⟩
  have hcut1 : x_mod b.deal a.cut a.sz = (b.deal * a.cut) % a.sz :=
    x_mod_eq _ _ _ (mul_nonneg hbd hac) hsz (by omega)
  have c1 := Int.emod_nonneg (b.deal * a.cut) hne
  have c2 := Int.emod_lt_of_pos (b.deal * a.cut) hsz
  have hcut4 : (if a.rev = true then toLong (-(toLong (toLong (b.deal - 1) + b.cut))) else b.cut) =
      (if a.rev = true then -((b.deal - 1) + b.cut) else b.cut) := by
    by_cases hr : a.rev = true
    · rw [if_pos hr, if_pos hr, toLong_eq (b.deal - 1) (by omega) (by omega),
        toLong_eq (b.deal - 1 + b.cut) (by omega) (by omega),
        toLong_eq _ (by omega) (by omega)]
    · rw [if_neg hr, if_neg hr]
  have hsum : toLong ((b.deal * a.cut) % a.sz +
        (if a.rev = true then -((b.deal - 1) + b.cut) else b.cut)) =
      (b.deal * a.cut) % a.sz + (if a.rev = true then -((b.deal - 1) + b.cut) else b.cut) := by
    apply toLong_eq
    · split_ifs <;> omega
    · split_ifs <;> omega
  have hlo : -9223372036854775808 ≤ (b.deal * a.cut) % a.sz +
      (if a.rev = true then -((b.deal - 1) + b.cut) else b.cut) := by
    split_ifs <;> omega
  have hx : 0 ≤ (b.deal * a.cut) % a.sz +
      (if a.rev = true then -((b.deal - 1) + b.cut) else b.cut) + (f : Int) * a.sz := by
    have hf : (2 : Int) ≤ f := by
      have : 2 ≤ f := by omega
      exact_mod_cast this
    have hfs : 2 * a.sz ≤ (f : Int) * a.sz := mul_le_mul_of_nonneg_right hf (le_of_lt hsz)
    split_ifs <;> omega
  obtain ⟨r, hr1, hr2, hr3⟩ := raise_cut_spec a.sz hsz hs f _ hlo hx
  have hnd : x_mod a.deal b.deal a.sz = (a.deal * b.deal) % a.sz :=
    x_mod_eq _ _ _ (mul_nonneg had hbd) hsz (by omega)
  have d1 := Int.emod_nonneg (a.deal * b.deal) hne
  have d2 := Int.emod_lt_of_pos (a.deal * b.deal) hsz
  have hnc : r.tmod a.sz = r % a.sz := Int.tmod_eq_emod hr2 (le_of_lt hsz)
  have e1 := Int.emod_nonneg r hne
  have e2 := Int.emod_lt_of_pos r hsz
  have hmul : a.mul_assign (f + 1) b =
      Res.ok { a with deal := (a.deal * b.deal) % a.sz, cut := r % a.sz,
                      rev := (a.rev && !b.rev) || (!a.rev && b.rev) } := by
    unfold mul_assign
    dsimp only
    rw [hcut1, hcut4, hsum, hr1]
    dsimp only
    rw [hnd, hnc, if_neg (by omega), if_neg (by omega)]
  refine ⟨_, hmul, rfl, ⟨d1, d2, e1, e2⟩, ?_⟩
  intro p hp0 hp
  obtain ⟨fa0, fa1, fa2⟩ := forward_spec a n p hn hsz hs had hac hacl hp0
  have hbn : b.sz = n := hb.trans hn
  have hbsz : 0 < b.sz := by rw [hb]; exact hsz
  obtain ⟨fb0, fb1, fb2⟩ := forward_spec b n (a.forward p) hbn hbsz (by rw [hb]; exact hs) hbd hbc
    (by rw [hb]; exact hbcl) fa0
  obtain ⟨fc0, fc1, fc2⟩ := forward_spec
    { a with deal := (a.deal * b.deal) % a.sz, cut := r % a.sz,
             rev := (a.rev && !b.rev) || (!a.rev && b.rev) } n p hn hsz hs d1 e1 e2 hp0
  rw [hb] at fb1
  apply eq_of_cast n _ _ fc0 (lt_of_lt_of_eq fc1 hn) fb0 (lt_of_lt_of_eq fb1 hn)
  rw [fc2, fb2, fa2]
  have hrc : ((r % a.sz : Int) : ZMod n) =
      (b.deal : ZMod n) * a.cut +
        (if a.rev = true then -(((b.deal : ZMod n) - 1) + b.cut) else (b.cut : ZMod n)) := by
    rw [hr3, hn]
    by_cases hr : a.rev = true
    · simp only [if_pos hr, ZMod.intCast_mod, Int.cast_add, Int.cast_sub, Int.cast_mul,
        Int.cast_neg, Int.cast_one]
    · simp only [if_neg hr, ZMod.intCast_mod, Int.cast_add, Int.cast_mul]
  have hdc : (((a.deal * b.deal) % a.sz : Int) : ZMod n) = (a.deal : ZMod n) * b.deal := by
    rw [hn]
    simp only [ZMod.intCast_mod, Int.cast_mul]
  dsimp only
  rw [hrc, hdc]
  cases a.rev <;> cases b.rev <;> simp <;> ring

/-- The identity shuffle of a deck of at most `2 ^ 62` cards takes every
position of the deck to itself. -/
theorem identity_forward (sz p : Int) (hsz : 0 < sz) (hs : sz ≤ 4611686018427387904)
    (hp0 : 0 ≤ p) (hp : p < sz) : (identity sz).forward p = p := by
  obtain ⟨n, hn⟩ : ∃ n : Nat, sz = n := ⟨sz.toNat, (Int.toNat_of_nonneg (le_of_lt hsz)).symm⟩
  obtain ⟨f0, f1, f2⟩ := forward_spec (identity sz) n p hn hsz hs
    (show (0 : Int) ≤ 1 by decide) (le_refl 0) hsz hp0
  have f1n : (identity sz).forward p < n := by
    rw [← hn]
    exact f1
  rw [hn] at hp
  apply eq_of_cast n _ _ f0 f1n hp0 hp
  rw [f2]
  simp [identity]

/-- C38, as the code has it: for a deck size above 0 and at most `2 ^ 62` and
two shuffles `a` and `b` of that size in standard form, `a *= b` returns (with
fuel for three tests of its loop), the product is in standard form, and its
`forward` is `forward` of `a` followed by `forward` of `b` on every position of
the deck.  The identity shuffle takes every position of the deck to itself. -/
theorem mul_assign_forward (a b : shuffl) (fuel : Nat) (hsz : 0 < a.sz)
    (hs : a.sz ≤ 4611686018427387904) (hb : b.sz = a.sz)
    (ha : a.Standard) (hbs : b.Standard) (hfuel : 3 ≤ fuel) :
    (∃ c, a.mul_assign fuel b = Res.ok c ∧ c.sz = a.sz ∧ c.Standard ∧
        ∀ p, 0 ≤ p → p < a.sz → c.forward p = b.forward (a.forward p)) ∧
      ∀ p, 0 ≤ p → p < a.sz → (identity a.sz).forward p = p :=
  ⟨mul_assign_spec a b fuel hsz hs hb ha hbs hfuel,
    fun p hp0 hp => identity_forward a.sz p hsz hs hp0 hp⟩

/-- C38 (amended) at the deck size 10, with `a` = deal 3, cut 2, reverse and
`b` = deal 7, cut 4: the product is deal 1, cut 4, reverse. -/
theorem mul_assign_forward_witness :
    (({ sz := 10, deal := 3, cut := 2, rev := true } : shuffl).mul_assign 3
        { sz := 10, deal := 7, cut := 4 } =
      Res.ok { sz := 10, deal := 1, cut := 4, rev := true }) ∧
    (∃ c, ({ sz := 10, deal := 3, cut := 2, rev := true } : shuffl).mul_assign 3
          { sz := 10, deal := 7, cut := 4 } = Res.ok c ∧
        c.sz = 10 ∧ c.Standard ∧
        ∀ p, 0 ≤ p → p < 10 →
          c.forward p =
            ({ sz := 10, deal := 7, cut := 4 } : shuffl).forward
              (({ sz := 10, deal := 3, cut := 2, rev := true } : shuffl).forward p)) :=
  ⟨by decide,
    (mul_assign_forward { sz := 10, deal := 3, cut := 2, rev := true }
      { sz := 10, deal := 7, cut := 4 } 3 (by decide) (by decide) rfl (by unfold Standard; decide)
      (by unfold Standard; decide) (by decide)).1⟩

/-- C38 is not what the code does for every deck size above 0: with
6000000000000000000 cards, which is above `2 ^ 62`, the sum `pos + (sz - cut)`
in `forward` leaves the range of `long`.  The identity shuffle takes the last
position of the deck to a negative number, and so does the product of the
identity with itself, which is the identity again; the shuffle with cut 1 takes
the last position to -446744073709551618, where the position before it is
5999999999999999998. -/
theorem forward_overflows :
    (identity 6000000000000000000).Standard ∧
      (identity 6000000000000000000).forward 5999999999999999999 = -446744073709551617 ∧
      (identity 6000000000000000000).mul_assign 3 (identity 6000000000000000000) =
        Res.ok (identity 6000000000000000000) ∧
      ({ sz := 6000000000000000000, deal := 1, cut := 1 } : shuffl).forward 5999999999999999999 =
        -446744073709551618 := by
  unfold Standard
  decide

/-- `backward` on a position of the deck, given the inverse that `mult_inv`
returns: a position of the deck, in the class of `(pos + cut) * inv`, with
`-1 - pos` for `pos` when the shuffle ends with a reverse. -/
theorem backward_spec (s : shuffl) (n fuel : Nat) (p inv : Int) (hn : s.sz = n)
    (hsz : 0 < s.sz) (hs : s.sz ≤ 4611686018427387904) (hc0 : 0 ≤ s.cut) (hc : s.cut < s.sz)
    (hinv : mult_inv fuel s.deal s.sz = Res.ok inv)
    (hi0 : 0 ≤ inv) (hp : 0 ≤ p) (hps : p < s.sz) :
    ∃ q, s.backward fuel p = Res.ok q ∧ 0 ≤ q ∧ q < s.sz ∧
      ((q : Int) : ZMod n) =
        ((if s.rev = true then -1 - (p : ZMod n) else (p : ZMod n)) + s.cut) * inv := by
  have hne : s.sz ≠ 0 := ne_of_gt hsz
  obtain ⟨p1, hp1⟩ : ∃ p1 : Int, p1 = if s.rev = true then s.sz - 1 - p else p := ⟨_, rfl⟩
  have hp10 : 0 ≤ p1 := by
    rw [hp1]
    split_ifs <;> omega
  have hp11 : p1 < s.sz := by
    rw [hp1]
    split_ifs <;> omega
  have w0 : (if s.rev = true then toLong (toLong (s.sz - 1) - p) else p) = p1 := by
    rw [hp1]
    by_cases hr : s.rev = true
    · rw [if_pos hr, if_pos hr, toLong_eq (s.sz - 1) (by omega) (by omega),
        toLong_eq _ (by omega) (by omega)]
    · rw [if_neg hr, if_neg hr]
  have w1 : toLong (p1 + s.cut) = p1 + s.cut := toLong_eq _ (by omega) (by omega)
  have h2 : (p1 + s.cut).tmod s.sz = (p1 + s.cut) % s.sz :=
    Int.tmod_eq_emod (by omega) (le_of_lt hsz)
  have b1 := Int.emod_nonneg (p1 + s.cut) hne
  have h3 : x_mod ((p1 + s.cut) % s.sz) inv s.sz = ((p1 + s.cut) % s.sz * inv) % s.sz :=
    x_mod_eq _ _ _ (mul_nonneg b1 hi0) hsz (by omega)
  refine ⟨((p1 + s.cut) % s.sz * inv) % s.sz, ?_, Int.emod_nonneg _ hne,
    Int.emod_lt_of_pos _ hsz, ?_⟩
  · unfold backward
    dsimp only
    rw [hinv, w0, w1, h2]
    dsimp only
    rw [h3]
  · have e : ((s.sz : Int) : ZMod n) = 0 := by
      rw [hn, Int.cast_natCast]
      exact ZMod.natCast_self n
    have hc1 : ((p1 : Int) : ZMod n) = if s.rev = true then -1 - (p : ZMod n) else (p : ZMod n) := by
      rw [hp1]
      by_cases hr : s.rev = true
      · rw [if_pos hr, if_pos hr, Int.cast_sub, Int.cast_sub, Int.cast_one, e]
        ring
      · rw [if_neg hr, if_neg hr]
    rw [← hc1, hn]
    simp only [ZMod.intCast_mod, Int.cast_add, Int.cast_mul]

end shuffl

/-- The loop of `mult_inv` ends when the fuel exceeds the number of binary
digits of `pm2`, with a value that is not negative and is in the class of
`result * aa ^ pm2`. -/
theorem mult_inv_loop_spec (n : Nat) (hn : 0 < n) (hn2 : (n : Int) ≤ 9223372036854775808) :
    ∀ (f k : Nat) (result aa : Int),
    k < 2 ^ f → 0 ≤ result → 0 ≤ aa →
    ∃ r, mult_inv_loop n (f + 1) k result aa = some r ∧ 0 ≤ r ∧
      ((r : Int) : ZMod n) = result * (aa : ZMod n) ^ k := by
  have hnpos : (0 : Int) < n := by exact_mod_cast hn
  have hzero : ∀ (f : Nat) (result aa : Int), 0 ≤ result →
      ∃ r, mult_inv_loop n (f + 1) ((0 : Nat) : Int) result aa = some r ∧ 0 ≤ r ∧
        ((r : Int) : ZMod n) = result * (aa : ZMod n) ^ 0 := by
    intro f result aa hr
    refine ⟨result, ?_, hr, by rw [pow_zero, mul_one]⟩
    rw [mult_inv_loop, if_neg (by decide)]
  intro f
  induction f with
  | zero =>
    intro k result aa hk hr _
    have hk0 : k = 0 := by
      rw [pow_zero] at hk
      omega
    subst hk0
    exact hzero 0 result aa hr
  | succ f ih =>
    intro k result aa hk hr ha
    by_cases hk0 : k = 0
    · subst hk0
      exact hzero (f + 1) result aa hr
    · have hkpos : ((k : Nat) : Int) > 0 := by
        have : 0 < k := Nat.pos_of_ne_zero hk0
        exact_mod_cast this
      have hres : 0 ≤ (if ((k : Nat) : Int).tmod 2 = 1 then x_mod result aa n else result) := by
        split_ifs
        · rw [x_mod_eq _ _ _ (mul_nonneg hr ha) hnpos hn2]
          exact Int.emod_nonneg _ (ne_of_gt hnpos)
        · exact hr
      have haa : 0 ≤ x_mod aa aa n := by
        rw [x_mod_eq _ _ _ (mul_nonneg ha ha) hnpos hn2]
        exact Int.emod_nonneg _ (ne_of_gt hnpos)
      have hk2 : k / 2 < 2 ^ f := by
        rw [pow_succ] at hk
        omega
      obtain ⟨r, h1, h2, h3⟩ := ih (k / 2) _ _ hk2 hres haa
      refine ⟨r, ?_, h2, ?_⟩
      · rw [mult_inv_loop, if_pos hkpos]
        have e : ((k : Nat) : Int).tdiv 2 = ((k / 2 : Nat) : Int) := rfl
        rw [e]
        exact h1
      · rw [h3]
        have caa : ((x_mod aa aa n : Int) : ZMod n) = (aa : ZMod n) * aa := by
          rw [x_mod_eq _ _ _ (mul_nonneg ha ha) hnpos hn2]
          simp only [ZMod.intCast_mod, Int.cast_mul]
        have cra : ((x_mod result aa n : Int) : ZMod n) = (result : ZMod n) * aa := by
          rw [x_mod_eq _ _ _ (mul_nonneg hr ha) hnpos hn2]
          simp only [ZMod.intCast_mod, Int.cast_mul]
        have hmod : ((k : Nat) : Int).tmod 2 = ((k % 2 : Nat) : Int) := rfl
        have hsplit : k = 2 * (k / 2) + k % 2 := (Nat.div_add_mod k 2).symm
        rw [caa, hmod]
        conv_rhs => rw [hsplit, pow_add, pow_mul, pow_two]
        rcases Nat.mod_two_eq_zero_or_one k with h0 | h1
        · rw [h0]
          have hn1 : ¬ (((0 : Nat) : Int) = 1) := by decide
          rw [if_neg hn1, pow_zero, mul_one]
        · rw [h1]
          have hy1 : (((1 : Nat) : Int) = 1) := by decide
          rw [if_pos hy1, cra, pow_one]
          ring

/-- For a prime `p` below `2 ^ 63` and `1 <= a < p`, `mult_inv(a, p)` returns:
its assertion holds, and the value returned is an inverse of `a` modulo `p`
that is not negative. -/
theorem mult_inv_spec (n f : Nat) (a : Int) (hp : n.Prime)
    (hn2 : (n : Int) ≤ 9223372036854775807) (ha1 : 1 ≤ a) (han : a < n)
    (hf : n ≤ 2 ^ f) :
    ∃ inv, mult_inv (f + 1) a n = Res.ok inv ∧ 0 ≤ inv ∧ (a : ZMod n) * inv = 1 := by
  have h2 : 2 ≤ n := hp.two_le
  have hnpos : (0 : Int) < n := by
    have : 0 < n := by omega
    exact_mod_cast this
  have hk : n - 2 < 2 ^ f := by omega
  obtain ⟨r, h1, hr0, hr⟩ := mult_inv_loop_spec n (by omega) (by omega) f (n - 2) 1 a hk
    (by decide) (by omega)
  have epm2 : toLong (((n : Nat) : Int) - 2) = ((n - 2 : Nat) : Int) := by
    rw [toLong_eq _ (by omega) (by omega), Nat.cast_sub h2]
    rfl
  haveI : Fact n.Prime := ⟨hp⟩
  have hane : (a : ZMod n) ≠ 0 := by
    intro h0
    have hdvd := (ZMod.intCast_zmod_eq_zero_iff_dvd a n).mp h0
    have := Int.le_of_dvd (by omega) hdvd
    omega
  have hone : (a : ZMod n) * r = 1 := by
    rw [hr, Int.cast_one, one_mul, ← pow_succ']
    have e : n - 2 + 1 = n - 1 := by omega
    rw [e]
    exact ZMod.pow_card_sub_one_eq_one hane
  have hx : x_mod a r n = 1 := by
    rw [x_mod_eq _ _ _ (mul_nonneg (by omega) hr0) hnpos (by omega)]
    have hc : (((a * r : Int)) : ZMod n) = ((1 : Int) : ZMod n) := by
      rw [Int.cast_mul, hone, Int.cast_one]
    have h3 := (ZMod.intCast_eq_intCast_iff' (a * r) 1 n).mp hc
    rw [h3]
    exact Int.emod_eq_of_lt (by decide) (by omega)
  refine ⟨r, ?_, hr0, hone⟩
  unfold mult_inv
  rw [epm2, h1]
  dsimp only
  rw [if_pos hx]

set_option maxRecDepth 100000 in
/-- The number `131 * 2 ^ 55 + 1` is prime: 3 has the order `131 * 2 ^ 55`
modulo it (the test of Lucas), where the powers of 3 are computed by the loop
of `mult_inv`. -/
theorem prime_4719772409484279809 : Nat.Prime 4719772409484279809 := by
  have pw : ∀ (k : Nat) (r0 : Int), k < 2 ^ 63 →
      mult_inv_loop ((4719772409484279809 : Nat) : Int) 64 (k : Int) 1 3 = some r0 →
      (3 : ZMod 4719772409484279809) ^ k = ((r0 : Int) : ZMod 4719772409484279809) := by
    intro k r0 hk h
    obtain ⟨r, h1, _, h3⟩ := mult_inv_loop_spec 4719772409484279809 (by decide) (by decide)
      63 k 1 3 hk (by decide) (by decide)
    rw [h] at h1
    simp only [Option.some.injEq] at h1
    rw [h1, h3]
    simp
  have ne1 : ∀ r0 : Int, r0 % ((4719772409484279809 : Nat) : Int) ≠ 1 →
      ((r0 : Int) : ZMod 4719772409484279809) ≠ 1 := by
    intro r0 h0 h
    apply h0
    have h2 := (ZMod.intCast_eq_intCast_iff' r0 1 4719772409484279809).mp (by rw [h]; simp)
    rw [h2]
    decide
  apply lucas_primality 4719772409484279809 3
  · have e : 4719772409484279809 - 1 = 4719772409484279808 := by norm_num
    rw [e, pw 4719772409484279808 1 (by norm_num) (by decide)]
    simp
  · intro q hq hdvd
    have e : 4719772409484279809 - 1 = 131 * 2 ^ 55 := by norm_num
    rw [e] at hdvd
    rcases (Nat.Prime.dvd_mul hq).mp hdvd with h | h
    · have hq131 : q = 131 := (Nat.prime_dvd_prime_iff_eq hq (by norm_num)).mp h
      subst hq131
      have e2 : (4719772409484279809 - 1) / 131 = 36028797018963968 := by norm_num
      rw [e2, pw 36028797018963968 2195468362713693442 (by norm_num) (by decide)]
      exact ne1 _ (by decide)
    · have hq2 : q = 2 :=
        (Nat.prime_dvd_prime_iff_eq hq Nat.prime_two).mp (hq.dvd_of_dvd_pow h)
      subst hq2
      have e2 : (4719772409484279809 - 1) / 2 = 2359886204742139904 := by norm_num
      rw [e2, pw 2359886204742139904 4719772409484279808 (by norm_num) (by decide)]
      exact ne1 _ (by decide)

namespace shuffl

/-- C39, as the code has it: for a prime deck size of at most `2 ^ 62` and a
shuffle in standard form with `1 <= deal`, `mult_inv(deal, sz)` returns (its
assertion holds; the fuel is any number `f + 1` with `sz <= 2 ^ f`), and on
every position `p` of the deck `backward` returns, with `backward(forward(p)) =
p` and `forward(backward(p)) = p`. -/
theorem backward_inverts_forward (s : shuffl) (f : Nat) (hp : Nat.Prime s.sz.toNat)
    (hs : s.sz ≤ 4611686018427387904)
    (hd1 : 1 ≤ s.deal) (hd : s.deal < s.sz) (hc0 : 0 ≤ s.cut) (hc : s.cut < s.sz)
    (hf : s.sz ≤ 2 ^ f) :
    (∃ inv, mult_inv (f + 1) s.deal s.sz = Res.ok inv) ∧
      ∀ p, 0 ≤ p → p < s.sz →
        s.backward (f + 1) (s.forward p) = Res.ok p ∧
          ∃ q, s.backward (f + 1) p = Res.ok q ∧ s.forward q = p := by
  have hsz : 0 < s.sz := by
    have := hp.two_le
    omega
  obtain ⟨n, hn⟩ : ∃ n : Nat, s.sz = n := ⟨s.sz.toNat, (Int.toNat_of_nonneg (le_of_lt hsz)).symm⟩
  have hnn : s.sz.toNat = n := by
    rw [hn]
    exact Int.toNat_ofNat n
  rw [hnn] at hp
  have hfn : n ≤ 2 ^ f := by
    rw [hn] at hf
    exact_mod_cast hf
  obtain ⟨inv, hinv, hi0, hone⟩ := mult_inv_spec n f s.deal hp (by rw [← hn]; omega) hd1
    (by rw [← hn]; exact hd) hfn
  rw [← hn] at hinv
  refine ⟨⟨inv, hinv⟩, fun p hp0 hps => ?_⟩
  obtain ⟨f0, f1, f2⟩ := forward_spec s n p hn hsz hs (by omega) hc0 hc hp0
  obtain ⟨q1, hq1, q10, q11, q1c⟩ := backward_spec s n (f + 1) (s.forward p) inv hn hsz hs hc0 hc
    hinv hi0 f0 f1
  obtain ⟨q2, hq2, q20, q21, q2c⟩ := backward_spec s n (f + 1) p inv hn hsz hs hc0 hc hinv hi0
    hp0 hps
  obtain ⟨g0, g1, g2⟩ := forward_spec s n q2 hn hsz hs (by omega) hc0 hc q20
  constructor
  · rw [hq1]
    congr 1
    apply eq_of_cast n _ _ q10 (lt_of_lt_of_eq q11 hn) hp0 (lt_of_lt_of_eq hps hn)
    rw [q1c, f2]
    by_cases hr : s.rev = true
    · simp only [if_pos hr]
      linear_combination (p : ZMod n) * hone
    · simp only [if_neg hr]
      linear_combination (p : ZMod n) * hone
  · refine ⟨q2, hq2, ?_⟩
    apply eq_of_cast n _ _ g0 (lt_of_lt_of_eq g1 hn) hp0 (lt_of_lt_of_eq hps hn)
    rw [g2, q2c]
    by_cases hr : s.rev = true
    · simp only [if_pos hr]
      linear_combination (-(-1 - (p : ZMod n) + (s.cut : ZMod n))) * hone
    · simp only [if_neg hr]
      linear_combination ((p : ZMod n) + (s.cut : ZMod n)) * hone

/-- C39 (amended) at the deck size 7 with deal 3, cut 2 and a reverse: the
position 4 goes forward to 3, and from 3 backward to 4. -/
theorem backward_inverts_forward_witness :
    ({ sz := 7, deal := 3, cut := 2, rev := true } : shuffl).forward 4 = 3 ∧
      ({ sz := 7, deal := 3, cut := 2, rev := true } : shuffl).backward 4
          (({ sz := 7, deal := 3, cut := 2, rev := true } : shuffl).forward 4) = Res.ok 4 :=
  ⟨by decide,
    ((backward_inverts_forward { sz := 7, deal := 3, cut := 2, rev := true } 3
      (show Nat.Prime 7 by decide) (by decide) (by decide) (by decide) (by decide) (by decide)
      (by decide)).2 4
      (by decide) (by decide)).1⟩

set_option maxRecDepth 100000 in
/-- C39 is not what the code does for every prime deck size: with the prime
`131 * 2 ^ 55 + 1` = 4719772409484279809, which is above `2 ^ 62`, and the
shuffle deal 3, cut 2, the sum `pos + (sz - cut)` in `forward` leaves the range
of `long` at the last position of the deck.  `forward` gives a negative number
there, and `backward` (whose `mult_inv` returns) does not lead back. -/
theorem backward_misses_forward :
    Nat.Prime (4719772409484279809 : Int).toNat ∧
      ({ sz := 4719772409484279809, deal := 3, cut := 2 } : shuffl).Standard ∧
      ({ sz := 4719772409484279809, deal := 3, cut := 2 } : shuffl).forward
          4719772409484279808 = -4287426845256712194 ∧
      ({ sz := 4719772409484279809, deal := 3, cut := 2 } : shuffl).backward 64
          (-4287426845256712194) = Res.ok (-3002399751580330667) :=
  ⟨prime_4719772409484279809, by unfold Standard; decide, by decide, by decide⟩

end shuffl

end Day22

/-! # The phases of `16/doit.cc`: the fast version against the explicit one -/

namespace Day16

/-- The partial sums: entry `m` is the sum of the entries 0 to `m`. -/
theorem getD_partial_sum_from : ∀ (l : List Int) (acc : Int) (m : Nat), m < l.length →
    (partial_sum_from acc l).getD m 0 = acc + ∑ t ∈ Finset.range (m + 1), l.getD t 0 := by
  intro l
  induction l with
  | nil =>
    intro acc m hm
    exact absurd hm (by simp)
  | cons x xs ih =>
    intro acc m hm
    cases m with
    | zero =>
      simp [partial_sum_from]
    | succ m =>
      have hm2 : m < xs.length := by
        simp only [List.length_cons] at hm
        omega
      rw [partial_sum_from, List.getD_cons_succ, ih (acc + x) m hm2, Finset.sum_range_succ' _ (m + 1)]
      simp only [List.getD_cons_succ, List.getD_cons_zero]
      ring

theorem getD_partial_sum (l : List Int) (m : Nat) (hm : m < l.length) :
    (partial_sum l).getD m 0 = ∑ t ∈ Finset.range (m + 1), l.getD t 0 := by
  unfold partial_sum
  rw [getD_partial_sum_from l 0 m hm, zero_add]

/-- The inner loop of `slow_phase` as a sum. -/
theorem foldl_range_add (f : Nat → Int) : ∀ (n : Nat) (a : Int),
    (List.range n).foldl (fun acc j => acc + f j) a = a + ∑ j ∈ Finset.range n, f j := by
  intro n
  induction n with
  | zero =>
    intro a
    simp
  | succ n ih =>
    intro a
    rw [List.range_succ, List.foldl_append, ih a, Finset.sum_range_succ]
    simp only [List.foldl_cons, List.foldl_nil]
    ring

theorem slow_sum_eq (input : List Int) (i : Nat) :
    slow_sum input i =
      ∑ j ∈ Finset.range input.length, input.getD j 0 * base_pattern.getD ((j / i) % 4) 0 := by
  unfold slow_sum
  rw [foldl_range_add (fun j => input.getD j 0 * base_pattern.getD ((j / i) % 4) 0), zero_add]

theorem fuel_step (n j e fuel : Nat) (hj : j < n) (hje : j < e) (hf : n - j < fuel + 1) :
    n - e < fuel := by
  omega

/-- The `while` loop of `fast_phase`, begun at the start of a block of `i`
indices (or at the end of the vector), adds what the inner loop of `slow_phase`
adds from there on. -/
theorem fast_loop_spec (input : List Int) (i : Nat) (hi : 1 ≤ i) :
    ∀ (fuel j bpi : Nat) (out : Int),
      ((∃ k, j = k * i ∧ bpi = k % 4) ∨ input.length ≤ j) → input.length - j < fuel →
      fast_loop (partial_sum input) input.length i fuel j bpi out =
        some (out + ∑ t ∈ Finset.Ico j input.length,
          input.getD t 0 * base_pattern.getD ((t / i) % 4) 0) := by
  intro fuel
  induction fuel with
  | zero =>
    intro j bpi out _ hf
    exact absurd hf (by omega)
  | succ fuel ih =>
    intro j bpi out hinv hf
    by_cases hj : j < input.length
    · rcases hinv with ⟨k, hjk, hb⟩ | hge
      · obtain ⟨e, he⟩ : ∃ e, e = min (j + i) input.length := ⟨_, rfl⟩
        have hje : j < e := by
          rw [he]
          exact lt_min (by omega) hj
        have hen : e ≤ input.length := by
          rw [he]
          exact min_le_right _ _
        have hinv2 : (∃ k2, e = k2 * i ∧ (bpi + 1) % 4 = k2 % 4) ∨ input.length ≤ e := by
          rcases Nat.lt_or_ge (j + i) input.length with h1 | h1
          · left
            refine ⟨k + 1, ?_, ?_⟩
            · rw [he, min_eq_left (le_of_lt h1), hjk]
              ring
            · rw [hb]
              omega
          · right
            rw [he, min_eq_right h1]
        have hblock : ∑ t ∈ Finset.Ico j e, input.getD t 0 * base_pattern.getD ((t / i) % 4) 0 =
            (∑ t ∈ Finset.Ico j e, input.getD t 0) * base_pattern.getD bpi 0 := by
          rw [Finset.sum_mul]
          apply Finset.sum_congr rfl
          intro t ht
          obtain ⟨ht1, ht2⟩ := Finset.mem_Ico.mp ht
          have hte : t < j + i := lt_of_lt_of_le ht2 (by rw [he]; exact min_le_left _ _)
          have hdiv : t / i = k := by
            apply Nat.div_eq_of_lt_le
            · rw [← hjk]
              exact ht1
            · rw [hjk] at hte
              calc t < k * i + i := hte
                _ = (k + 1) * i := by ring
          rw [hdiv, hb]
        have hrange : (partial_sum input).getD (e - 1) 0 -
            (if j > 0 then (partial_sum input).getD (j - 1) 0 else 0) =
            ∑ t ∈ Finset.Ico j e, input.getD t 0 := by
          rw [Finset.sum_Ico_eq_sub _ (le_of_lt hje)]
          have e1 : (partial_sum input).getD (e - 1) 0 = ∑ t ∈ Finset.range e, input.getD t 0 := by
            rw [getD_partial_sum input (e - 1) (by omega)]
            congr 2
            omega
          rw [e1]
          by_cases hj0 : j > 0
          · rw [if_pos hj0, getD_partial_sum input (j - 1) (by omega)]
            congr 3
            omega
          · have hj00 : j = 0 := by omega
            rw [if_neg hj0, hj00]
            simp
        rw [fast_loop, if_pos hj, ← he, ih e _ _ hinv2 (fuel_step _ j e fuel hj hje hf)]
        rw [← Finset.sum_Ico_consecutive _ (le_of_lt hje) hen, hblock]
        rw [hrange]
        by_cases hp : base_pattern.getD bpi 0 ≠ 0
        · rw [if_pos hp]
          ring_nf
        · rw [if_neg hp]
          have hp0 : base_pattern.getD bpi 0 = 0 := not_not.mp hp
          rw [hp0]
          ring_nf
      · exact absurd hj (by omega)
    · rw [fast_loop, if_neg hj, Finset.Ico_eq_empty_of_le (by omega), Finset.sum_empty, add_zero]

theorem neg_tmod (a b : Int) : (-a).tmod b = -(a.tmod b) := by
  rw [Int.tmod_def, Int.tmod_def, Int.neg_tdiv]
  ring

/-- `abs(x % 10)` with the truncating `%` of C++ is `|x| mod 10`. -/
theorem abs_tmod_ten (x : Int) : ((x.tmod 10).natAbs : Int) = |x| % 10 := by
  rcases le_or_lt 0 x with h | h
  · rw [Int.tmod_eq_emod h (by decide), Int.natCast_natAbs, abs_of_nonneg h,
      abs_of_nonneg (Int.emod_nonneg _ (by decide))]
  · have e : x.tmod 10 = -((-x) % 10) := by
      have h2 := neg_tmod (-x) 10
      rw [neg_neg] at h2
      rw [h2, Int.tmod_eq_emod (by omega) (by decide)]
    rw [e, Int.natCast_natAbs, abs_neg, abs_of_neg h,
      abs_of_nonneg (Int.emod_nonneg _ (by decide))]

theorem collect_map (f : Nat → Option Int) (g : Nat → Int) : ∀ (is : List Nat),
    (∀ i ∈ is, f i = some (g i)) → collect (is.map f) = some (is.map g) := by
  intro is
  induction is with
  | nil =>
    intro _
    rfl
  | cons i rest ih =>
    intro h
    rw [List.map_cons, List.map_cons, h i (List.mem_cons_self _ _), collect,
      ih (fun j hj => h j (List.mem_cons_of_mem _ hj))]
    rfl

/-- C40: with fuel for `n + 1` tests of each `while` loop (`n` the length of
the input), `fast_phase` returns the vector of `slow_phase`; that vector has
the length of the input, its entry 0 is 0, and its entry `i`, for `1 <= i < n`,
is `|s| mod 10` for `s` the sum over `j` of `input[j] * pattern[(j / i) mod 4]`
with `pattern = (0, 1, 0, -1)`. -/
theorem fast_phase_eq_slow_phase (input : List Int) (fuel : Nat)
    (hfuel : input.length < fuel) :
    fast_phase fuel input = some (slow_phase input) ∧
      (slow_phase input).length = input.length ∧
      (0 < input.length → (slow_phase input)[0]? = some 0) ∧
      ∀ i, 1 ≤ i → i < input.length →
        (slow_phase input)[i]? =
          some (|∑ j ∈ Finset.range input.length,
            input.getD j 0 * base_pattern.getD ((j / i) % 4) 0| % 10) := by
  refine ⟨?_, ?_, ?_, ?_⟩
  · unfold fast_phase slow_phase
    apply collect_map
    intro i _
    by_cases hi : i = 0
    · rw [if_pos hi, if_pos hi]
    · rw [if_neg hi, if_neg hi,
        fast_loop_spec input i (by omega) fuel 0 0 0 (Or.inl ⟨0, by simp, rfl⟩) (by omega),
        slow_sum_eq, zero_add, Finset.range_eq_Ico]
      rfl
  · unfold slow_phase
    rw [List.length_map, List.length_range]
  · intro h0
    unfold slow_phase
    rw [List.getElem?_map, List.getElem?_range h0]
    rfl
  · intro i hi1 hin
    unfold slow_phase
    rw [List.getElem?_map, List.getElem?_range hin]
    have hi0 : ¬ i = 0 := by omega
    simp only [Option.map_some', if_neg hi0]
    rw [abs_tmod_ten, slow_sum_eq]

/-- C40 at the input `0,1,2,3,4,5,6,7,8` (the digits 1 to 8 after the padding
0): one phase gives `0,4,8,2,2,6,1,5,8`. -/
theorem fast_phase_eq_slow_phase_witness :
    fast_phase 10 [0, 1, 2, 3, 4, 5, 6, 7, 8] = some [0, 4, 8, 2, 2, 6, 1, 5, 8] ∧
      fast_phase 10 [0, 1, 2, 3, 4, 5, 6, 7, 8] = some (slow_phase [0, 1, 2, 3, 4, 5, 6, 7, 8]) :=
  ⟨by decide, (fast_phase_eq_slow_phase [0, 1, 2, 3, 4, 5, 6, 7, 8] 10 (by decide)).1⟩

end Day16
